import Mathlib

/-!
# keytap-gui: acoustic keystroke classifier

A shallow embedding of the numeric core of `keytap-gui.cpp`:

* `calcSum`, `calcCC`, `findBestCC` : the normalised cross-correlation kernel,
* the ring buffer that tracks the background level in `cbAudio`,
* the sliding-window peak detector of `cbAudio`,
* the classification worker, the trainer and the end of training in `g_update`.

Two arithmetic models are used.

The idealised model.  Samples (`float`) and accumulators (`double`) are elements
of an arbitrary linearly ordered field `F`; rounding and overflow are not
modelled, every finite operation is exact.  The one place of the kernel where
a finite computation leaves the finite numbers, `nom / sqrt (den2a * den2b)`,
is modelled with the IEEE-754 outcomes of `sqrt` and `/` (`NaN`, `+inf`,
`-inf`), and the comparisons on such values are the IEEE ones (every
comparison with `NaN` is false).  The square root is a parameter
`sqrt : F → F`; results about values of `sqrt` assume `IsSqrt sqrt`.  This model
carries the results on the control flow and on the shape of the data: the offset
search, the peak detector, the work queue, the emission rule of the worker, the
table of correlations, the choice of the anchor and the end of training.

The arithmetic of the program.  Values are of type `Fl`: a finite number with
its exact rational value, the negative zero, the two infinities or `NaN`.  Every
operation is rounded as the source rounds it, to `float` (`binary32`) or to
`double` (`binary64`), to nearest with ties to even, with gradual underflow and
overflow to infinity.  The definitions of this model carry the suffix `Fl`
(`calcSumFl`, `calcCCFl`, `findBestCCFl`, `rbPushFl`, `classifyKeyFl`,
`trainKeyFl`, `normalizeFl`, ...).  It carries the results on computed values: the
correlation kernel, the running mean of the ring buffer, silence in the peak
detector, the confidence values of the worker, the weighted average of the
recordings and the normalization of the prototypes.

Indices are `Int` (the source uses `int`); a read outside a container, which
is undefined in the source, reads `0` in the model, and the statements below
carry the in-bounds hypotheses under which the model and the source agree.
-/

namespace Keytap

/-! ## Numbers

The ring structures of `ℚ`, `ℤ` and `ℝ` are the algebraic ones. -/

/-- The ring `ℚ`. -/
instance instRingRat : Ring ℚ := Rat.commRing.toRing

/-- The ring `ℚ`, without its unit. -/
instance instNonUnitalRingRat : NonUnitalRing ℚ := Rat.commRing.toRing.toNonUnitalRing

/-- The commutative ring `ℚ`, without its unit. -/
instance instNonUnitalCommRingRat : NonUnitalCommRing ℚ := Rat.commRing.toNonUnitalCommRing

/-- The ring `ℤ`, without its unit. -/
instance instNonUnitalRingInt : NonUnitalRing ℤ := Int.instRing.toNonUnitalRing

/-- The commutative ring `ℤ`, without its unit. -/
instance instNonUnitalCommRingInt : NonUnitalCommRing ℤ := Int.instCommRing.toNonUnitalCommRing

/-- The ring `ℝ`, without its unit. -/
instance instNonUnitalRingReal : NonUnitalRing ℝ := Real.instRing.toNonUnitalRing

/-- The commutative ring `ℝ`, without its unit. -/
instance instNonUnitalCommRingReal : NonUnitalCommRing ℝ := Real.commRing.toNonUnitalCommRing

/-- The field `ℝ` has characteristic zero. -/
instance instCharZeroReal : CharZero ℝ := StrictOrderedSemiring.toCharZero

/-! ## Types -/

/-- A key waveform, `std::vector<AudioLogger::Sample>`. -/
abbrev TKeyWaveform (F : Type) := List F

/-- Values of the source type `TValueCC = double` that `calcCC` can produce:
a finite number or one of the three IEEE-754 special values. -/
inductive TValueCC (F : Type) where
  | fin (x : F)
  | pinf
  | ninf
  | nan
  deriving DecidableEq, Repr

/-- The offset type, `TOffset = int`. -/
abbrev TOffset := Int

namespace TValueCC

variable {F : Type} [LinearOrderedField F]

/-- IEEE-754 `a > b` on doubles: false as soon as one side is `NaN`. -/
def gt : TValueCC F → TValueCC F → Bool
  | fin x, fin y => decide (y < x)
  | fin _, ninf => true
  | pinf, fin _ => true
  | pinf, ninf => true
  | _, _ => false

/-- IEEE-754 `a >= b` on doubles: false as soon as one side is `NaN`. -/
def ge : TValueCC F → TValueCC F → Bool
  | fin x, fin y => decide (y ≤ x)
  | fin _, ninf => true
  | pinf, fin _ => true
  | pinf, ninf => true
  | pinf, pinf => true
  | ninf, ninf => true
  | _, _ => false

/-- IEEE-754 unary minus. -/
def neg : TValueCC F → TValueCC F
  | fin x => fin (-x)
  | pinf => ninf
  | ninf => pinf
  | nan => nan

end TValueCC

section Kernel

variable {F : Type} [LinearOrderedField F]

/-- The parameter `sqrt` is a square root on the non-negative numbers. -/
def IsSqrt (sqrt : F → F) : Prop :=
  ∀ x : F, 0 ≤ x → 0 ≤ sqrt x ∧ sqrt x * sqrt x = x

/-- Read `waveform[i]` for an `int` index. -/
def sampleAt (waveform : TKeyWaveform F) (i : Int) : F :=
  if 0 ≤ i then waveform.getD i.toNat 0 else 0

/-- IEEE-754 `sqrt` of a finite double: `NaN` below zero. -/
def fsqrt (sqrt : F → F) (x : F) : TValueCC F :=
  if x < 0 then TValueCC.nan else TValueCC.fin (sqrt x)

/-- IEEE-754 division of a finite numerator by the result of `fsqrt`. -/
def fdiv (nom : F) : TValueCC F → TValueCC F
  | TValueCC.fin d =>
      if d = 0 then
        (if nom = 0 then TValueCC.nan
         else if 0 < nom then TValueCC.pinf else TValueCC.ninf)
      else TValueCC.fin (nom / d)
  | TValueCC.pinf => TValueCC.fin 0
  | TValueCC.ninf => TValueCC.fin 0
  | TValueCC.nan => TValueCC.nan

/-- The loop of `calcSum`: running `sum` and `sum2` over `[is0, is1)`, in exact arithmetic;
`calcSumFl` is the same loop with the roundings of the program. -/
def calcSum (waveform : TKeyWaveform F) (is0 is1 : Int) : F × F :=
  (List.range (is1 - is0).toNat).foldl
    (fun (acc : F × F) (j : Nat) =>
      let a0 := sampleAt waveform (is0 + (j : Int))
      (acc.1 + a0, acc.2 + a0 * a0))
    (0, 0)

/-- The accumulation loop of `calcCC`: `(sum1, sum12, sum01)`, in exact arithmetic;
`calcCCSumsFl` is the same loop with the roundings of the program. -/
def calcCCSums (waveform0 waveform1 : TKeyWaveform F) (is00 is0 is1 : Int) :
    F × F × F :=
  (List.range (is1 - is0).toNat).foldl
    (fun (acc : F × F × F) (j : Nat) =>
      let a0 := sampleAt waveform0 (is00 + (j : Int))
      let a1 := sampleAt waveform1 (is0 + (j : Int))
      (acc.1 + a1, acc.2.1 + a1 * a1, acc.2.2 + a0 * a1))
    (0, 0, 0)

/-- The function `calcCC` in exact arithmetic; `calcCCFl` is the same function with the
roundings of the program. -/
def calcCC (sqrt : F → F) (waveform0 waveform1 : TKeyWaveform F)
    (sum0 sum02 : F) (is00 is0 is1 : Int) : TValueCC F :=
  let s := calcCCSums waveform0 waveform1 is00 is0 is1
  let sum1 := s.1
  let sum12 := s.2.1
  let sum01 := s.2.2
  let ncc : Int := is1 - is0
  let nom := sum01 * (ncc : F) - sum0 * sum1
  let den2a := sum02 * (ncc : F) - sum0 * sum0
  let den2b := sum12 * (ncc : F) - sum1 * sum1
  fdiv nom (fsqrt sqrt (den2a * den2b))

/-- The offset loop of one worker thread of `findBestCC`,
`for (o = ...; o < alignWindow; o += nWorkers)`, on the state
`(cbestcc, cbesto)`.  The first argument bounds the number of iterations. -/
def scanOffsets (cc : Int → TValueCC F) (alignWindow nWorkers : Int) :
    Nat → Int → TValueCC F × TOffset → TValueCC F × TOffset
  | 0, _, st => st
  | fuel + 1, o, st =>
      if o < alignWindow then
        scanOffsets cc alignWindow nWorkers fuel (o + nWorkers)
          (if (cc o).gt st.1 then (cc o, o) else st)
      else st

/-- The body of worker thread `i` of `findBestCC`: its local best. -/
def workerBest (cc : Int → TValueCC F) (alignWindow : Int) (nWorkers i : Nat) :
    TValueCC F × TOffset :=
  scanOffsets cc alignWindow nWorkers
    (alignWindow - (-alignWindow + (i : Int))).toNat (-alignWindow + (i : Int))
    (TValueCC.fin (-1), -1)

/-- The mutex-protected reduction of one worker into `(bestcc, besto)`. -/
def reduceBest (best c : TValueCC F × TOffset) : TValueCC F × TOffset :=
  if c.1.gt best.1 then c else best

/-- The function `findBestCC`, returning `(bestcc, besto)`.  `nWorkers` is the
value of `std::thread::hardware_concurrency()`; `order` lists the worker
indices in the order in which the threads take the mutex. -/
def findBestCC (sqrt : F → F) (nWorkers : Nat) (order : List Nat)
    (waveform0 waveform1 : TKeyWaveform F) (is0 is1 alignWindow : Int) :
    TValueCC F × TOffset :=
  let is00 : Int := (waveform0.length : Int) / 2 - Int.tdiv (is1 - is0) 2
  let sums := calcSum waveform0 is00 (is00 + is1 - is0)
  let cc : Int → TValueCC F := fun o =>
    calcCC sqrt waveform0 waveform1 sums.1 sums.2 is00 (is0 + o) (is1 + o)
  order.foldl (fun best i => reduceBest best (workerBest cc alignWindow nWorkers i))
    (TValueCC.fin (-1), -1)

end Kernel

end Keytap

/-! ## The ring buffer of the background level -/

namespace Keytap
section RingBufferDefs
variable {F : Type} [LinearOrderedField F]

/-- The constant `kRingBufferSize = 128*1024`. -/
def kRingBufferSize : Nat := 128 * 1024

/-- An audio frame, `AudioLogger::Frame`. -/
abbrev Frame (F : Type) := List F

/-- A record of frames, `AudioLogger::Record`. -/
abbrev Record (F : Type) := List (Frame F)

/-- The ring buffer variables of `main`: `rbBegin`, `rbAverage`, `rbSamples`. -/
structure RingBuffer (F : Type) where
  rbBegin : Int
  rbAverage : F
  rbSamples : List F

/-- The ring buffer at start-up: `rbBegin = 0`, `rbAverage = 0`, `rbSamples.fill(0)`. -/
def rbInit : RingBuffer F :=
  { rbBegin := 0, rbAverage := 0, rbSamples := List.replicate kRingBufferSize 0 }

/-- One pass through the body of the ring buffer loop of `cbAudio` for the sample
`frames[f][s]` (the running maximum `amax` of that loop is never read and is left out), in
exact arithmetic; `rbPushFl` is the same pass with the roundings of the program. -/
def rbPush (rb : RingBuffer F) (sample : F) : RingBuffer F :=
  let size : Nat := rb.rbSamples.length
  let avg1 := rb.rbAverage * (size : F)
  let avg2 := avg1 - sampleAt rb.rbSamples rb.rbBegin
  let acur := |sample|
  let samples := rb.rbSamples.set rb.rbBegin.toNat acur
  let avg3 := avg2 + acur
  let avg4 := avg3 / (size : F)
  let b := rb.rbBegin + 1
  { rbBegin := if b ≥ (size : Int) then 0 else b, rbAverage := avg4, rbSamples := samples }

/-- The ring buffer loops of `cbAudio` over all frames and all samples of a record. -/
def rbUpdate (rb : RingBuffer F) (frames : Record F) : RingBuffer F :=
  frames.foldl (fun rb frame => frame.foldl rbPush rb) rb

/-- A state reached by the ring buffer: the start state after the complete callbacks `records`
and the first pushes `xs` of a further callback. -/
def rbReach (records : List (Record F)) (xs : List F) : RingBuffer F :=
  xs.foldl rbPush (records.foldl rbUpdate rbInit)

/-- The absolute values pushed on the way to `rbReach records xs`, in push order. -/
def pushedValues (records : List (Record F)) (xs : List F) : List F :=
  ((records.flatMap (fun frames => frames.flatMap (fun frame => frame))) ++ xs).map
    (fun x => |x|)

end RingBufferDefs
end Keytap

/-! ## The peak detector -/

namespace Keytap
section PeakDefs
variable {F : Type} [LinearOrderedField F]

/-- Read `frames[f]` for an `int` index. -/
def frameAt (frames : Record F) (f : Int) : Frame F :=
  if 0 ≤ f then frames.getD f.toNat [] else []

/-- The lambda `_acc` of `cbAudio`: `|r[id / kSamplesPerFrame][id % kSamplesPerFrame]|`. -/
def acc (k : Int) (r : Record F) (id : Int) : F :=
  |sampleAt (frameAt r (Int.tdiv id k)) (Int.tmod id k)|

/-- The variables of the peak detection loop: the deque `que` (front first) and
`positionsToPredict`. -/
structure PeakState where
  que : List Int
  positionsToPredict : List Int

/-- The deque before the loop, `std::deque<int> que(k)`: `k` zeros. -/
def peakInit (k : Int) : PeakState :=
  { que := List.replicate k.toNat 0, positionsToPredict := [] }

/-- The deque updates of iteration `i` of the loop: in the branch `i >= k` the pops at the front,
in both branches the pops at the back and the push of `i`. -/
def queStep (a : Int → F) (k : Int) (que : List Int) (i : Int) : List Int :=
  if i < k then
    (que.rdropWhile (fun j => decide (a i ≥ a j))) ++ [i]
  else
    ((que.dropWhile (fun j => decide (j ≤ i - k))).rdropWhile
      (fun j => decide (a i ≥ a j))) ++ [i]

/-- Iteration `i` of the peak detection loop of `cbAudio`; `a` is `_acc(frames, ·)`. -/
def peakStep (a : Int → F) (k nFrames : Int) (thresholdBackground rbAverage : F)
    (st : PeakState) (i : Int) : PeakState :=
  let que := queStep a k st.que i
  if i < k then
    { que := que, positionsToPredict := st.positionsToPredict }
  else
    let itest := i - Int.tdiv k 2
    if itest ≥ 2 * k ∧ itest < (nFrames - 2) * k ∧ que.head? = some itest then
      let acur := a itest
      if acur > thresholdBackground * rbAverage then
        { que := que, positionsToPredict := st.positionsToPredict ++ [itest] }
      else { que := que, positionsToPredict := st.positionsToPredict }
    else { que := que, positionsToPredict := st.positionsToPredict }

/-- The state after the first `n` iterations of the peak detection loop. -/
def peakRun (a : Int → F) (k nFrames : Int) (thresholdBackground rbAverage : F) (n : Nat) :
    PeakState :=
  (List.range n).foldl
    (fun (st : PeakState) (i : Nat) =>
      peakStep a k nFrames thresholdBackground rbAverage st (i : Int))
    (peakInit k)

/-- The peak detection loop of `cbAudio`, `for (i = 0; i < nFrames*kSamplesPerFrame; ++i)`, with
`k = kSamplesPerFrame`. -/
def peakDetect (k : Int) (thresholdBackground rbAverage : F) (frames : Record F) : PeakState :=
  peakRun (acc k frames) k (frames.length : Int) thresholdBackground rbAverage
    ((frames.length : Int) * k).toNat

/-- The prediction branch of `cbAudio` up to the test `positionsToPredict.size() > 0`: the ring
buffer update followed by the peak detection; returns the ring buffer and
`positionsToPredict`. -/
def cbAudioPredict (k : Int) (thresholdBackground : F) (rb : RingBuffer F) (frames : Record F) :
    RingBuffer F × List Int :=
  let rb1 := rbUpdate rb frames
  (rb1, (peakDetect k thresholdBackground rb1.rbAverage frames).positionsToPredict)

/-- The invariant of the deque after iteration `i`: indices increase and their amplitudes
decrease strictly along the deque, every index lies in the window `(i - k, i]`, and every index
of the window is dominated by a later-or-equal index of the deque. -/
def QueInv (a : Int → F) (k i : Int) (q : List Int) : Prop :=
  q.Pairwise (fun x y => x < y ∧ a y < a x) ∧
  (∀ x ∈ q, i - k < x ∧ 0 ≤ x ∧ x ≤ i) ∧
  (∀ j, i - k < j → 0 ≤ j → j ≤ i → ∃ x ∈ q, j ≤ x ∧ a j ≤ a x)

end PeakDefs
end Keytap

/-! ## Auxiliary and specification-side definitions -/

namespace Keytap
section KernelAux
open Finset
variable {F : Type} [LinearOrderedField F]

/-- The expression `sum_fg * n - sum_f * sum_g` of `calcCC` on the first `n`
terms of two sequences. -/
def covN (f g : ℕ → F) (n : ℕ) : F :=
  (∑ j in range n, f j * g j) * (n : F) - (∑ j in range n, f j) * (∑ j in range n, g j)

/-- The last statement of `calcCC` on the first `n` terms of two sequences. -/
def nccVal (sqrt : F → F) (f g : ℕ → F) (n : ℕ) : TValueCC F :=
  fdiv (covN f g n) (fsqrt sqrt (covN f f n * covN g g n))

end KernelAux
end Keytap

namespace Keytap
section SearchAux
variable {F : Type} [LinearOrderedField F]

/-- The offsets visited by the loop `scanOffsets`, in scan order. -/
def visited (alignWindow nWorkers : Int) : Nat → Int → List Int
  | 0, _ => []
  | fuel + 1, o =>
      if o < alignWindow then o :: visited alignWindow nWorkers fuel (o + nWorkers) else []

/-- The offsets visited by worker thread `i` of `findBestCC`. -/
def workerOffsets (alignWindow : Int) (nWorkers i : Nat) : List Int :=
  visited alignWindow nWorkers (alignWindow - (-alignWindow + (i : Int))).toNat
    (-alignWindow + (i : Int))

/-- The update `if (cc > best) best = candidate` shared by the offset loop and
the final reduction. -/
def keepBest {ι : Type} (val : ι → TValueCC F × TOffset)
    (st : TValueCC F × TOffset) (e : ι) : TValueCC F × TOffset :=
  if (val e).1.gt st.1 then val e else st

/-- The correlation that `findBestCC` evaluates at offset `o`. -/
def ccAt (sqrt : F → F) (waveform0 waveform1 : TKeyWaveform F) (is0 is1 : Int)
    (o : Int) : TValueCC F :=
  let is00 : Int := (waveform0.length : Int) / 2 - Int.tdiv (is1 - is0) 2
  let sums := calcSum waveform0 is00 (is00 + is1 - is0)
  calcCC sqrt waveform0 waveform1 sums.1 sums.2 is00 (is0 + o) (is1 + o)

end SearchAux
end Keytap

namespace Keytap
section SpecSide
variable {F : Type} [LinearOrderedField F]

/-- The window `[s, e)` lies inside the waveform. -/
def InBounds (w : TKeyWaveform F) (s e : Int) : Prop :=
  0 ≤ s ∧ e ≤ (w.length : Int)

/-- The Pearson correlation of two lists of paired samples, as the
specification writes it:
`(n Σ aᵢbᵢ − Σ aᵢ Σ bᵢ) / sqrt ((n Σ aᵢ² − (Σ aᵢ)²) (n Σ bᵢ² − (Σ bᵢ)²))`,
with the division and square root of doubles. -/
def pearson (sqrt : F → F) (a b : List F) : TValueCC F :=
  let n : F := (a.length : F)
  fdiv (n * (List.zipWith (fun x y => x * y) a b).sum - a.sum * b.sum)
    (fsqrt sqrt ((n * (a.map (fun x => x ^ 2)).sum - a.sum ^ 2) *
      (n * (b.map (fun x => x ^ 2)).sum - b.sum ^ 2)))

end SpecSide
end Keytap

namespace Keytap
section SignScale
variable {F : Type} [LinearOrderedField F]

/-- The sign of a number: `1`, `-1` or `0`. -/
def sign (al : F) : F :=
  if 0 < al then 1 else if al < 0 then -1 else 0

/-- IEEE-754 product of a finite number and a double. -/
def TValueCC.scale (s : F) : TValueCC F → TValueCC F
  | TValueCC.fin x => TValueCC.fin (s * x)
  | TValueCC.pinf => if 0 < s then TValueCC.pinf else if s < 0 then TValueCC.ninf else TValueCC.nan
  | TValueCC.ninf => if 0 < s then TValueCC.ninf else if s < 0 then TValueCC.pinf else TValueCC.nan
  | TValueCC.nan => TValueCC.nan

end SignScale
end Keytap

/-! ## The work queue -/

namespace Keytap
section QueueDefs
variable {F : Type} [LinearOrderedField F]

/-- A work item of the queue, `struct WorkData`. -/
structure WorkData (F : Type) where
  ampl : TKeyWaveform F
  positionsToPredict : List Int

/-- The copy of the frames of a record into the flat buffer `ampl` (every frame holds
`kSamplesPerFrame` samples, so that frame `f` lands at `f * kSamplesPerFrame`). -/
def flattenFrames (frames : Record F) : TKeyWaveform F :=
  frames.flatMap (fun frame => frame)

/-- The prediction branch of `cbAudio` on the ring buffer and the work queue: the ring buffer
update, the peak detection, and the `push_back` of a work item when `positionsToPredict` is not
empty. -/
def cbAudioEnqueue (k : Int) (thresholdBackground : F)
    (st : RingBuffer F × List (WorkData F)) (frames : Record F) :
    RingBuffer F × List (WorkData F) :=
  let r := cbAudioPredict k thresholdBackground st.1 frames
  if r.2.length > 0 then
    (r.1, st.2 ++ [{ ampl := flattenFrames frames, positionsToPredict := r.2 }])
  else (r.1, st.2)

end QueueDefs
end Keytap

/-! ## The classification worker -/

namespace Keytap
section WorkerDefs
variable {F : Type} [LinearOrderedField F]

/-- A key, `TKey = int`. -/
abbrev TKey := Int

/-- The assignment `m[key] = v` on a `std::map` with `int` keys, kept as a list of pairs in
ascending key order. -/
def mapSet {V : Type} : List (TKey × V) → TKey → V → List (TKey × V)
  | [], key, v => [(key, v)]
  | (k1, v1) :: rest, key, v =>
      if key < k1 then (key, v) :: (k1, v1) :: rest
      else if key = k1 then (key, v) :: rest
      else (k1, v1) :: mapSet rest key v

/-- The lookup of a key in a `std::map` kept as a list of pairs. -/
def mapGet {V : Type} : List (TKey × V) → TKey → Option V
  | [], _ => none
  | (k1, v1) :: rest, key => if key = k1 then some v1 else mapGet rest key

namespace TValueCC

/-- IEEE-754 division of doubles (zeros are taken positive). -/
def div : TValueCC F → TValueCC F → TValueCC F
  | fin a, fin b =>
      if b = 0 then (if a = 0 then nan else if 0 < a then pinf else ninf) else fin (a / b)
  | fin _, pinf => fin 0
  | fin _, ninf => fin 0
  | pinf, fin b => if b < 0 then ninf else pinf
  | ninf, fin b => if b < 0 then pinf else ninf
  | _, _ => nan

/-- The fourth power of a double, `std::pow(x, 4.0f)`. -/
def pow4 : TValueCC F → TValueCC F
  | fin a => fin (a ^ 4)
  | pinf => pinf
  | ninf => pinf
  | nan => nan

/-- IEEE-754 `a != b` on doubles: true as soon as one side is `NaN`. -/
def ne : TValueCC F → TValueCC F → Bool
  | fin a, fin b => decide (a ≠ b)
  | pinf, pinf => false
  | ninf, ninf => false
  | _, _ => true

end TValueCC

/-- The conversion of an `int` to `char` (a signed byte). -/
def toChar (x : Int) : Int :=
  (x + 128) % 256 - 128

/-- The variables of the classification of one candidate position in `worker`: `res` (a `char`),
`maxcc`, `offs` and `keyConfidenceTmp`. -/
structure Classified (F : Type) where
  res : Int
  maxcc : TValueCC F
  offs : TOffset
  keyConfidenceTmp : List (TKey × TValueCC F)

/-- The body of the loop over `keySoundAverageAmpl` in `worker`; `r` is the result
`(bestcc, bestoffset)` of `findBestCC` for the key `key`.  The score is kept as it is in
`keyConfidenceTmp`; `classifyKeyFl` narrows it to `float` as the program does. -/
def classifyKey (st : Classified F) (key : TKey) (r : TValueCC F × TOffset) : Classified F :=
  let st1 : Classified F :=
    if r.1.gt st.maxcc then
      { res := toChar key, maxcc := r.1, offs := r.2, keyConfidenceTmp := st.keyConfidenceTmp }
    else st
  { res := st1.res, maxcc := st1.maxcc, offs := st1.offs,
    keyConfidenceTmp := mapSet st1.keyConfidenceTmp key r.1 }

/-- The classification of the candidate position `curPos` in `worker`: the loop over the key
prototypes, in key order.  `k` is `kSamplesPerFrame`; `sched key` is the order in which the
threads of the call of `findBestCC` for `key` take the mutex. -/
def classifyPosition (sqrt : F → F) (nWorkers : Nat) (sched : TKey → List Nat) (k : Int)
    (keySoundAverageAmpl : List (TKey × TKeyWaveform F)) (ampl : TKeyWaveform F)
    (curPos : Int) : Classified F :=
  let scmp0 := curPos - k
  let scmp1 := curPos + k
  let alignWindow := Int.tdiv k 2
  keySoundAverageAmpl.foldl
    (fun st ka =>
      classifyKey st ka.1 (findBestCC sqrt nWorkers (sched ka.1) ka.2 ampl scmp0 scmp1 alignWindow))
    { res := -1, maxcc := TValueCC.fin (-1), offs := 0, keyConfidenceTmp := [] }

/-- The prediction state written by `worker`, with its local variables `lastkey` and `lastcc`;
`predictions` lists the lines `Prediction: ...` printed so far. -/
structure WorkerState (F : Type) where
  lastkey : Int
  lastcc : TValueCC F
  predictedKey : Int
  predictedCC : TValueCC F
  keyConfidence : List (TKey × TValueCC F)
  keyConfidenceDisplay : List (TKey × TValueCC F)
  predictedHistory : List (List Int)
  predictedHistoryBegin : Int
  predictedAmpl : TKeyWaveform F
  predictions : List (Int × TValueCC F)

/-- The loop `for (auto & c : keyConfidenceTmp)` of an emitted prediction, on the two confidence
maps and the history slot, with exact quotients; `confidenceLoopFl` is the loop on
`keyConfidence` with the roundings of the program. -/
def confidenceLoop (predictedKey : Int) (maxcc : TValueCC F)
    (tmp : List (TKey × TValueCC F))
    (st : List (TKey × TValueCC F) × List (TKey × TValueCC F) × List Int) :
    List (TKey × TValueCC F) × List (TKey × TValueCC F) × List Int :=
  tmp.foldl
    (fun st c =>
      (mapSet st.1 c.1 (c.2.div maxcc),
       mapSet st.2.1 c.1 (c.2.div maxcc).pow4,
       if c.1 ≠ predictedKey ∧ (c.2.div maxcc).gt (TValueCC.fin (9 / 10)) = true then
         st.2.2 ++ [c.1]
       else st.2.2))
    st

/-- The loop that copies the snippet of `ampl` around the prediction into `predictedAmpl`;
`W` is `kSamplesPerWaveform`. -/
def copySnippet (W : Int) (ampl : TKeyWaveform F) (curPos offs : Int)
    (predictedAmpl : TKeyWaveform F) : TKeyWaveform F :=
  (List.range W.toNat).foldl
    (fun (out : TKeyWaveform F) (i : Nat) =>
      let idx := curPos + offs - W / 2 + (i : Int)
      if idx < 0 ∨ idx ≥ (ampl.length : Int) then out
      else out.set i (sampleAt ampl idx))
    predictedAmpl

/-- The branch `lastkey != res || lastcc != maxcc` of `worker`: an emitted prediction. -/
def emitPrediction (W : Int) (ws : WorkerState F) (c : Classified F) (ampl : TKeyWaveform F)
    (curPos : Int) : WorkerState F :=
  let predictedKey := c.res
  let loop := confidenceLoop predictedKey c.maxcc c.keyConfidenceTmp
    (ws.keyConfidence, ws.keyConfidenceDisplay, [predictedKey])
  let b := ws.predictedHistoryBegin + 1
  { lastkey := ws.lastkey
    lastcc := ws.lastcc
    predictedKey := predictedKey
    predictedCC := c.maxcc
    keyConfidence := loop.1
    keyConfidenceDisplay := loop.2.1
    predictedHistory := ws.predictedHistory.set ws.predictedHistoryBegin.toNat loop.2.2
    predictedHistoryBegin := if b ≥ (ws.predictedHistory.length : Int) then 0 else b
    predictedAmpl := copySnippet W ampl curPos c.offs ws.predictedAmpl
    predictions := ws.predictions ++ [(c.res, c.maxcc)] }

/-- The part of `worker` that follows the classification of one candidate position. -/
def workerUpdate (W : Int) (thresholdCC : F) (ws : WorkerState F) (c : Classified F)
    (ampl : TKeyWaveform F) (curPos : Int) : WorkerState F :=
  if c.maxcc.gt (TValueCC.fin thresholdCC) then
    let ws1 :=
      if ws.lastkey ≠ c.res ∨ ws.lastcc.ne c.maxcc = true then
        emitPrediction W ws c ampl curPos
      else ws
    { ws1 with lastkey := c.res, lastcc := c.maxcc }
  else ws

/-- One pass of the loop over `positionsToPredict` in `worker`. -/
def workerPosition (sqrt : F → F) (nWorkers : Nat) (sched : TKey → List Nat) (k W : Int)
    (thresholdCC : F) (keySoundAverageAmpl : List (TKey × TKeyWaveform F))
    (ampl : TKeyWaveform F) (ws : WorkerState F) (curPos : Int) : WorkerState F :=
  workerUpdate W thresholdCC ws
    (classifyPosition sqrt nWorkers sched k keySoundAverageAmpl ampl curPos) ampl curPos

/-- The processing of one work item by `worker`; `sched curPos key` is the order of the threads
of the call of `findBestCC` for `key` at the position `curPos`. -/
def workerItem (sqrt : F → F) (nWorkers : Nat) (sched : Int → TKey → List Nat) (k W : Int)
    (thresholdCC : F) (keySoundAverageAmpl : List (TKey × TKeyWaveform F))
    (ws : WorkerState F) (item : WorkData F) : WorkerState F :=
  item.positionsToPredict.foldl
    (fun ws curPos =>
      workerPosition sqrt nWorkers (sched curPos) k W thresholdCC keySoundAverageAmpl
        item.ampl ws curPos)
    ws

/-- The prediction state when `worker` starts. -/
def workerInit (W : Int) : WorkerState F :=
  { lastkey := -1
    lastcc := TValueCC.fin (-1)
    predictedKey := -1
    predictedCC := TValueCC.fin (-1)
    keyConfidence := []
    keyConfidenceDisplay := []
    predictedHistory := List.replicate 24 []
    predictedHistoryBegin := 0
    predictedAmpl := List.replicate W.toNat 0
    predictions := [] }

end WorkerDefs
end Keytap
namespace Keytap
section WorkerAux
variable {F : Type} [LinearOrderedField F]

/-- The call of `findBestCC` that `worker` makes for the prototype `ka` at the candidate
position `curPos`. -/
def scoreOf (sqrt : F → F) (nWorkers : Nat) (sched : TKey → List Nat) (k : Int)
    (ampl : TKeyWaveform F) (curPos : Int) (ka : TKey × TKeyWaveform F) :
    TValueCC F × TOffset :=
  findBestCC sqrt nWorkers (sched ka.1) ka.2 ampl (curPos - k) (curPos + k) (Int.tdiv k 2)

end WorkerAux
end Keytap

/-! ## The trainer -/

namespace Keytap
section TrainerDefs
variable {F : Type} [LinearOrderedField F]

/-- The number held by a score.  `findBestCC` returns finite scores only
(`findBestCC_finite`), so the trainer keeps the scores of its table `ccs` as plain numbers. -/
def TValueCC.toF : TValueCC F → F
  | TValueCC.fin x => x
  | _ => 0

/-- The peak estimate `imax` of `trainKey` (the estimate used, `peakMax`): the first index
of the largest `|sample|`, or `-1` when no sample exceeds `0`.  `W` is
`kSamplesPerWaveform`. -/
def peakMax (W : Int) (waveform : TKeyWaveform F) : Int :=
  ((List.range W.toNat).foldl
    (fun (st : Int × F) (icur : Nat) =>
      if |sampleAt waveform (icur : Int)| > st.2 then
        ((icur : Int), |sampleAt waveform (icur : Int)|)
      else st)
    ((-1 : Int), (0 : F))).1

/-- The loop that builds `newWaveform` in `trainKey`: sample `icur` is sample
`icur + offset` of the waveform, or `0` when that index is outside the waveform. -/
def shiftWaveform (W : Int) (waveform : TKeyWaveform F) (offset : Int) : TKeyWaveform F :=
  (List.range W.toNat).map
    (fun (icur : Nat) =>
      if (icur : Int) + offset ≥ 0 ∧ (icur : Int) + offset < W then
        sampleAt waveform ((icur : Int) + offset)
      else 0)

/-- The centering loop of `trainKey`: every waveform is shifted so that its peak sits at
`centerSample = kSamplesPerWaveform/2`. -/
def centerWaveforms (W : Int) (history : List (TKeyWaveform F)) : List (TKeyWaveform F) :=
  history.map (fun waveform => shiftWaveform W waveform (peakMax W waveform - W / 2))

/-- The table `ccs` of `trainKey`, a map of maps read with `operator[]`: an entry never
written reads as `(0, 0)`. -/
abbrev CCTable (F : Type) := Int → Int → F × TOffset

/-- The assignment `ccs[i][j] = v`. -/
def ccsSet (ccs : CCTable F) (i j : Int) (v : F × TOffset) : CCTable F :=
  fun i1 j1 => if i1 = i ∧ j1 = j then v else ccs i1 j1

/-- The call `findBestCC(history[a], history[i], is0, is1, alignWindow)` of `trainKey`, with
`is0 = centerSample - kSamplesPerFrame`, `is1 = centerSample + kSamplesPerFrame` and
`alignWindow = 64`; `sched a i` is the order in which its threads take the mutex. -/
def trainFind (sqrt : F → F) (nWorkers : Nat) (sched : Nat → Nat → List Nat) (k W : Int)
    (history : List (TKeyWaveform F)) (a i : Nat) : F × TOffset :=
  ((findBestCC sqrt nWorkers (sched a i) (history.getD a []) (history.getD i [])
      (W / 2 - k) (W / 2 + k) 64).1.toF,
   (findBestCC sqrt nWorkers (sched a i) (history.getD a []) (history.getD i [])
      (W / 2 - k) (W / 2 + k) 64).2)

/-- The inner loop over `iwaveform = alignToWaveform + 1, ..., nWaveforms - 1` that fills
`ccs[iwaveform][alignToWaveform]` and `ccs[alignToWaveform][iwaveform]`. -/
def pairLoop (find : Nat → Nat → F × TOffset) (nWaveforms alignToWaveform : Nat)
    (ccs : CCTable F) : CCTable F :=
  (List.range (nWaveforms - (alignToWaveform + 1))).foldl
    (fun (ccs : CCTable F) (d : Nat) =>
      ccsSet
        (ccsSet ccs ((alignToWaveform + 1 + d : Nat) : Int) (alignToWaveform : Int)
          ((find alignToWaveform (alignToWaveform + 1 + d)).1,
           (find alignToWaveform (alignToWaveform + 1 + d)).2))
        (alignToWaveform : Int) ((alignToWaveform + 1 + d : Nat) : Int)
        ((find alignToWaveform (alignToWaveform + 1 + d)).1,
         -(find alignToWaveform (alignToWaveform + 1 + d)).2))
    ccs

/-- The sums `(curntrain, curccsum)` over the column `alignToWaveform` of `ccs`; entries
with `|offset| > 50` are skipped. -/
def columnSums (nWaveforms : Nat) (ccs : CCTable F) (alignToWaveform : Int) : Int × F :=
  (List.range nWaveforms).foldl
    (fun (st : Int × F) (iwaveform : Nat) =>
      if |(ccs (iwaveform : Int) alignToWaveform).2| > 50 then st
      else (st.1 + 1,
        st.2 + (ccs (iwaveform : Int) alignToWaveform).1 * (ccs (iwaveform : Int) alignToWaveform).1))
    ((0 : Int), (0 : F))

/-- The variables `bestw`, `ntrain`, `bestccsum` and `ccs` of the anchor search. -/
structure AnchorState (F : Type) where
  /-- The anchor `bestw`. -/
  bestw : Int
  /-- The count `ntrain`. -/
  ntrain : Int
  /-- The sum `bestccsum`. -/
  bestccsum : F
  /-- The table `ccs`. -/
  ccs : CCTable F

/-- One iteration of the loop over `alignToWaveform`. -/
def anchorStep (find : Nat → Nat → F × TOffset) (nWaveforms : Nat) (st : AnchorState F)
    (alignToWaveform : Nat) : AnchorState F :=
  if (columnSums nWaveforms
        (pairLoop find nWaveforms alignToWaveform
          (ccsSet st.ccs (alignToWaveform : Int) (alignToWaveform : Int) (1, 0)))
        (alignToWaveform : Int)).2 > st.bestccsum then
    { bestw := (alignToWaveform : Int),
      ntrain := (columnSums nWaveforms
        (pairLoop find nWaveforms alignToWaveform
          (ccsSet st.ccs (alignToWaveform : Int) (alignToWaveform : Int) (1, 0)))
        (alignToWaveform : Int)).1,
      bestccsum := (columnSums nWaveforms
        (pairLoop find nWaveforms alignToWaveform
          (ccsSet st.ccs (alignToWaveform : Int) (alignToWaveform : Int) (1, 0)))
        (alignToWaveform : Int)).2,
      ccs := pairLoop find nWaveforms alignToWaveform
        (ccsSet st.ccs (alignToWaveform : Int) (alignToWaveform : Int) (1, 0)) }
  else
    { bestw := st.bestw, ntrain := st.ntrain, bestccsum := st.bestccsum,
      ccs := pairLoop find nWaveforms alignToWaveform
        (ccsSet st.ccs (alignToWaveform : Int) (alignToWaveform : Int) (1, 0)) }

/-- The loop over `alignToWaveform = 0, ..., nWaveforms - 1` that selects the anchor. -/
def anchorLoop (find : Nat → Nat → F × TOffset) (nWaveforms : Nat) : AnchorState F :=
  (List.range nWaveforms).foldl (anchorStep find nWaveforms)
    { bestw := -1, ntrain := 0, bestccsum := -1, ccs := fun _ _ => (0, 0) }

/-- The alignment loop: every waveform but the anchor is shifted by its offset in the column
`bestw` of `ccs`. -/
def alignWaveforms (W : Int) (history : List (TKeyWaveform F)) (ccs : CCTable F)
    (bestw : Int) : List (TKeyWaveform F) :=
  (List.range history.length).map
    (fun (iwaveform : Nat) =>
      if (iwaveform : Int) = bestw then history.getD iwaveform []
      else shiftWaveform W (history.getD iwaveform []) (ccs (iwaveform : Int) bestw).2)

/-- The value of `ccsum`, and of `norm` before its inversion, after the averaging loop: the
sum of `cc*cc` over the whole column `bestw` of `ccs`. -/
def weightSum (nWaveforms : Nat) (ccs : CCTable F) (bestw : Int) : F :=
  (List.range nWaveforms).foldl
    (fun (s : F) (iwaveform : Nat) =>
      s + (ccs (iwaveform : Int) bestw).1 * (ccs (iwaveform : Int) bestw).1)
    0

/-- The sample `avgWaveform[is]` after the averaging loop and the multiplication by `norm`, in
exact arithmetic; `trainKeyFl` computes it with the roundings of the program. -/
def averageSample (history : List (TKeyWaveform F)) (ccs : CCTable F) (bestw : Int) (norm : F)
    (s : Nat) : F :=
  (List.range history.length).foldl
    (fun (v : F) (iwaveform : Nat) =>
      v + (ccs (iwaveform : Int) bestw).1 * (ccs (iwaveform : Int) bestw).1 *
        sampleAt (history.getD iwaveform []) (s : Int))
    0 * norm

/-- The updates of `amplMax` and `amplMin` over the samples of `avgWaveform`. -/
def trackAmpl (avgWaveform : TKeyWaveform F) (amplMax amplMin : F) : F × F :=
  avgWaveform.foldl
    (fun (st : F × F) (v : F) =>
      (if v > st.1 then v else st.1, if v < st.2 then v else st.2))
    (amplMax, amplMin)

/-- The failure test `ccsum*norm < 0.50f || (1.0f/norm < nWaveforms/3)` at the end of
`trainKey`, where `nWaveforms/3` is a division of integers. -/
def trainFailed (ccsum norm : F) (nWaveforms : Nat) : Bool :=
  decide (ccsum * norm < 1 / 2 ∨ 1 / norm < (((nWaveforms : Int) / 3 : Int) : F))

/-- What a call of `trainKey` leaves behind. -/
structure Trained (F : Type) where
  /-- The prototype stored in `keySoundAverageAmpl[key]`. -/
  avgWaveform : TKeyWaveform F
  /-- The global `amplMax`. -/
  amplMax : F
  /-- The global `amplMin`. -/
  amplMin : F
  /-- The field `trainStats[key].nWaveformsUsed`. -/
  nWaveformsUsed : Int
  /-- The field `trainStats[key].averageCC`. -/
  averageCC : F
  /-- The sum `ccsum` of `cc*cc` over all waveforms. -/
  ccsum : F
  /-- Whether the key was appended to `failedToTrain`. -/
  failed : Bool

/-- The lambda `trainKey` applied to the recordings `history` of one key.  The peak estimate
`peakSum` and the sum `bestosum` are only printed or stored and are left out. -/
def trainKey (sqrt : F → F) (nWorkers : Nat) (sched : Nat → Nat → List Nat) (k W : Int)
    (history : List (TKeyWaveform F)) (amplMax amplMin : F) : Trained F :=
  let nWaveforms := history.length
  let centered := centerWaveforms W history
  let st := anchorLoop (trainFind sqrt nWorkers sched k W centered) nWaveforms
  let aligned := alignWaveforms W centered st.ccs st.bestw
  let ccsum := weightSum nWaveforms st.ccs st.bestw
  let norm := 1 / ccsum
  let avgWaveform := (List.range W.toNat).map (averageSample aligned st.ccs st.bestw norm)
  let ampl := trackAmpl avgWaveform amplMax amplMin
  { avgWaveform := avgWaveform, amplMax := ampl.1, amplMin := ampl.2,
    nWaveformsUsed := st.ntrain, averageCC := sqrt (st.bestccsum / (st.ntrain : F)),
    ccsum := ccsum, failed := trainFailed ccsum norm nWaveforms }

/-- The state that training builds: the prototype map, the list `failedToTrain` and the
amplitude bounds. -/
structure TrainState (F : Type) where
  /-- The map `keySoundAverageAmpl`. -/
  keySoundAverageAmpl : List (TKey × TKeyWaveform F)
  /-- The list `failedToTrain`. -/
  failedToTrain : List TKey
  /-- The global `amplMax`. -/
  amplMax : F
  /-- The global `amplMin`. -/
  amplMin : F

/-- One iteration of the training loop over `keySoundHistoryAmpl`. -/
def trainStep (sqrt : F → F) (nWorkers : Nat) (sched : TKey → Nat → Nat → List Nat)
    (k W : Int) (st : TrainState F) (kh : TKey × List (TKeyWaveform F)) : TrainState F :=
  if kh.2.length > 2 then
    { keySoundAverageAmpl := mapSet st.keySoundAverageAmpl kh.1
        (trainKey sqrt nWorkers (sched kh.1) k W kh.2 st.amplMax st.amplMin).avgWaveform,
      failedToTrain :=
        if (trainKey sqrt nWorkers (sched kh.1) k W kh.2 st.amplMax st.amplMin).failed then
          st.failedToTrain ++ [kh.1]
        else st.failedToTrain,
      amplMax := (trainKey sqrt nWorkers (sched kh.1) k W kh.2 st.amplMax st.amplMin).amplMax,
      amplMin := (trainKey sqrt nWorkers (sched kh.1) k W kh.2 st.amplMax st.amplMin).amplMin }
  else
    { keySoundAverageAmpl := st.keySoundAverageAmpl,
      failedToTrain := st.failedToTrain ++ [kh.1],
      amplMax := st.amplMax, amplMin := st.amplMin }

/-- The training loop, from the state of a fresh program: no prototype, no failed key,
`amplMax = amplMin = 0`. -/
def trainAll (sqrt : F → F) (nWorkers : Nat) (sched : TKey → Nat → Nat → List Nat)
    (k W : Int) (keySoundHistoryAmpl : List (TKey × List (TKeyWaveform F))) : TrainState F :=
  keySoundHistoryAmpl.foldl (trainStep sqrt nWorkers sched k W)
    { keySoundAverageAmpl := [], failedToTrain := [], amplMax := 0, amplMin := 0 }

/-- The value `curAmplMax` of the normalization: the largest `|v|` of a prototype. -/
def curAmplMaxOf (waveform : TKeyWaveform F) : F :=
  waveform.foldl (fun (cur : F) (v : F) => if |v| > cur then |v| else cur) 0

/-- The rescaled prototype `v = (v/curAmplMax)*amplMax` in exact arithmetic; the division is
the IEEE-754 one, so the samples may be `NaN`.  `normalizeWaveformFl` is the same with the
roundings of the program. -/
def normalizeWaveform (amplMax : F) (waveform : TKeyWaveform F) : List (TValueCC F) :=
  waveform.map
    (fun (v : F) =>
      TValueCC.scale amplMax ((TValueCC.fin v).div (TValueCC.fin (curAmplMaxOf waveform))))

/-- The prototype map and the amplitude bounds after the normalization step. -/
structure Normalized (F : Type) where
  /-- The map `keySoundAverageAmpl` after rescaling. -/
  keySoundAverageAmpl : List (TKey × List (TValueCC F))
  /-- The global `amplMax`. -/
  amplMax : F
  /-- The global `amplMin`. -/
  amplMin : F

/-- The normalization step that ends training, in exact arithmetic; `normalizeFl` is the same
step with the roundings of the program. -/
def normalize (st : TrainState F) : Normalized F :=
  { keySoundAverageAmpl := st.keySoundAverageAmpl.map
      (fun kh => (kh.1, normalizeWaveform (max st.amplMax (-st.amplMin)) kh.2)),
    amplMax := max st.amplMax (-st.amplMin),
    amplMin := -(max (max st.amplMax (-st.amplMin)) (-st.amplMin)) }

end TrainerDefs
end Keytap

/-! ## Integer-valued recordings used as concrete training inputs -/

namespace Keytap
section ExampleDefs

/-- Read sample `i` of an integer-valued waveform, `0` outside of it. -/
def sampleZ (w : List Int) (i : Int) : Int :=
  if 0 ≤ i then w.getD i.toNat 0 else 0

/-- The quantity `covN` on integer sequences. -/
def covZ (f g : ℕ → Int) (n : ℕ) : Int :=
  ((List.range n).map (fun j => f j * g j)).sum * (n : Int)
    - ((List.range n).map f).sum * ((List.range n).map g).sum

/-- The squared correlation of the first `n` samples of `A` with the `n` samples of `B` from
offset `o` on is at most `qn/qd`, written without division. -/
def weakAt (A B : List Int) (n : ℕ) (qn qd : Int) (o : Int) : Bool :=
  decide (qd * covZ (fun j => sampleZ A (j : Int)) (fun j => sampleZ B (o + (j : Int))) n ^ 2 ≤
    qn * (covZ (fun j => sampleZ A (j : Int)) (fun j => sampleZ A (j : Int)) n *
      covZ (fun j => sampleZ B (o + (j : Int))) (fun j => sampleZ B (o + (j : Int))) n))

/-- Two integer waveforms of `n` samples are weakly correlated at every offset at which they
overlap, and neither is constant. -/
def weakPair (A B : List Int) (n : ℕ) (qn qd : Int) : Bool :=
  decide (0 < covZ (fun j => sampleZ A (j : Int)) (fun j => sampleZ A (j : Int)) n *
      covZ (fun j => sampleZ B (j : Int)) (fun j => sampleZ B (j : Int)) n) &&
    (List.range (2 * n - 1)).all (fun u => weakAt A B n qn qd ((u : Int) - ((n : Int) - 1)))

/-- The first largest `|sample|` of an integer waveform of `n` samples is sample `p`. -/
def peakAt (c : List Int) (n p : ℕ) : Bool :=
  decide (c.length = n) && decide (p < n) && decide (0 < |c.getD p 0|) &&
    (List.range p).all (fun u => decide (|c.getD u 0| < |c.getD p 0|)) &&
    (List.range n).all (fun u => decide (|c.getD u 0| ≤ |c.getD p 0|))

/-- A family of integer waveforms of `n` samples, each with its peak at sample `p`, that are
pairwise weakly correlated. -/
def weakFamily (cs : List (List Int)) (n p : ℕ) (qn qd : Int) : Bool :=
  cs.all (fun c => peakAt c n p) &&
    (List.range cs.length).all
      (fun j => (List.range j).all (fun i => weakPair (cs.getD i []) (cs.getD j []) n qn qd))

/-- A recording: the integer samples `core` between two stretches of `pad` zero samples. -/
def padRecording {F : Type} [LinearOrderedField F] (pad : ℕ) (core : List Int) :
    TKeyWaveform F :=
  List.replicate pad 0 ++ core.map (fun (x : Int) => (x : F)) ++ List.replicate pad 0

/-- Six recordings of one key, of 12 samples each, used as a concrete training input. -/
def exampleCores : List (List Int) :=
  [[-2, -1, -1, 0, 2, 2, 3, -1, -1, -1, -2, 0],
   [-1, 2, -2, 0, 0, -2, 3, -2, 0, 1, -2, 1],
   [1, 2, 1, -2, -1, 1, 3, 2, -2, 0, 1, 2],
   [0, -2, 0, 2, 0, -2, 3, -2, -3, 1, 1, 0],
   [-1, 0, -1, 1, -2, 1, -3, 1, -1, 0, -1, 0],
   [-1, -1, -1, -2, -2, -2, -3, -1, -2, -2, -2, 1]]

end ExampleDefs
end Keytap

/-! ## The trimming of the work queue -/

namespace Keytap
section QueueTrimDefs
variable {F : Type} [LinearOrderedField F]

/-- The loop `while (workQueue.size() > 30 && processingRecord == false) workQueue.pop_front();`
at the head of the critical section of the worker. -/
def trimQueue {α : Type} (processingRecord : Bool) : List α → List α
  | [] => []
  | x :: rest =>
      if (x :: rest).length > 30 ∧ processingRecord = false then trimQueue processingRecord rest
      else x :: rest

/-- The critical section of the worker: the trimming loop, then the move of the front item into
`workData`; returns the queue left behind and the item taken, if any. -/
def workerDequeue {α : Type} (processingRecord : Bool) (workQueue : List α) :
    List α × Option α :=
  match trimQueue processingRecord workQueue with
  | [] => ([], none)
  | x :: rest => (rest, some x)

/-- A step that touches the work queue: a call of the audio callback in prediction mode, or one
pass of the worker through its critical section. -/
inductive QueueEvent (F : Type) where
  | audio (frames : Record F)
  | worker

/-- The effect of one event on the ring buffer and the work queue. -/
def queueStep (k : Int) (thresholdBackground : F) (processingRecord : Bool)
    (st : RingBuffer F × List (WorkData F)) : QueueEvent F → RingBuffer F × List (WorkData F)
  | QueueEvent.audio frames => cbAudioEnqueue k thresholdBackground st frames
  | QueueEvent.worker => (st.1, (workerDequeue processingRecord st.2).1)

end QueueTrimDefs
end Keytap

/-! ## The worker on a repeated work item -/

namespace Keytap
section WorkerRepeatDefs
variable {F : Type} [LinearOrderedField F]

/-- The result remembered by the worker in `lastkey` and `lastcc` is the result of every
position of the list whose best score is above the threshold, so that none of them makes the
worker emit; `c p` is the classification of the position `p`. -/
def Settled (thresholdCC : F) (c : Int → Classified F) (ws : WorkerState F)
    (ps : List Int) : Prop :=
  ∀ p ∈ ps, (c p).maxcc.gt (TValueCC.fin thresholdCC) = true →
    ws.lastkey = (c p).res ∧ ws.lastcc.ne (c p).maxcc = false

end WorkerRepeatDefs
end Keytap

/-! ## Recordings with opposite signs -/

namespace Keytap
section MirrorDefs

/-- Three recordings of one key, of 12 samples each with the peak at sample 6; the second is
the first with the opposite sign. -/
def mirrorCores : List (List Int) :=
  [[0, 0, 0, 0, 0, 0, 3, -1, 0, 0, 0, 0],
   [0, 0, 0, 0, 0, 0, -3, 1, 0, 0, 0, 0],
   [0, 0, 0, 0, 0, 0, 3, -1, 0, 0, 0, 0]]

end MirrorDefs
end Keytap

/-! ## The anchor sums of the specification -/

namespace Keytap
section AnchorSpecDefs
variable {F : Type} [LinearOrderedField F]

end AnchorSpecDefs
end Keytap

/-! ## The end of training in the update loop -/

namespace Keytap
section UpdateDefs
variable {F : Type} [LinearOrderedField F]

/-- The variables of `main` that the last part of the lambda `g_update` reads and writes: the
flags `isReadyToPredict` and `doRecord`, the prototype map and the amplitude bounds. -/
structure UpdateState (F : Type) where
  /-- The flag `isReadyToPredict`: `false` in the training state, `true` in the predicting
  state. -/
  isReadyToPredict : Bool
  /-- The flag `doRecord`. -/
  doRecord : Bool
  /-- The map `keySoundAverageAmpl`. -/
  keySoundAverageAmpl : List (TKey × List (TValueCC F))
  /-- The global `amplMax`. -/
  amplMax : F
  /-- The global `amplMin`. -/
  amplMin : F

/-- The variables of `main` when the program starts. -/
def updateInit : UpdateState F :=
  { isReadyToPredict := false, doRecord := false, keySoundAverageAmpl := [],
    amplMax := 0, amplMin := 0 }

/-- The part of the lambda `g_update` behind the two early returns for `processingInput` and
`processingRecord`: the block `if (isReadyToPredict == false)`, which trains every key of
`keySoundHistoryAmpl`, sets `isReadyToPredict` and `doRecord` and normalizes the prototypes,
followed by the block `if (doRecord)`.  Nothing writes the prototype map or the amplitude
bounds before the training block runs, so that training starts from their initial values. -/
def updateTail (sqrt : F → F) (nWorkers : Nat) (sched : TKey → Nat → Nat → List Nat)
    (k W : Int) (keySoundHistoryAmpl : List (TKey × List (TKeyWaveform F)))
    (st : UpdateState F) : UpdateState F :=
  let st1 : UpdateState F :=
    if st.isReadyToPredict = false then
      { isReadyToPredict := true, doRecord := true,
        keySoundAverageAmpl :=
          (normalize (trainAll sqrt nWorkers sched k W keySoundHistoryAmpl)).keySoundAverageAmpl,
        amplMax := (normalize (trainAll sqrt nWorkers sched k W keySoundHistoryAmpl)).amplMax,
        amplMin := (normalize (trainAll sqrt nWorkers sched k W keySoundHistoryAmpl)).amplMin }
    else st
  if st1.doRecord then
    { isReadyToPredict := st1.isReadyToPredict, doRecord := false,
      keySoundAverageAmpl := st1.keySoundAverageAmpl, amplMax := st1.amplMax,
      amplMin := st1.amplMin }
  else st1

end UpdateDefs
end Keytap

/-! ## The reads of the correlation search -/

namespace Keytap
section BoundsDefs
variable {F : Type}

/-- The test that precedes `printf("BUG 0\n")` in the loop of `calcCC` compiled with
`MY_DEBUG`: at step `is` the index `is00 + is` read from `waveform0` is outside it. -/
def calcCCBug0 (waveform0 : TKeyWaveform F) (is00 : Int) (is : Nat) : Bool :=
  decide (is00 + (is : Int) < 0 ∨ is00 + (is : Int) ≥ (waveform0.length : Int))

/-- The test that precedes `printf("BUG 1\n")` in the loop of `calcCC` compiled with
`MY_DEBUG`: at step `is` the index `is0 + is` read from `waveform1` is outside it. -/
def calcCCBug1 (waveform1 : TKeyWaveform F) (is0 : Int) (is : Nat) : Bool :=
  decide (is0 + (is : Int) < 0 ∨ is0 + (is : Int) ≥ (waveform1.length : Int))

/-- Whether a call of `calcCC` takes one of its out-of-range branches: some step `is` of the
loop `for (is = 0; is < is1 - is0; ++is)` reads outside `waveform0` or outside `waveform1`. -/
def calcCCBug (waveform0 waveform1 : TKeyWaveform F) (is00 is0 is1 : Int) : Bool :=
  (List.range (is1 - is0).toNat).any
    (fun is => calcCCBug0 waveform0 is00 is || calcCCBug1 waveform1 is0 is)

/-- Whether a call of `calcSum` reads outside the waveform: some index `is` of the loop
`for (is = is0; is < is1; ++is)` is outside it. -/
def calcSumOut (waveform : TKeyWaveform F) (is0 is1 : Int) : Bool :=
  (List.range (is1 - is0).toNat).any
    (fun j => decide (is0 + (j : Int) < 0 ∨ is0 + (j : Int) ≥ (waveform.length : Int)))

/-- Whether a call of `findBestCC` reads outside a waveform: in its call of `calcSum` or in the
call of `calcCC` that worker thread `i < nWorkers` makes for one of its offsets
`o = -alignWindow + i, -alignWindow + i + nWorkers, ... < alignWindow`. -/
def findBestCCOut (nWorkers : Nat) (waveform0 waveform1 : TKeyWaveform F)
    (is0 is1 alignWindow : Int) : Bool :=
  calcSumOut waveform0 ((waveform0.length : Int) / 2 - Int.tdiv (is1 - is0) 2)
      ((waveform0.length : Int) / 2 - Int.tdiv (is1 - is0) 2 + is1 - is0) ||
    (List.range nWorkers).any (fun i =>
      (workerOffsets alignWindow nWorkers i).any (fun o =>
        calcCCBug waveform0 waveform1 ((waveform0.length : Int) / 2 - Int.tdiv (is1 - is0) 2)
          (is0 + o) (is1 + o)))

/-- Whether the classification of the candidate position `curPos` in `worker` reads outside a
waveform, in the call `findBestCC(keySoundAverageAmpl[key], ampl, scmp0, scmp1, alignWindow)`
of some key.  `k` is `kSamplesPerFrame`. -/
def classifyPositionOut (nWorkers : Nat) (k : Int)
    (keySoundAverageAmpl : List (TKey × TKeyWaveform F)) (ampl : TKeyWaveform F)
    (curPos : Int) : Bool :=
  keySoundAverageAmpl.any (fun ka =>
    findBestCCOut nWorkers ka.2 ampl (curPos - k) (curPos + k) (Int.tdiv k 2))

end BoundsDefs
end Keytap

/-! ## The arithmetic of the program: floating-point values -/

namespace Keytap
section FloatDefs

/-- A binary floating-point format of IEEE 754: the precision `prec` in bits and the exponents
`emin` and `emax` of the smallest and the largest normal numbers. -/
structure FloatFormat where
  prec : Nat
  emin : Int
  emax : Int

/-- The format of the C++ type `float`. -/
def binary32 : FloatFormat := { prec := 24, emin := -126, emax := 127 }

/-- The format of the C++ type `double`. -/
def binary64 : FloatFormat := { prec := 53, emin := -1022, emax := 1023 }

/-- A value of the C++ types `float` and `double`: a finite number with its exact rational
value (`num 0` is `+0`), the negative zero, the two infinities, or `NaN`. -/
inductive Fl where
  | num (q : ℚ)
  | nzero
  | pinf
  | ninf
  | nan
  deriving DecidableEq

/-- The loop of `bits`; the first argument bounds the number of iterations. -/
def bitsAux : Nat → Nat → Nat
  | 0, _ => 0
  | fuel + 1, n => if n = 0 then 0 else bitsAux fuel (n / 2) + 1

/-- The number of binary digits of a natural number. -/
def bits (n : Nat) : Nat := bitsAux n n

/-- The exponent `e` with `2^e ≤ x < 2^(e+1)` of a positive rational number. -/
def floorLog2 (x : ℚ) : Int :=
  if (2 : ℚ) ^ ((bits x.num.natAbs : Int) - (bits x.den : Int)) ≤ x then
    (bits x.num.natAbs : Int) - (bits x.den : Int)
  else (bits x.num.natAbs : Int) - (bits x.den : Int) - 1

/-- Rounding to the nearest integer, ties to the even one. -/
def roundHalfEven (q : ℚ) : Int :=
  if q - (⌊q⌋ : ℚ) < 1 / 2 then ⌊q⌋
  else if 1 / 2 < q - (⌊q⌋ : ℚ) then ⌊q⌋ + 1
  else if ⌊q⌋ % 2 = 0 then ⌊q⌋ else ⌊q⌋ + 1

/-- The unit in the last place of the format at the positive number `x`. -/
def ulpAt (fmt : FloatFormat) (x : ℚ) : ℚ :=
  (2 : ℚ) ^ (max (floorLog2 x) fmt.emin - (fmt.prec : Int) + 1)

/-- The multiple of the unit in the last place nearest to the positive number `x`, ties to
even: rounding to nearest of IEEE 754 with gradual underflow, before the overflow test. -/
def roundMag (fmt : FloatFormat) (x : ℚ) : ℚ :=
  (roundHalfEven (x / ulpAt fmt x) : ℚ) * ulpAt fmt x

/-- The value of the format that an operation with the exact result `x` returns, in the default
rounding mode; `zneg` tells the sign of the result when `x = 0`. -/
def roundQ (fmt : FloatFormat) (x : ℚ) (zneg : Bool) : Fl :=
  if x = 0 then (if zneg then Fl.nzero else Fl.num 0)
  else if (2 : ℚ) ^ (fmt.emax + 1) ≤ roundMag fmt |x| then (if x < 0 then Fl.ninf else Fl.pinf)
  else if roundMag fmt |x| = 0 then (if x < 0 then Fl.nzero else Fl.num 0)
  else Fl.num (if x < 0 then -roundMag fmt |x| else roundMag fmt |x|)

namespace Fl

/-- The sign bit. -/
def sign : Fl → Bool
  | num q => decide (q < 0)
  | nzero => true
  | pinf => false
  | ninf => true
  | nan => false

/-- Unary minus. -/
def neg : Fl → Fl
  | num q => if q = 0 then nzero else num (-q)
  | nzero => num 0
  | pinf => ninf
  | ninf => pinf
  | nan => nan

/-- The function `std::abs`. -/
def abs : Fl → Fl
  | num q => num |q|
  | nzero => num 0
  | pinf => pinf
  | ninf => pinf
  | nan => nan

/-- The value is `NaN`. -/
def isNan : Fl → Bool
  | nan => true
  | _ => false

/-- The value is finite: a number or a zero. -/
def isFin : Fl → Bool
  | num _ => true
  | nzero => true
  | _ => false

/-- The rational value of a finite value; `0` for the others. -/
def val : Fl → ℚ
  | num q => q
  | _ => 0

/-- The infinity of the given sign. -/
def inf (s : Bool) : Fl := if s then ninf else pinf

/-- The zero of the given sign. -/
def zero (s : Bool) : Fl := if s then nzero else num 0

/-- The product of two values, rounded to the format `fmt`. -/
def mul (fmt : FloatFormat) (a b : Fl) : Fl :=
  if a.isNan || b.isNan then nan
  else if a.isFin && b.isFin then roundQ fmt (a.val * b.val) (a.sign != b.sign)
  else if (a.isFin && decide (a.val = 0)) || (b.isFin && decide (b.val = 0)) then nan
  else inf (a.sign != b.sign)

/-- The sum of two values, rounded to the format `fmt`. -/
def add (fmt : FloatFormat) (a b : Fl) : Fl :=
  if a.isNan || b.isNan then nan
  else if a.isFin && b.isFin then roundQ fmt (a.val + b.val) (a.sign && b.sign)
  else if a.isFin then b
  else if b.isFin then a
  else if a.sign = b.sign then a
  else nan

/-- The difference of two values, rounded to the format `fmt`. -/
def sub (fmt : FloatFormat) (a b : Fl) : Fl := add fmt a (neg b)

/-- The quotient of two values, rounded to the format `fmt`. -/
def div (fmt : FloatFormat) (a b : Fl) : Fl :=
  if a.isNan || b.isNan then nan
  else if a.isFin && b.isFin then
    if b.val = 0 then (if a.val = 0 then nan else inf (a.sign != b.sign))
    else roundQ fmt (a.val / b.val) (a.sign != b.sign)
  else if a.isFin then zero (a.sign != b.sign)
  else if b.isFin then inf (a.sign != b.sign)
  else nan

end Fl

/-- The loop of `isqrt`: the bits of the root from bit `b` down to bit `0`, added to `r`. -/
def isqrtLoop (n : Nat) : Nat → Nat → Nat
  | 0, r => if (r + 1) ^ 2 ≤ n then r + 1 else r
  | b + 1, r => isqrtLoop n b (if (r + 2 ^ (b + 1)) ^ 2 ≤ n then r + 2 ^ (b + 1) else r)

/-- The integer square root: the largest `r` with `r^2 ≤ n`. -/
def isqrt (n : Nat) : Nat := isqrtLoop n (bits n) 0

/-- The positive number of the format nearest to the square root of the positive rational
number `x`, ties to even. -/
def sqrtMag (fmt : FloatFormat) (x : ℚ) : ℚ :=
  let u : ℚ := (2 : ℚ) ^ (max (floorLog2 x / 2) fmt.emin - (fmt.prec : Int) + 1)
  let z : ℚ := x / (u * u)
  let n0 : Nat := isqrt ⌊z⌋.toNat
  let n : Nat :=
    if 4 * z < (2 * (n0 : ℚ) + 1) ^ 2 then n0
    else if (2 * (n0 : ℚ) + 1) ^ 2 < 4 * z then n0 + 1
    else if n0 % 2 = 0 then n0 else n0 + 1
  (n : ℚ) * u

namespace Fl

/-- The function `sqrt` on `double`, correctly rounded. -/
def sqrt : Fl → Fl
  | num q => if q < 0 then nan else if q = 0 then num 0 else num (sqrtMag binary64 q)
  | nzero => nzero
  | pinf => pinf
  | ninf => nan
  | nan => nan

/-- The value up to the sign of zero, as the comparisons see it. -/
def toCC : Fl → TValueCC ℚ
  | num q => TValueCC.fin q
  | nzero => TValueCC.fin 0
  | pinf => TValueCC.pinf
  | ninf => TValueCC.ninf
  | nan => TValueCC.nan

/-- The comparison `a > b`. -/
def gt (a b : Fl) : Bool := (toCC a).gt (toCC b)

/-- The conversion of an `int` to `double`, exact for 32-bit integers. -/
def ofInt (n : Int) : Fl := num (n : ℚ)

/-- The conversion of a `double` to `float`. -/
def toFloat : Fl → Fl
  | num q => roundQ binary32 q false
  | nzero => nzero
  | pinf => pinf
  | ninf => ninf
  | nan => nan

/-- The comparison `a != b`: true as soon as one side is `NaN`. -/
def ne (a b : Fl) : Bool := (toCC a).ne (toCC b)

end Fl

end FloatDefs
end Keytap

/-! ## The correlation kernel in the arithmetic of the program -/

namespace Keytap
section FloatKernelDefs

/-- Read `waveform[i]` of a waveform of `float` samples for an `int` index. -/
def sampleAtFl (waveform : List Fl) (i : Int) : Fl :=
  if 0 ≤ i then waveform.getD i.toNat (Fl.num 0) else Fl.num 0

/-- The loop of `calcSum` in the arithmetic of the program: `sum += a0` adds in `double`,
`sum2 += a0*a0` multiplies in `float` and adds in `double`. -/
def calcSumFl (waveform : List Fl) (is0 is1 : Int) : Fl × Fl :=
  (List.range (is1 - is0).toNat).foldl
    (fun (acc : Fl × Fl) (j : Nat) =>
      (Fl.add binary64 acc.1 (sampleAtFl waveform (is0 + (j : Int))),
       Fl.add binary64 acc.2
        (Fl.mul binary32 (sampleAtFl waveform (is0 + (j : Int)))
          (sampleAtFl waveform (is0 + (j : Int))))))
    (Fl.num 0, Fl.num 0)

/-- The accumulation loop of `calcCC` in the arithmetic of the program:
`(sum1, sum12, sum01)`. -/
def calcCCSumsFl (waveform0 waveform1 : List Fl) (is00 is0 is1 : Int) : Fl × Fl × Fl :=
  (List.range (is1 - is0).toNat).foldl
    (fun (acc : Fl × Fl × Fl) (j : Nat) =>
      (Fl.add binary64 acc.1 (sampleAtFl waveform1 (is0 + (j : Int))),
       Fl.add binary64 acc.2.1
        (Fl.mul binary32 (sampleAtFl waveform1 (is0 + (j : Int)))
          (sampleAtFl waveform1 (is0 + (j : Int)))),
       Fl.add binary64 acc.2.2
        (Fl.mul binary32 (sampleAtFl waveform0 (is00 + (j : Int)))
          (sampleAtFl waveform1 (is0 + (j : Int))))))
    (Fl.num 0, Fl.num 0, Fl.num 0)

/-- The last block of `calcCC` on the five sums: `nom`, `den2a`, `den2b` and the quotient, each
operation rounded to `double`. -/
def ccOfSums (sum0 sum02 sum1 sum12 sum01 : Fl) (ncc : Int) : Fl :=
  Fl.div binary64
    (Fl.sub binary64 (Fl.mul binary64 sum01 (Fl.ofInt ncc)) (Fl.mul binary64 sum0 sum1))
    (Fl.sqrt
      (Fl.mul binary64
        (Fl.sub binary64 (Fl.mul binary64 sum02 (Fl.ofInt ncc)) (Fl.mul binary64 sum0 sum0))
        (Fl.sub binary64 (Fl.mul binary64 sum12 (Fl.ofInt ncc)) (Fl.mul binary64 sum1 sum1))))

/-- The function `calcCC` in the arithmetic of the program. -/
def calcCCFl (waveform0 waveform1 : List Fl) (sum0 sum02 : Fl) (is00 is0 is1 : Int) : Fl :=
  ccOfSums sum0 sum02 (calcCCSumsFl waveform0 waveform1 is00 is0 is1).1
    (calcCCSumsFl waveform0 waveform1 is00 is0 is1).2.1
    (calcCCSumsFl waveform0 waveform1 is00 is0 is1).2.2 (is1 - is0)

/-- The offset loop of one worker thread of `findBestCC` on the state `(cbestcc, cbesto)`, with
the comparison of `double`.  The first argument bounds the number of iterations. -/
def scanOffsetsFl (cc : Int → Fl) (alignWindow nWorkers : Int) :
    Nat → Int → Fl × TOffset → Fl × TOffset
  | 0, _, st => st
  | fuel + 1, o, st =>
      if o < alignWindow then
        scanOffsetsFl cc alignWindow nWorkers fuel (o + nWorkers)
          (if (cc o).gt st.1 then (cc o, o) else st)
      else st

/-- The body of worker thread `i` of `findBestCC`: its local best. -/
def workerBestFl (cc : Int → Fl) (alignWindow : Int) (nWorkers i : Nat) : Fl × TOffset :=
  scanOffsetsFl cc alignWindow nWorkers
    (alignWindow - (-alignWindow + (i : Int))).toNat (-alignWindow + (i : Int))
    (Fl.num (-1), -1)

/-- The correlation that `findBestCC` evaluates at offset `o`, in the arithmetic of the
program. -/
def ccAtFl (waveform0 waveform1 : List Fl) (is0 is1 : Int) (o : Int) : Fl :=
  calcCCFl waveform0 waveform1
    (calcSumFl waveform0 ((waveform0.length : Int) / 2 - Int.tdiv (is1 - is0) 2)
      ((waveform0.length : Int) / 2 - Int.tdiv (is1 - is0) 2 + is1 - is0)).1
    (calcSumFl waveform0 ((waveform0.length : Int) / 2 - Int.tdiv (is1 - is0) 2)
      ((waveform0.length : Int) / 2 - Int.tdiv (is1 - is0) 2 + is1 - is0)).2
    ((waveform0.length : Int) / 2 - Int.tdiv (is1 - is0) 2) (is0 + o) (is1 + o)

/-- The function `findBestCC` in the arithmetic of the program, returning `(bestcc, besto)`;
`order` lists the worker indices in the order in which the threads take the mutex. -/
def findBestCCFl (nWorkers : Nat) (order : List Nat) (waveform0 waveform1 : List Fl)
    (is0 is1 alignWindow : Int) : Fl × TOffset :=
  order.foldl
    (fun best i =>
      if (workerBestFl (ccAtFl waveform0 waveform1 is0 is1) alignWindow nWorkers i).1.gt best.1
      then workerBestFl (ccAtFl waveform0 waveform1 is0 is1) alignWindow nWorkers i
      else best)
    (Fl.num (-1), -1)

end FloatKernelDefs
end Keytap

namespace Keytap
section FloatRegimeDefs

/-- The `n` samples of `w` from index `s` on are the integers `a 0 .. a (n-1)`, each of
magnitude at most `M`. -/
def IsIntWindow (w : List Fl) (s : Int) (n : ℕ) (a : ℕ → Int) (M : Int) : Prop :=
  ∀ j < n, sampleAtFl w (s + (j : Int)) = Fl.num ((a j : Int) : ℚ) ∧ |a j| ≤ M

/-- The sum of the first `n` terms of an integer sequence. -/
def sumZ (f : ℕ → Int) (n : ℕ) : Int := ((List.range n).map f).sum

end FloatRegimeDefs
end Keytap

namespace Keytap
section FloatSearchDefs

/-- A pair `(cc, offset)` of the program as the comparisons of `double` see it. -/
def toCCPair (p : Fl × TOffset) : TValueCC ℚ × TOffset := (p.1.toCC, p.2)

/-- The `n` samples of `w` from index `s` on are integers of magnitude at most `M` and not all
equal. -/
def IsVaryingIntWindow (w : List Fl) (s : Int) (n : ℕ) (M : Int) : Prop :=
  ∃ a : ℕ → Int, IsIntWindow w s n a M ∧ ∃ i < n, ∃ j < n, a i ≠ a j

end FloatSearchDefs
end Keytap

namespace Keytap
section FloatSpecDefs

/-- The sum of a list of values accumulated left to right in `double`, from `0`. -/
def sumFl (l : List Fl) : Fl := l.foldl (Fl.add binary64) (Fl.num 0)

/-- The `n` samples of a waveform of `float` samples from index `s` on. -/
def windowOfFl (w : List Fl) (s : Int) (n : ℕ) : List Fl := (w.drop s.toNat).take n

/-- The Pearson correlation of two lists of paired samples as the specification writes it,
`(n Σ aᵢbᵢ − Σ aᵢ Σ bᵢ) / sqrt ((n Σ aᵢ² − (Σ aᵢ)²) (n Σ bᵢ² − (Σ bᵢ)²))`, evaluated in the
arithmetic of the program: products of two samples in `float`, sums from left to right in
`double`, and the remaining operations in `double`. -/
def pearsonFl (a b : List Fl) : Fl :=
  Fl.div binary64
    (Fl.sub binary64
      (Fl.mul binary64 (Fl.ofInt (a.length : Int)) (sumFl (List.zipWith (Fl.mul binary32) a b)))
      (Fl.mul binary64 (sumFl a) (sumFl b)))
    (Fl.sqrt
      (Fl.mul binary64
        (Fl.sub binary64
          (Fl.mul binary64 (Fl.ofInt (a.length : Int)) (sumFl (a.map (fun x => Fl.mul binary32 x x))))
          (Fl.mul binary64 (sumFl a) (sumFl a)))
        (Fl.sub binary64
          (Fl.mul binary64 (Fl.ofInt (a.length : Int)) (sumFl (b.map (fun x => Fl.mul binary32 x x))))
          (Fl.mul binary64 (sumFl b) (sumFl b)))))

end FloatSpecDefs
end Keytap

/-! ## The ring buffer and the peak detector in the arithmetic of the program -/

namespace Keytap
section FloatRingDefs

/-- IEEE-754 `a >= b` on values of the program. -/
def Fl.ge (a b : Fl) : Bool := (Fl.toCC a).ge (Fl.toCC b)

/-- The ring buffer at start-up in the arithmetic of the program: `rbBegin = 0`,
`rbAverage = 0`, `rbSamples.fill(0)`. -/
def rbInitFl : RingBuffer Fl :=
  { rbBegin := 0, rbAverage := Fl.num 0,
    rbSamples := List.replicate kRingBufferSize (Fl.num 0) }

/-- One pass through the body of the ring buffer loop of `cbAudio` for the sample
`frames[f][s]`, every operation on `rbAverage` rounded to `double`. -/
def rbPushFl (rb : RingBuffer Fl) (sample : Fl) : RingBuffer Fl :=
  { rbBegin :=
      if rb.rbBegin + 1 ≥ (rb.rbSamples.length : Int) then 0 else rb.rbBegin + 1,
    rbAverage :=
      Fl.div binary64
        (Fl.add binary64
          (Fl.sub binary64
            (Fl.mul binary64 rb.rbAverage (Fl.ofInt (rb.rbSamples.length : Int)))
            (sampleAtFl rb.rbSamples rb.rbBegin))
          (Fl.abs sample))
        (Fl.ofInt (rb.rbSamples.length : Int)),
    rbSamples := rb.rbSamples.set rb.rbBegin.toNat (Fl.abs sample) }

/-- The ring buffer loops of `cbAudio` over all frames and all samples of a record. -/
def rbUpdateFl (rb : RingBuffer Fl) (frames : Record Fl) : RingBuffer Fl :=
  frames.foldl (fun rb frame => frame.foldl rbPushFl rb) rb

/-- A state reached by the ring buffer of the program: the start state after the complete
callbacks `records` and the first pushes `xs` of a further callback. -/
def rbReachFl (records : List (Record Fl)) (xs : List Fl) : RingBuffer Fl :=
  xs.foldl rbPushFl (records.foldl rbUpdateFl rbInitFl)

/-- The value that the next push overwrites after the values `qs` were pushed: the value
pushed `kRingBufferSize` pushes ago, or the initial `0`. -/
def oldestEntry (qs : List ℚ) : ℚ :=
  ((qs.map (fun x => |x|)).reverse).getD (kRingBufferSize - 1) 0

/-- The four statements on `rbAverage` of one pass of the ring buffer loop, for the old mean
`a`, the overwritten entry `o` and the new entry `v`. -/
def avgStep (a o v : Fl) : Fl :=
  Fl.div binary64
    (Fl.add binary64 (Fl.sub binary64 (Fl.mul binary64 a (Fl.ofInt (kRingBufferSize : Int))) o) v)
    (Fl.ofInt (kRingBufferSize : Int))

/-- A rational number with a numerator below `2^53` over a power of two: a value of `double`
far from overflow and underflow. -/
def IsDyadic53 (q : ℚ) : Prop :=
  ∃ (n : Int) (s : ℕ), |n| < 2 ^ 53 ∧ s ≤ 1000 ∧ q = (n : ℚ) / 2 ^ s

/-- A sample that is an integer multiple of `2^-s` of magnitude at most `2^35 * 2^-s`. -/
def IsScaledSample (s : ℕ) (q : ℚ) : Prop :=
  ∃ n : Int, |n| ≤ 2 ^ 35 ∧ q = (n : ℚ) / 2 ^ s

end FloatRingDefs
end Keytap

namespace Keytap
section FloatRecordDefs

/-- A record of finite samples as a record of the program. -/
def recordFl (r : Record ℚ) : Record Fl := r.map (fun f => f.map Fl.num)

end FloatRecordDefs
end Keytap

namespace Keytap
section FloatPeakDefs

/-- The lambda `_acc` of `cbAudio` on a record of the program:
`|r[id / kSamplesPerFrame][id % kSamplesPerFrame]|`. -/
def accFl (k : Int) (r : Record Fl) (id : Int) : Fl :=
  Fl.abs (sampleAtFl (frameAt r (Int.tdiv id k)) (Int.tmod id k))

/-- The deque updates of iteration `i` of the peak detection loop, with the comparison `>=` of
`float`. -/
def queStepFl (a : Int → Fl) (k : Int) (que : List Int) (i : Int) : List Int :=
  if i < k then
    (que.rdropWhile (fun j => (a i).ge (a j))) ++ [i]
  else
    ((que.dropWhile (fun j => decide (j ≤ i - k))).rdropWhile
      (fun j => (a i).ge (a j))) ++ [i]

/-- Iteration `i` of the peak detection loop of `cbAudio` in the arithmetic of the program:
the product `thresholdBackground*rbAverage` is rounded to `double` and compared with `>`. -/
def peakStepFl (a : Int → Fl) (k nFrames : Int) (thresholdBackground rbAverage : Fl)
    (st : PeakState) (i : Int) : PeakState :=
  if i < k then
    { que := queStepFl a k st.que i, positionsToPredict := st.positionsToPredict }
  else
    if i - Int.tdiv k 2 ≥ 2 * k ∧ i - Int.tdiv k 2 < (nFrames - 2) * k ∧
        (queStepFl a k st.que i).head? = some (i - Int.tdiv k 2) then
      if (a (i - Int.tdiv k 2)).gt (Fl.mul binary64 thresholdBackground rbAverage) then
        { que := queStepFl a k st.que i,
          positionsToPredict := st.positionsToPredict ++ [i - Int.tdiv k 2] }
      else { que := queStepFl a k st.que i, positionsToPredict := st.positionsToPredict }
    else { que := queStepFl a k st.que i, positionsToPredict := st.positionsToPredict }

/-- The state after the first `n` iterations of the peak detection loop. -/
def peakRunFl (a : Int → Fl) (k nFrames : Int) (thresholdBackground rbAverage : Fl) (n : Nat) :
    PeakState :=
  (List.range n).foldl
    (fun (st : PeakState) (i : Nat) =>
      peakStepFl a k nFrames thresholdBackground rbAverage st (i : Int))
    (peakInit k)

/-- The peak detection loop of `cbAudio` in the arithmetic of the program, with
`k = kSamplesPerFrame`. -/
def peakDetectFl (k : Int) (thresholdBackground rbAverage : Fl) (frames : Record Fl) :
    PeakState :=
  peakRunFl (accFl k frames) k (frames.length : Int) thresholdBackground rbAverage
    ((frames.length : Int) * k).toNat

/-- The prediction branch of `cbAudio` up to the test `positionsToPredict.size() > 0`, in the
arithmetic of the program: the ring buffer update followed by the peak detection. -/
def cbAudioPredictFl (k : Int) (thresholdBackground : Fl) (rb : RingBuffer Fl)
    (frames : Record Fl) : RingBuffer Fl × List Int :=
  (rbUpdateFl rb frames,
    (peakDetectFl k thresholdBackground (rbUpdateFl rb frames).rbAverage
      frames).positionsToPredict)

/-- The prediction branch of `cbAudio` on the ring buffer and the work queue, in the arithmetic
of the program. -/
def cbAudioEnqueueFl (k : Int) (thresholdBackground : Fl)
    (st : RingBuffer Fl × List (WorkData Fl)) (frames : Record Fl) :
    RingBuffer Fl × List (WorkData Fl) :=
  if (cbAudioPredictFl k thresholdBackground st.1 frames).2.length > 0 then
    ((cbAudioPredictFl k thresholdBackground st.1 frames).1,
      st.2 ++ [{ ampl := flattenFrames frames,
                 positionsToPredict := (cbAudioPredictFl k thresholdBackground st.1 frames).2 }])
  else ((cbAudioPredictFl k thresholdBackground st.1 frames).1, st.2)

end FloatPeakDefs
end Keytap

/-! ## The classification worker in the arithmetic of the program -/

namespace Keytap
section FloatWorkerDefs

/-- The value to which a rational number rounds in a format, without regard to overflow. -/
def signedRound (fmt : FloatFormat) (x : ℚ) : ℚ :=
  if x < 0 then -roundMag fmt (-x) else roundMag fmt x

/-- The variables of the classification of one candidate position in `worker`, in the types of
the program: `res` (a `char`), `maxcc` (`double`), `offs` and `keyConfidenceTmp` (a map to
`float`). -/
structure ClassifiedFl where
  res : Int
  maxcc : Fl
  offs : TOffset
  keyConfidenceTmp : List (TKey × Fl)

/-- The body of the loop over `keySoundAverageAmpl` in `worker`; `r` is the result
`(bestcc, bestoffset)` of `findBestCC` for the key `key`.  The assignment
`keyConfidenceTmp[ka.first] = bestcc` narrows the `double` to `float`. -/
def classifyKeyFl (st : ClassifiedFl) (key : TKey) (r : Fl × TOffset) : ClassifiedFl :=
  { res := if r.1.gt st.maxcc then toChar key else st.res,
    maxcc := if r.1.gt st.maxcc then r.1 else st.maxcc,
    offs := if r.1.gt st.maxcc then r.2 else st.offs,
    keyConfidenceTmp := mapSet st.keyConfidenceTmp key (Fl.toFloat r.1) }

/-- The result of `findBestCC` for one prototype at the candidate position `curPos`, in the
arithmetic of the program. -/
def scoreOfFl (nWorkers : Nat) (sched : TKey → List Nat) (k : Int) (ampl : List Fl)
    (curPos : Int) (ka : TKey × List Fl) : Fl × TOffset :=
  findBestCCFl nWorkers (sched ka.1) ka.2 ampl (curPos - k) (curPos + k) (Int.tdiv k 2)

/-- The classification of the candidate position `curPos` in `worker`, in the arithmetic of the
program: the loop over the key prototypes, in key order. -/
def classifyPositionFl (nWorkers : Nat) (sched : TKey → List Nat) (k : Int)
    (keySoundAverageAmpl : List (TKey × List Fl)) (ampl : List Fl) (curPos : Int) :
    ClassifiedFl :=
  keySoundAverageAmpl.foldl
    (fun st ka => classifyKeyFl st ka.1 (scoreOfFl nWorkers sched k ampl curPos ka))
    { res := -1, maxcc := Fl.num (-1), offs := 0, keyConfidenceTmp := [] }

/-- The assignments `keyConfidence[c.first] = c.second/maxcc` of the loop
`for (auto & c : keyConfidenceTmp)` of an emitted prediction: the `float` score is divided by
`maxcc` in `double` and the quotient is narrowed to `float`. -/
def confidenceLoopFl (maxcc : Fl) (tmp : List (TKey × Fl)) (keyConfidence : List (TKey × Fl)) :
    List (TKey × Fl) :=
  tmp.foldl (fun m c => mapSet m c.1 (Fl.toFloat (Fl.div binary64 c.2 maxcc))) keyConfidence

/-- The part of the prediction state of `worker` on which the confidence values depend:
`lastkey`, `lastcc`, `predictedKey`, `predictedCC`, `keyConfidence` and the list of the lines
`Prediction: ...` printed so far. -/
structure WorkerStateFl where
  lastkey : Int
  lastcc : Fl
  predictedKey : Int
  predictedCC : Fl
  keyConfidence : List (TKey × Fl)
  predictions : List (Int × Fl)

/-- The part of `worker` that follows the classification of one candidate position, on
`WorkerStateFl`. -/
def workerUpdateFl (thresholdCC : Fl) (ws : WorkerStateFl) (c : ClassifiedFl) : WorkerStateFl :=
  if c.maxcc.gt thresholdCC then
    if ws.lastkey ≠ c.res ∨ ws.lastcc.ne c.maxcc = true then
      { lastkey := c.res, lastcc := c.maxcc, predictedKey := c.res, predictedCC := c.maxcc,
        keyConfidence := confidenceLoopFl c.maxcc c.keyConfidenceTmp ws.keyConfidence,
        predictions := ws.predictions ++ [(c.res, c.maxcc)] }
    else
      { lastkey := c.res, lastcc := c.maxcc, predictedKey := ws.predictedKey,
        predictedCC := ws.predictedCC, keyConfidence := ws.keyConfidence,
        predictions := ws.predictions }
  else ws

/-- One pass of the loop over `positionsToPredict` in `worker`, on `WorkerStateFl`. -/
def workerPositionFl (nWorkers : Nat) (sched : TKey → List Nat) (k : Int) (thresholdCC : Fl)
    (keySoundAverageAmpl : List (TKey × List Fl)) (ampl : List Fl) (ws : WorkerStateFl)
    (curPos : Int) : WorkerStateFl :=
  workerUpdateFl thresholdCC ws
    (classifyPositionFl nWorkers sched k keySoundAverageAmpl ampl curPos)

/-- The prediction state when `worker` starts. -/
def workerInitFl : WorkerStateFl :=
  { lastkey := -1, lastcc := Fl.num (-1), predictedKey := -1, predictedCC := Fl.num (-1),
    keyConfidence := [], predictions := [] }

/-- Two prototypes and a recording on which key 1 wins with the score 1 and key 2 has the
score -1. -/
def twoKeyProtosFl : List (TKey × List Fl) :=
  [(1, [Fl.num 0, Fl.num 1, Fl.num 1, Fl.num 1, Fl.num 0, Fl.num 0]),
   (2, [Fl.num 0, Fl.num 0, Fl.num 0, Fl.num 0, Fl.num 1, Fl.num 0])]

/-- The recording classified against twoKeyProtosFl. -/
def twoKeyAmplFl : List Fl := [Fl.num 2, Fl.num 2, Fl.num 2, Fl.num 2, Fl.num 0, Fl.num 0]

end FloatWorkerDefs
end Keytap

/-! ## The trainer in the arithmetic of the program -/

namespace Keytap
section FloatTrainerDefs

/-- The peak estimate `imax` of `trainKey` on `float` samples: the first index of the largest
`|sample|`, or `-1` when no sample exceeds `0`; a `NaN` sample never exceeds. -/
def peakMaxFl (W : Int) (waveform : List Fl) : Int :=
  ((List.range W.toNat).foldl
    (fun (st : Int × Fl) (icur : Nat) =>
      if (Fl.abs (sampleAtFl waveform (icur : Int))).gt st.2 then
        ((icur : Int), Fl.abs (sampleAtFl waveform (icur : Int)))
      else st)
    ((-1 : Int), Fl.num 0)).1

/-- The loop that builds `newWaveform` in `trainKey`, on `float` samples: sample `icur` is
sample `icur + offset` of the waveform, or `0.0f` when that index is outside the waveform. -/
def shiftWaveformFl (W : Int) (waveform : List Fl) (offset : Int) : List Fl :=
  (List.range W.toNat).map
    (fun (icur : Nat) =>
      if (icur : Int) + offset ≥ 0 ∧ (icur : Int) + offset < W then
        sampleAtFl waveform ((icur : Int) + offset)
      else Fl.num 0)

/-- The centering loop of `trainKey` on `float` samples. -/
def centerWaveformsFl (W : Int) (history : List (List Fl)) : List (List Fl) :=
  history.map (fun waveform => shiftWaveformFl W waveform (peakMaxFl W waveform - W / 2))

/-- The call `findBestCC(history[a], history[i], is0, is1, alignWindow)` of `trainKey` in the
arithmetic of the program. -/
def trainFindFl (nWorkers : Nat) (sched : Nat → Nat → List Nat) (k W : Int)
    (history : List (List Fl)) (a i : Nat) : Fl × TOffset :=
  findBestCCFl nWorkers (sched a i) (history.getD a []) (history.getD i [])
    (W / 2 - k) (W / 2 + k) 64

/-- The sums `(curntrain, curccsum)` over the column `alignToWaveform` of `ccs`, the products
`cc*cc` and the sum taken in `double`; entries with `|offset| > 50` are skipped. -/
def columnSumsFl (nWaveforms : Nat) (ccs : CCTable Fl) (alignToWaveform : Int) : Int × Fl :=
  (List.range nWaveforms).foldl
    (fun (st : Int × Fl) (iwaveform : Nat) =>
      if |(ccs (iwaveform : Int) alignToWaveform).2| > 50 then st
      else (st.1 + 1,
        Fl.add binary64 st.2
          (Fl.mul binary64 (ccs (iwaveform : Int) alignToWaveform).1
            (ccs (iwaveform : Int) alignToWaveform).1)))
    ((0 : Int), Fl.num 0)

/-- One iteration of the loop over `alignToWaveform`, with the comparison
`curccsum > bestccsum` of `double`. -/
def anchorStepFl (find : Nat → Nat → Fl × TOffset) (nWaveforms : Nat) (st : AnchorState Fl)
    (alignToWaveform : Nat) : AnchorState Fl :=
  if (columnSumsFl nWaveforms
        (pairLoop find nWaveforms alignToWaveform
          (ccsSet st.ccs (alignToWaveform : Int) (alignToWaveform : Int) (Fl.num 1, 0)))
        (alignToWaveform : Int)).2.gt st.bestccsum then
    { bestw := (alignToWaveform : Int),
      ntrain := (columnSumsFl nWaveforms
        (pairLoop find nWaveforms alignToWaveform
          (ccsSet st.ccs (alignToWaveform : Int) (alignToWaveform : Int) (Fl.num 1, 0)))
        (alignToWaveform : Int)).1,
      bestccsum := (columnSumsFl nWaveforms
        (pairLoop find nWaveforms alignToWaveform
          (ccsSet st.ccs (alignToWaveform : Int) (alignToWaveform : Int) (Fl.num 1, 0)))
        (alignToWaveform : Int)).2,
      ccs := pairLoop find nWaveforms alignToWaveform
        (ccsSet st.ccs (alignToWaveform : Int) (alignToWaveform : Int) (Fl.num 1, 0)) }
  else
    { bestw := st.bestw, ntrain := st.ntrain, bestccsum := st.bestccsum,
      ccs := pairLoop find nWaveforms alignToWaveform
        (ccsSet st.ccs (alignToWaveform : Int) (alignToWaveform : Int) (Fl.num 1, 0)) }

/-- The loop over `alignToWaveform = 0, ..., nWaveforms - 1` that selects the anchor, from
`bestw = -1`, `bestccsum = -1.0f` and the empty table, whose entries read as `(0.0, 0)`. -/
def anchorLoopFl (find : Nat → Nat → Fl × TOffset) (nWaveforms : Nat) : AnchorState Fl :=
  (List.range nWaveforms).foldl (anchorStepFl find nWaveforms)
    { bestw := -1, ntrain := 0, bestccsum := Fl.num (-1), ccs := fun _ _ => (Fl.num 0, 0) }

/-- The state of the anchor search of `trainKey` on the recordings `history` of one key, in the
arithmetic of the program. -/
def trainAnchorFl (nWorkers : Nat) (sched : Nat → Nat → List Nat) (k W : Int)
    (history : List (List Fl)) : AnchorState Fl :=
  anchorLoopFl (trainFindFl nWorkers sched k W (centerWaveformsFl W history)) history.length

/-- The alignment loop on `float` samples: every waveform but the anchor is replaced by
`newWaveform`, built from its offset in the column `bestw` of `ccs`. -/
def alignWaveformsFl (W : Int) (history : List (List Fl)) (ccs : CCTable Fl) (bestw : Int) :
    List (List Fl) :=
  (List.range history.length).map
    (fun (iwaveform : Nat) =>
      if (iwaveform : Int) = bestw then history.getD iwaveform []
      else shiftWaveformFl W (history.getD iwaveform []) (ccs (iwaveform : Int) bestw).2)

/-- The value of `norm` after the averaging loop, before its inversion: the sum in `double` of
the products `cc*cc` over the whole column `bestw` of `ccs`. -/
def weightSumFl (nWaveforms : Nat) (ccs : CCTable Fl) (bestw : Int) : Fl :=
  (List.range nWaveforms).foldl
    (fun (s : Fl) (iwaveform : Nat) =>
      Fl.add binary64 s
        (Fl.mul binary64 (ccs (iwaveform : Int) bestw).1 (ccs (iwaveform : Int) bestw).1))
    (Fl.num 0)

/-- The sample `avgWaveform[is]` after the averaging loop: each statement
`avgWaveform[is] += cc*cc*waveform[is]` takes the products and the sum in `double` and stores
the sum as `float`. -/
def accumulateSampleFl (history : List (List Fl)) (ccs : CCTable Fl) (bestw : Int) (s : Nat) :
    Fl :=
  (List.range history.length).foldl
    (fun (v : Fl) (iwaveform : Nat) =>
      Fl.toFloat (Fl.add binary64 v
        (Fl.mul binary64
          (Fl.mul binary64 (ccs (iwaveform : Int) bestw).1 (ccs (iwaveform : Int) bestw).1)
          (sampleAtFl (history.getD iwaveform []) (s : Int)))))
    (Fl.num 0)

/-- The prototype `avgWaveform` that `trainKey` writes for the recordings `history` of one key,
in the arithmetic of the program: `norm = 1.0f/norm` is a division in `double` and
`avgWaveform[is] *= norm` multiplies in `double` and stores the product as `float`. -/
def trainKeyFl (nWorkers : Nat) (sched : Nat → Nat → List Nat) (k W : Int)
    (history : List (List Fl)) : List Fl :=
  (List.range W.toNat).map
    (fun (s : Nat) =>
      Fl.toFloat (Fl.mul binary64
        (accumulateSampleFl
          (alignWaveformsFl W (centerWaveformsFl W history)
            (trainAnchorFl nWorkers sched k W history).ccs
            (trainAnchorFl nWorkers sched k W history).bestw)
          (trainAnchorFl nWorkers sched k W history).ccs
          (trainAnchorFl nWorkers sched k W history).bestw s)
        (Fl.div binary64 (Fl.num 1)
          (weightSumFl history.length (trainAnchorFl nWorkers sched k W history).ccs
            (trainAnchorFl nWorkers sched k W history).bestw))))

/-- A recording of 130 samples with the one non-zero sample `2`, at index 65. -/
def spikeFl : List Fl := List.replicate 65 (Fl.num 0) ++ [Fl.num 2] ++ List.replicate 64 (Fl.num 0)

/-- The recording `spikeFl` with the sample `1` added at index 10. -/
def spikeMarkFl : List Fl :=
  List.replicate 10 (Fl.num 0) ++ [Fl.num 1] ++ List.replicate 54 (Fl.num 0) ++ [Fl.num 2] ++
    List.replicate 64 (Fl.num 0)

/-- A recording of 130 samples with the one non-zero sample `-2`, at index 65. -/
def negSpikeFl : List Fl :=
  List.replicate 65 (Fl.num 0) ++ [Fl.num (-2)] ++ List.replicate 64 (Fl.num 0)

/-- Four recordings of one key: three copies of `spikeFl` and, third, `negSpikeFl`. -/
def spikeHistoryFl : List (List Fl) := [spikeFl, spikeFl, negSpikeFl, spikeFl]

/-- Three recordings of one key: `spikeMarkFl` and two copies of `spikeFl`. -/
def markHistoryFl : List (List Fl) := [spikeMarkFl, spikeFl, spikeFl]

/-- The results of `findBestCC` for the pairs of `spikeHistoryFl`. -/
def spikeFindFl (a i : Nat) : Fl × TOffset :=
  if a = 2 ∨ i = 2 then (Fl.num 1, 1) else (Fl.num 1, 0)

/-- The value is `+infinity` or a finite number that is at least `r`. -/
def Fl.AtLeast (x : Fl) (r : ℚ) : Prop := x = Fl.pinf ∨ ∃ q : ℚ, x = Fl.num q ∧ r ≤ q

/-- The value is an integer of absolute value at most `M`. -/
def IsIntSample (M : Int) (x : Fl) : Prop := ∃ z : Int, |z| ≤ M ∧ x = Fl.num (z : ℚ)

end FloatTrainerDefs
end Keytap

/-! ## The normalization in the arithmetic of the program -/

namespace Keytap
section FloatNormalizeDefs

/-- The updates of `amplMax` and `amplMin` over the samples of `avgWaveform`, with the
comparisons of `float`: `if (avgWaveform[is] > amplMax) amplMax = avgWaveform[is]` and
`if (avgWaveform[is] < amplMin) amplMin = avgWaveform[is]`. -/
def trackAmplFl (avgWaveform : List Fl) (amplMax amplMin : Fl) : Fl × Fl :=
  avgWaveform.foldl
    (fun (st : Fl × Fl) (v : Fl) =>
      (if v.gt st.1 then v else st.1, if st.2.gt v then v else st.2))
    (amplMax, amplMin)

/-- The part of the state that training builds on which the normalization works, in the
arithmetic of the program: the prototype map and the amplitude bounds. -/
structure TrainStateFl where
  keySoundAverageAmpl : List (TKey × List Fl)
  amplMax : Fl
  amplMin : Fl

/-- One iteration of the training loop over `keySoundHistoryAmpl`, on `TrainStateFl`: a key
with more than two recordings gets the prototype of `trainKey`, whose samples update
`amplMax` and `amplMin`. -/
def trainStepFl (nWorkers : Nat) (sched : TKey → Nat → Nat → List Nat) (k W : Int)
    (st : TrainStateFl) (kh : TKey × List (List Fl)) : TrainStateFl :=
  if kh.2.length > 2 then
    { keySoundAverageAmpl := mapSet st.keySoundAverageAmpl kh.1
        (trainKeyFl nWorkers (sched kh.1) k W kh.2),
      amplMax := (trackAmplFl (trainKeyFl nWorkers (sched kh.1) k W kh.2)
        st.amplMax st.amplMin).1,
      amplMin := (trackAmplFl (trainKeyFl nWorkers (sched kh.1) k W kh.2)
        st.amplMax st.amplMin).2 }
  else st

/-- The training loop in the arithmetic of the program, from the state of a fresh program: no
prototype, `amplMax = amplMin = 0.0f`. -/
def trainAllFl (nWorkers : Nat) (sched : TKey → Nat → Nat → List Nat) (k W : Int)
    (keySoundHistoryAmpl : List (TKey × List (List Fl))) : TrainStateFl :=
  keySoundHistoryAmpl.foldl (trainStepFl nWorkers sched k W)
    { keySoundAverageAmpl := [], amplMax := Fl.num 0, amplMin := Fl.num 0 }

/-- The function `std::max` on `float`: `(a < b) ? b : a`. -/
def Fl.max (a b : Fl) : Fl := if b.gt a then b else a

/-- The value `curAmplMax` of the normalization, with the comparison of `float`. -/
def curAmplMaxOfFl (waveform : List Fl) : Fl :=
  waveform.foldl (fun (cur : Fl) (v : Fl) => if (Fl.abs v).gt cur then Fl.abs v else cur)
    (Fl.num 0)

/-- The rescaled prototype `v = (v/curAmplMax)*amplMax`, the quotient and the product rounded
to `float`. -/
def normalizeWaveformFl (amplMax : Fl) (waveform : List Fl) : List Fl :=
  waveform.map
    (fun (v : Fl) => Fl.mul binary32 (Fl.div binary32 v (curAmplMaxOfFl waveform)) amplMax)

/-- The prototype map and the amplitude bounds after the normalization step, in the arithmetic
of the program. -/
structure NormalizedFl where
  keySoundAverageAmpl : List (TKey × List Fl)
  amplMax : Fl
  amplMin : Fl

/-- The normalization step that ends training, in the arithmetic of the program:
`amplMax = std::max(amplMax, -amplMin)`, `amplMin = -std::max(amplMax, -amplMin)` and the
rescaling of every prototype. -/
def normalizeFl (st : TrainStateFl) : NormalizedFl :=
  { keySoundAverageAmpl := st.keySoundAverageAmpl.map
      (fun kh => (kh.1, normalizeWaveformFl (Fl.max st.amplMax (Fl.neg st.amplMin)) kh.2)),
    amplMax := Fl.max st.amplMax (Fl.neg st.amplMin),
    amplMin := Fl.neg (Fl.max (Fl.max st.amplMax (Fl.neg st.amplMin)) (Fl.neg st.amplMin)) }

/-- The number is a value of `float`: rounding its magnitude to `float` leaves it unchanged and
does not overflow. -/
def IsFloat32 (q : ℚ) : Prop :=
  roundMag binary32 |q| = |q| ∧ |q| < (2 : ℚ) ^ (binary32.emax + 1)

end FloatNormalizeDefs
end Keytap

namespace Keytap
section FloatNormalizeExample

/-- A silent recording of 130 samples. -/
def silentFl : List Fl := List.replicate 130 (Fl.num 0)

/-- Three silent recordings of one key. -/
def silentHistoryFl : List (List Fl) := [silentFl, silentFl, silentFl]

/-- The recordings of three keys: `spikeHistoryFl` for the key 97, `markHistoryFl` for the key
98 and three silent recordings for the key 99. -/
def spikeTrainingFl : List (TKey × List (List Fl)) :=
  [(97, spikeHistoryFl), (98, markHistoryFl), (99, silentHistoryFl)]

end FloatNormalizeExample
end Keytap

/-! ## Sums and the Cauchy-Schwarz inequality -/

namespace Keytap
section KernelLemmas
open Finset
variable {F : Type} [LinearOrderedField F]

theorem foldl_pair_sum (f g : ℕ → F) (n : ℕ) (a b : F) :
    (List.range n).foldl (fun acc j => (acc.1 + f j, acc.2 + g j)) (a, b)
      = (a + ∑ j in range n, f j, b + ∑ j in range n, g j) := by
  induction n with
  | zero => simp
  | succ n ih =>
    rw [List.range_succ, List.foldl_append, ih]
    simp [Finset.sum_range_succ, add_assoc]

theorem foldl_triple_sum (f g h : ℕ → F) (n : ℕ) (a b c : F) :
    (List.range n).foldl (fun acc j => (acc.1 + f j, acc.2.1 + g j, acc.2.2 + h j)) (a, b, c)
      = (a + ∑ j in range n, f j, b + ∑ j in range n, g j, c + ∑ j in range n, h j) := by
  induction n with
  | zero => simp
  | succ n ih =>
    rw [List.range_succ, List.foldl_append, ih]
    simp [Finset.sum_range_succ, add_assoc]

theorem calcSum_eq (w : TKeyWaveform F) (is0 is1 : Int) :
    calcSum w is0 is1 =
      (∑ j in range (is1 - is0).toNat, sampleAt w (is0 + (j : Int)),
       ∑ j in range (is1 - is0).toNat, sampleAt w (is0 + (j : Int)) * sampleAt w (is0 + (j : Int))) := by
  unfold calcSum
  exact (foldl_pair_sum _ _ _ 0 0).trans (by simp)

theorem calcCCSums_eq (w0 w1 : TKeyWaveform F) (is00 is0 is1 : Int) :
    calcCCSums w0 w1 is00 is0 is1 =
      (∑ j in range (is1 - is0).toNat, sampleAt w1 (is0 + (j : Int)),
       ∑ j in range (is1 - is0).toNat, sampleAt w1 (is0 + (j : Int)) * sampleAt w1 (is0 + (j : Int)),
       ∑ j in range (is1 - is0).toNat, sampleAt w0 (is00 + (j : Int)) * sampleAt w1 (is0 + (j : Int))) := by
  unfold calcCCSums
  exact (foldl_triple_sum _ _ _ _ 0 0 0).trans (by simp)

/-- Centred Cauchy-Schwarz. -/
theorem pearson_centre (a b : ℕ → F) (n : ℕ) :
    ∑ j in range n, ((n : F) * a j - ∑ i in range n, a i) * ((n : F) * b j - ∑ i in range n, b i)
      = (n : F) * ((∑ j in range n, a j * b j) * (n : F)
          - (∑ j in range n, a j) * (∑ j in range n, b j)) := by
  have h : ∀ j, ((n : F) * a j - ∑ i in range n, a i) * ((n : F) * b j - ∑ i in range n, b i)
      = (n : F) * (n : F) * (a j * b j) - (n : F) * (∑ i in range n, b i) * a j
        - (n : F) * (∑ i in range n, a i) * b j + (∑ i in range n, a i) * (∑ i in range n, b i) := by
    intro j; ring
  simp only [h, Finset.sum_add_distrib, Finset.sum_sub_distrib, ← Finset.mul_sum, Finset.sum_const,
    Finset.card_range, nsmul_eq_mul]
  ring

theorem pearson_cs (a b : ℕ → F) (n : ℕ) :
    ((∑ j in range n, a j * b j) * (n : F) - (∑ j in range n, a j) * (∑ j in range n, b j)) ^ 2
      ≤ ((∑ j in range n, a j * a j) * (n : F) - (∑ j in range n, a j) * (∑ j in range n, a j))
        * ((∑ j in range n, b j * b j) * (n : F) - (∑ j in range n, b j) * (∑ j in range n, b j)) := by
  rcases Nat.eq_zero_or_pos n with h0 | hpos
  · subst h0; simp
  · have hn : (0 : F) < (n : F) := by exact_mod_cast hpos
    have hcs := Finset.sum_mul_sq_le_sq_mul_sq (range n)
      (fun j => (n : F) * a j - ∑ i in range n, a i) (fun j => (n : F) * b j - ∑ i in range n, b i)
    simp only [pow_two] at hcs
    rw [pearson_centre a b n, pearson_centre a a n, pearson_centre b b n] at hcs
    have hn2 : (0 : F) < (n : F) * (n : F) := mul_pos hn hn
    rw [pow_two]
    have := hcs
    apply le_of_mul_le_mul_left _ hn2
    nlinarith [hcs]

theorem pearson_den_nonneg (a : ℕ → F) (n : ℕ) :
    0 ≤ (∑ j in range n, a j * a j) * (n : F) - (∑ j in range n, a j) * (∑ j in range n, a j) := by
  rcases Nat.eq_zero_or_pos n with h0 | hpos
  · subst h0; simp
  · have hn : (0 : F) < (n : F) := by exact_mod_cast hpos
    have h := pearson_centre a a n
    have h2 : 0 ≤ ∑ j in range n, ((n : F) * a j - ∑ i in range n, a i) * ((n : F) * a j - ∑ i in range n, a i) :=
      Finset.sum_nonneg (fun j _ => mul_self_nonneg _)
    rw [h] at h2
    exact nonneg_of_mul_nonneg_right h2 hn

theorem pearson_den_eq_zero_iff (a : ℕ → F) (n : ℕ) :
    (∑ j in range n, a j * a j) * (n : F) - (∑ j in range n, a j) * (∑ j in range n, a j) = 0
      ↔ ∀ i < n, ∀ j < n, a i = a j := by
  rcases Nat.eq_zero_or_pos n with h0 | hpos
  · subst h0; simp
  · have hn : (0 : F) < (n : F) := by exact_mod_cast hpos
    have h := pearson_centre a a n
    constructor
    · intro hz
      rw [hz, mul_zero] at h
      have hall := (Finset.sum_eq_zero_iff_of_nonneg (fun j _ => mul_self_nonneg _)).1 h
      have key : ∀ i < n, a i = (∑ i in range n, a i) / (n : F) := by
        intro i hi
        have := hall i (Finset.mem_range.2 hi)
        have h3 : (n : F) * a i - ∑ i in range n, a i = 0 := mul_self_eq_zero.1 this
        field_simp
        linarith
      intro i hi j hj
      rw [key i hi, key j hj]
    · intro hc
      have hsum : ∀ j < n, (n : F) * a j - ∑ i in range n, a i = 0 := by
        intro j hj
        have : ∑ i in range n, a i = ∑ _i in range n, a j :=
          Finset.sum_congr rfl (fun i hi => hc i (Finset.mem_range.1 hi) j hj)
        rw [this]; simp
      have hz : ∑ j in range n, ((n : F) * a j - ∑ i in range n, a i) * ((n : F) * a j - ∑ i in range n, a i) = 0 :=
        Finset.sum_eq_zero (fun j hj => by rw [hsum j (Finset.mem_range.1 hj)]; simp)
      rw [h] at hz
      rcases mul_eq_zero.1 hz with h1 | h1
      · exact absurd h1 (ne_of_gt hn)
      · exact h1

end KernelLemmas
end Keytap

/-! ## The value computed by `calcCC` -/

namespace Keytap
section KernelLemmas2
open Finset
variable {F : Type} [LinearOrderedField F]

theorem covN_cs (a b : ℕ → F) (n : ℕ) : covN a b n ^ 2 ≤ covN a a n * covN b b n :=
  pearson_cs a b n

theorem covN_self_nonneg (a : ℕ → F) (n : ℕ) : 0 ≤ covN a a n := pearson_den_nonneg a n

theorem covN_self_eq_zero_iff (a : ℕ → F) (n : ℕ) :
    covN a a n = 0 ↔ ∀ i < n, ∀ j < n, a i = a j := pearson_den_eq_zero_iff a n

theorem covN_comm (a b : ℕ → F) (n : ℕ) : covN a b n = covN b a n := by
  unfold covN
  rw [mul_comm (∑ j in range n, a j)]
  congr 2
  exact Finset.sum_congr rfl (fun j _ => mul_comm _ _)

theorem covN_affine_left (a b : ℕ → F) (n : ℕ) (al be : F) :
    covN (fun j => al * a j + be) b n = al * covN a b n := by
  unfold covN
  have h1 : ∑ j in range n, (al * a j + be) * b j
      = al * (∑ j in range n, a j * b j) + be * ∑ j in range n, b j := by
    rw [Finset.mul_sum, Finset.mul_sum, ← Finset.sum_add_distrib]
    exact Finset.sum_congr rfl (fun j _ => by ring)
  have h2 : ∑ j in range n, (al * a j + be) = al * (∑ j in range n, a j) + (n : F) * be := by
    rw [Finset.sum_add_distrib, ← Finset.mul_sum]
    simp
  rw [h1, h2]; ring

theorem sqrt_zero_of (sqrt : F → F) (hs : IsSqrt sqrt) : sqrt 0 = 0 := by
  have h := (hs 0 le_rfl).2
  exact mul_self_eq_zero.1 h

theorem sqrt_pos_of (sqrt : F → F) (hs : IsSqrt sqrt) {p : F} (hp : 0 < p) : 0 < sqrt p := by
  have h := hs p hp.le
  rcases h.1.lt_or_eq with h1 | h1
  · exact h1
  · rw [← h1] at h; simp at h; exact absurd h.symm (ne_of_gt hp)

/-- The value of `nccVal`: `NaN` on a flat side, a finite quotient otherwise. -/
theorem nccVal_flat (sqrt : F → F) (hs : IsSqrt sqrt) (a b : ℕ → F) (n : ℕ)
    (h : covN a a n = 0 ∨ covN b b n = 0) : nccVal sqrt a b n = TValueCC.nan := by
  have hp : covN a a n * covN b b n = 0 := by
    rcases h with h | h <;> simp [h]
  have hnom : covN a b n = 0 := by
    have := covN_cs a b n
    rw [hp] at this
    exact pow_eq_zero_iff (two_ne_zero) |>.1 (le_antisymm this (sq_nonneg _))
  unfold nccVal
  rw [hp, hnom]
  simp [fsqrt, fdiv, sqrt_zero_of sqrt hs]

theorem nccVal_pos (sqrt : F → F) (hs : IsSqrt sqrt) (a b : ℕ → F) (n : ℕ)
    (ha : 0 < covN a a n) (hb : 0 < covN b b n) :
    nccVal sqrt a b n = TValueCC.fin (covN a b n / sqrt (covN a a n * covN b b n)) := by
  have hp : 0 < covN a a n * covN b b n := mul_pos ha hb
  have hsp := sqrt_pos_of sqrt hs hp
  unfold nccVal
  simp [fsqrt, fdiv, not_lt.2 hp.le, ne_of_gt hsp]

theorem nccVal_range (sqrt : F → F) (hs : IsSqrt sqrt) (a b : ℕ → F) (n : ℕ) :
    nccVal sqrt a b n = TValueCC.nan ∨
      ∃ x : F, nccVal sqrt a b n = TValueCC.fin x ∧ -1 ≤ x ∧ x ≤ 1 := by
  rcases (covN_self_nonneg a n).lt_or_eq with ha | ha
  · rcases (covN_self_nonneg b n).lt_or_eq with hb | hb
    · right
      have hp : 0 < covN a a n * covN b b n := mul_pos ha hb
      have hsp := sqrt_pos_of sqrt hs hp
      refine ⟨_, nccVal_pos sqrt hs a b n ha hb, ?_, ?_⟩
      all_goals
        have hcs := covN_cs a b n
        rw [← (hs _ hp.le).2, ← pow_two] at hcs
        have habs := abs_le_of_sq_le_sq' hcs hsp.le
      · rw [le_div_iff₀ hsp]; linarith [habs.1]
      · rw [div_le_iff₀ hsp]; linarith [habs.2]
    · left; exact nccVal_flat sqrt hs a b n (Or.inr hb.symm)
  · left; exact nccVal_flat sqrt hs a b n (Or.inl ha.symm)

theorem nccVal_comm (sqrt : F → F) (a b : ℕ → F) (n : ℕ) :
    nccVal sqrt a b n = nccVal sqrt b a n := by
  unfold nccVal
  rw [covN_comm a b, mul_comm (covN a a n)]

end KernelLemmas2
end Keytap

/-! ## The offset search -/

namespace Keytap
section SearchLemmas
variable {F : Type} [LinearOrderedField F]

namespace TValueCC

theorem gt_trans {x y z : TValueCC F} (h1 : x.gt y = true) (h2 : y.gt z = true) :
    x.gt z = true := by
  cases x <;> cases y <;> cases z <;> simp [gt] at * <;> exact lt_trans h2 h1

theorem gt_cotrans {x y z : TValueCC F} (h : x.gt z = true) (hy : y ≠ nan) :
    x.gt y = true ∨ y.gt z = true := by
  cases x <;> cases y <;> cases z <;> simp [gt] at *
  rename_i a b c
  rcases lt_or_le b a with h1 | h1
  · exact Or.inl h1
  · exact Or.inr (lt_of_lt_of_le h h1)

theorem ne_nan_of_gt {x y : TValueCC F} (h : x.gt y = true) : x ≠ nan := by
  cases x <;> cases y <;> simp [gt] at *

theorem eq_of_not_gt {x y : TValueCC F} (hx : x ≠ nan) (hy : y ≠ nan) (hxn : x ≠ ninf)
    (hyn : y ≠ ninf)
    (h1 : x.gt y = false) (h2 : y.gt x = false) : x = y := by
  cases x <;> cases y <;> simp [gt] at * 
  exact le_antisymm h1 h2

theorem ne_ninf_of_gt {x y : TValueCC F} (h : x.gt y = true) : x ≠ ninf := by
  cases x <;> cases y <;> simp [gt] at *

theorem gt_irrefl (x : TValueCC F) : x.gt x = false := by
  cases x <;> simp [gt]

end TValueCC

theorem foldl_keepBest {ι : Type} (val : ι → TValueCC F × TOffset) (l : List ι)
    (st : TValueCC F × TOffset) (hst : st.1 ≠ TValueCC.nan) :
    (l.foldl (keepBest val) st = st ∨
        ∃ e ∈ l, l.foldl (keepBest val) st = val e ∧ (val e).1.gt st.1 = true) ∧
      (∀ e ∈ l, (val e).1.gt (l.foldl (keepBest val) st).1 = false) ∧
      (l.foldl (keepBest val) st).1 ≠ TValueCC.nan ∧
      st.1.gt (l.foldl (keepBest val) st).1 = false := by
  induction l generalizing st with
  | nil => exact ⟨Or.inl rfl, by simp, hst, TValueCC.gt_irrefl _⟩
  | cons e l ih =>
    simp only [List.foldl_cons]
    by_cases hgt : (val e).1.gt st.1 = true
    · have hst' : keepBest val st e = val e := by simp [keepBest, hgt]
      rw [hst']
      obtain ⟨h1, h2, h3, h4⟩ := ih (val e) (TValueCC.ne_nan_of_gt hgt)
      refine ⟨?_, ?_, h3, ?_⟩
      · right
        rcases h1 with h1 | ⟨e', he', h1, h1'⟩
        · exact ⟨e, List.mem_cons_self _ _, h1, hgt⟩
        · exact ⟨e', List.mem_cons_of_mem _ he', h1, TValueCC.gt_trans h1' hgt⟩
      · intro e' he'
        rcases List.mem_cons.1 he' with rfl | he'
        · exact h4
        · exact h2 e' he'
      · by_contra hc
        have := TValueCC.gt_trans hgt (by simpa using hc)
        rw [h4] at this; exact Bool.noConfusion this
    · have hgt' : (val e).1.gt st.1 = false := by simpa using hgt
      have hst' : keepBest val st e = st := by simp [keepBest, hgt']
      rw [hst']
      obtain ⟨h1, h2, h3, h4⟩ := ih st hst
      refine ⟨?_, ?_, h3, h4⟩
      · rcases h1 with h1 | ⟨e', he', h1, h1'⟩
        · exact Or.inl h1
        · exact Or.inr ⟨e', List.mem_cons_of_mem _ he', h1, h1'⟩
      · intro e' he'
        rcases List.mem_cons.1 he' with rfl | he'
        · by_contra hc
          rcases TValueCC.gt_cotrans (by simpa using hc) hst with h | h
          · rw [hgt'] at h; exact Bool.noConfusion h
          · rw [h4] at h; exact Bool.noConfusion h
        · exact h2 e' he'

theorem scanOffsets_eq_foldl (cc : Int → TValueCC F) (alignWindow nWorkers : Int)
    (fuel : Nat) (o : Int) (st : TValueCC F × TOffset) :
    scanOffsets cc alignWindow nWorkers fuel o st =
      (visited alignWindow nWorkers fuel o).foldl (keepBest (fun o => (cc o, o))) st := by
  induction fuel generalizing o st with
  | zero => rfl
  | succ fuel ih =>
    unfold scanOffsets visited
    by_cases h : o < alignWindow
    · simp only [h, if_true, List.foldl_cons]
      rw [ih]
      rfl
    · simp [h]

theorem visited_bounds (alignWindow nWorkers : Int) (hn : 0 ≤ nWorkers) (fuel : Nat) (o x : Int)
    (hx : x ∈ visited alignWindow nWorkers fuel o) :
    o ≤ x ∧ x < alignWindow ∧ ∃ j : ℕ, x = o + (j : Int) * nWorkers := by
  induction fuel generalizing o with
  | zero => simp [visited] at hx
  | succ fuel ih =>
    unfold visited at hx
    by_cases h : o < alignWindow
    · simp only [h, if_true, List.mem_cons] at hx
      rcases hx with rfl | hx
      · exact ⟨le_rfl, h, 0, by simp⟩
      · obtain ⟨h1, h2, j, hj⟩ := ih (o + nWorkers) hx
        refine ⟨by linarith, h2, j + 1, ?_⟩
        rw [hj]; push_cast; ring
    · simp [h] at hx

theorem visited_mem (alignWindow nWorkers : Int) (hn : 1 ≤ nWorkers) (fuel : Nat) (o : Int)
    (hfuel : (alignWindow - o).toNat ≤ fuel) (j : ℕ)
    (hj : o + (j : Int) * nWorkers < alignWindow) :
    o + (j : Int) * nWorkers ∈ visited alignWindow nWorkers fuel o := by
  induction fuel generalizing o j with
  | zero =>
    have : 0 ≤ (j : Int) * nWorkers := mul_nonneg (Int.ofNat_nonneg j) (by linarith)
    omega
  | succ fuel ih =>
    have hjn : 0 ≤ (j : Int) * nWorkers := mul_nonneg (Int.ofNat_nonneg j) (by linarith)
    have ho : o < alignWindow := by linarith
    unfold visited
    simp only [ho, if_true, List.mem_cons]
    cases j with
    | zero => left; simp
    | succ j =>
      right
      have e : o + ((j + 1 : ℕ) : Int) * nWorkers = (o + nWorkers) + (j : Int) * nWorkers := by
        push_cast; ring
      rw [e]
      apply ih
      · omega
      · rw [← e]; exact hj

theorem visited_sorted (alignWindow nWorkers : Int) (hn : 1 ≤ nWorkers) (fuel : Nat) (o : Int) :
    (visited alignWindow nWorkers fuel o).Pairwise (· < ·) := by
  induction fuel generalizing o with
  | zero => simp [visited]
  | succ fuel ih =>
    unfold visited
    by_cases h : o < alignWindow
    · simp only [h, if_true, List.pairwise_cons]
      refine ⟨?_, ih _⟩
      intro x hx
      have := (visited_bounds alignWindow nWorkers (by linarith) fuel _ x hx).1
      linarith
    · simp [h]

theorem workerOffsets_bounds (alignWindow : Int) (nWorkers i : Nat) (x : Int)
    (hx : x ∈ workerOffsets alignWindow nWorkers i) :
    -alignWindow ≤ x ∧ x < alignWindow ∧
      ∃ j : ℕ, x = -alignWindow + (i : Int) + (j : Int) * (nWorkers : Int) := by
  obtain ⟨h1, h2, h3⟩ := visited_bounds alignWindow nWorkers (Int.ofNat_nonneg _) _ _ x hx
  exact ⟨by linarith [Int.ofNat_nonneg i], h2, h3⟩

theorem workerOffsets_cover (alignWindow : Int) (nWorkers : Nat) (hn : 1 ≤ nWorkers) (o : Int)
    (h1 : -alignWindow ≤ o) (h2 : o < alignWindow) :
    ∃ i < nWorkers, o ∈ workerOffsets alignWindow nWorkers i := by
  have hnpos : (0 : Int) < (nWorkers : Int) := by exact_mod_cast hn
  obtain ⟨i, q, hi, ho⟩ : ∃ i q : ℕ, i < nWorkers ∧
      o = (-alignWindow + (i : Int)) + (q : Int) * (nWorkers : Int) := by
    refine ⟨((o + alignWindow) % (nWorkers : Int)).toNat,
      ((o + alignWindow) / (nWorkers : Int)).toNat, ?_, ?_⟩
    · have := Int.emod_lt_of_pos (o + alignWindow) hnpos
      have := Int.emod_nonneg (o + alignWindow) (ne_of_gt hnpos)
      omega
    · have hq : 0 ≤ (o + alignWindow) / (nWorkers : Int) := Int.ediv_nonneg (by linarith) hnpos.le
      have hdecomp := Int.emod_add_ediv (o + alignWindow) (nWorkers : Int)
      rw [Int.toNat_of_nonneg (Int.emod_nonneg _ (ne_of_gt hnpos)), Int.toNat_of_nonneg hq]
      linarith [mul_comm ((o + alignWindow) / (nWorkers : Int)) (nWorkers : Int)]
  refine ⟨i, hi, ?_⟩
  have hn' : (1 : Int) ≤ (nWorkers : Int) := by exact_mod_cast hn
  have key := visited_mem alignWindow (nWorkers : Int) hn'
    (alignWindow - (-alignWindow + (i : Int))).toNat (-alignWindow + (i : Int)) le_rfl q
    (by rw [← ho]; exact h2)
  rw [← ho] at key
  exact key

end SearchLemmas
end Keytap

namespace Keytap
section MainKernel
open Finset
variable {F : Type} [LinearOrderedField F]

theorem calcCC_eq_nccVal (sqrt : F → F) (A B : TKeyWaveform F) (is00 e is0 is1 : Int)
    (hlen : e - is00 = is1 - is0) (hle : is0 ≤ is1) :
    calcCC sqrt A B (calcSum A is00 e).1 (calcSum A is00 e).2 is00 is0 is1 =
      nccVal sqrt (fun j => sampleAt A (is00 + (j : Int))) (fun j => sampleAt B (is0 + (j : Int)))
        (is1 - is0).toNat := by
  have hc : ((is1 - is0 : ℤ) : F) = (((is1 - is0).toNat : ℕ) : F) := by
    have h := Int.toNat_of_nonneg (sub_nonneg.2 hle)
    have h2 : (((is1 - is0).toNat : ℤ) : F) = ((is1 - is0 : ℤ) : F) := by rw [h]
    rw [← h2, Int.cast_natCast]
  unfold calcCC nccVal covN
  rw [calcSum_eq, calcCCSums_eq]
  simp only [hlen]
  rw [hc]

theorem ccAt_eq_nccVal (sqrt : F → F) (A B : TKeyWaveform F) (is0 is1 o : Int) (hle : is0 ≤ is1) :
    ccAt sqrt A B is0 is1 o =
      nccVal sqrt
        (fun j => sampleAt A (((A.length : Int) / 2 - Int.tdiv (is1 - is0) 2) + (j : Int)))
        (fun j => sampleAt B (is0 + o + (j : Int))) (is1 - is0).toNat := by
  unfold ccAt
  simp only []
  have h := calcCC_eq_nccVal sqrt A B ((A.length : Int) / 2 - Int.tdiv (is1 - is0) 2)
    ((A.length : Int) / 2 - Int.tdiv (is1 - is0) 2 + is1 - is0) (is0 + o) (is1 + o)
    (by ring) (by linarith)
  rw [h]
  congr 1
  congr 1
  ring

theorem findBestCC_eq_foldl (sqrt : F → F) (nWorkers : Nat) (order : List Nat)
    (A B : TKeyWaveform F) (is0 is1 alignWindow : Int) :
    findBestCC sqrt nWorkers order A B is0 is1 alignWindow =
      order.foldl (keepBest (workerBest (ccAt sqrt A B is0 is1) alignWindow nWorkers))
        (TValueCC.fin (-1), -1) := rfl

theorem workerBest_eq_foldl (cc : Int → TValueCC F) (alignWindow : Int) (nWorkers i : Nat) :
    workerBest cc alignWindow nWorkers i =
      (workerOffsets alignWindow nWorkers i).foldl (keepBest (fun o => (cc o, o)))
        (TValueCC.fin (-1), -1) := by
  unfold workerBest workerOffsets
  exact scanOffsets_eq_foldl _ _ _ _ _ _

omit [LinearOrderedField F] in
theorem fin_ne_nan (x : F) : (TValueCC.fin x) ≠ TValueCC.nan := by
  intro h; cases h

/-- The two facts that determine the result of the search. -/
theorem search_char (cc : Int → TValueCC F) (alignWindow : Int) (nWorkers : Nat)
    (order : List Nat) (hn : 1 ≤ nWorkers) (hord : ∀ i < nWorkers, i ∈ order) :
    (order.foldl (keepBest (workerBest cc alignWindow nWorkers)) (TValueCC.fin (-1), -1)
        = (TValueCC.fin (-1), -1) ∨
      ∃ o, -alignWindow ≤ o ∧ o < alignWindow ∧
        order.foldl (keepBest (workerBest cc alignWindow nWorkers)) (TValueCC.fin (-1), -1)
          = (cc o, o) ∧ (cc o).gt (TValueCC.fin (-1)) = true) ∧
    (∀ o, -alignWindow ≤ o → o < alignWindow →
      (cc o).gt (order.foldl (keepBest (workerBest cc alignWindow nWorkers))
        (TValueCC.fin (-1), -1)).1 = false) ∧
    (order.foldl (keepBest (workerBest cc alignWindow nWorkers)) (TValueCC.fin (-1), -1)).1
      ≠ TValueCC.nan := by
  have hw : ∀ i, _ := fun i =>
    foldl_keepBest (fun o => (cc o, o)) (workerOffsets alignWindow nWorkers i)
      (TValueCC.fin (-1), -1) (fin_ne_nan _)
  obtain ⟨h1, h2, h3, _⟩ := foldl_keepBest (workerBest cc alignWindow nWorkers) order
    (TValueCC.fin (-1), -1) (fin_ne_nan _)
  refine ⟨?_, ?_, h3⟩
  · rcases h1 with h1 | ⟨i, _, h1, h1'⟩
    · exact Or.inl h1
    · rw [h1]
      rw [workerBest_eq_foldl] at h1' ⊢
      rcases (hw i).1 with h4 | ⟨o, ho, h4, h4'⟩
      · exact Or.inl h4
      · obtain ⟨hb1, hb2, _⟩ := workerOffsets_bounds alignWindow nWorkers i o ho
        exact Or.inr ⟨o, hb1, hb2, h4, h4'⟩
  · intro o ho1 ho2
    obtain ⟨i, hi, hmem⟩ := workerOffsets_cover alignWindow nWorkers hn o ho1 ho2
    have hi2 := h2 i (hord i hi)
    have hi3 := (hw i).2.1 o hmem
    have hi4 := (hw i).2.2.1
    rw [← workerBest_eq_foldl] at hi3 hi4
    by_contra hc
    rcases TValueCC.gt_cotrans (by simpa using hc) hi4 with h | h
    · simp only [] at hi3; rw [hi3] at h; exact Bool.noConfusion h
    · rw [hi2] at h; exact Bool.noConfusion h

theorem workerOffsets_perm (alignWindow : Int) (nWorkers : Nat) (hn : 1 ≤ nWorkers) :
    ((List.range nWorkers).flatMap (workerOffsets alignWindow nWorkers)).Perm
      ((List.range (2 * alignWindow).toNat).map (fun t : ℕ => -alignWindow + (t : Int))) := by
  have hnpos : (0 : Int) < (nWorkers : Int) := by exact_mod_cast hn
  have hres : ∀ i < nWorkers, ∀ x ∈ workerOffsets alignWindow nWorkers i,
      (x + alignWindow) % (nWorkers : Int) = (i : Int) := by
    intro i hi x hx
    obtain ⟨_, _, j, hj⟩ := workerOffsets_bounds alignWindow nWorkers i x hx
    have : x + alignWindow = (i : Int) + (j : Int) * (nWorkers : Int) := by rw [hj]; ring
    rw [this, Int.add_mul_emod_self]
    exact Int.emod_eq_of_lt (Int.ofNat_nonneg _) (by exact_mod_cast hi)
  rw [List.perm_ext_iff_of_nodup]
  · intro x
    simp only [List.mem_flatMap, List.mem_range, List.mem_map]
    constructor
    · rintro ⟨i, _, hx⟩
      obtain ⟨h1, h2, _⟩ := workerOffsets_bounds alignWindow nWorkers i x hx
      refine ⟨(x + alignWindow).toNat, by omega, by omega⟩
    · rintro ⟨t, ht, rfl⟩
      obtain ⟨i, hi, hmem⟩ := workerOffsets_cover alignWindow nWorkers hn
        (-alignWindow + (t : Int)) (by omega) (by omega)
      exact ⟨i, hi, hmem⟩
  · rw [List.nodup_flatMap]
    refine ⟨?_, ?_⟩
    · intro i _
      exact (visited_sorted alignWindow nWorkers (by exact_mod_cast hn) _ _).imp ne_of_lt
    · apply List.Nodup.pairwise_of_forall_ne (List.nodup_range _)
      intro i hi j hj hij
      simp only [Function.onFun]
      intro x hx1 hx2
      have e1 := hres i (List.mem_range.1 hi) x hx1
      have e2 := hres j (List.mem_range.1 hj) x hx2
      apply hij
      exact_mod_cast e1.symm.trans e2
  · apply List.Nodup.map _ (List.nodup_range _)
    intro a b hab
    simp only [add_right_inj] at hab
    exact_mod_cast hab

end MainKernel
end Keytap

/-! ## Windows -/

namespace Keytap
section WindowLemmas
open Finset
variable {F : Type} [LinearOrderedField F]

theorem covN_congr {a a' b b' : ℕ → F} {n : ℕ} (ha : ∀ j < n, a j = a' j)
    (hb : ∀ j < n, b j = b' j) : covN a b n = covN a' b' n := by
  unfold covN
  rw [Finset.sum_congr rfl (fun j hj => by rw [ha j (mem_range.1 hj), hb j (mem_range.1 hj)]),
    Finset.sum_congr rfl (fun j hj => ha j (mem_range.1 hj)),
    Finset.sum_congr rfl (fun j hj => hb j (mem_range.1 hj))]

theorem nccVal_congr (sqrt : F → F) {a a' b b' : ℕ → F} {n : ℕ} (ha : ∀ j < n, a j = a' j)
    (hb : ∀ j < n, b j = b' j) : nccVal sqrt a b n = nccVal sqrt a' b' n := by
  unfold nccVal
  rw [covN_congr ha hb, covN_congr ha ha, covN_congr hb hb]

theorem isSqrt_real : IsSqrt Real.sqrt :=
  fun x hx => ⟨Real.sqrt_nonneg x, Real.mul_self_sqrt hx⟩

end WindowLemmas
end Keytap

/-! ## The correlation kernel: results -/

namespace Keytap
section Claims
variable {F : Type} [LinearOrderedField F]

theorem ccAt_range (sqrt : F → F) (hs : IsSqrt sqrt) (A B : TKeyWaveform F) (is0 is1 o : Int)
    (hle : is0 ≤ is1) :
    ccAt sqrt A B is0 is1 o = TValueCC.nan ∨
      ∃ x : F, ccAt sqrt A B is0 is1 o = TValueCC.fin x ∧ -1 ≤ x ∧ x ≤ 1 := by
  rw [ccAt_eq_nccVal sqrt A B is0 is1 o hle]
  exact nccVal_range sqrt hs _ _ _

/-- The result of `findBestCC` is the start value or an offset of the scan that beats it, and
no offset of the scan beats the result. -/
theorem findBestCC_char (sqrt : F → F) (nWorkers : Nat) (order : List Nat)
    (A B : TKeyWaveform F) (is0 is1 alignWindow : Int) (hn : 1 ≤ nWorkers)
    (hord : order.Perm (List.range nWorkers)) :
    (findBestCC sqrt nWorkers order A B is0 is1 alignWindow = (TValueCC.fin (-1), -1) ∨
      ∃ o, -alignWindow ≤ o ∧ o < alignWindow ∧
        findBestCC sqrt nWorkers order A B is0 is1 alignWindow = (ccAt sqrt A B is0 is1 o, o) ∧
        (ccAt sqrt A B is0 is1 o).gt (TValueCC.fin (-1)) = true) ∧
    (∀ o, -alignWindow ≤ o → o < alignWindow →
      (ccAt sqrt A B is0 is1 o).gt
        (findBestCC sqrt nWorkers order A B is0 is1 alignWindow).1 = false) := by
  rw [findBestCC_eq_foldl]
  have h := search_char (ccAt sqrt A B is0 is1) alignWindow nWorkers order hn
    (fun i hi => (hord.mem_iff).2 (List.mem_range.2 hi))
  exact ⟨h.1, h.2.1⟩

theorem findBestCC_unique (sqrt : F → F) (nWorkers nWorkers' : Nat) (order order' : List Nat)
    (A B : TKeyWaveform F) (is0 is1 alignWindow : Int) (hn : 1 ≤ nWorkers)
    (hord : order.Perm (List.range nWorkers)) (hn' : 1 ≤ nWorkers')
    (hord' : order'.Perm (List.range nWorkers')) :
    (findBestCC sqrt nWorkers' order' A B is0 is1 alignWindow).1 =
      (findBestCC sqrt nWorkers order A B is0 is1 alignWindow).1 := by
  obtain ⟨h1, h2⟩ := findBestCC_char sqrt nWorkers order A B is0 is1 alignWindow hn hord
  obtain ⟨h1', h2'⟩ := findBestCC_char sqrt nWorkers' order' A B is0 is1 alignWindow hn' hord'
  rcases h1 with h1 | ⟨o, ho1, ho2, h1, hgt⟩
  · rcases h1' with h1' | ⟨o', ho1', ho2', h1', hgt'⟩
    · rw [h1, h1']
    · have := h2 o' ho1' ho2'
      rw [h1] at this
      rw [hgt'] at this; exact Bool.noConfusion this
  · rcases h1' with h1' | ⟨o', ho1', ho2', h1', hgt'⟩
    · have := h2' o ho1 ho2
      rw [h1'] at this
      rw [hgt] at this; exact Bool.noConfusion this
    · have e1 := h2 o' ho1' ho2'
      have e2 := h2' o ho1 ho2
      rw [h1] at e1 ⊢
      rw [h1'] at e2 ⊢
      exact TValueCC.eq_of_not_gt (TValueCC.ne_nan_of_gt hgt') (TValueCC.ne_nan_of_gt hgt)
        (TValueCC.ne_ninf_of_gt hgt') (TValueCC.ne_ninf_of_gt hgt) e1 e2

end Claims
end Keytap

namespace Keytap
section Claims2
variable {F : Type} [LinearOrderedField F]

/-- C6 (amended): the correlation of a pair of windows does not depend on which of the two
waveforms is passed first; in particular the correlation returned by `findBestCC A B`, when some
offset scores above `-1`, is the correlation of the window of `B` at the returned offset taken as
the first argument and the centred window of `A` taken as the second. -/
theorem calcCC_swap (sqrt : F → F) (nWorkers : Nat) (order : List Nat)
    (A B : TKeyWaveform F) (m alignWindow i j n : Int)
    (hlen : A.length = B.length) (hm : 0 < m)
    (hb0 : 0 ≤ (A.length : Int) / 2 - m - alignWindow)
    (hb1 : (A.length : Int) / 2 + m + alignWindow - 1 ≤ (A.length : Int))
    (hal : 1 ≤ alignWindow)
    (hn : 1 ≤ nWorkers) (hord : order.Perm (List.range nWorkers))
    (hnn : 0 ≤ n) (hA : InBounds A i (i + n)) (hB : InBounds B j (j + n)) :
    calcCC sqrt A B (calcSum A i (i + n)).1 (calcSum A i (i + n)).2 i j (j + n) =
      calcCC sqrt B A (calcSum B j (j + n)).1 (calcSum B j (j + n)).2 j i (i + n) ∧
    ((∃ o, -alignWindow ≤ o ∧ o < alignWindow ∧
        (ccAt sqrt A B ((A.length : Int) / 2 - m) ((A.length : Int) / 2 + m) o).gt
          (TValueCC.fin (-1)) = true) →
      (findBestCC sqrt nWorkers order A B ((A.length : Int) / 2 - m)
          ((A.length : Int) / 2 + m) alignWindow).1 =
        calcCC sqrt B A
          (calcSum B ((A.length : Int) / 2 - m + (findBestCC sqrt nWorkers order A B
            ((A.length : Int) / 2 - m) ((A.length : Int) / 2 + m) alignWindow).2)
            ((A.length : Int) / 2 + m + (findBestCC sqrt nWorkers order A B
            ((A.length : Int) / 2 - m) ((A.length : Int) / 2 + m) alignWindow).2)).1
          (calcSum B ((A.length : Int) / 2 - m + (findBestCC sqrt nWorkers order A B
            ((A.length : Int) / 2 - m) ((A.length : Int) / 2 + m) alignWindow).2)
            ((A.length : Int) / 2 + m + (findBestCC sqrt nWorkers order A B
            ((A.length : Int) / 2 - m) ((A.length : Int) / 2 + m) alignWindow).2)).2
          ((A.length : Int) / 2 - m + (findBestCC sqrt nWorkers order A B
            ((A.length : Int) / 2 - m) ((A.length : Int) / 2 + m) alignWindow).2)
          ((A.length : Int) / 2 - m) ((A.length : Int) / 2 + m)) := by
  have hswap : ∀ (i j n : Int), 0 ≤ n →
      calcCC sqrt A B (calcSum A i (i + n)).1 (calcSum A i (i + n)).2 i j (j + n) =
        calcCC sqrt B A (calcSum B j (j + n)).1 (calcSum B j (j + n)).2 j i (i + n) := by
    intro i j n hnn
    rw [calcCC_eq_nccVal sqrt A B i _ j _ (by ring) (by linarith),
      calcCC_eq_nccVal sqrt B A j _ i _ (by ring) (by linarith), nccVal_comm]
    congr 1
    ring_nf
  refine ⟨hswap i j n hnn, ?_⟩
  rintro ⟨o, ho1, ho2, hgt⟩
  obtain ⟨h1, h2⟩ := findBestCC_char sqrt nWorkers order A B ((A.length : Int) / 2 - m)
    ((A.length : Int) / 2 + m) alignWindow hn hord
  have htd : Int.tdiv ((A.length : Int) / 2 + m - ((A.length : Int) / 2 - m)) 2 = m := by
    have : (A.length : Int) / 2 + m - ((A.length : Int) / 2 - m) = m * 2 := by ring
    rw [this]
    exact Int.mul_tdiv_cancel _ (by norm_num)
  rcases h1 with h1 | ⟨o', _, _, h1, _⟩
  · have := h2 o ho1 ho2
    rw [h1] at this
    rw [hgt] at this; exact Bool.noConfusion this
  · rw [h1]
    simp only []
    have e := hswap ((A.length : Int) / 2 - m) ((A.length : Int) / 2 - m + o') (2 * m)
      (by linarith)
    have e2 : (A.length : Int) / 2 - m + 2 * m = (A.length : Int) / 2 + m := by ring
    have e3 : (A.length : Int) / 2 - m + o' + 2 * m = (A.length : Int) / 2 + m + o' := by ring
    rw [e2, e3] at e
    rw [← e]
    unfold ccAt
    simp only [htd]
    have e4 : (A.length : Int) / 2 - m + ((A.length : Int) / 2 + m) - ((A.length : Int) / 2 - m)
        = (A.length : Int) / 2 + m := by ring
    rw [e4]

end Claims2
end Keytap

namespace Keytap
section Claims3
open Finset
variable {F : Type} [LinearOrderedField F]

theorem nan_gt (c : TValueCC F) : (TValueCC.nan : TValueCC F).gt c = false := by
  cases c <;> rfl

theorem findBestCC_finite (sqrt : F → F) (hs : IsSqrt sqrt) (nWorkers : Nat) (order : List Nat)
    (A B : TKeyWaveform F) (is0 is1 alignWindow : Int) (hle : is0 ≤ is1) :
    ∃ x : F, (findBestCC sqrt nWorkers order A B is0 is1 alignWindow).1 = TValueCC.fin x ∧
      -1 ≤ x ∧ x ≤ 1 := by
  rw [findBestCC_eq_foldl]
  have hinit : ∃ x : F, ((TValueCC.fin (-1), -1) : TValueCC F × TOffset).1 = TValueCC.fin x ∧
      -1 ≤ x ∧ x ≤ 1 := ⟨-1, rfl, le_rfl, by norm_num⟩
  have hw : ∀ i, ∃ x : F, (workerBest (ccAt sqrt A B is0 is1) alignWindow nWorkers i).1
      = TValueCC.fin x ∧ -1 ≤ x ∧ x ≤ 1 := by
    intro i
    rw [workerBest_eq_foldl]
    rcases (foldl_keepBest (fun o => (ccAt sqrt A B is0 is1 o, o))
      (workerOffsets alignWindow nWorkers i) (TValueCC.fin (-1), -1) (fin_ne_nan _)).1
      with h | ⟨o, _, h, hgt⟩
    · rw [h]; exact hinit
    · rw [h]
      rcases ccAt_range sqrt hs A B is0 is1 o hle with h' | h'
      · simp only [] at hgt
        rw [h', nan_gt] at hgt
        exact Bool.noConfusion hgt
      · exact h'
  rcases (foldl_keepBest (workerBest (ccAt sqrt A B is0 is1) alignWindow nWorkers) order
    (TValueCC.fin (-1), -1) (fin_ne_nan _)).1 with h | ⟨i, _, h, _⟩
  · rw [h]; exact hinit
  · rw [h]; exact hw i

end Claims3
end Keytap

/-! ## Concrete inputs -/

namespace Keytap
section Concrete

theorem toNat_lit0 : Int.toNat 0 = 0 := rfl
theorem toNat_lit1 : Int.toNat 1 = 1 := rfl
theorem toNat_lit2 : Int.toNat 2 = 2 := rfl
theorem toNat_lit3 : Int.toNat 3 = 3 := rfl

theorem centre_four (w : List ℝ) (h : w.length = 4) :
    (w.length : Int) / 2 - Int.tdiv (3 - 1) 2 = 1 := by
  rw [h]; decide

theorem cc_ramp_peak_m1 :
    ccAt Real.sqrt ([0, 1, 2, 0] : List ℝ) [0, 1, 0, 0] 1 3 (-1) = TValueCC.fin 1 := by
  rw [ccAt_eq_nccVal _ _ _ _ _ _ (by norm_num), centre_four _ (by rfl)]
  have h3 : ((3 : Int) - 1).toNat = 2 := by decide
  rw [h3]
  norm_num [nccVal, covN, Finset.sum_range_succ, sampleAt, fsqrt, fdiv, toNat_lit0, toNat_lit1,
    toNat_lit2, toNat_lit3]

theorem cc_ramp_peak_0 :
    ccAt Real.sqrt ([0, 1, 2, 0] : List ℝ) [0, 1, 0, 0] 1 3 0 = TValueCC.fin (-1) := by
  rw [ccAt_eq_nccVal _ _ _ _ _ _ (by norm_num), centre_four _ (by rfl)]
  have h3 : ((3 : Int) - 1).toNat = 2 := by decide
  rw [h3]
  norm_num [nccVal, covN, Finset.sum_range_succ, sampleAt, fsqrt, fdiv, toNat_lit0, toNat_lit1,
    toNat_lit2, toNat_lit3]

theorem cc_peak_ramp_m1 :
    ccAt Real.sqrt ([0, 1, 0, 0] : List ℝ) [0, 1, 2, 0] 1 3 (-1) = TValueCC.fin (-1) := by
  rw [ccAt_eq_nccVal _ _ _ _ _ _ (by norm_num), centre_four _ (by rfl)]
  have h3 : ((3 : Int) - 1).toNat = 2 := by decide
  rw [h3]
  norm_num [nccVal, covN, Finset.sum_range_succ, sampleAt, fsqrt, fdiv, toNat_lit0, toNat_lit1,
    toNat_lit2, toNat_lit3]

theorem cc_peak_ramp_0 :
    ccAt Real.sqrt ([0, 1, 0, 0] : List ℝ) [0, 1, 2, 0] 1 3 0 = TValueCC.fin (-1) := by
  rw [ccAt_eq_nccVal _ _ _ _ _ _ (by norm_num), centre_four _ (by rfl)]
  have h3 : ((3 : Int) - 1).toNat = 2 := by decide
  rw [h3]
  norm_num [nccVal, covN, Finset.sum_range_succ, sampleAt, fsqrt, fdiv, toNat_lit0, toNat_lit1,
    toNat_lit2, toNat_lit3]

theorem best_ramp_peak :
    findBestCC Real.sqrt 1 [0] ([0, 1, 2, 0] : List ℝ) [0, 1, 0, 0] 1 3 1
      = (TValueCC.fin 1, -1) := by
  rw [findBestCC_eq_foldl]
  norm_num [keepBest, workerBest, scanOffsets, cc_ramp_peak_m1, cc_ramp_peak_0, TValueCC.gt]

theorem best_peak_ramp :
    findBestCC Real.sqrt 1 [0] ([0, 1, 0, 0] : List ℝ) [0, 1, 2, 0] 1 3 1
      = (TValueCC.fin (-1), -1) := by
  rw [findBestCC_eq_foldl]
  norm_num [keepBest, workerBest, scanOffsets, cc_peak_ramp_m1, cc_peak_ramp_0, TValueCC.gt]

theorem inBounds_of_length_four (w : List ℝ) (h : w.length = 4) (s e : Int) (hs : 0 ≤ s)
    (he : e ≤ 4) : InBounds w s e := by
  unfold InBounds
  rw [h]
  exact ⟨hs, by exact_mod_cast he⟩

/-- C6, counterexample: `findBestCC A B` returns `(1, -1)` while `findBestCC B A` returns
`(-1, -1)`, not `(1, 1)`. -/
theorem findBestCC_swap_fails :
    findBestCC Real.sqrt 1 [0] ([0, 1, 2, 0] : List ℝ) [0, 1, 0, 0] 1 3 1
        = (TValueCC.fin 1, -1) ∧
      findBestCC Real.sqrt 1 [0] ([0, 1, 0, 0] : List ℝ) [0, 1, 2, 0] 1 3 1
        = (TValueCC.fin (-1), -1) ∧
      findBestCC Real.sqrt 1 [0] ([0, 1, 0, 0] : List ℝ) [0, 1, 2, 0] 1 3 1
        ≠ (TValueCC.fin 1, -(-1)) := by
  refine ⟨best_ramp_peak, best_peak_ramp, ?_⟩
  rw [best_peak_ramp]
  intro h
  have := congrArg Prod.snd h
  norm_num at this

/-- C6, witness. -/
theorem calcCC_swap_witness :
    calcCC Real.sqrt ([0, 1, 2, 0] : List ℝ) [0, 1, 0, 0]
        (calcSum ([0, 1, 2, 0] : List ℝ) 1 (1 + 2)).1
        (calcSum ([0, 1, 2, 0] : List ℝ) 1 (1 + 2)).2 1 0 (0 + 2) =
      calcCC Real.sqrt ([0, 1, 0, 0] : List ℝ) [0, 1, 2, 0]
        (calcSum ([0, 1, 0, 0] : List ℝ) 0 (0 + 2)).1
        (calcSum ([0, 1, 0, 0] : List ℝ) 0 (0 + 2)).2 0 1 (1 + 2) :=
  (calcCC_swap Real.sqrt 1 [0] ([0, 1, 2, 0] : List ℝ) [0, 1, 0, 0] 1 1 1 0 2 rfl (by norm_num)
    (by decide) (by decide) le_rfl le_rfl (by decide) (by norm_num)
    (inBounds_of_length_four _ (by rfl) _ _ (by norm_num) (by norm_num))
    (inBounds_of_length_four _ (by rfl) _ _ (by norm_num) (by norm_num))).1

end Concrete
end Keytap

/-! ## The ring buffer: results -/

namespace Keytap
section RingLemmas
variable {F : Type} [LinearOrderedField F]

theorem rbUpdate_eq (rb : RingBuffer F) (frames : Record F) :
    rbUpdate rb frames = (frames.flatMap (fun frame => frame)).foldl rbPush rb := by
  unfold rbUpdate
  induction frames generalizing rb with
  | nil => rfl
  | cons f fs ih =>
    simp only [List.foldl_cons, List.flatMap_cons, List.foldl_append]
    exact ih _

theorem rbRun_eq (rb : RingBuffer F) (records : List (Record F)) :
    records.foldl rbUpdate rb =
      (records.flatMap (fun frames => frames.flatMap (fun frame => frame))).foldl rbPush rb := by
  induction records generalizing rb with
  | nil => rfl
  | cons r rs ih =>
    simp only [List.foldl_cons, List.flatMap_cons, List.foldl_append]
    rw [ih, rbUpdate_eq]

theorem sum_set (l : List F) (i : ℕ) (v : F) (h : i < l.length) :
    (l.set i v).sum = l.sum - l.getD i 0 + v := by
  induction l generalizing i with
  | nil => simp at h
  | cons x l ih =>
    cases i with
    | zero => simp; ring
    | succ i =>
      simp only [List.set_cons_succ, List.sum_cons, List.getD_cons_succ]
      rw [ih i (by simpa using h)]
      ring

/-- The state of the ring buffer after the values `xs` were pushed into the start state. -/
theorem ring_state (xs : List F) :
    ((xs.foldl rbPush rbInit).rbSamples.length = kRingBufferSize ∧
      (xs.foldl rbPush rbInit).rbBegin = ((xs.length % kRingBufferSize : ℕ) : Int) ∧
      (xs.foldl rbPush rbInit).rbAverage =
        (xs.foldl rbPush rbInit).rbSamples.sum / (kRingBufferSize : F) ∧
      (∀ x ∈ (xs.foldl rbPush rbInit).rbSamples, (0 : F) ≤ x) ∧
      ∀ j < kRingBufferSize,
        (xs.foldl rbPush rbInit).rbSamples.getD ((xs.length + j) % kRingBufferSize) 0 =
          ((xs.map (fun x => |x|)).reverse).getD (kRingBufferSize - 1 - j) 0) := by
  have hC : 0 < kRingBufferSize := by decide
  have hC1 : 1 % kRingBufferSize = 1 := by decide
  have hCF : (kRingBufferSize : F) ≠ 0 := Nat.cast_ne_zero.2 (ne_of_gt hC)
  induction xs using List.reverseRecOn with
  | nil =>
    refine ⟨by simp [rbInit], by simp [rbInit], by simp [rbInit], ?_, ?_⟩
    · intro x hx
      simp only [List.foldl_nil, rbInit] at hx
      rw [List.eq_of_mem_replicate hx]
    · intro j _
      simp only [List.foldl_nil, rbInit, List.map_nil, List.reverse_nil, List.getD_nil]
      rw [List.getD_eq_getElem?_getD, List.getElem?_replicate]
      split_ifs <;> rfl
  | append_singleton xs x ih =>
    obtain ⟨h1, h2, h3, h4, h5⟩ := ih
    rw [List.foldl_append, List.foldl_cons, List.foldl_nil]
    generalize xs.foldl rbPush rbInit = rb at h1 h2 h3 h4 h5
    obtain ⟨b, hbdef⟩ : ∃ b : ℕ, b = xs.length % kRingBufferSize := ⟨_, rfl⟩
    rw [← hbdef] at h2
    have hb : b < kRingBufferSize := by rw [hbdef]; exact Nat.mod_lt _ hC
    have hnext : (xs.length + 1) % kRingBufferSize = (b + 1) % kRingBufferSize := by
      rw [Nat.add_mod, hC1, ← hbdef]
    have htn : rb.rbBegin.toNat = b := by rw [h2]; exact Int.toNat_ofNat b
    have hset : (rbPush rb x).rbSamples = rb.rbSamples.set b |x| := by
      simp only [rbPush, htn]
    refine ⟨?_, ?_, ?_, ?_, ?_⟩
    · rw [hset, List.length_set, h1]
    · rw [List.length_append, List.length_singleton, hnext]
      simp only [rbPush, h1, h2]
      by_cases hw : b + 1 = kRingBufferSize
      · have hge : (b : Int) + 1 ≥ (kRingBufferSize : Int) := by
          have : ((b + 1 : ℕ) : Int) = (kRingBufferSize : Int) := by rw [hw]
          push_cast at this
          omega
        rw [if_pos hge, hw, Nat.mod_self]
        rfl
      · have hlt : b + 1 < kRingBufferSize := by omega
        have hnge : ¬ (b : Int) + 1 ≥ (kRingBufferSize : Int) := by
          have : ((b + 1 : ℕ) : Int) < (kRingBufferSize : Int) := by exact_mod_cast hlt
          push_cast at this
          omega
        rw [if_neg hnge, Nat.mod_eq_of_lt hlt]
        push_cast
        rfl
    · rw [hset, sum_set _ _ _ (by rw [h1]; exact hb)]
      have hread : sampleAt rb.rbSamples rb.rbBegin = rb.rbSamples.getD b 0 := by
        unfold sampleAt
        rw [htn, h2, if_pos (Int.ofNat_nonneg b)]
      simp only [rbPush, hread, h1, h3]
      field_simp
    · intro y hy
      rw [hset] at hy
      rcases List.mem_or_eq_of_mem_set hy with hy | hy
      · exact h4 y hy
      · rw [hy]; exact abs_nonneg x
    · intro j hj
      rw [hset, List.length_append, List.length_singleton, List.map_append, List.reverse_append]
      simp only [List.map_cons, List.map_nil, List.reverse_cons, List.reverse_nil, List.nil_append,
        List.singleton_append]
      by_cases hjl : j = kRingBufferSize - 1
      · have hidx : (xs.length + 1 + j) % kRingBufferSize = b := by
          have : xs.length + 1 + j = xs.length + kRingBufferSize := by omega
          rw [this, Nat.add_mod_right, hbdef]
        have h0 : kRingBufferSize - 1 - j = 0 := by omega
        rw [hidx, h0, List.getD_cons_zero, List.getD_eq_getElem?_getD,
          List.getElem?_set_self (by rw [h1]; exact hb)]
        rfl
      · have hj1 : j + 1 < kRingBufferSize := by omega
        have hne : b ≠ (xs.length + 1 + j) % kRingBufferSize := by
          intro hc
          have hm : xs.length + 0 ≡ xs.length + (j + 1) [MOD kRingBufferSize] := by
            unfold Nat.ModEq
            rw [Nat.add_zero, ← hbdef, hc]
            congr 1
            omega
          have := Nat.ModEq.add_left_cancel' _ hm
          unfold Nat.ModEq at this
          rw [Nat.zero_mod, Nat.mod_eq_of_lt hj1] at this
          omega
        have hs : kRingBufferSize - 1 - j = (kRingBufferSize - 1 - (j + 1)) + 1 := by omega
        rw [hs, List.getD_cons_succ, ← h5 (j + 1) hj1, List.getD_eq_getElem?_getD,
          List.getElem?_set_ne hne, ← List.getD_eq_getElem?_getD]
        congr 2
        omega

end RingLemmas
end Keytap

namespace Keytap
section RingClaims
variable {F : Type} [LinearOrderedField F]

theorem rbReach_eq (records : List (Record F)) (xs : List F) :
    rbReach records xs =
      ((records.flatMap (fun frames => frames.flatMap (fun frame => frame))) ++ xs).foldl
        rbPush rbInit := by
  unfold rbReach
  rw [rbRun_eq, List.foldl_append]

theorem sum_eq_of_forall_getD (l : List F) (x : F) (h : ∀ i < l.length, l.getD i 0 = x) :
    l.sum = (l.length : F) * x := by
  have : l = List.replicate l.length x := by
    apply List.ext_getElem (by simp)
    intro i h1 h2
    have := h i h1
    rw [List.getD_eq_getElem?_getD, List.getElem?_eq_getElem h1] at this
    simpa using this
  rw [this, List.sum_replicate]
  simp

/-- Idealised arithmetic: in the start state and after every push of the audio callback, the
capacity is
`kRingBufferSize`, `rbAverage` is the sum of the entries divided by `kRingBufferSize`, every
entry is non-negative, `rbBegin` is in `[0, kRingBufferSize)`, a push writes `|sample|` at
`rbBegin`, and the entry `j` places after `rbBegin` (cyclically) is the value pushed
`kRingBufferSize - j` pushes ago (or the initial `0`), so that `rbBegin` is the place of the
oldest entry. -/
theorem ring_invariant (records : List (Record F)) (xs : List F) :
    (rbReach records xs).rbSamples.length = kRingBufferSize ∧
    (rbReach records xs).rbAverage =
      (rbReach records xs).rbSamples.sum / (kRingBufferSize : F) ∧
    (∀ x ∈ (rbReach records xs).rbSamples, (0 : F) ≤ x) ∧
    (0 ≤ (rbReach records xs).rbBegin ∧
      (rbReach records xs).rbBegin < (kRingBufferSize : Int)) ∧
    (∀ sample : F, (rbPush (rbReach records xs) sample).rbSamples =
      (rbReach records xs).rbSamples.set (rbReach records xs).rbBegin.toNat |sample|) ∧
    (∀ j : ℕ, j < kRingBufferSize →
      sampleAt (rbReach records xs).rbSamples
          (((rbReach records xs).rbBegin + (j : Int)) % (kRingBufferSize : Int)) =
        (pushedValues records xs).reverse.getD (kRingBufferSize - 1 - j) 0) := by
  have hC : 0 < kRingBufferSize := by decide
  rw [rbReach_eq]
  unfold pushedValues
  obtain ⟨h1, h2, h3, h4, h5⟩ :=
    ring_state ((records.flatMap (fun frames => frames.flatMap (fun frame => frame))) ++ xs)
  generalize (records.flatMap (fun frames => frames.flatMap (fun frame => frame))) ++ xs = ys
    at h1 h2 h3 h4 h5
  refine ⟨h1, h3, h4, ?_, fun _ => rfl, ?_⟩
  · rw [h2]
    exact ⟨Int.ofNat_nonneg _, by exact_mod_cast Nat.mod_lt _ hC⟩
  · intro j hj
    rw [← h5 j hj, h2]
    have e : ((ys.length % kRingBufferSize : ℕ) : Int) + (j : Int)
        = ((ys.length % kRingBufferSize + j : ℕ) : Int) := by push_cast; rfl
    rw [e, ← Int.natCast_mod]
    unfold sampleAt
    rw [if_pos (Int.ofNat_nonneg _), Int.toNat_ofNat, Nat.mod_add_mod]

/-- Idealised arithmetic: from every state reached by the ring buffer, `kRingBufferSize`
consecutive pushes of the same non-negative value `x` leave `rbAverage = x`. -/
theorem ring_mean_constant (records : List (Record F)) (xs : List F) (x : F) (hx : 0 ≤ x) :
    ((List.replicate kRingBufferSize x).foldl rbPush (rbReach records xs)).rbAverage = x := by
  have hC : 0 < kRingBufferSize := by decide
  have hCF : (kRingBufferSize : F) ≠ 0 := Nat.cast_ne_zero.2 (ne_of_gt hC)
  rw [rbReach_eq, ← List.foldl_append]
  obtain ⟨h1, _, h3, _, h5⟩ :=
    ring_state (((records.flatMap (fun frames => frames.flatMap (fun frame => frame))) ++ xs)
      ++ List.replicate kRingBufferSize x)
  generalize (records.flatMap (fun frames => frames.flatMap (fun frame => frame))) ++ xs = ys
    at h1 h3 h5
  rw [h3]
  have hall : ∀ i < (List.foldl rbPush rbInit
      (ys ++ List.replicate kRingBufferSize x)).rbSamples.length,
      (List.foldl rbPush rbInit (ys ++ List.replicate kRingBufferSize x)).rbSamples.getD i 0
        = x := by
    intro i hi
    rw [h1] at hi
    obtain ⟨r, hr⟩ : ∃ r, r = (ys ++ List.replicate kRingBufferSize x).length % kRingBufferSize :=
      ⟨_, rfl⟩
    have hrlt : r < kRingBufferSize := by rw [hr]; exact Nat.mod_lt _ hC
    have hj : (i + (kRingBufferSize - r)) % kRingBufferSize < kRingBufferSize := Nat.mod_lt _ hC
    have hidx : ((ys ++ List.replicate kRingBufferSize x).length
        + (i + (kRingBufferSize - r)) % kRingBufferSize) % kRingBufferSize = i := by
      rw [Nat.add_mod, Nat.mod_mod, ← hr, Nat.add_mod_mod]
      have : r + (i + (kRingBufferSize - r)) = i + kRingBufferSize := by omega
      rw [this, Nat.add_mod_right, Nat.mod_eq_of_lt hi]
    have := h5 _ hj
    rw [hidx] at this
    rw [this, List.map_append, List.reverse_append, List.map_replicate, List.reverse_replicate,
      List.getD_eq_getElem?_getD,
      List.getElem?_append_left (by rw [List.length_replicate]; omega),
      List.getElem?_replicate]
    rw [if_pos (by omega)]
    simp [abs_of_nonneg hx]
  rw [sum_eq_of_forall_getD _ x hall, h1]
  field_simp

end RingClaims
end Keytap

/-! ## The peak detector: results -/

namespace Keytap
section PeakLemmas
variable {F : Type} [LinearOrderedField F]

theorem dropWhile_eq_filter {α : Type} (p : α → Bool) (l : List α)
    (h : l.Pairwise (fun x y => p y = true → p x = true)) :
    l.dropWhile p = l.filter (fun x => !p x) := by
  induction l with
  | nil => rfl
  | cons x l ih =>
    rw [List.pairwise_cons] at h
    rw [List.dropWhile_cons, List.filter_cons]
    by_cases hx : p x = true
    · simp only [hx, if_true, Bool.not_true, Bool.false_eq_true, if_false]
      exact ih h.2
    · have hx' : p x = false := by simpa using hx
      have hall : ∀ y ∈ l, (!p y) = true := by
        intro y hy
        cases hpy : p y with
        | false => rfl
        | true => exact absurd (h.1 y hy hpy) hx
      simp only [hx', Bool.false_eq_true, if_false, Bool.not_false, if_true]
      rw [List.filter_eq_self.2 hall]

theorem rdropWhile_eq_filter {α : Type} (p : α → Bool) (l : List α)
    (h : l.Pairwise (fun x y => p x = true → p y = true)) :
    l.rdropWhile p = l.filter (fun x => !p x) := by
  induction l using List.reverseRecOn with
  | nil => rfl
  | append_singleton l x ih =>
    rw [List.pairwise_append] at h
    rw [List.rdropWhile_concat, List.filter_append]
    by_cases hx : p x = true
    · simp only [hx, if_true]
      rw [ih h.1]
      simp [hx]
    · have hx' : p x = false := by simpa using hx
      have hall : ∀ y ∈ l, (!p y) = true := by
        intro y hy
        cases hpy : p y with
        | false => rfl
        | true => exact absurd (h.2.2 y hy x (List.mem_singleton_self x) hpy) hx
      simp only [hx', Bool.false_eq_true, if_false]
      rw [List.filter_eq_self.2 hall]
      simp [hx']

/-- The deque pops and the push keep the invariant. -/
theorem queInv_push (a : Int → F) (k i : Int) (hk : 1 ≤ k) (hi : 0 ≤ i) (q q0 : List Int)
    (hpw : q0.Pairwise (fun x y => x < y ∧ a y < a x))
    (hmem : ∀ x ∈ q0, i - k < x ∧ 0 ≤ x ∧ x < i)
    (hdom : ∀ j, i - k < j → 0 ≤ j → j < i → ∃ x ∈ q0, j ≤ x ∧ a j ≤ a x)
    (hq : q = (q0.rdropWhile (fun j => decide (a i ≥ a j))) ++ [i]) :
    QueInv a k i q := by
  have hfil : q0.rdropWhile (fun j => decide (a i ≥ a j))
      = q0.filter (fun x => !(decide (a i ≥ a x))) := by
    apply rdropWhile_eq_filter
    refine hpw.imp ?_
    intro x y hxy hx
    simp only [decide_eq_true_eq, ge_iff_le] at hx ⊢
    exact le_trans hxy.2.le hx
  rw [hfil] at hq
  have hmf : ∀ x, x ∈ q0.filter (fun x => !(decide (a i ≥ a x))) ↔ x ∈ q0 ∧ a i < a x := by
    intro x
    rw [List.mem_filter]
    simp
  subst hq
  refine ⟨?_, ?_, ?_⟩
  · rw [List.pairwise_append]
    refine ⟨hpw.filter _, List.pairwise_singleton _ _, ?_⟩
    intro x hx y hy
    rw [List.mem_singleton] at hy
    subst hy
    rw [hmf] at hx
    exact ⟨(hmem x hx.1).2.2, hx.2⟩
  · intro x hx
    rw [List.mem_append, List.mem_singleton] at hx
    rcases hx with hx | rfl
    · rw [hmf] at hx
      have := hmem x hx.1
      exact ⟨this.1, this.2.1, this.2.2.le⟩
    · exact ⟨by omega, hi, le_rfl⟩
  · intro j hj1 hj2 hj3
    rcases hj3.lt_or_eq with hlt | heq
    · obtain ⟨x, hx, hjx, hax⟩ := hdom j hj1 hj2 hlt
      by_cases hc : a i < a x
      · exact ⟨x, List.mem_append_left _ ((hmf x).2 ⟨hx, hc⟩), hjx, hax⟩
      · exact ⟨i, List.mem_append_right _ (List.mem_singleton_self i), hj3,
          le_trans hax (not_lt.1 hc)⟩
    · subst heq
      exact ⟨j, List.mem_append_right _ (List.mem_singleton_self j), le_rfl, le_rfl⟩

theorem queInv_step (a : Int → F) (k i : Int) (hk : 1 ≤ k) (hi : 1 ≤ i) (q : List Int)
    (h : QueInv a k (i - 1) q) : QueInv a k i (queStep a k q i) := by
  obtain ⟨hpw, hmem, hdom⟩ := h
  unfold queStep
  by_cases hik : i < k
  · rw [if_pos hik]
    apply queInv_push a k i hk (by omega) _ q hpw _ _ rfl
    · intro x hx
      have := hmem x hx
      omega
    · intro j hj1 hj2 hj3
      exact hdom j (by omega) hj2 (by omega)
  · rw [if_neg hik]
    have hfil : q.dropWhile (fun j => decide (j ≤ i - k))
        = q.filter (fun x => !(decide (x ≤ i - k))) := by
      apply dropWhile_eq_filter
      refine hpw.imp ?_
      intro x y hxy hy
      simp only [decide_eq_true_eq] at hy ⊢
      omega
    have hmf : ∀ x, x ∈ q.filter (fun x => !(decide (x ≤ i - k))) ↔ x ∈ q ∧ i - k < x := by
      intro x
      rw [List.mem_filter]
      simp
    apply queInv_push a k i hk (by omega) _ (q.dropWhile (fun j => decide (j ≤ i - k))) _ _ _ rfl
    · rw [hfil]; exact hpw.filter _
    · intro x hx
      rw [hfil, hmf] at hx
      have := hmem x hx.1
      omega
    · intro j hj1 hj2 hj3
      obtain ⟨x, hx, hjx, hax⟩ := hdom j (by omega) hj2 (by omega)
      refine ⟨x, ?_, hjx, hax⟩
      rw [hfil, hmf]
      exact ⟨hx, by omega⟩

theorem queInv_first (a : Int → F) (k : Int) (hk : 1 ≤ k) :
    QueInv a k 0 (queStep a k (List.replicate k.toNat 0) 0) := by
  unfold queStep
  rw [if_pos (by omega)]
  have hnil : (List.replicate k.toNat (0 : Int)).rdropWhile (fun j => decide (a 0 ≥ a j)) = [] := by
    rw [List.rdropWhile_eq_nil_iff]
    intro x hx
    rw [List.eq_of_mem_replicate hx]
    simp
  rw [hnil]
  refine ⟨by simp, ?_, ?_⟩
  · intro x hx
    simp only [List.nil_append, List.mem_singleton] at hx
    subst hx
    omega
  · intro j hj1 hj2 hj3
    exact ⟨0, by simp, hj3, by rw [le_antisymm hj3 hj2]⟩

theorem peakRun_succ (a : Int → F) (k nFrames : Int) (thr avg : F) (n : Nat) :
    peakRun a k nFrames thr avg (n + 1) =
      peakStep a k nFrames thr avg (peakRun a k nFrames thr avg n) (n : Int) := by
  unfold peakRun
  rw [List.range_succ, List.foldl_append]
  rfl

theorem peakStep_que (a : Int → F) (k nFrames : Int) (thr avg : F) (st : PeakState) (i : Int) :
    (peakStep a k nFrames thr avg st i).que = queStep a k st.que i := by
  unfold peakStep
  simp only []
  split_ifs <;> rfl

/-- The deque after iteration `i` satisfies the invariant. -/
theorem peakRun_queInv (a : Int → F) (k nFrames : Int) (thr avg : F) (hk : 1 ≤ k) (n : Nat) :
    QueInv a k (n : Int) (peakRun a k nFrames thr avg (n + 1)).que := by
  induction n with
  | zero =>
    rw [peakRun_succ, peakStep_que]
    exact queInv_first a k hk
  | succ n ih =>
    rw [peakRun_succ, peakStep_que]
    apply queInv_step a k _ hk (by push_cast; omega)
    have e : ((n + 1 : ℕ) : Int) - 1 = (n : Int) := by push_cast; ring
    rw [e]
    exact ih

/-- Under the invariant, the front of the deque is the last index of the window at which the
amplitude is maximal. -/
theorem queInv_head (a : Int → F) (k i : Int) (q : List Int) (h : QueInv a k i q) (p : Int) :
    q.head? = some p ↔
      ((i - k < p ∧ 0 ≤ p ∧ p ≤ i) ∧
        (∀ j, i - k < j → 0 ≤ j → j ≤ i → a j ≤ a p) ∧
        (∀ j, p < j → j ≤ i → a j < a p)) := by
  obtain ⟨hpw, hmem, hdom⟩ := h
  constructor
  · intro hp
    obtain ⟨t, rfl⟩ := List.head?_eq_some_iff.1 hp
    rw [List.pairwise_cons] at hpw
    have hpm := hmem p (List.mem_cons_self _ _)
    refine ⟨hpm, ?_, ?_⟩
    · intro j hj1 hj2 hj3
      obtain ⟨x, hx, _, hax⟩ := hdom j hj1 hj2 hj3
      rcases List.mem_cons.1 hx with rfl | hx
      · exact hax
      · exact le_trans hax (hpw.1 x hx).2.le
    · intro j hj1 hj2
      obtain ⟨x, hx, hjx, hax⟩ := hdom j (by omega) (by omega) hj2
      rcases List.mem_cons.1 hx with rfl | hx
      · omega
      · exact lt_of_le_of_lt hax (hpw.1 x hx).2
  · rintro ⟨hpm, hmax, hlast⟩
    obtain ⟨x, hx, hpx, hax⟩ := hdom p hpm.1 hpm.2.1 hpm.2.2
    have hxp : x = p := by
      rcases hpx.lt_or_eq with hlt | heq
      · have := hlast x hlt (hmem x hx).2.2
        exact absurd hax (not_le.2 this)
      · exact heq.symm
    subst hxp
    cases q with
    | nil => simp at hx
    | cons y t =>
      rw [List.head?_cons]
      rcases List.mem_cons.1 hx with rfl | hx'
      · rfl
      · rw [List.pairwise_cons] at hpw
        have h1 := hpw.1 x hx'
        have hy := hmem y (List.mem_cons_self _ _)
        have := hmax y hy.1 hy.2.1 hy.2.2
        exact absurd this (not_le.2 h1.2)

/-- The positions collected by the first `n` iterations. -/
theorem peakRun_positions (a : Int → F) (k nFrames : Int) (thr avg : F) (n : Nat) (p : Int) :
    p ∈ (peakRun a k nFrames thr avg n).positionsToPredict ↔
      ∃ i : ℕ, i < n ∧ k ≤ (i : Int) ∧ p = (i : Int) - Int.tdiv k 2 ∧
        (2 * k ≤ p ∧ p < (nFrames - 2) * k) ∧
        (peakRun a k nFrames thr avg (i + 1)).que.head? = some p ∧
        thr * avg < a p := by
  induction n with
  | zero => simp [peakRun, peakInit]
  | succ n ih =>
    have hstep : p ∈ (peakRun a k nFrames thr avg (n + 1)).positionsToPredict ↔
        (p ∈ (peakRun a k nFrames thr avg n).positionsToPredict ∨
          (k ≤ (n : Int) ∧ p = (n : Int) - Int.tdiv k 2 ∧
            (2 * k ≤ p ∧ p < (nFrames - 2) * k) ∧
            (peakRun a k nFrames thr avg (n + 1)).que.head? = some p ∧ thr * avg < a p)) := by
      have hq := peakStep_que a k nFrames thr avg (peakRun a k nFrames thr avg n) (n : Int)
      rw [← peakRun_succ] at hq
      rw [hq]
      rw [peakRun_succ]
      unfold peakStep
      simp only []
      by_cases hik : (n : Int) < k
      · rw [if_pos hik]
        constructor
        · intro h; exact Or.inl h
        · rintro (h | h)
          · exact h
          · omega
      · rw [if_neg hik]
        by_cases hc : (n : Int) - Int.tdiv k 2 ≥ 2 * k ∧
            (n : Int) - Int.tdiv k 2 < (nFrames - 2) * k ∧
            (queStep a k (peakRun a k nFrames thr avg n).que (n : Int)).head?
              = some ((n : Int) - Int.tdiv k 2)
        · rw [if_pos hc]
          by_cases ht : a ((n : Int) - Int.tdiv k 2) > thr * avg
          · rw [if_pos ht]
            simp only [List.mem_append, List.mem_singleton]
            constructor
            · rintro (h | h)
              · exact Or.inl h
              · subst h
                exact Or.inr ⟨by omega, rfl, ⟨hc.1, hc.2.1⟩, hc.2.2, ht⟩
            · rintro (h | h)
              · exact Or.inl h
              · exact Or.inr h.2.1
          · rw [if_neg ht]
            constructor
            · intro h; exact Or.inl h
            · rintro (h | ⟨_, h2, _, _, h5⟩)
              · exact h
              · subst h2; exact absurd h5 ht
        · rw [if_neg hc]
          constructor
          · intro h; exact Or.inl h
          · rintro (h | ⟨_, h2, h3, h4, _⟩)
            · exact h
            · subst h2; exact absurd ⟨h3.1, h3.2, h4⟩ hc
    rw [hstep, ih]
    constructor
    · rintro (⟨i, hi, h⟩ | h)
      · exact ⟨i, by omega, h⟩
      · exact ⟨n, by omega, h⟩
    · rintro ⟨i, hi, h⟩
      rcases Nat.lt_succ_iff_lt_or_eq.1 hi with hlt | heq
      · exact Or.inl ⟨i, hlt, h⟩
      · subst heq; exact Or.inr h

end PeakLemmas
end Keytap

namespace Keytap
section PeakClaim
variable {F : Type} [LinearOrderedField F]

/-- C10: a sample index `p` is appended to `positionsToPredict` exactly when it lies in
`[2k, (nFrames-2)k)`, the front of the deque after iteration `i = p + k/2` is `p`, and
`|sample[p]| > thresholdBackground * rbAverage`; and for `p` in that range the front of the deque
after iteration `i` is `p` exactly when `|sample[p]|` is the maximum of `|sample|` over the window
`(i-k, i]` and `p` is the last index of the window that attains it. -/
theorem peak_iff (k : Int) (hk : 1 ≤ k) (thresholdBackground : F) (rb : RingBuffer F)
    (frames : Record F) (hframes : ∀ f ∈ frames, f.length = k.toNat) (p : Int) :
    (p ∈ (cbAudioPredict k thresholdBackground rb frames).2 ↔
      (2 * k ≤ p ∧ p < ((frames.length : Int) - 2) * k) ∧
      (peakRun (acc k frames) k (frames.length : Int) thresholdBackground
          (rbUpdate rb frames).rbAverage ((p + Int.tdiv k 2).toNat + 1)).que.head? = some p ∧
      acc k frames p > thresholdBackground * (rbUpdate rb frames).rbAverage) ∧
    ((2 * k ≤ p ∧ p < ((frames.length : Int) - 2) * k) →
      ((peakRun (acc k frames) k (frames.length : Int) thresholdBackground
          (rbUpdate rb frames).rbAverage ((p + Int.tdiv k 2).toNat + 1)).que.head? = some p ↔
        (∀ j, p + Int.tdiv k 2 - k < j → j ≤ p + Int.tdiv k 2 →
          acc k frames j ≤ acc k frames p) ∧
        (∀ j, p < j → j ≤ p + Int.tdiv k 2 → acc k frames j < acc k frames p))) := by
  have hdiv : Int.tdiv k 2 = k / 2 := Int.tdiv_eq_ediv (by omega) (by norm_num)
  have hh0 : 0 ≤ Int.tdiv k 2 := by rw [hdiv]; omega
  have hh1 : Int.tdiv k 2 < k := by rw [hdiv]; omega
  clear hdiv
  constructor
  · unfold cbAudioPredict peakDetect
    simp only []
    rw [peakRun_positions]
    constructor
    · rintro ⟨i, _, _, hp, hr, hq, ht⟩
      have hi : (p + Int.tdiv k 2).toNat = i := by omega
      rw [hi]
      exact ⟨hr, hq, ht⟩
    · rintro ⟨hr, hq, ht⟩
      have hp0 : 0 ≤ p + Int.tdiv k 2 := by omega
      have hi : ((p + Int.tdiv k 2).toNat : Int) = p + Int.tdiv k 2 := Int.toNat_of_nonneg hp0
      refine ⟨(p + Int.tdiv k 2).toNat, ?_, by omega, by omega, hr, hq, ht⟩
      have hM : ((frames.length : Int) - 2) * k = (frames.length : Int) * k - 2 * k := by ring
      rw [hM] at hr
      have : (((p + Int.tdiv k 2).toNat : ℕ) : Int) < ((((frames.length : Int) * k).toNat : ℕ) : Int) := by
        rw [hi, Int.toNat_of_nonneg (by omega)]
        omega
      exact_mod_cast this
  · rintro ⟨hr1, _⟩
    have hp0 : 0 ≤ p + Int.tdiv k 2 := by omega
    have hi : ((p + Int.tdiv k 2).toNat : Int) = p + Int.tdiv k 2 := Int.toNat_of_nonneg hp0
    have hinv := peakRun_queInv (acc k frames) k (frames.length : Int) thresholdBackground
      (rbUpdate rb frames).rbAverage hk (p + Int.tdiv k 2).toNat
    rw [hi] at hinv
    rw [queInv_head _ _ _ _ hinv p]
    constructor
    · rintro ⟨_, hmax, hlast⟩
      exact ⟨fun j hj1 hj2 => hmax j hj1 (by omega) hj2, hlast⟩
    · rintro ⟨hmax, hlast⟩
      exact ⟨⟨by omega, by omega, by omega⟩, fun j hj1 _ hj2 => hmax j hj1 hj2, hlast⟩

/-- C10, witness: five frames of one sample with a spike in the middle frame. -/
theorem peak_iff_witness :
    (2 : Int) ∈ (cbAudioPredict 1 (10 : ℚ) rbInit [[0], [0], [1], [0], [0]]).2 ↔
      (2 * 1 ≤ (2 : Int) ∧
        (2 : Int) < ((([[0], [0], [1], [0], [0]] : Record ℚ).length : Int) - 2) * 1) ∧
      (peakRun (acc 1 ([[0], [0], [1], [0], [0]] : Record ℚ)) 1
          (([[0], [0], [1], [0], [0]] : Record ℚ).length : Int) 10
          (rbUpdate rbInit ([[0], [0], [1], [0], [0]] : Record ℚ)).rbAverage
          (((2 : Int) + Int.tdiv 1 2).toNat + 1)).que.head? = some 2 ∧
      acc 1 ([[0], [0], [1], [0], [0]] : Record ℚ) 2 >
        10 * (rbUpdate rbInit ([[0], [0], [1], [0], [0]] : Record ℚ)).rbAverage :=
  (peak_iff 1 le_rfl (10 : ℚ) rbInit [[0], [0], [1], [0], [0]] (by decide) 2).1

end PeakClaim
end Keytap

/-! ## The work queue and the peak detector: further results -/

namespace Keytap
section QueueLemmas
variable {F : Type} [LinearOrderedField F]

theorem peakStep_positions (a : Int → F) (k nFrames : Int) (thr avg : F) (st : PeakState)
    (i : Int) :
    (peakStep a k nFrames thr avg st i).positionsToPredict = st.positionsToPredict ∨
      (peakStep a k nFrames thr avg st i).positionsToPredict
        = st.positionsToPredict ++ [i - Int.tdiv k 2] := by
  unfold peakStep
  simp only []
  split_ifs <;> simp

theorem peakRun_sorted (a : Int → F) (k nFrames : Int) (thr avg : F) (n : Nat) :
    (peakRun a k nFrames thr avg n).positionsToPredict.Pairwise (· < ·) := by
  induction n with
  | zero => simp [peakRun, peakInit]
  | succ n ih =>
    rw [peakRun_succ]
    rcases peakStep_positions a k nFrames thr avg (peakRun a k nFrames thr avg n) (n : Int)
      with h | h
    · rw [h]; exact ih
    · rw [h, List.pairwise_append]
      refine ⟨ih, List.pairwise_singleton _ _, ?_⟩
      intro x hx y hy
      rw [List.mem_singleton] at hy
      subst hy
      obtain ⟨i, hi, _, hp, _⟩ := (peakRun_positions a k nFrames thr avg n x).1 hx
      rw [hp]
      have : (i : Int) < (n : Int) := by exact_mod_cast hi
      omega

/-- Membership in `positionsToPredict` in terms of the window maximum. -/
theorem peakDetect_mem (k : Int) (hk : 1 ≤ k) (thr avg : F) (frames : Record F) (p : Int) :
    p ∈ (peakDetect k thr avg frames).positionsToPredict ↔
      (2 * k ≤ p ∧ p < ((frames.length : Int) - 2) * k) ∧
      ((∀ j, p + Int.tdiv k 2 - k < j → j ≤ p + Int.tdiv k 2 →
          acc k frames j ≤ acc k frames p) ∧
        (∀ j, p < j → j ≤ p + Int.tdiv k 2 → acc k frames j < acc k frames p)) ∧
      thr * avg < acc k frames p := by
  have hdiv : Int.tdiv k 2 = k / 2 := Int.tdiv_eq_ediv (by omega) (by norm_num)
  have hh0 : 0 ≤ Int.tdiv k 2 := by rw [hdiv]; omega
  have hh1 : Int.tdiv k 2 < k := by rw [hdiv]; omega
  clear hdiv
  have hhead : ∀ (hr : 2 * k ≤ p ∧ p < ((frames.length : Int) - 2) * k),
      ((peakRun (acc k frames) k (frames.length : Int) thr avg
          ((p + Int.tdiv k 2).toNat + 1)).que.head? = some p ↔
        (∀ j, p + Int.tdiv k 2 - k < j → j ≤ p + Int.tdiv k 2 →
          acc k frames j ≤ acc k frames p) ∧
        (∀ j, p < j → j ≤ p + Int.tdiv k 2 → acc k frames j < acc k frames p)) := by
    intro hr
    have hp0 : 0 ≤ p + Int.tdiv k 2 := by omega
    have hi : ((p + Int.tdiv k 2).toNat : Int) = p + Int.tdiv k 2 := Int.toNat_of_nonneg hp0
    have hinv := peakRun_queInv (acc k frames) k (frames.length : Int) thr avg hk
      (p + Int.tdiv k 2).toNat
    rw [hi] at hinv
    rw [queInv_head _ _ _ _ hinv p]
    constructor
    · rintro ⟨_, hmax, hlast⟩
      exact ⟨fun j hj1 hj2 => hmax j hj1 (by omega) hj2, hlast⟩
    · rintro ⟨hmax, hlast⟩
      exact ⟨⟨by omega, by omega, by omega⟩, fun j hj1 _ hj2 => hmax j hj1 hj2, hlast⟩
  unfold peakDetect
  rw [peakRun_positions]
  constructor
  · rintro ⟨i, _, _, hp, hr, hq, ht⟩
    have hi : (p + Int.tdiv k 2).toNat = i := by omega
    rw [← hi] at hq
    exact ⟨hr, (hhead hr).1 hq, ht⟩
  · rintro ⟨hr, hq, ht⟩
    have hp0 : 0 ≤ p + Int.tdiv k 2 := by omega
    have hi : ((p + Int.tdiv k 2).toNat : Int) = p + Int.tdiv k 2 := Int.toNat_of_nonneg hp0
    refine ⟨(p + Int.tdiv k 2).toNat, ?_, by omega, by omega, hr, (hhead hr).2 hq, ht⟩
    have hM : ((frames.length : Int) - 2) * k = (frames.length : Int) * k - 2 * k := by ring
    have hr2 := hr.2
    rw [hM] at hr2
    have : (((p + Int.tdiv k 2).toNat : ℕ) : Int)
        < ((((frames.length : Int) * k).toNat : ℕ) : Int) := by
      rw [hi, Int.toNat_of_nonneg (by omega)]
      omega
    exact_mod_cast this

theorem flattenFrames_length (frames : Record F) (m : ℕ) (h : ∀ f ∈ frames, f.length = m) :
    (flattenFrames frames).length = frames.length * m := by
  unfold flattenFrames
  induction frames with
  | nil => simp
  | cons f fs ih =>
    rw [List.flatMap_cons, List.length_append, ih (fun g hg => h g (List.mem_cons_of_mem _ hg)),
      h f (List.mem_cons_self _ _), List.length_cons]
    ring

/-- C11: a call of the audio callback leaves the work queue unchanged or appends one work item;
the positions of an appended item are not empty, each satisfies
`2*kSamplesPerFrame <= p < (nFrames - 2)*kSamplesPerFrame` with
`nFrames = ampl.size() / kSamplesPerFrame`, and they are strictly ascending. -/
theorem cbAudio_workItem (k : Int) (hk : 1 ≤ k) (thresholdBackground : F)
    (rb : RingBuffer F) (queue : List (WorkData F)) (frames : Record F)
    (hframes : ∀ f ∈ frames, f.length = k.toNat) :
    (cbAudioEnqueue k thresholdBackground (rb, queue) frames).2 = queue ∨
    ∃ w : WorkData F,
      (cbAudioEnqueue k thresholdBackground (rb, queue) frames).2 = queue ++ [w] ∧
      w.positionsToPredict ≠ [] ∧
      (∀ p ∈ w.positionsToPredict,
        2 * k ≤ p ∧ p < ((w.ampl.length : Int) / k - 2) * k) ∧
      w.positionsToPredict.Pairwise (· < ·) := by
  unfold cbAudioEnqueue
  simp only []
  by_cases hlen : (cbAudioPredict k thresholdBackground rb frames).2.length > 0
  · rw [if_pos hlen]
    right
    refine ⟨_, rfl, ?_, ?_, ?_⟩
    · intro h
      simp only [] at h
      rw [h] at hlen
      simp at hlen
    · intro p hp
      simp only [] at hp ⊢
      have hl : ((flattenFrames frames).length : Int) / k = (frames.length : Int) := by
        rw [flattenFrames_length frames k.toNat hframes]
        push_cast
        rw [Int.toNat_of_nonneg (by omega)]
        exact Int.mul_ediv_cancel _ (by omega)
      rw [hl]
      exact ((peakDetect_mem k hk _ _ frames p).1 hp).1
    · exact peakRun_sorted _ _ _ _ _ _
  · rw [if_neg hlen]
    exact Or.inl rfl

/-- C11, witness: five frames of one sample with a spike in the middle frame. -/
theorem cbAudio_workItem_witness :
    (cbAudioEnqueue 1 (10 : ℚ) (rbInit, []) [[0], [0], [1], [0], [0]]).2 = [] ∨
    ∃ w : WorkData ℚ,
      (cbAudioEnqueue 1 (10 : ℚ) (rbInit, []) [[0], [0], [1], [0], [0]]).2 = [] ++ [w] ∧
      w.positionsToPredict ≠ [] ∧
      (∀ p ∈ w.positionsToPredict,
        2 * 1 ≤ p ∧ p < ((w.ampl.length : Int) / 1 - 2) * 1) ∧
      w.positionsToPredict.Pairwise (· < ·) :=
  cbAudio_workItem 1 le_rfl (10 : ℚ) rbInit [] [[0], [0], [1], [0], [0]] (by decide)

end QueueLemmas
end Keytap
namespace Keytap
section SpikeSilence
variable {F : Type} [LinearOrderedField F]

theorem ring_entries_le (xs : List F) (M : F) (hM : 0 ≤ M) (h : ∀ x ∈ xs, |x| ≤ M) :
    ∀ y ∈ (xs.foldl rbPush rbInit).rbSamples, y ≤ M := by
  induction xs using List.reverseRecOn with
  | nil =>
    intro y hy
    simp only [List.foldl_nil, rbInit] at hy
    rw [List.eq_of_mem_replicate hy]
    exact hM
  | append_singleton xs x ih =>
    intro y hy
    rw [List.foldl_append, List.foldl_cons, List.foldl_nil] at hy
    have hy' : y ∈ (xs.foldl rbPush rbInit).rbSamples.set
        (xs.foldl rbPush rbInit).rbBegin.toNat |x| := hy
    rcases List.mem_or_eq_of_mem_set hy' with h1 | h1
    · exact ih (fun z hz => h z (List.mem_append_left _ hz)) y h1
    · rw [h1]; exact h x (List.mem_append_right _ (List.mem_singleton_self x))

/-- The rolling mean is at most a bound of the pushed absolute values. -/
theorem rbReach_average_le (records : List (Record F)) (xs : List F) (M : F) (hM : 0 ≤ M)
    (h : ∀ x ∈ (records.flatMap (fun frames => frames.flatMap (fun frame => frame))) ++ xs,
      |x| ≤ M) :
    (rbReach records xs).rbAverage ≤ M := by
  have hC : 0 < kRingBufferSize := by decide
  have hCF : (0 : F) < (kRingBufferSize : F) := by exact_mod_cast hC
  rw [rbReach_eq]
  obtain ⟨h1, _, h3, _, _⟩ :=
    ring_state ((records.flatMap (fun frames => frames.flatMap (fun frame => frame))) ++ xs)
  have hle := ring_entries_le _ M hM h
  rw [h3, div_le_iff₀ hCF]
  have := List.sum_le_card_nsmul _ M hle
  rw [h1, nsmul_eq_mul] at this
  linarith [mul_comm (kRingBufferSize : F) M]

theorem rbUpdate_rbReach (records : List (Record F)) (xs : List F) (frames : Record F) :
    rbUpdate (rbReach records xs) frames = rbReach records (xs ++ flattenFrames frames) := by
  unfold rbReach flattenFrames
  rw [rbUpdate_eq, List.foldl_append]

end SpikeSilence
end Keytap

/-! ## The classification worker: results -/

namespace Keytap
section WorkerLemmas
variable {F : Type} [LinearOrderedField F]

theorem mapGet_mapSet_self {V : Type} (m : List (TKey × V)) (key : TKey) (v : V) :
    mapGet (mapSet m key v) key = some v := by
  induction m with
  | nil => simp [mapSet, mapGet]
  | cons a rest ih =>
    obtain ⟨k1, v1⟩ := a
    unfold mapSet
    by_cases h1 : key < k1
    · simp [h1, mapGet]
    · by_cases h2 : key = k1
      · simp [h1, h2, mapGet]
      · simp only [h1, h2, if_false, mapGet]
        exact ih

theorem mapGet_mapSet_ne {V : Type} (m : List (TKey × V)) (key key' : TKey) (v : V)
    (h : key' ≠ key) : mapGet (mapSet m key v) key' = mapGet m key' := by
  induction m with
  | nil => simp [mapSet, mapGet, h]
  | cons a rest ih =>
    obtain ⟨k1, v1⟩ := a
    unfold mapSet
    by_cases h1 : key < k1
    · simp [h1, mapGet, h]
    · by_cases h2 : key = k1
      · subst h2
        simp [mapGet, h]
      · simp only [h1, h2, if_false, mapGet]
        rw [ih]

theorem mapSet_append {V : Type} (m : List (TKey × V)) (key : TKey) (v : V)
    (h : ∀ a ∈ m, a.1 < key) : mapSet m key v = m ++ [(key, v)] := by
  induction m with
  | nil => rfl
  | cons a rest ih =>
    obtain ⟨k1, v1⟩ := a
    have hk : k1 < key := h (k1, v1) (List.mem_cons_self _ _)
    unfold mapSet
    have h1 : ¬ key < k1 := not_lt.2 hk.le
    have h2 : ¬ key = k1 := ne_of_gt hk
    simp only [h1, h2, if_false, List.cons_append]
    rw [ih (fun a ha => h a (List.mem_cons_of_mem _ ha))]

/-- The winner of the loop over the prototypes: the first key that attains the largest score,
when some score exceeds the start value. -/
theorem classify_max (find : TKey × TKeyWaveform F → TValueCC F × TOffset)
    (cc : TKey × TKeyWaveform F → F) (protos : List (TKey × TKeyWaveform F))
    (hcc : ∀ ka ∈ protos, (find ka).1 = TValueCC.fin (cc ka))
    (st0 : Classified F) (m0 : F) (hm0 : st0.maxcc = TValueCC.fin m0) :
    ((protos.foldl (fun st ka => classifyKey st ka.1 (find ka)) st0).maxcc = TValueCC.fin m0 ∧
      (protos.foldl (fun st ka => classifyKey st ka.1 (find ka)) st0).res = st0.res ∧
      (protos.foldl (fun st ka => classifyKey st ka.1 (find ka)) st0).offs = st0.offs ∧
      ∀ kb ∈ protos, cc kb ≤ m0) ∨
    ∃ l1 ka l2, protos = l1 ++ ka :: l2 ∧
      (protos.foldl (fun st ka => classifyKey st ka.1 (find ka)) st0).maxcc
        = TValueCC.fin (cc ka) ∧
      (protos.foldl (fun st ka => classifyKey st ka.1 (find ka)) st0).res = toChar ka.1 ∧
      (protos.foldl (fun st ka => classifyKey st ka.1 (find ka)) st0).offs = (find ka).2 ∧
      m0 < cc ka ∧ (∀ kb ∈ l1, cc kb < cc ka) ∧ (∀ kb ∈ l2, cc kb ≤ cc ka) := by
  induction protos generalizing st0 m0 with
  | nil => left; exact ⟨hm0, rfl, rfl, by simp⟩
  | cons ka rest ih =>
    have hka := hcc ka (List.mem_cons_self _ _)
    have hrest : ∀ kb ∈ rest, (find kb).1 = TValueCC.fin (cc kb) :=
      fun kb hkb => hcc kb (List.mem_cons_of_mem _ hkb)
    rw [List.foldl_cons]
    by_cases hgt : m0 < cc ka
    · have hst : (classifyKey st0 ka.1 (find ka)).maxcc = TValueCC.fin (cc ka) ∧
          (classifyKey st0 ka.1 (find ka)).res = toChar ka.1 ∧
          (classifyKey st0 ka.1 (find ka)).offs = (find ka).2 := by
        unfold classifyKey
        simp [hka, hm0, TValueCC.gt, hgt]
      rcases ih hrest (classifyKey st0 ka.1 (find ka)) (cc ka) hst.1 with
        ⟨h1, h2, h3, h4⟩ | ⟨l1, kb, l2, hsplit, h1, h2, h3, h4, h5, h6⟩
      · right
        exact ⟨[], ka, rest, rfl, h1, h2.trans hst.2.1, h3.trans hst.2.2, hgt, by simp, h4⟩
      · right
        refine ⟨ka :: l1, kb, l2, by rw [hsplit]; rfl, h1, h2, h3, lt_trans hgt h4, ?_, h6⟩
        intro x hx
        rcases List.mem_cons.1 hx with rfl | hx
        · exact h4
        · exact h5 x hx
    · have hst : (classifyKey st0 ka.1 (find ka)).maxcc = TValueCC.fin m0 ∧
          (classifyKey st0 ka.1 (find ka)).res = st0.res ∧
          (classifyKey st0 ka.1 (find ka)).offs = st0.offs := by
        unfold classifyKey
        simp [hka, hm0, TValueCC.gt, hgt]
      rcases ih hrest (classifyKey st0 ka.1 (find ka)) m0 hst.1 with
        ⟨h1, h2, h3, h4⟩ | ⟨l1, kb, l2, hsplit, h1, h2, h3, h4, h5, h6⟩
      · left
        refine ⟨h1, h2.trans hst.2.1, h3.trans hst.2.2, ?_⟩
        intro x hx
        rcases List.mem_cons.1 hx with rfl | hx
        · exact not_lt.1 hgt
        · exact h4 x hx
      · right
        refine ⟨ka :: l1, kb, l2, by rw [hsplit]; rfl, h1, h2, h3, h4, ?_, h6⟩
        intro x hx
        rcases List.mem_cons.1 hx with rfl | hx
        · exact lt_of_le_of_lt (not_lt.1 hgt) h4
        · exact h5 x hx

theorem toChar_of_range (x : Int) (h1 : -128 ≤ x) (h2 : x ≤ 127) : toChar x = x := by
  unfold toChar
  omega

end WorkerLemmas
end Keytap
namespace Keytap
section WorkerClaims
variable {F : Type} [LinearOrderedField F]

theorem classifyPosition_eq (sqrt : F → F) (nWorkers : Nat) (sched : TKey → List Nat) (k : Int)
    (protos : List (TKey × TKeyWaveform F)) (ampl : TKeyWaveform F) (curPos : Int) :
    classifyPosition sqrt nWorkers sched k protos ampl curPos =
      protos.foldl
        (fun st ka => classifyKey st ka.1 (scoreOf sqrt nWorkers sched k ampl curPos ka))
        { res := -1, maxcc := TValueCC.fin (-1), offs := 0, keyConfidenceTmp := [] } := rfl

theorem scoreOf_finite (sqrt : F → F) (hs : IsSqrt sqrt) (nWorkers : Nat)
    (sched : TKey → List Nat) (k : Int) (hk : 0 ≤ k) (ampl : TKeyWaveform F) (curPos : Int)
    (ka : TKey × TKeyWaveform F) :
    ∃ x : F, (scoreOf sqrt nWorkers sched k ampl curPos ka).1 = TValueCC.fin x ∧
      -1 ≤ x ∧ x ≤ 1 :=
  findBestCC_finite sqrt hs nWorkers (sched ka.1) ka.2 ampl (curPos - k) (curPos + k)
    (Int.tdiv k 2) (by omega)

/-- The result of the classification of a position whose best score exceeds a threshold
`thr ≥ -1`: the winner is the first prototype that attains the largest score. -/
theorem classifyPosition_winner (sqrt : F → F) (hs : IsSqrt sqrt) (nWorkers : Nat)
    (sched : TKey → List Nat) (k : Int) (hk : 0 ≤ k)
    (protos : List (TKey × TKeyWaveform F)) (ampl : TKeyWaveform F) (curPos : Int)
    (thr : F) (hthr : -1 ≤ thr)
    (hgt : (classifyPosition sqrt nWorkers sched k protos ampl curPos).maxcc.gt
      (TValueCC.fin thr) = true) :
    ∃ l1 ka l2 m, protos = l1 ++ ka :: l2 ∧ thr < m ∧
      (classifyPosition sqrt nWorkers sched k protos ampl curPos).maxcc = TValueCC.fin m ∧
      (scoreOf sqrt nWorkers sched k ampl curPos ka).1 = TValueCC.fin m ∧
      (classifyPosition sqrt nWorkers sched k protos ampl curPos).res = toChar ka.1 ∧
      (classifyPosition sqrt nWorkers sched k protos ampl curPos).offs
        = (scoreOf sqrt nWorkers sched k ampl curPos ka).2 ∧
      (∀ kb ∈ l1, ∃ x, (scoreOf sqrt nWorkers sched k ampl curPos kb).1 = TValueCC.fin x ∧
        x < m) ∧
      (∀ kb ∈ l2, ∃ x, (scoreOf sqrt nWorkers sched k ampl curPos kb).1 = TValueCC.fin x ∧
        x ≤ m) := by
  obtain ⟨cc, hcc⟩ : ∃ cc : TKey × TKeyWaveform F → F, ∀ ka,
      (scoreOf sqrt nWorkers sched k ampl curPos ka).1 = TValueCC.fin (cc ka) := by
    refine ⟨fun ka => Classical.choose (scoreOf_finite sqrt hs nWorkers sched k hk ampl curPos ka),
      fun ka => ?_⟩
    exact (Classical.choose_spec (scoreOf_finite sqrt hs nWorkers sched k hk ampl curPos ka)).1
  rw [classifyPosition_eq] at hgt ⊢
  rcases classify_max (scoreOf sqrt nWorkers sched k ampl curPos) cc protos
    (fun ka _ => hcc ka)
    { res := -1, maxcc := TValueCC.fin (-1), offs := 0, keyConfidenceTmp := [] } (-1) rfl with
    ⟨h1, _, _, _⟩ | ⟨l1, ka, l2, hsplit, h1, h2, h3, h4, h5, h6⟩
  · rw [h1] at hgt
    simp only [TValueCC.gt, decide_eq_true_eq] at hgt
    exact absurd (lt_of_le_of_lt hthr hgt) (lt_irrefl _)
  · rw [h1] at hgt
    simp only [TValueCC.gt, decide_eq_true_eq] at hgt
    exact ⟨l1, ka, l2, cc ka, hsplit, hgt, h1, hcc ka, h2, h3,
      fun kb hkb => ⟨cc kb, hcc kb, h5 kb hkb⟩, fun kb hkb => ⟨cc kb, hcc kb, h6 kb hkb⟩⟩

theorem ge_not_gt {a b : TValueCC F} (h : a.ge b = true) : b.gt a = false := by
  cases a <;> cases b <;> simp [TValueCC.ge, TValueCC.gt] at *
  exact h

/-- C18 (amended): the worker emits a prediction exactly when `maxcc > thresholdCC` and
`(res, maxcc)` differs from the remembered previous result; on emission
`predictedKey = res` and `predictedCC = maxcc`; here `maxcc` is the largest score, attained by
the first key `k*` of the prototype map that reaches it, and `res` is `k*` converted to `char`,
which is `k*` itself for every key in `[-128, 127]`. -/
theorem worker_prediction (sqrt : F → F) (hs : IsSqrt sqrt) (nWorkers : Nat)
    (sched : TKey → List Nat) (k W : Int) (hk : 0 ≤ k) (thresholdCC : F)
    (hthr : -1 ≤ thresholdCC) (protos : List (TKey × TKeyWaveform F))
    (ampl : TKeyWaveform F) (ws : WorkerState F) (curPos : Int) :
    (((classifyPosition sqrt nWorkers sched k protos ampl curPos).maxcc.gt
          (TValueCC.fin thresholdCC) = true ∧
        (ws.lastkey ≠ (classifyPosition sqrt nWorkers sched k protos ampl curPos).res ∨
          ws.lastcc.ne (classifyPosition sqrt nWorkers sched k protos ampl curPos).maxcc
            = true)) →
      (workerPosition sqrt nWorkers sched k W thresholdCC protos ampl ws curPos).predictions
        = ws.predictions ++
          [((classifyPosition sqrt nWorkers sched k protos ampl curPos).res,
            (classifyPosition sqrt nWorkers sched k protos ampl curPos).maxcc)] ∧
      (workerPosition sqrt nWorkers sched k W thresholdCC protos ampl ws curPos).predictedKey
        = (classifyPosition sqrt nWorkers sched k protos ampl curPos).res ∧
      (workerPosition sqrt nWorkers sched k W thresholdCC protos ampl ws curPos).predictedCC
        = (classifyPosition sqrt nWorkers sched k protos ampl curPos).maxcc) ∧
    (¬ ((classifyPosition sqrt nWorkers sched k protos ampl curPos).maxcc.gt
          (TValueCC.fin thresholdCC) = true ∧
        (ws.lastkey ≠ (classifyPosition sqrt nWorkers sched k protos ampl curPos).res ∨
          ws.lastcc.ne (classifyPosition sqrt nWorkers sched k protos ampl curPos).maxcc
            = true)) →
      (workerPosition sqrt nWorkers sched k W thresholdCC protos ampl ws curPos).predictions
        = ws.predictions) ∧
    ((classifyPosition sqrt nWorkers sched k protos ampl curPos).maxcc.gt
        (TValueCC.fin thresholdCC) = true →
      ((workerPosition sqrt nWorkers sched k W thresholdCC protos ampl ws curPos).lastkey
          = (classifyPosition sqrt nWorkers sched k protos ampl curPos).res ∧
        (workerPosition sqrt nWorkers sched k W thresholdCC protos ampl ws curPos).lastcc
          = (classifyPosition sqrt nWorkers sched k protos ampl curPos).maxcc) ∧
      ∃ l1 ka l2 m, protos = l1 ++ ka :: l2 ∧
        (classifyPosition sqrt nWorkers sched k protos ampl curPos).maxcc = TValueCC.fin m ∧
        (scoreOf sqrt nWorkers sched k ampl curPos ka).1 = TValueCC.fin m ∧
        (classifyPosition sqrt nWorkers sched k protos ampl curPos).res = toChar ka.1 ∧
        (-128 ≤ ka.1 → ka.1 ≤ 127 →
          (classifyPosition sqrt nWorkers sched k protos ampl curPos).res = ka.1) ∧
        (∀ kb ∈ l1, ∃ x, (scoreOf sqrt nWorkers sched k ampl curPos kb).1 = TValueCC.fin x ∧
          x < m) ∧
        (∀ kb ∈ l2, ∃ x, (scoreOf sqrt nWorkers sched k ampl curPos kb).1 = TValueCC.fin x ∧
          x ≤ m)) := by
  refine ⟨?_, ?_, ?_⟩
  · rintro ⟨h1, h2⟩
    unfold workerPosition workerUpdate
    simp [h1, h2, emitPrediction]
  · intro h
    unfold workerPosition workerUpdate
    by_cases h1 : (classifyPosition sqrt nWorkers sched k protos ampl curPos).maxcc.gt
        (TValueCC.fin thresholdCC) = true
    · have h2 : ¬ (ws.lastkey ≠ (classifyPosition sqrt nWorkers sched k protos ampl curPos).res ∨
          ws.lastcc.ne (classifyPosition sqrt nWorkers sched k protos ampl curPos).maxcc
            = true) := fun h2 => h ⟨h1, h2⟩
      simp only [h1, if_true, h2, if_false]
    · simp only [h1, if_false]
      rfl
  · intro h1
    refine ⟨?_, ?_⟩
    · unfold workerPosition workerUpdate
      simp [h1]
    · obtain ⟨l1, ka, l2, m, hsplit, _, hm, hsc, hres, _, h5, h6⟩ :=
        classifyPosition_winner sqrt hs nWorkers sched k hk protos ampl curPos thresholdCC hthr h1
      exact ⟨l1, ka, l2, m, hsplit, hm, hsc, hres,
        fun hlo hhi => hres.trans (toChar_of_range _ hlo hhi), h5, h6⟩

/-- C19: for a candidate position with `maxcc <= thresholdCC` the worker leaves the whole
prediction state unchanged, the remembered previous result and the list of emitted predictions
included. -/
theorem worker_below_threshold (sqrt : F → F) (nWorkers : Nat) (sched : TKey → List Nat)
    (k W : Int) (thresholdCC : F) (protos : List (TKey × TKeyWaveform F))
    (ampl : TKeyWaveform F) (ws : WorkerState F) (curPos : Int)
    (h : (TValueCC.fin thresholdCC).ge
      (classifyPosition sqrt nWorkers sched k protos ampl curPos).maxcc = true) :
    workerPosition sqrt nWorkers sched k W thresholdCC protos ampl ws curPos = ws := by
  unfold workerPosition workerUpdate
  rw [ge_not_gt h]
  rfl

end WorkerClaims
end Keytap
namespace Keytap
section WorkerConcrete

theorem toNat_lit4 : Int.toNat 4 = 4 := rfl
theorem toNat_lit5 : Int.toNat 5 = 5 := rfl

theorem sqrt_36 : Real.sqrt 36 = 6 := by
  rw [show (36 : ℝ) = 6 * 6 by norm_num]
  exact Real.sqrt_mul_self (by norm_num)

theorem centre_six (w : List ℝ) (h : w.length = 6) :
    (w.length : Int) / 2 - Int.tdiv (5 - 1) 2 = 1 := by
  rw [h]; decide

theorem cc_plateau_flat (A : List ℝ) :
    ccAt Real.sqrt A ([2, 2, 2, 2, 0, 0] : List ℝ) 1 5 (-1) = TValueCC.nan := by
  rw [ccAt_eq_nccVal _ _ _ _ _ _ (by norm_num)]
  apply nccVal_flat _ isSqrt_real
  right
  rw [covN_self_eq_zero_iff]
  have h3 : ((5 : Int) - 1).toNat = 4 := by decide
  rw [h3]
  intro i hi j hj
  have hi4 : i = 0 ∨ i = 1 ∨ i = 2 ∨ i = 3 := by omega
  have hj4 : j = 0 ∨ j = 1 ∨ j = 2 ∨ j = 3 := by omega
  rcases hi4 with rfl | rfl | rfl | rfl <;> rcases hj4 with rfl | rfl | rfl | rfl <;>
    norm_num [sampleAt, toNat_lit0, toNat_lit1, toNat_lit2, toNat_lit3]

theorem cc_plateau_match :
    ccAt Real.sqrt ([0, 1, 1, 1, 0, 0] : List ℝ) [2, 2, 2, 2, 0, 0] 1 5 0 = TValueCC.fin 1 := by
  rw [ccAt_eq_nccVal _ _ _ _ _ _ (by norm_num), centre_six _ (by rfl)]
  have h3 : ((5 : Int) - 1).toNat = 4 := by decide
  rw [h3]
  norm_num [nccVal, covN, Finset.sum_range_succ, sampleAt, fsqrt, fdiv, toNat_lit0, toNat_lit1,
    toNat_lit2, toNat_lit3, toNat_lit4, toNat_lit5, sqrt_36]

theorem cc_plateau_opposite :
    ccAt Real.sqrt ([0, 0, 0, 0, 1, 0] : List ℝ) [2, 2, 2, 2, 0, 0] 1 5 0
      = TValueCC.fin (-1) := by
  rw [ccAt_eq_nccVal _ _ _ _ _ _ (by norm_num), centre_six _ (by rfl)]
  have h3 : ((5 : Int) - 1).toNat = 4 := by decide
  rw [h3]
  norm_num [nccVal, covN, Finset.sum_range_succ, sampleAt, fsqrt, fdiv, toNat_lit0, toNat_lit1,
    toNat_lit2, toNat_lit3, toNat_lit4, toNat_lit5, sqrt_36]

theorem best_plateau_match :
    findBestCC Real.sqrt 1 [0] ([0, 1, 1, 1, 0, 0] : List ℝ) [2, 2, 2, 2, 0, 0] 1 5 1
      = (TValueCC.fin 1, 0) := by
  rw [findBestCC_eq_foldl]
  norm_num [keepBest, workerBest, scanOffsets, cc_plateau_flat, cc_plateau_match, TValueCC.gt]

theorem best_plateau_opposite :
    findBestCC Real.sqrt 1 [0] ([0, 0, 0, 0, 1, 0] : List ℝ) [2, 2, 2, 2, 0, 0] 1 5 1
      = (TValueCC.fin (-1), -1) := by
  rw [findBestCC_eq_foldl]
  norm_num [keepBest, workerBest, scanOffsets, cc_plateau_flat, cc_plateau_opposite,
    TValueCC.gt]

theorem score_plateau_match (key : TKey) :
    scoreOf Real.sqrt 1 (fun _ => [0]) 2 ([2, 2, 2, 2, 0, 0] : List ℝ) 3
      (key, [0, 1, 1, 1, 0, 0]) = (TValueCC.fin 1, 0) := best_plateau_match

theorem score_plateau_opposite (key : TKey) :
    scoreOf Real.sqrt 1 (fun _ => [0]) 2 ([2, 2, 2, 2, 0, 0] : List ℝ) 3
      (key, [0, 0, 0, 0, 1, 0]) = (TValueCC.fin (-1), -1) := best_plateau_opposite

theorem classify_one_key (key : TKey) :
    classifyPosition Real.sqrt 1 (fun _ => [0]) 2 [(key, ([0, 1, 1, 1, 0, 0] : List ℝ))]
      [2, 2, 2, 2, 0, 0] 3
      = { res := toChar key, maxcc := TValueCC.fin 1, offs := 0,
          keyConfidenceTmp := [(key, TValueCC.fin 1)] } := by
  rw [classifyPosition_eq]
  simp only [List.foldl_cons, List.foldl_nil, score_plateau_match, classifyKey]
  norm_num [TValueCC.gt, mapSet]

theorem classify_two_keys :
    classifyPosition Real.sqrt 1 (fun _ => [0]) 2
      [(1, ([0, 1, 1, 1, 0, 0] : List ℝ)), (2, [0, 0, 0, 0, 1, 0])] [2, 2, 2, 2, 0, 0] 3
      = { res := 1, maxcc := TValueCC.fin 1, offs := 0,
          keyConfidenceTmp := [(1, TValueCC.fin 1), (2, TValueCC.fin (-1))] } := by
  rw [classifyPosition_eq]
  simp only [List.foldl_cons, List.foldl_nil, score_plateau_match, score_plateau_opposite,
    classifyKey]
  norm_num [TValueCC.gt, mapSet, toChar]

end WorkerConcrete
end Keytap
namespace Keytap

section WorkerWitnesses

/-- With the single prototype key `300` the emitted `predictedKey` is `44`, the value of `300`
after the conversion to `char`, and not the key `300` that attains the largest score. -/
theorem worker_prediction_narrows :
    (workerPosition Real.sqrt 1 (fun _ => [0]) 2 6 (1 / 2)
        [(300, ([0, 1, 1, 1, 0, 0] : List ℝ))] [2, 2, 2, 2, 0, 0] (workerInit 6)
        3).predictions = [(44, TValueCC.fin 1)] ∧
    (workerPosition Real.sqrt 1 (fun _ => [0]) 2 6 (1 / 2)
        [(300, ([0, 1, 1, 1, 0, 0] : List ℝ))] [2, 2, 2, 2, 0, 0] (workerInit 6)
        3).predictedKey = 44 ∧
    (workerPosition Real.sqrt 1 (fun _ => [0]) 2 6 (1 / 2)
        [(300, ([0, 1, 1, 1, 0, 0] : List ℝ))] [2, 2, 2, 2, 0, 0] (workerInit 6)
        3).predictedKey ≠ 300 := by
  unfold workerPosition
  rw [classify_one_key]
  norm_num [workerUpdate, emitPrediction, workerInit, TValueCC.gt, TValueCC.ne, toChar]

theorem worker_prediction_witness :
    (workerPosition Real.sqrt 1 (fun _ => [0]) 2 6 (1 / 2)
        [(1, ([0, 1, 1, 1, 0, 0] : List ℝ)), (2, [0, 0, 0, 0, 1, 0])] [2, 2, 2, 2, 0, 0]
        (workerInit 6) 3).predictions = [(1, TValueCC.fin 1)] ∧
    (workerPosition Real.sqrt 1 (fun _ => [0]) 2 6 (1 / 2)
        [(1, ([0, 1, 1, 1, 0, 0] : List ℝ)), (2, [0, 0, 0, 0, 1, 0])] [2, 2, 2, 2, 0, 0]
        (workerInit 6) 3).predictedKey = 1 := by
  have h := (worker_prediction Real.sqrt isSqrt_real 1 (fun _ => [0]) 2 6 (by norm_num) (1 / 2)
    (by norm_num) [(1, ([0, 1, 1, 1, 0, 0] : List ℝ)), (2, [0, 0, 0, 0, 1, 0])]
    [2, 2, 2, 2, 0, 0] (workerInit 6) 3).1
  rw [classify_two_keys] at h
  have h3 := h ⟨by norm_num [TValueCC.gt], Or.inl (by norm_num [workerInit])⟩
  exact ⟨by simpa [workerInit] using h3.1, h3.2.1⟩

theorem worker_below_threshold_witness :
    (TValueCC.fin (1 : ℝ)).ge
      (classifyPosition Real.sqrt 1 (fun _ => [0]) 2
        [(1, ([0, 1, 1, 1, 0, 0] : List ℝ)), (2, [0, 0, 0, 0, 1, 0])] [2, 2, 2, 2, 0, 0]
        3).maxcc = true ∧
    workerPosition Real.sqrt 1 (fun _ => [0]) 2 6 1
        [(1, ([0, 1, 1, 1, 0, 0] : List ℝ)), (2, [0, 0, 0, 0, 1, 0])] [2, 2, 2, 2, 0, 0]
        (workerInit 6) 3 = workerInit 6 :=
  have h : (TValueCC.fin (1 : ℝ)).ge
      (classifyPosition Real.sqrt 1 (fun _ => [0]) 2
        [(1, ([0, 1, 1, 1, 0, 0] : List ℝ)), (2, [0, 0, 0, 0, 1, 0])] [2, 2, 2, 2, 0, 0]
        3).maxcc = true := by
    rw [classify_two_keys]
    norm_num [TValueCC.ge]
  ⟨h, worker_below_threshold Real.sqrt 1 (fun _ => [0]) 2 6 1 _ _ (workerInit 6) 3 h⟩

end WorkerWitnesses
end Keytap

/-! ## The trainer: results -/

namespace Keytap
section TrainerLemmas
variable {F : Type} [LinearOrderedField F]

omit [LinearOrderedField F] in
theorem ccsSet_apply (ccs : CCTable F) (i j : Int) (v : F × TOffset) (i1 j1 : Int) :
    ccsSet ccs i j v i1 j1 = if i1 = i ∧ j1 = j then v else ccs i1 j1 := rfl

omit [LinearOrderedField F] in
theorem pairLoop_aux (find : Nat → Nat → F × TOffset) (a m : Nat) (ccs : CCTable F)
    (i j : Int) :
    (List.range m).foldl
      (fun (ccs : CCTable F) (d : Nat) =>
        ccsSet
          (ccsSet ccs ((a + 1 + d : Nat) : Int) (a : Int)
            ((find a (a + 1 + d)).1, (find a (a + 1 + d)).2))
          (a : Int) ((a + 1 + d : Nat) : Int)
          ((find a (a + 1 + d)).1, -(find a (a + 1 + d)).2))
      ccs i j =
      if (a : Int) < i ∧ i < (a : Int) + 1 + m ∧ j = a then find a i.toNat
      else if (a : Int) < j ∧ j < (a : Int) + 1 + m ∧ i = a then
        ((find a j.toNat).1, -(find a j.toNat).2)
      else ccs i j := by
  induction m with
  | zero =>
    have h1 : ¬ ((a : Int) < i ∧ i < (a : Int) + 1 + (0 : Nat) ∧ j = a) := by
      intro h; omega
    have h2 : ¬ ((a : Int) < j ∧ j < (a : Int) + 1 + (0 : Nat) ∧ i = a) := by
      intro h; omega
    simp only [List.range_zero, List.foldl_nil, h1, h2, if_false]
  | succ m ih =>
    rw [List.range_succ, List.foldl_append, List.foldl_cons, List.foldl_nil]
    rw [ccsSet_apply, ccsSet_apply, ih]
    by_cases c1 : i = (a : Int) ∧ j = ((a + 1 + m : Nat) : Int)
    · obtain ⟨hi, hj⟩ := c1
      have e1 : ¬ ((a : Int) < i ∧ i < (a : Int) + 1 + ((m + 1 : Nat) : Int) ∧ j = a) := by
        intro h; omega
      have e2 : (a : Int) < j ∧ j < (a : Int) + 1 + ((m + 1 : Nat) : Int) ∧ i = a := by
        refine ⟨?_, ?_, hi⟩ <;> (rw [hj]; push_cast; omega)
      have e3 : j.toNat = a + 1 + m := by rw [hj]; exact Int.toNat_ofNat _
      rw [if_pos ⟨hi, hj⟩, if_neg e1, if_pos e2, e3]
    · rw [if_neg c1]
      by_cases c2 : i = ((a + 1 + m : Nat) : Int) ∧ j = (a : Int)
      · obtain ⟨hi, hj⟩ := c2
        have e2 : (a : Int) < i ∧ i < (a : Int) + 1 + ((m + 1 : Nat) : Int) ∧ j = a := by
          refine ⟨?_, ?_, hj⟩ <;> (rw [hi]; push_cast; omega)
        have e3 : i.toNat = a + 1 + m := by rw [hi]; exact Int.toNat_ofNat _
        rw [if_pos ⟨hi, hj⟩, if_pos e2, e3]
      · rw [if_neg c2]
        have c1' : ¬ (i = (a : Int) ∧ j = (a : Int) + 1 + m) := by
          intro h; apply c1; refine ⟨h.1, ?_⟩; rw [h.2]; push_cast; ring
        have c2' : ¬ (i = (a : Int) + 1 + m ∧ j = (a : Int)) := by
          intro h; apply c2; refine ⟨?_, h.2⟩; rw [h.1]; push_cast; ring
        by_cases d1 : (a : Int) < i ∧ i < (a : Int) + 1 + (m : Int) ∧ j = a
        · have d1' : (a : Int) < i ∧ i < (a : Int) + 1 + ((m + 1 : Nat) : Int) ∧ j = a := by
            refine ⟨d1.1, ?_, d1.2.2⟩; push_cast; omega
          rw [if_pos d1, if_pos d1']
        · have d1' : ¬ ((a : Int) < i ∧ i < (a : Int) + 1 + ((m + 1 : Nat) : Int) ∧ j = a) := by
            intro h; apply d1; refine ⟨h.1, ?_, h.2.2⟩
            have := h.2.1; push_cast at this
            by_contra hc
            exact c2' ⟨by omega, h.2.2⟩
          rw [if_neg d1, if_neg d1']
          by_cases d2 : (a : Int) < j ∧ j < (a : Int) + 1 + (m : Int) ∧ i = a
          · have d2' : (a : Int) < j ∧ j < (a : Int) + 1 + ((m + 1 : Nat) : Int) ∧ i = a := by
              refine ⟨d2.1, ?_, d2.2.2⟩; push_cast; omega
            rw [if_pos d2, if_pos d2']
          · have d2' : ¬ ((a : Int) < j ∧ j < (a : Int) + 1 + ((m + 1 : Nat) : Int) ∧ i = a) := by
              intro h; apply d2; refine ⟨h.1, ?_, h.2.2⟩
              have := h.2.1; push_cast at this
              by_contra hc
              exact c1' ⟨h.2.2, by omega⟩
            rw [if_neg d2, if_neg d2']

omit [LinearOrderedField F] in
theorem pairLoop_entry (find : Nat → Nat → F × TOffset) (N a : Nat) (ha : a < N)
    (ccs : CCTable F) (i j : Int) :
    pairLoop find N a ccs i j =
      if (a : Int) < i ∧ i < (N : Int) ∧ j = a then find a i.toNat
      else if (a : Int) < j ∧ j < (N : Int) ∧ i = a then
        ((find a j.toNat).1, -(find a j.toNat).2)
      else ccs i j := by
  unfold pairLoop
  rw [pairLoop_aux]
  have e : (a : Int) + 1 + ((N - (a + 1) : Nat) : Int) = (N : Int) := by omega
  rw [e]

/-- The table that the anchor search is expected to build. -/
theorem anchorStep_ccs (find : Nat → Nat → F × TOffset) (N : Nat) (st : AnchorState F)
    (a : Nat) :
    (anchorStep find N st a).ccs =
      pairLoop find N a (ccsSet st.ccs (a : Int) (a : Int) (1, 0)) := by
  unfold anchorStep
  split_ifs <;> rfl

/-- The entry that the anchor search leaves in `ccs[i][j]` for two waveform indices. -/
theorem anchorLoop_aux (find : Nat → Nat → F × TOffset) (N m : Nat) (hm : m ≤ N) (i j : Nat)
    (hi : i < N) (hj : j < N) (hij : i < m ∨ j < m) :
    ((List.range m).foldl (anchorStep find N)
      { bestw := -1, ntrain := 0, bestccsum := -1, ccs := fun _ _ => (0, 0) }).ccs
        (i : Int) (j : Int) =
      if i = j then (1, 0) else if j < i then find j i else ((find i j).1, -(find i j).2) := by
  induction m with
  | zero => omega
  | succ m ih =>
    rw [List.range_succ, List.foldl_append, List.foldl_cons, List.foldl_nil, anchorStep_ccs,
      pairLoop_entry find N m (by omega)]
    by_cases c1 : (m : Int) < (i : Int) ∧ (i : Int) < (N : Int) ∧ (j : Int) = (m : Int)
    · have hjm : j = m := by omega
      have hne : ¬ i = j := by omega
      have hlt : j < i := by omega
      rw [if_pos c1, if_neg hne, if_pos hlt, Int.toNat_ofNat, hjm]
    · rw [if_neg c1]
      by_cases c2 : (m : Int) < (j : Int) ∧ (j : Int) < (N : Int) ∧ (i : Int) = (m : Int)
      · have him : i = m := by omega
        have hne : ¬ i = j := by omega
        have hlt : ¬ j < i := by omega
        rw [if_pos c2, if_neg hne, if_neg hlt, Int.toNat_ofNat, him]
      · rw [if_neg c2, ccsSet_apply]
        by_cases c3 : (i : Int) = (m : Int) ∧ (j : Int) = (m : Int)
        · have hij2 : i = j := by omega
          rw [if_pos c3, if_pos hij2]
        · rw [if_neg c3]
          exact ih (by omega) (by omega)

theorem anchorLoop_entry (find : Nat → Nat → F × TOffset) (N : Nat) (i j : Nat)
    (hi : i < N) (hj : j < N) :
    (anchorLoop find N).ccs (i : Int) (j : Int) =
      if i = j then (1, 0) else if j < i then find j i else ((find i j).1, -(find i j).2) :=
  anchorLoop_aux find N N le_rfl i j hi hj (Or.inl hi)

theorem foldl_add_eq_sum (f : Nat → F) (n : Nat) :
    (List.range n).foldl (fun (s : F) (i : Nat) => s + f i) 0 = ∑ i in Finset.range n, f i := by
  induction n with
  | zero => simp
  | succ n ih =>
    rw [List.range_succ, List.foldl_append, List.foldl_cons, List.foldl_nil, ih,
      Finset.sum_range_succ]

theorem weightSum_eq (N : Nat) (ccs : CCTable F) (bestw : Int) :
    weightSum N ccs bestw =
      ∑ i in Finset.range N, (ccs (i : Int) bestw).1 * (ccs (i : Int) bestw).1 :=
  foldl_add_eq_sum _ N

theorem columnSums_nonneg (N : Nat) (ccs : CCTable F) (a : Int) :
    0 ≤ (columnSums N ccs a).2 := by
  unfold columnSums
  have h : ∀ (l : List Nat) (st : Int × F), 0 ≤ st.2 →
      0 ≤ (l.foldl
        (fun (st : Int × F) (iwaveform : Nat) =>
          if |(ccs (iwaveform : Int) a).2| > 50 then st
          else (st.1 + 1, st.2 + (ccs (iwaveform : Int) a).1 * (ccs (iwaveform : Int) a).1))
        st).2 := by
    intro l
    induction l with
    | nil => intro st h; exact h
    | cons x l ih =>
      intro st h
      rw [List.foldl_cons]
      apply ih
      split_ifs
      · exact h
      · exact add_nonneg h (mul_self_nonneg _)
  exact h _ _ le_rfl

theorem anchorStep_bestw (find : Nat → Nat → F × TOffset) (N : Nat) (st : AnchorState F)
    (a : Nat) :
    (anchorStep find N st a).bestw = (a : Int) ∨
      ((anchorStep find N st a).bestw = st.bestw ∧
        ¬ (columnSums N (pairLoop find N a (ccsSet st.ccs (a : Int) (a : Int) (1, 0)))
            (a : Int)).2 > st.bestccsum) := by
  unfold anchorStep
  split_ifs with h
  · exact Or.inl rfl
  · exact Or.inr ⟨rfl, h⟩

/-- The anchor selected among `N ≥ 1` waveforms is one of them. -/
theorem anchorLoop_bestw (find : Nat → Nat → F × TOffset) (N : Nat) (hN : 1 ≤ N) :
    0 ≤ (anchorLoop find N).bestw ∧ (anchorLoop find N).bestw < (N : Int) := by
  have h : ∀ m : Nat, 1 ≤ m →
      (0 ≤ ((List.range m).foldl (anchorStep find N)
        { bestw := -1, ntrain := 0, bestccsum := -1, ccs := fun _ _ => (0, 0) }).bestw ∧
      ((List.range m).foldl (anchorStep find N)
        { bestw := -1, ntrain := 0, bestccsum := -1, ccs := fun _ _ => (0, 0) }).bestw
          < (m : Int)) := by
    intro m hm
    induction m with
    | zero => omega
    | succ m ih =>
      rw [List.range_succ, List.foldl_append, List.foldl_cons, List.foldl_nil]
      rcases anchorStep_bestw find N ((List.range m).foldl (anchorStep find N)
        { bestw := -1, ntrain := 0, bestccsum := -1, ccs := fun _ _ => (0, 0) }) m with
        h1 | ⟨h1, h2⟩
      · rw [h1]
        push_cast
        omega
      · rcases Nat.eq_zero_or_pos m with h0 | h0
        · subst h0
          exfalso
          apply h2
          simp only [List.range_zero, List.foldl_nil]
          exact lt_of_lt_of_le (by norm_num) (columnSums_nonneg _ _ _)
        · have ih1 := ih h0
          rw [h1]
          push_cast
          omega
  exact h N hN

theorem anchor_weightSum_ge_one (find : Nat → Nat → F × TOffset) (N : Nat) (hN : 1 ≤ N) :
    1 ≤ weightSum N (anchorLoop find N).ccs (anchorLoop find N).bestw := by
  obtain ⟨hb0, hb1⟩ := anchorLoop_bestw find N hN
  obtain ⟨b, hb⟩ : ∃ b : Nat, (anchorLoop find N).bestw = (b : Int) :=
    ⟨(anchorLoop find N).bestw.toNat, (Int.toNat_of_nonneg hb0).symm⟩
  rw [hb] at hb1 ⊢
  have hbN : b < N := by omega
  rw [weightSum_eq]
  have hmem : b ∈ Finset.range N := Finset.mem_range.2 hbN
  rw [← Finset.add_sum_erase _ _ hmem, anchorLoop_entry find N b b hbN hbN, if_pos rfl]
  have : 0 ≤ ∑ i in (Finset.range N).erase b,
      ((anchorLoop find N).ccs (i : Int) (b : Int)).1 *
        ((anchorLoop find N).ccs (i : Int) (b : Int)).1 :=
    Finset.sum_nonneg (fun i _ => mul_self_nonneg _)
  simp only [mul_one]
  linarith

/-- The sum `ccsum` of a non-empty training is at least the term `1` of the anchor, and at
most `1 + (N - 1) q` when the squared score of every pair is at most `q`. -/
theorem anchor_weightSum_bounds (find : Nat → Nat → F × TOffset) (N : Nat) (hN : 1 ≤ N)
    (q : F) (hq : ∀ i j, i < j → j < N → (find i j).1 * (find i j).1 ≤ q) :
    1 ≤ weightSum N (anchorLoop find N).ccs (anchorLoop find N).bestw ∧
    weightSum N (anchorLoop find N).ccs (anchorLoop find N).bestw
      ≤ 1 + ((N : F) - 1) * q := by
  obtain ⟨hb0, hb1⟩ := anchorLoop_bestw find N hN
  obtain ⟨b, hb⟩ : ∃ b : Nat, (anchorLoop find N).bestw = (b : Int) :=
    ⟨(anchorLoop find N).bestw.toNat, (Int.toNat_of_nonneg hb0).symm⟩
  rw [hb] at hb1 ⊢
  have hbN : b < N := by omega
  rw [weightSum_eq]
  have hmem : b ∈ Finset.range N := Finset.mem_range.2 hbN
  rw [← Finset.add_sum_erase _ _ hmem, anchorLoop_entry find N b b hbN hbN, if_pos rfl]
  have hterm : ∀ i ∈ (Finset.range N).erase b,
      0 ≤ ((anchorLoop find N).ccs (i : Int) (b : Int)).1 *
          ((anchorLoop find N).ccs (i : Int) (b : Int)).1 ∧
      ((anchorLoop find N).ccs (i : Int) (b : Int)).1 *
          ((anchorLoop find N).ccs (i : Int) (b : Int)).1 ≤ q := by
    intro i hi
    obtain ⟨hne, hiN⟩ := Finset.mem_erase.1 hi
    have hiN2 := Finset.mem_range.1 hiN
    refine ⟨mul_self_nonneg _, ?_⟩
    rw [anchorLoop_entry find N i b hiN2 hbN, if_neg hne]
    by_cases hlt : b < i
    · rw [if_pos hlt]
      exact hq b i hlt hiN2
    · rw [if_neg hlt]
      exact hq i b (by omega) hbN
  constructor
  · have : 0 ≤ ∑ i in (Finset.range N).erase b,
        ((anchorLoop find N).ccs (i : Int) (b : Int)).1 *
          ((anchorLoop find N).ccs (i : Int) (b : Int)).1 :=
      Finset.sum_nonneg (fun i hi => (hterm i hi).1)
    simp only [mul_one]
    linarith
  · have h2 : ∑ i in (Finset.range N).erase b,
        ((anchorLoop find N).ccs (i : Int) (b : Int)).1 *
          ((anchorLoop find N).ccs (i : Int) (b : Int)).1
        ≤ ∑ _i in (Finset.range N).erase b, q :=
      Finset.sum_le_sum (fun i hi => (hterm i hi).2)
    rw [Finset.sum_const, Finset.card_erase_of_mem hmem, Finset.card_range, nsmul_eq_mul,
      Nat.cast_sub hN, Nat.cast_one] at h2
    simp only [mul_one]
    linarith

theorem trainFailed_iff (ccsum : F) (N : Nat) (h : 0 < ccsum) :
    trainFailed ccsum (1 / ccsum) N = true ↔ ccsum < (((N : Int) / 3 : Int) : F) := by
  unfold trainFailed
  rw [decide_eq_true_eq, mul_one_div, div_self (ne_of_gt h), one_div_one_div]
  constructor
  · rintro (h1 | h1)
    · norm_num at h1
    · exact h1
  · exact fun h1 => Or.inr h1

end TrainerLemmas
end Keytap
namespace Keytap
section TrainerClaims
variable {F : Type} [LinearOrderedField F]

theorem trainKey_ccsum (sqrt : F → F) (nWorkers : Nat) (sched : Nat → Nat → List Nat)
    (k W : Int) (history : List (TKeyWaveform F)) (amplMax amplMin : F) :
    (trainKey sqrt nWorkers sched k W history amplMax amplMin).ccsum =
      weightSum history.length
        (anchorLoop (trainFind sqrt nWorkers sched k W (centerWaveforms W history))
          history.length).ccs
        (anchorLoop (trainFind sqrt nWorkers sched k W (centerWaveforms W history))
          history.length).bestw := rfl

theorem trainKey_failed (sqrt : F → F) (nWorkers : Nat) (sched : Nat → Nat → List Nat)
    (k W : Int) (history : List (TKeyWaveform F)) (amplMax amplMin : F) :
    (trainKey sqrt nWorkers sched k W history amplMax amplMin).failed =
      trainFailed (trainKey sqrt nWorkers sched k W history amplMax amplMin).ccsum
        (1 / (trainKey sqrt nWorkers sched k W history amplMax amplMin).ccsum)
        history.length := rfl

theorem trainKey_ccsum_ge_one (sqrt : F → F) (nWorkers : Nat) (sched : Nat → Nat → List Nat)
    (k W : Int) (history : List (TKeyWaveform F)) (amplMax amplMin : F)
    (hN : 1 ≤ history.length) :
    1 ≤ (trainKey sqrt nWorkers sched k W history amplMax amplMin).ccsum := by
  rw [trainKey_ccsum]
  exact anchor_weightSum_ge_one _ _ hN

/-- C14 (what the code does): for a key with at least 3 recordings `trainKey` appends the key
to `failedToTrain` if and only if `ccsum`, the sum of `cc*cc` over all `N` waveforms against
the anchor, is below the integer quotient `N/3`; the stored `averageCC` takes no part in the
test, whose first operand `ccsum*norm` is `1`. -/
theorem trainKey_failed_iff (sqrt : F → F) (nWorkers : Nat) (sched : Nat → Nat → List Nat)
    (k W : Int) (history : List (TKeyWaveform F)) (amplMax amplMin : F)
    (hN : 3 ≤ history.length) :
    ((trainKey sqrt nWorkers sched k W history amplMax amplMin).failed = true ↔
      (trainKey sqrt nWorkers sched k W history amplMax amplMin).ccsum
        < ((((history.length : Nat) : Int) / 3 : Int) : F)) ∧
    (trainKey sqrt nWorkers sched k W history amplMax amplMin).ccsum *
      (1 / (trainKey sqrt nWorkers sched k W history amplMax amplMin).ccsum) = 1 := by
  have h1 := trainKey_ccsum_ge_one sqrt nWorkers sched k W history amplMax amplMin (by omega)
  have hpos : 0 < (trainKey sqrt nWorkers sched k W history amplMax amplMin).ccsum :=
    lt_of_lt_of_le one_pos h1
  refine ⟨?_, ?_⟩
  · rw [trainKey_failed]
    exact trainFailed_iff _ _ hpos
  · rw [mul_one_div, div_self (ne_of_gt hpos)]

end TrainerClaims
end Keytap
namespace Keytap
section TrainingLoop
variable {F : Type} [LinearOrderedField F]

theorem mapGet_mapSet_isSome {V : Type} (m : List (TKey × V)) (key key1 : TKey) (v : V) :
    (mapGet (mapSet m key v) key1).isSome = true ↔
      key1 = key ∨ (mapGet m key1).isSome = true := by
  by_cases h : key1 = key
  · subst h
    simp [mapGet_mapSet_self]
  · rw [mapGet_mapSet_ne m key key1 v h]
    simp [h]

theorem mapGet_mem {V : Type} (m : List (TKey × V)) (key : TKey) (v : V)
    (h : mapGet m key = some v) : (key, v) ∈ m := by
  induction m with
  | nil => simp [mapGet] at h
  | cons a rest ih =>
    obtain ⟨k1, v1⟩ := a
    unfold mapGet at h
    by_cases h1 : key = k1
    · rw [if_pos h1] at h
      cases h
      rw [h1]
      exact List.mem_cons_self _ _
    · rw [if_neg h1] at h
      exact List.mem_cons_of_mem _ (ih h)

theorem mapGet_of_mem {V : Type} (m : List (TKey × V))
    (hs : m.Pairwise (fun a b => a.1 < b.1)) (key : TKey) (v : V) (h : (key, v) ∈ m) :
    mapGet m key = some v := by
  induction m with
  | nil => simp at h
  | cons a rest ih =>
    obtain ⟨k1, v1⟩ := a
    rw [List.pairwise_cons] at hs
    unfold mapGet
    rcases List.mem_cons.1 h with h1 | h1
    · cases h1
      simp
    · have hlt : k1 < key := hs.1 (key, v) h1
      rw [if_neg (ne_of_gt hlt)]
      exact ih hs.2 h1

theorem mapGet_map {V U : Type} (m : List (TKey × V)) (f : V → U) (key : TKey) :
    mapGet (m.map (fun kv => (kv.1, f kv.2))) key = (mapGet m key).map f := by
  induction m with
  | nil => rfl
  | cons a rest ih =>
    obtain ⟨k1, v1⟩ := a
    simp only [List.map_cons, mapGet]
    by_cases h1 : key = k1
    · simp [h1]
    · simp [h1, ih]

theorem trainLoop_keys (sqrt : F → F) (nWorkers : Nat) (sched : TKey → Nat → Nat → List Nat)
    (k W : Int) (l : List (TKey × List (TKeyWaveform F))) (st : TrainState F) (key : TKey) :
    (mapGet (l.foldl (trainStep sqrt nWorkers sched k W) st).keySoundAverageAmpl key).isSome
        = true ↔
      (mapGet st.keySoundAverageAmpl key).isSome = true ∨
        ∃ kh ∈ l, kh.1 = key ∧ 2 < kh.2.length := by
  induction l generalizing st with
  | nil => simp
  | cons kh rest ih =>
    rw [List.foldl_cons, ih]
    unfold trainStep
    by_cases h : kh.2.length > 2
    · simp only [h, if_true, mapGet_mapSet_isSome]
      constructor
      · rintro ((h1 | h1) | ⟨kh1, hm, h1⟩)
        · exact Or.inr ⟨kh, List.mem_cons_self _ _, h1.symm, h⟩
        · exact Or.inl h1
        · exact Or.inr ⟨kh1, List.mem_cons_of_mem _ hm, h1⟩
      · rintro (h1 | ⟨kh1, hm, h1⟩)
        · exact Or.inl (Or.inr h1)
        · rcases List.mem_cons.1 hm with h2 | h2
          · subst h2
            exact Or.inl (Or.inl h1.1.symm)
          · exact Or.inr ⟨kh1, h2, h1⟩
    · simp only [h, if_false]
      constructor
      · rintro (h1 | ⟨kh1, hm, h1⟩)
        · exact Or.inl h1
        · exact Or.inr ⟨kh1, List.mem_cons_of_mem _ hm, h1⟩
      · rintro (h1 | ⟨kh1, hm, h1⟩)
        · exact Or.inl h1
        · rcases List.mem_cons.1 hm with h2 | h2
          · subst h2
            exact absurd h1.2 h
          · exact Or.inr ⟨kh1, h2, h1⟩

theorem trainLoop_failed_mono (sqrt : F → F) (nWorkers : Nat)
    (sched : TKey → Nat → Nat → List Nat) (k W : Int)
    (l : List (TKey × List (TKeyWaveform F))) (st : TrainState F) (key : TKey)
    (h : key ∈ st.failedToTrain) :
    key ∈ (l.foldl (trainStep sqrt nWorkers sched k W) st).failedToTrain := by
  induction l generalizing st with
  | nil => exact h
  | cons kh rest ih =>
    rw [List.foldl_cons]
    apply ih
    unfold trainStep
    split_ifs
    · exact List.mem_append_left _ h
    · exact h
    · exact List.mem_append_left _ h

theorem trainLoop_failed (sqrt : F → F) (nWorkers : Nat) (sched : TKey → Nat → Nat → List Nat)
    (k W : Int) (l : List (TKey × List (TKeyWaveform F))) (st : TrainState F)
    (kh : TKey × List (TKeyWaveform F)) (hm : kh ∈ l) (hlen : kh.2.length ≤ 2) :
    kh.1 ∈ (l.foldl (trainStep sqrt nWorkers sched k W) st).failedToTrain := by
  induction l generalizing st with
  | nil => simp at hm
  | cons kh1 rest ih =>
    rw [List.foldl_cons]
    rcases List.mem_cons.1 hm with h | h
    · subst h
      apply trainLoop_failed_mono
      unfold trainStep
      rw [if_neg (by omega)]
      exact List.mem_append_right _ (List.mem_singleton_self _)
    · exact ih _ h

theorem trainLoop_failed_sub (sqrt : F → F) (nWorkers : Nat)
    (sched : TKey → Nat → Nat → List Nat) (k W : Int)
    (l : List (TKey × List (TKeyWaveform F))) (st : TrainState F) (key : TKey)
    (h : key ∈ (l.foldl (trainStep sqrt nWorkers sched k W) st).failedToTrain) :
    key ∈ st.failedToTrain ∨ ∃ kh ∈ l, kh.1 = key := by
  induction l generalizing st with
  | nil => exact Or.inl h
  | cons kh rest ih =>
    rw [List.foldl_cons] at h
    rcases ih _ h with h1 | ⟨kh1, hm, h1⟩
    · unfold trainStep at h1
      split_ifs at h1
      · rcases List.mem_append.1 h1 with h2 | h2
        · exact Or.inl h2
        · exact Or.inr ⟨kh, List.mem_cons_self _ _, (List.mem_singleton.1 h2).symm⟩
      · exact Or.inl h1
      · rcases List.mem_append.1 h1 with h2 | h2
        · exact Or.inl h2
        · exact Or.inr ⟨kh, List.mem_cons_self _ _, (List.mem_singleton.1 h2).symm⟩
    · exact Or.inr ⟨kh1, List.mem_cons_of_mem _ hm, h1⟩

theorem trainAll_isSome_iff (sqrt : F → F) (nWorkers : Nat)
    (sched : TKey → Nat → Nat → List Nat) (k W : Int)
    (keySoundHistoryAmpl : List (TKey × List (TKeyWaveform F)))
    (hsorted : keySoundHistoryAmpl.Pairwise (fun a b => a.1 < b.1)) (key : TKey) :
    (mapGet (normalize (trainAll sqrt nWorkers sched k W
        keySoundHistoryAmpl)).keySoundAverageAmpl key).isSome = true ↔
      ∃ history, mapGet keySoundHistoryAmpl key = some history ∧ 3 ≤ history.length := by
  unfold normalize
  simp only [mapGet_map, Option.isSome_map']
  unfold trainAll
  rw [trainLoop_keys]
  simp only [mapGet, Option.isSome_none, Bool.false_eq_true, false_or]
  constructor
  · rintro ⟨kh, hm, h1, h2⟩
    refine ⟨kh.2, mapGet_of_mem _ hsorted key kh.2 ?_, h2⟩
    rw [← h1]
    exact hm
  · rintro ⟨history, h1, h2⟩
    exact ⟨(key, history), mapGet_mem _ _ _ h1, rfl, h2⟩

/-- C15 (amended): after training, a key of the list `failedToTrain` is absent from the
prototype map exactly when its history holds at most 2 recordings; a key that `trainKey`
itself declares failed keeps the prototype that `trainKey` has stored for it. -/
theorem failed_absent_iff (sqrt : F → F) (nWorkers : Nat)
    (sched : TKey → Nat → Nat → List Nat) (k W : Int)
    (keySoundHistoryAmpl : List (TKey × List (TKeyWaveform F)))
    (hsorted : keySoundHistoryAmpl.Pairwise (fun a b => a.1 < b.1)) (key : TKey)
    (hfailed : key ∈ (trainAll sqrt nWorkers sched k W keySoundHistoryAmpl).failedToTrain) :
    ∃ history, mapGet keySoundHistoryAmpl key = some history ∧
      (mapGet (normalize (trainAll sqrt nWorkers sched k W
          keySoundHistoryAmpl)).keySoundAverageAmpl key = none ↔ history.length ≤ 2) := by
  unfold trainAll at hfailed
  rcases trainLoop_failed_sub sqrt nWorkers sched k W _ _ key hfailed with h | ⟨kh, hm, h1⟩
  · simp at h
  · have hget : mapGet keySoundHistoryAmpl key = some kh.2 := by
      apply mapGet_of_mem _ hsorted
      rw [← h1]
      exact hm
    refine ⟨kh.2, hget, ?_⟩
    rw [← Option.not_isSome_iff_eq_none, trainAll_isSome_iff sqrt nWorkers sched k W _ hsorted]
    constructor
    · intro h2
      by_contra h3
      exact h2 ⟨kh.2, hget, by omega⟩
    · rintro h2 ⟨history, h3, h4⟩
      rw [hget] at h3
      cases h3
      omega

/-- C16: after training a prototype exists for a key if and only if the training history of
the key holds at least 3 recordings; a key whose history holds at most 2 recordings is on the
list `failedToTrain` and has no prototype. -/
theorem train_prototype_iff (sqrt : F → F) (nWorkers : Nat)
    (sched : TKey → Nat → Nat → List Nat) (k W : Int)
    (keySoundHistoryAmpl : List (TKey × List (TKeyWaveform F)))
    (hsorted : keySoundHistoryAmpl.Pairwise (fun a b => a.1 < b.1)) :
    (∀ key : TKey,
      (mapGet (normalize (trainAll sqrt nWorkers sched k W
          keySoundHistoryAmpl)).keySoundAverageAmpl key).isSome = true ↔
        ∃ history, mapGet keySoundHistoryAmpl key = some history ∧ 3 ≤ history.length) ∧
    (∀ (key : TKey) (history : List (TKeyWaveform F)),
      mapGet keySoundHistoryAmpl key = some history → history.length ≤ 2 →
        key ∈ (trainAll sqrt nWorkers sched k W keySoundHistoryAmpl).failedToTrain ∧
        mapGet (normalize (trainAll sqrt nWorkers sched k W
          keySoundHistoryAmpl)).keySoundAverageAmpl key = none) := by
  refine ⟨trainAll_isSome_iff sqrt nWorkers sched k W _ hsorted, ?_⟩
  intro key history h1 h2
  refine ⟨trainLoop_failed sqrt nWorkers sched k W _ _ (key, history) (mapGet_mem _ _ _ h1) h2,
    ?_⟩
  rw [← Option.not_isSome_iff_eq_none, trainAll_isSome_iff sqrt nWorkers sched k W _ hsorted]
  rintro ⟨history1, h3, h4⟩
  rw [h1] at h3
  cases h3
  omega

end TrainingLoop
end Keytap
namespace Keytap

section TrainerWitnesses

theorem train_prototype_iff_witness :
    (mapGet (normalize (trainAll Real.sqrt 1 (fun _ _ _ => [0]) 1 130
      [(97, [List.replicate 130 0, List.replicate 130 0, List.replicate 130 0]),
       (98, [List.replicate 130 0, List.replicate 130 0])])).keySoundAverageAmpl 97).isSome
      = true ∧
    98 ∈ (trainAll Real.sqrt 1 (fun _ _ _ => [0]) 1 130
      [(97, [List.replicate 130 0, List.replicate 130 0, List.replicate 130 0]),
       (98, [List.replicate 130 0, List.replicate 130 0])]).failedToTrain ∧
    mapGet (normalize (trainAll Real.sqrt 1 (fun _ _ _ => [0]) 1 130
      [(97, [List.replicate 130 0, List.replicate 130 0, List.replicate 130 0]),
       (98, [List.replicate 130 0, List.replicate 130 0])])).keySoundAverageAmpl 98 = none := by
  have h := train_prototype_iff Real.sqrt 1 (fun _ _ _ => [0]) 1 130
    [(97, [List.replicate 130 0, List.replicate 130 0, List.replicate 130 0]),
     (98, [List.replicate 130 0, List.replicate 130 0])] (by simp)
  refine ⟨(h.1 97).2 ⟨[List.replicate 130 0, List.replicate 130 0, List.replicate 130 0],
    by rw [mapGet, if_pos rfl], le_refl 3⟩, ?_⟩
  exact h.2 98 [List.replicate 130 0, List.replicate 130 0]
    (by rw [mapGet, if_neg (by decide), mapGet, if_pos rfl]) (le_refl 2)

theorem failed_absent_iff_witness :
    ∃ history,
      mapGet [((97 : TKey), [List.replicate 130 (0 : ℝ), List.replicate 130 0,
          List.replicate 130 0]), (98, [List.replicate 130 0, List.replicate 130 0])] 98
        = some history ∧
      (mapGet (normalize (trainAll Real.sqrt 1 (fun _ _ _ => [0]) 1 130
          [(97, [List.replicate 130 0, List.replicate 130 0, List.replicate 130 0]),
           (98, [List.replicate 130 0, List.replicate 130 0])])).keySoundAverageAmpl 98 = none ↔
        history.length ≤ 2) :=
  failed_absent_iff Real.sqrt 1 (fun _ _ _ => [0]) 1 130
    [(97, [List.replicate 130 0, List.replicate 130 0, List.replicate 130 0]),
     (98, [List.replicate 130 0, List.replicate 130 0])] (by simp) 98
    (trainLoop_failed Real.sqrt 1 (fun _ _ _ => [0]) 1 130 _ _
      (98, [List.replicate 130 0, List.replicate 130 0])
      (List.mem_cons_of_mem _ (List.mem_cons_self _ _)) (le_refl 2))

end TrainerWitnesses
end Keytap

/-! ## The trainer on concrete recordings -/

namespace Keytap
section ExampleLemmas
variable {F : Type} [LinearOrderedField F]

theorem sampleZ_out (c : List Int) (t : Int) (h : t < 0 ∨ (c.length : Int) ≤ t) :
    sampleZ c t = 0 := by
  unfold sampleZ
  split_ifs with h0
  · rcases h with h | h
    · omega
    · rw [List.getD_eq_getElem?_getD, List.getElem?_eq_none (by omega)]
      rfl
  · rfl

theorem padRecording_length (pad : ℕ) (core : List Int) :
    (padRecording pad core : TKeyWaveform F).length = pad + core.length + pad := by
  simp [padRecording]
  omega

theorem sampleAt_pad (pad : ℕ) (core : List Int) (t : Int) :
    sampleAt (padRecording pad core : TKeyWaveform F) ((pad : Int) + t)
      = ((sampleZ core t : Int) : F) := by
  unfold sampleAt sampleZ padRecording
  by_cases ht : 0 ≤ t
  · lift t to ℕ using ht
    have e : ((pad : Int) + (t : Int)).toNat = pad + t := by omega
    rw [if_pos (by omega), if_pos (by omega), e, Int.toNat_ofNat, List.append_assoc,
      List.getD_eq_getElem?_getD, List.getD_eq_getElem?_getD,
      List.getElem?_append_right (by simp)]
    simp only [List.length_replicate, Nat.add_sub_cancel_left]
    by_cases hl : t < core.length
    · rw [List.getElem?_append_left (by simpa using hl), List.getElem?_map,
        List.getElem?_eq_getElem hl]
      rfl
    · rw [List.getElem?_append_right (by simpa using hl), List.getElem?_eq_none (not_lt.1 hl)]
      simp only [List.length_map, Option.getD_none, Int.cast_zero]
      rw [List.getElem?_replicate]
      split_ifs <;> rfl
  · rw [if_neg ht, Int.cast_zero]
    split_ifs with h0
    · rw [List.append_assoc, List.getD_eq_getElem?_getD,
        List.getElem?_append_left (by simp; omega), List.getElem?_replicate]
      split_ifs <;> rfl
    · rfl

theorem list_sum_range_eq (f : ℕ → Int) (n : ℕ) :
    ((List.range n).map f).sum = ∑ j in Finset.range n, f j := by
  induction n with
  | zero => simp
  | succ n ih => simp [List.range_succ, Finset.sum_range_succ, ih]

theorem covN_cast (f g : ℕ → Int) (n : ℕ) :
    covN (fun j => ((f j : Int) : F)) (fun j => ((g j : Int) : F)) n
      = ((covZ f g n : Int) : F) := by
  unfold covN covZ
  rw [list_sum_range_eq, list_sum_range_eq, list_sum_range_eq]
  push_cast
  rfl

theorem nccVal_weak (sqrt : F → F) (hs : IsSqrt sqrt) (a b : ℕ → F) (n : ℕ) (qn qd : F)
    (h : qd * covN a b n ^ 2 ≤ qn * (covN a a n * covN b b n)) :
    (nccVal sqrt a b n = TValueCC.nan ∧ covN a a n * covN b b n = 0) ∨
      ∃ x : F, nccVal sqrt a b n = TValueCC.fin x ∧ qd * x ^ 2 ≤ qn := by
  rcases (mul_nonneg (covN_self_nonneg a n) (covN_self_nonneg b n)).lt_or_eq with hp | hp
  · right
    have ha : 0 < covN a a n := by
      rcases (covN_self_nonneg a n).lt_or_eq with h1 | h1
      · exact h1
      · rw [← h1, zero_mul] at hp
        exact absurd hp (lt_irrefl _)
    have hb : 0 < covN b b n := by
      rcases (covN_self_nonneg b n).lt_or_eq with h1 | h1
      · exact h1
      · rw [← h1, mul_zero] at hp
        exact absurd hp (lt_irrefl _)
    refine ⟨_, nccVal_pos sqrt hs a b n ha hb, ?_⟩
    have hsq : sqrt (covN a a n * covN b b n) ^ 2 = covN a a n * covN b b n := by
      rw [pow_two]
      exact (hs _ hp.le).2
    rw [div_pow, hsq, ← mul_div_assoc, div_le_iff₀ hp]
    exact h
  · left
    refine ⟨nccVal_flat sqrt hs a b n ?_, hp.symm⟩
    rcases mul_eq_zero.1 hp.symm with h1 | h1
    · exact Or.inl h1
    · exact Or.inr h1

theorem ccAt_pad (sqrt : F → F) (cA cB : List Int) (hA : cA.length = 12) (o : Int) :
    ccAt sqrt (padRecording 66 cA : TKeyWaveform F) (padRecording 66 cB) 66 78 o =
      nccVal sqrt (fun j => ((sampleZ cA (j : Int) : Int) : F))
        (fun j => ((sampleZ cB (o + (j : Int)) : Int) : F)) 12 := by
  rw [ccAt_eq_nccVal _ _ _ _ _ _ (by norm_num)]
  have e1 : (((padRecording 66 cA : TKeyWaveform F).length : Int)) / 2
      - Int.tdiv (78 - 66) 2 = ((66 : ℕ) : Int) := by
    rw [padRecording_length, hA]
    decide
  have e2 : ((78 : Int) - 66).toNat = 12 := by decide
  rw [e1, e2]
  apply nccVal_congr
  · intro j _
    exact sampleAt_pad 66 cA j
  · intro j _
    have e3 : (66 : Int) + o + (j : Int) = ((66 : ℕ) : Int) + (o + (j : Int)) := by
      push_cast
      ring
    rw [e3]
    exact sampleAt_pad 66 cB _

theorem ccAt_pad_weak (sqrt : F → F) (hs : IsSqrt sqrt) (cA cB : List Int)
    (hA : cA.length = 12) (hB : cB.length = 12) (hw : weakPair cA cB 12 83 500 = true) (o : Int) :
    ccAt sqrt (padRecording 66 cA : TKeyWaveform F) (padRecording 66 cB) 66 78 o
        = TValueCC.nan ∨
      ∃ x : F, ccAt sqrt (padRecording 66 cA : TKeyWaveform F) (padRecording 66 cB) 66 78 o
        = TValueCC.fin x ∧ 500 * x ^ 2 ≤ 83 := by
  rw [ccAt_pad sqrt cA cB hA o]
  by_cases ho : -11 ≤ o ∧ o ≤ 11
  · unfold weakPair at hw
    rw [Bool.and_eq_true, List.all_eq_true] at hw
    have hu := hw.2 (o + 11).toNat (List.mem_range.2 (by omega))
    have e : (((o + 11).toNat : ℕ) : Int) - (((12 : ℕ) : Int) - 1) = o := by omega
    rw [e] at hu
    unfold weakAt at hu
    rw [decide_eq_true_eq] at hu
    have hF : (500 : F) * covN (fun j => ((sampleZ cA (j : Int) : Int) : F))
        (fun j => ((sampleZ cB (o + (j : Int)) : Int) : F)) 12 ^ 2 ≤
        83 * (covN (fun j => ((sampleZ cA (j : Int) : Int) : F))
          (fun j => ((sampleZ cA (j : Int) : Int) : F)) 12 *
        covN (fun j => ((sampleZ cB (o + (j : Int)) : Int) : F))
          (fun j => ((sampleZ cB (o + (j : Int)) : Int) : F)) 12) := by
      rw [covN_cast, covN_cast, covN_cast]
      exact_mod_cast hu
    rcases nccVal_weak sqrt hs _ _ 12 83 500 hF with h | h
    · exact Or.inl h.1
    · exact Or.inr h
  · left
    apply nccVal_flat sqrt hs
    right
    rw [covN_self_eq_zero_iff]
    intro i hi j hj
    rw [sampleZ_out cB (o + (i : Int)) (by omega), sampleZ_out cB (o + (j : Int)) (by omega)]

theorem ccAt_pad_zero (sqrt : F → F) (hs : IsSqrt sqrt) (cA cB : List Int)
    (hA : cA.length = 12) (hw : weakPair cA cB 12 83 500 = true) :
    ∃ x : F, ccAt sqrt (padRecording 66 cA : TKeyWaveform F) (padRecording 66 cB) 66 78 0
      = TValueCC.fin x ∧ 500 * x ^ 2 ≤ 83 := by
  rw [ccAt_pad sqrt cA cB hA 0]
  unfold weakPair at hw
  rw [Bool.and_eq_true, List.all_eq_true, decide_eq_true_eq] at hw
  have hu := hw.2 11 (List.mem_range.2 (by norm_num))
  have e : (((11 : ℕ) : ℕ) : Int) - (((12 : ℕ) : Int) - 1) = 0 := by decide
  rw [e] at hu
  unfold weakAt at hu
  rw [decide_eq_true_eq] at hu
  have hF : (500 : F) * covN (fun j => ((sampleZ cA (j : Int) : Int) : F))
      (fun j => ((sampleZ cB (0 + (j : Int)) : Int) : F)) 12 ^ 2 ≤
      83 * (covN (fun j => ((sampleZ cA (j : Int) : Int) : F))
        (fun j => ((sampleZ cA (j : Int) : Int) : F)) 12 *
      covN (fun j => ((sampleZ cB (0 + (j : Int)) : Int) : F))
        (fun j => ((sampleZ cB (0 + (j : Int)) : Int) : F)) 12) := by
    rw [covN_cast, covN_cast, covN_cast]
    exact_mod_cast hu
  rcases nccVal_weak sqrt hs _ _ 12 83 500 hF with h | h
  · exfalso
    have hpos := hw.1
    have h0 := h.2
    rw [covN_cast, covN_cast] at h0
    simp only [zero_add] at h0
    have : ((covZ (fun j => sampleZ cA (j : Int)) (fun j => sampleZ cA (j : Int)) 12 *
        covZ (fun j => sampleZ cB (j : Int)) (fun j => sampleZ cB (j : Int)) 12 : Int) : F)
        = 0 := by
      push_cast
      exact h0
    rw [Int.cast_eq_zero] at this
    omega
  · exact h

/-- The score of two padded recordings whose cores are weakly correlated. -/
theorem findBestCC_pad_weak (sqrt : F → F) (hs : IsSqrt sqrt) (cA cB : List Int)
    (hA : cA.length = 12) (hB : cB.length = 12) (hw : weakPair cA cB 12 83 500 = true) :
    ∃ x : F, (findBestCC sqrt 1 [0] (padRecording 66 cA : TKeyWaveform F)
        (padRecording 66 cB) 66 78 64).1 = TValueCC.fin x ∧ 500 * x ^ 2 ≤ 83 := by
  obtain ⟨h1, h2⟩ := findBestCC_char sqrt 1 [0] (padRecording 66 cA : TKeyWaveform F)
    (padRecording 66 cB) 66 78 64 le_rfl (List.Perm.refl _)
  rcases h1 with h1 | ⟨o, _, _, h1, hgt⟩
  · exfalso
    obtain ⟨x, hx, hx2⟩ := ccAt_pad_zero sqrt hs cA cB hA hw
    have h3 := h2 0 (by norm_num) (by norm_num)
    rw [h1, hx] at h3
    simp only [TValueCC.gt, decide_eq_false_iff_not, not_lt] at h3
    nlinarith
  · rw [h1]
    rcases ccAt_pad_weak sqrt hs cA cB hA hB hw o with h | ⟨x, hx, hx2⟩
    · rw [h] at hgt
      simp [TValueCC.gt] at hgt
    · exact ⟨x, hx, hx2⟩

end ExampleLemmas
end Keytap
namespace Keytap
section ExampleTraining
variable {F : Type} [LinearOrderedField F]

theorem peakMax_fold (w : TKeyWaveform F) (p : ℕ) (h0 : 0 < |sampleAt w (p : Int)|)
    (h1 : ∀ i : ℕ, i < p → |sampleAt w (i : Int)| < |sampleAt w (p : Int)|)
    (h2 : ∀ i : ℕ, p < i → |sampleAt w (i : Int)| ≤ |sampleAt w (p : Int)|) (m : ℕ) :
    (m ≤ p → ((List.range m).foldl
        (fun (st : Int × F) (icur : Nat) =>
          if |sampleAt w (icur : Int)| > st.2 then ((icur : Int), |sampleAt w (icur : Int)|)
          else st)
        ((-1 : Int), (0 : F))).2 < |sampleAt w (p : Int)|) ∧
    (p < m → (List.range m).foldl
        (fun (st : Int × F) (icur : Nat) =>
          if |sampleAt w (icur : Int)| > st.2 then ((icur : Int), |sampleAt w (icur : Int)|)
          else st)
        ((-1 : Int), (0 : F)) = ((p : Int), |sampleAt w (p : Int)|)) := by
  induction m with
  | zero =>
    refine ⟨fun _ => ?_, fun h => absurd h (Nat.not_lt_zero _)⟩
    simpa using h0
  | succ m ih =>
    rw [List.range_succ, List.foldl_append, List.foldl_cons, List.foldl_nil]
    constructor
    · intro hm
      have ih1 := ih.1 (by omega)
      split_ifs
      · exact h1 m (by omega)
      · exact ih1
    · intro hm
      rcases Nat.lt_or_ge p m with hpm | hpm
      · rw [ih.2 hpm]
        rw [if_neg (not_lt.2 (h2 m hpm))]
      · have hmp : m = p := by omega
        subst hmp
        rw [if_pos (ih.1 le_rfl)]

theorem peakMax_eq (W : Int) (w : TKeyWaveform F) (p : ℕ) (hp : (p : Int) < W)
    (h0 : 0 < |sampleAt w (p : Int)|)
    (h1 : ∀ i : ℕ, i < p → |sampleAt w (i : Int)| < |sampleAt w (p : Int)|)
    (h2 : ∀ i : ℕ, p < i → |sampleAt w (i : Int)| ≤ |sampleAt w (p : Int)|) :
    peakMax W w = (p : Int) := by
  unfold peakMax
  rw [(peakMax_fold w p h0 h1 h2 W.toNat).2 (by omega)]

theorem sampleZ_nat (c : List Int) (u : ℕ) : sampleZ c (u : Int) = c.getD u 0 := by
  unfold sampleZ
  rw [if_pos (by omega), Int.toNat_ofNat]

theorem peakMax_pad (c : List Int) (hc : peakAt c 12 6 = true) :
    peakMax 144 (padRecording 66 c : TKeyWaveform F) = 72 ∧ c.length = 12 := by
  unfold peakAt at hc
  simp only [Bool.and_eq_true, decide_eq_true_eq, List.all_eq_true, List.mem_range] at hc
  obtain ⟨⟨⟨⟨hlen, _⟩, hpos⟩, hlt⟩, hle⟩ := hc
  refine ⟨?_, hlen⟩
  have hs : ∀ i : ℕ, sampleAt (padRecording 66 c : TKeyWaveform F) (i : Int)
      = ((sampleZ c ((i : Int) - 66) : Int) : F) := by
    intro i
    have e : (i : Int) = ((66 : ℕ) : Int) + ((i : Int) - 66) := by
      push_cast
      ring
    rw [e, sampleAt_pad]
    congr 2
    push_cast
    ring
  have h72 : sampleZ c (((72 : ℕ) : Int) - 66) = c.getD 6 0 := by
    have : ((72 : ℕ) : Int) - 66 = ((6 : ℕ) : Int) := by decide
    rw [this, sampleZ_nat]
  have key : peakMax 144 (padRecording 66 c : TKeyWaveform F) = ((72 : ℕ) : Int) := by
    apply peakMax_eq
    · decide
    · rw [hs, h72, ← Int.cast_abs]
      exact_mod_cast hpos
    · intro i hi
      rw [hs, hs, h72, ← Int.cast_abs, ← Int.cast_abs, Int.cast_lt]
      by_cases h66 : i < 66
      · rw [sampleZ_out c _ (Or.inl (by omega))]
        simpa using hpos
      · have e : (i : Int) - 66 = ((i - 66 : ℕ) : Int) := by omega
        rw [e, sampleZ_nat]
        exact hlt (i - 66) (by omega)
    · intro i hi
      rw [hs, hs, h72, ← Int.cast_abs, ← Int.cast_abs, Int.cast_le]
      by_cases h78 : i < 78
      · have e : (i : Int) - 66 = ((i - 66 : ℕ) : Int) := by omega
        rw [e, sampleZ_nat]
        exact hle (i - 66) (by omega)
      · rw [sampleZ_out c _ (Or.inr (by omega))]
        simp
  rw [key]
  rfl

theorem shiftWaveform_zero (W : Int) (w : TKeyWaveform F) (hlen : w.length = W.toNat) :
    shiftWaveform W w 0 = w := by
  unfold shiftWaveform
  apply List.ext_getElem
  · simp [hlen]
  · intro i h1 h2
    simp only [List.getElem_map, List.getElem_range, add_zero]
    have hi : i < W.toNat := by simpa using h1
    rw [if_pos ⟨by omega, by omega⟩]
    unfold sampleAt
    rw [if_pos (by omega), Int.toNat_ofNat, List.getD_eq_getElem?_getD,
      List.getElem?_eq_getElem h2]
    rfl

theorem centerWaveforms_pad (cs : List (List Int))
    (hcs : ∀ c ∈ cs, peakAt c 12 6 = true) :
    centerWaveforms 144 (cs.map (fun c => (padRecording 66 c : TKeyWaveform F)))
      = cs.map (fun c => (padRecording 66 c : TKeyWaveform F)) := by
  unfold centerWaveforms
  rw [List.map_map]
  apply List.map_congr_left
  intro c hc
  obtain ⟨hp, hlen⟩ := peakMax_pad (F := F) c (hcs c hc)
  simp only [Function.comp]
  rw [hp]
  have e : (72 : Int) - 144 / 2 = 0 := by decide
  rw [e]
  apply shiftWaveform_zero
  rw [padRecording_length, hlen]
  rfl

theorem trainFind_pad (sqrt : F → F) (hs : IsSqrt sqrt) (cs : List (List Int))
    (hcs : weakFamily cs 12 6 83 500 = true) (i j : ℕ) (hij : i < j) (hj : j < cs.length) :
    (trainFind sqrt 1 (fun _ _ => [0]) 6 144
        (cs.map (fun c => (padRecording 66 c : TKeyWaveform F))) i j).1 *
      (trainFind sqrt 1 (fun _ _ => [0]) 6 144
        (cs.map (fun c => (padRecording 66 c : TKeyWaveform F))) i j).1 ≤ 83 / 500 := by
  unfold weakFamily at hcs
  simp only [Bool.and_eq_true, List.all_eq_true, List.mem_range] at hcs
  obtain ⟨hpk, hw⟩ := hcs
  have hi : i < cs.length := by omega
  have hwp := hw j hj i hij
  have gi : cs.getD i [] = cs[i] := by
    rw [List.getD_eq_getElem?_getD, List.getElem?_eq_getElem hi]
    rfl
  have gj : cs.getD j [] = cs[j] := by
    rw [List.getD_eq_getElem?_getD, List.getElem?_eq_getElem hj]
    rfl
  rw [gi, gj] at hwp
  have mi : (cs.map (fun c => (padRecording 66 c : TKeyWaveform F))).getD i []
      = padRecording 66 cs[i] := by
    rw [List.getD_eq_getElem?_getD, List.getElem?_map, List.getElem?_eq_getElem hi]
    rfl
  have mj : (cs.map (fun c => (padRecording 66 c : TKeyWaveform F))).getD j []
      = padRecording 66 cs[j] := by
    rw [List.getD_eq_getElem?_getD, List.getElem?_map, List.getElem?_eq_getElem hj]
    rfl
  have li := (peakMax_pad (F := F) cs[i] (hpk _ (List.getElem_mem _))).2
  have lj := (peakMax_pad (F := F) cs[j] (hpk _ (List.getElem_mem _))).2
  obtain ⟨x, hx, hx2⟩ := findBestCC_pad_weak sqrt hs cs[i] cs[j] li lj hwp
  unfold trainFind
  simp only []
  rw [mi, mj]
  have e1 : (144 : Int) / 2 - 6 = 66 := by decide
  have e2 : (144 : Int) / 2 + 6 = 78 := by decide
  rw [e1, e2, hx]
  simp only [TValueCC.toF]
  rw [le_div_iff₀ (by norm_num)]
  nlinarith

/-- The sum `ccsum` of the training of a key from padded recordings whose cores are pairwise
weakly correlated. -/
theorem trainKey_weakFamily (sqrt : F → F) (hs : IsSqrt sqrt) (cs : List (List Int))
    (hcs : weakFamily cs 12 6 83 500 = true) (hN : 1 ≤ cs.length) (amplMax amplMin : F) :
    (trainKey sqrt 1 (fun _ _ => [0]) 6 144
        (cs.map (fun c => (padRecording 66 c : TKeyWaveform F))) amplMax amplMin).ccsum
      ≤ 1 + ((cs.length : F) - 1) * (83 / 500) := by
  have hpk : ∀ c ∈ cs, peakAt c 12 6 = true := by
    unfold weakFamily at hcs
    simp only [Bool.and_eq_true, List.all_eq_true] at hcs
    exact hcs.1
  rw [trainKey_ccsum, centerWaveforms_pad cs hpk, List.length_map]
  exact (anchor_weightSum_bounds _ cs.length hN (83 / 500)
    (fun i j hij hj => trainFind_pad sqrt hs cs hcs i j hij hj)).2

end ExampleTraining
end Keytap
namespace Keytap
section ExampleClosed

theorem exampleCores_weak : weakFamily exampleCores 12 6 83 500 = true := by
  decide!

theorem exampleCores_five_weak : weakFamily (exampleCores.take 5) 12 6 83 500 = true := by
  decide!

/-- Six weakly correlated recordings of the key `97`: `trainKey` declares the key failed,
the key is on the list `failedToTrain`, and its prototype is in the prototype map. -/
theorem failed_key_keeps_prototype :
    97 ∈ (trainAll Real.sqrt 1 (fun _ _ _ => [0]) 6 144
      [(97, exampleCores.map (fun c => (padRecording 66 c : TKeyWaveform ℝ)))]).failedToTrain ∧
    (mapGet (normalize (trainAll Real.sqrt 1 (fun _ _ _ => [0]) 6 144
      [(97, exampleCores.map
        (fun c => (padRecording 66 c : TKeyWaveform ℝ)))])).keySoundAverageAmpl 97).isSome
      = true := by
  have hlen : (exampleCores.map (fun c => (padRecording 66 c : TKeyWaveform ℝ))).length = 6 :=
    rfl
  have hle := trainKey_weakFamily Real.sqrt isSqrt_real exampleCores exampleCores_weak
    (by decide) 0 0
  have hge := trainKey_ccsum_ge_one Real.sqrt 1 (fun _ _ => [0]) 6 144
    (exampleCores.map (fun c => (padRecording 66 c : TKeyWaveform ℝ))) 0 0 (by rw [hlen]; decide)
  have hfail : (trainKey Real.sqrt 1 (fun _ _ => [0]) 6 144
      (exampleCores.map (fun c => (padRecording 66 c : TKeyWaveform ℝ))) 0 0).failed = true := by
    rw [trainKey_failed, trainFailed_iff _ _ (lt_of_lt_of_le one_pos hge), hlen]
    have e : ((((6 : ℕ) : Int) / 3 : Int) : ℝ) = 2 := by norm_num
    have e6 : ((exampleCores.length : ℕ) : ℝ) = 6 := by norm_num [exampleCores]
    rw [e]
    rw [e6] at hle
    linarith
  constructor
  · unfold trainAll
    simp only [List.foldl_cons, List.foldl_nil, trainStep]
    rw [if_pos (by rw [hlen]; decide), hfail]
    simp
  · exact (trainAll_isSome_iff Real.sqrt 1 (fun _ _ _ => [0]) 6 144 _ (by simp) 97).2
      ⟨_, by rw [mapGet, if_pos rfl], by rw [hlen]; decide⟩

theorem trainKey_failed_iff_witness :
    (trainKey Real.sqrt 1 (fun _ _ => [0]) 6 144
      ((exampleCores.take 5).map (fun c => (padRecording 66 c : TKeyWaveform ℝ))) 0 0).failed
      = false ∧
    (trainKey Real.sqrt 1 (fun _ _ => [0]) 6 144
      ((exampleCores.take 5).map (fun c => (padRecording 66 c : TKeyWaveform ℝ))) 0 0).ccsum
      < 5 / 3 := by
  have hlen : ((exampleCores.take 5).map
      (fun c => (padRecording 66 c : TKeyWaveform ℝ))).length = 5 := rfl
  have h := (trainKey_failed_iff Real.sqrt 1 (fun _ _ => [0]) 6 144
    ((exampleCores.take 5).map (fun c => (padRecording 66 c : TKeyWaveform ℝ))) 0 0
    (by rw [hlen]; decide)).1
  have hle := trainKey_weakFamily Real.sqrt isSqrt_real (exampleCores.take 5)
    exampleCores_five_weak (by decide) 0 0
  have hge := trainKey_ccsum_ge_one Real.sqrt 1 (fun _ _ => [0]) 6 144
    ((exampleCores.take 5).map (fun c => (padRecording 66 c : TKeyWaveform ℝ))) 0 0
    (by rw [hlen]; decide)
  have e5 : (((exampleCores.take 5).length : ℕ) : ℝ) = 5 := by norm_num [exampleCores]
  rw [e5] at hle
  rw [hlen] at h
  have e : ((((5 : ℕ) : Int) / 3 : Int) : ℝ) = 1 := by norm_num
  rw [e] at h
  constructor
  · rw [← Bool.not_eq_true]
    intro hf
    have := h.1 hf
    linarith
  · linarith

end ExampleClosed
end Keytap

/-! ## Tie-break, worker count, constant signals and the work queue: results -/

namespace Keytap
section TieBreak
variable {F : Type} [LinearOrderedField F]

theorem ge_false_of_gt {x y : TValueCC F} (h : y.gt x = true) : x.ge y = false := by
  cases x <;> cases y <;> simp [TValueCC.gt, TValueCC.ge] at *
  exact h

theorem ge_false_of_not_gt {x e s : TValueCC F} (h1 : x.gt s = false) (h2 : e.gt s = true) :
    x.ge e = false := by
  cases x <;> cases e <;> cases s <;> simp [TValueCC.gt, TValueCC.ge] at *
  exact lt_of_le_of_lt h1 h2

/-- The fold `if (cc > best) best = candidate` over a list stops at the first element that
attains its result: every earlier element is `NaN` or strictly below. -/
theorem foldl_keepBest_first {ι : Type} (val : ι → TValueCC F × TOffset) (l : List ι)
    (st : TValueCC F × TOffset) :
    (l.foldl (keepBest val) st = st ∧ ∀ e ∈ l, (val e).1.gt st.1 = false) ∨
      ∃ l1 e l2, l = l1 ++ e :: l2 ∧ l.foldl (keepBest val) st = val e ∧
        (val e).1.gt st.1 = true ∧ ∀ e1 ∈ l1, (val e1).1.ge (val e).1 = false := by
  induction l generalizing st with
  | nil => exact Or.inl ⟨rfl, by simp⟩
  | cons x l ih =>
    simp only [List.foldl_cons]
    by_cases hgt : (val x).1.gt st.1 = true
    · have hst : keepBest val st x = val x := by simp [keepBest, hgt]
      rw [hst]
      right
      rcases ih (val x) with ⟨h1, _⟩ | ⟨l1, e, l2, hl, h1, h2, h3⟩
      · exact ⟨[], x, l, rfl, h1, hgt, by simp⟩
      · refine ⟨x :: l1, e, l2, by rw [hl]; rfl, h1, TValueCC.gt_trans h2 hgt, ?_⟩
        intro e1 he1
        rcases List.mem_cons.1 he1 with rfl | he1
        · exact ge_false_of_gt h2
        · exact h3 e1 he1
    · have hgt1 : (val x).1.gt st.1 = false := by simpa using hgt
      have hst : keepBest val st x = st := by simp [keepBest, hgt1]
      rw [hst]
      rcases ih st with ⟨h1, h2⟩ | ⟨l1, e, l2, hl, h1, h2, h3⟩
      · left
        refine ⟨h1, ?_⟩
        intro e1 he1
        rcases List.mem_cons.1 he1 with rfl | he1
        · exact hgt1
        · exact h2 e1 he1
      · right
        refine ⟨x :: l1, e, l2, by rw [hl]; rfl, h1, h2, ?_⟩
        intro e1 he1
        rcases List.mem_cons.1 he1 with rfl | he1
        · exact ge_false_of_not_gt hgt1 h2
        · exact h3 e1 he1

theorem search_first (cc : Int → TValueCC F) (alignWindow : Int) (nWorkers : Nat)
    (order : List Nat) (hn : 1 ≤ nWorkers) (hord : ∀ i ∈ order, i < nWorkers)
    (hbest : (order.foldl (keepBest (workerBest cc alignWindow nWorkers))
      (TValueCC.fin (-1), -1)).1.gt (TValueCC.fin (-1)) = true)
    (o : Int) (j : ℕ) (ho : -alignWindow ≤ o)
    (hj : (order.foldl (keepBest (workerBest cc alignWindow nWorkers))
      (TValueCC.fin (-1), -1)).2 = o + ((j : Int) + 1) * (nWorkers : Int)) :
    (cc o).ge (order.foldl (keepBest (workerBest cc alignWindow nWorkers))
      (TValueCC.fin (-1), -1)).1 = false := by
  have hn1 : (1 : Int) ≤ (nWorkers : Int) := by exact_mod_cast hn
  rcases foldl_keepBest_first (workerBest cc alignWindow nWorkers) order
    (TValueCC.fin (-1), -1) with ⟨h1, _⟩ | ⟨l1, i, l2, hl, h1, h2, _⟩
  · rw [h1] at hbest
    simp [TValueCC.gt] at hbest
  · rw [h1] at hbest hj ⊢
    have hi : i < nWorkers := hord i (by rw [hl]; simp)
    rw [workerBest_eq_foldl] at hbest hj ⊢
    rcases foldl_keepBest_first (fun o => (cc o, o)) (workerOffsets alignWindow nWorkers i)
      (TValueCC.fin (-1), -1) with ⟨h3, _⟩ | ⟨m1, b, m2, hm, h3, _, h5⟩
    · rw [h3] at hbest
      simp [TValueCC.gt] at hbest
    · rw [h3] at hj ⊢
      simp only [] at hj ⊢
      apply h5
      have hb : b ∈ workerOffsets alignWindow nWorkers i := by rw [hm]; simp
      obtain ⟨_, hb2, q, hq⟩ := workerOffsets_bounds alignWindow nWorkers i b hb
      have hjn : (0 : Int) ≤ (j : Int) * (nWorkers : Int) :=
        mul_nonneg (Int.ofNat_nonneg j) (by linarith)
      have hqj : (j : Int) + 1 ≤ (q : Int) := by
        by_contra hc
        have hc1 : (q : Int) ≤ (j : Int) := by omega
        have : (q : Int) * (nWorkers : Int) ≤ (j : Int) * (nWorkers : Int) :=
          mul_le_mul_of_nonneg_right hc1 (by linarith)
        have hi' : (i : Int) < (nWorkers : Int) := by exact_mod_cast hi
        nlinarith
      obtain ⟨t, ht⟩ : ∃ t : ℕ, (q : Int) = (t : Int) + ((j : Int) + 1) :=
        ⟨(q - (j + 1)), by omega⟩
      have ho_eq : o = -alignWindow + (i : Int) + (t : Int) * (nWorkers : Int) := by
        have : b = -alignWindow + (i : Int) + ((t : Int) + ((j : Int) + 1)) * (nWorkers : Int) := by
          rw [hq, ht]
        linarith [add_mul (t : Int) ((j : Int) + 1) (nWorkers : Int)]
      have hlt : o < b := by nlinarith
      have homem : o ∈ workerOffsets alignWindow nWorkers i := by
        rw [ho_eq]
        unfold workerOffsets
        apply visited_mem alignWindow nWorkers hn1 _ _ le_rfl
        rw [← ho_eq]
        linarith
      have hsorted : (workerOffsets alignWindow nWorkers i).Pairwise (· < ·) :=
        visited_sorted alignWindow nWorkers hn1 _ _
      rw [hm] at homem hsorted
      rcases List.mem_append.1 homem with h | h
      · exact h
      · exfalso
        rcases List.mem_cons.1 h with h | h
        · omega
        · have := (List.pairwise_cons.1 (List.pairwise_append.1 hsorted).2.1).1 o h
          omega

/-- C23 (amended): for every worker count `>= 1` and every order of the final reduction, when
the returned score is above `-1`, no smaller offset of the same residue class modulo the worker
count (`besto - nWorkers`, `besto - 2 nWorkers`, ... down to `-alignWindow`) has a score `>=`
the returned one; with a single worker no smaller offset at all has, so the first offset in scan
order that attains the maximum is returned. -/
theorem findBestCC_tiebreak (sqrt : F → F) (nWorkers : Nat) (order : List Nat)
    (A B : TKeyWaveform F) (is0 is1 alignWindow : Int) (hn : 1 ≤ nWorkers)
    (hord : order.Perm (List.range nWorkers))
    (hbest : (findBestCC sqrt nWorkers order A B is0 is1 alignWindow).1.gt
      (TValueCC.fin (-1)) = true) :
    (∀ (o : Int) (j : ℕ), -alignWindow ≤ o →
      (findBestCC sqrt nWorkers order A B is0 is1 alignWindow).2
        = o + ((j : Int) + 1) * (nWorkers : Int) →
      (ccAt sqrt A B is0 is1 o).ge
        (findBestCC sqrt nWorkers order A B is0 is1 alignWindow).1 = false) ∧
    (nWorkers = 1 → ∀ o : Int, -alignWindow ≤ o →
      o < (findBestCC sqrt nWorkers order A B is0 is1 alignWindow).2 →
      (ccAt sqrt A B is0 is1 o).ge
        (findBestCC sqrt nWorkers order A B is0 is1 alignWindow).1 = false) := by
  rw [findBestCC_eq_foldl] at hbest ⊢
  have hmem : ∀ i ∈ order, i < nWorkers := fun i hi => List.mem_range.1 ((hord.mem_iff).1 hi)
  have hgen := fun (o : Int) (j : ℕ) =>
    search_first (ccAt sqrt A B is0 is1) alignWindow nWorkers order hn hmem hbest o j
  refine ⟨hgen, ?_⟩
  intro h1 o ho hlt
  subst h1
  have hpos : 0 ≤ (order.foldl
      (keepBest (workerBest (ccAt sqrt A B is0 is1) alignWindow 1))
      (TValueCC.fin (-1), -1)).2 - o - 1 := by linarith
  obtain ⟨j, hj⟩ : ∃ j : ℕ, (order.foldl
      (keepBest (workerBest (ccAt sqrt A B is0 is1) alignWindow 1))
      (TValueCC.fin (-1), -1)).2 - o = (j : Int) + 1 :=
    ⟨((order.foldl (keepBest (workerBest (ccAt sqrt A B is0 is1) alignWindow 1))
      (TValueCC.fin (-1), -1)).2 - o - 1).toNat, by rw [Int.toNat_of_nonneg hpos]; ring⟩
  apply hgen o j ho
  push_cast
  linarith

/-- C24 (amended): `findBestCC` uses the reported hardware parallelism as it is: for a value
`>= 1` every offset of `[-alignWindow, alignWindow)` is scanned by some worker, no offset scores
above the returned correlation, and the returned pair is the score and offset of a scanned
offset or `(-1, -1)` when no offset scores above `-1`; for the value `0` no worker runs, no
offset is scanned and `(-1, -1)` is returned. -/
theorem findBestCC_workers (sqrt : F → F) (nWorkers : Nat) (order : List Nat)
    (A B : TKeyWaveform F) (is0 is1 alignWindow : Int)
    (hord : order.Perm (List.range nWorkers)) :
    (nWorkers = 0 →
      findBestCC sqrt nWorkers order A B is0 is1 alignWindow = (TValueCC.fin (-1), -1) ∧
      ∀ i, workerOffsets alignWindow nWorkers i ≠ [] → i ∉ order) ∧
    (1 ≤ nWorkers →
      (∀ o, -alignWindow ≤ o → o < alignWindow →
        ∃ i ∈ order, o ∈ workerOffsets alignWindow nWorkers i) ∧
      (∀ o, -alignWindow ≤ o → o < alignWindow →
        (ccAt sqrt A B is0 is1 o).gt
          (findBestCC sqrt nWorkers order A B is0 is1 alignWindow).1 = false) ∧
      (findBestCC sqrt nWorkers order A B is0 is1 alignWindow = (TValueCC.fin (-1), -1) ∨
        ∃ o, -alignWindow ≤ o ∧ o < alignWindow ∧
          findBestCC sqrt nWorkers order A B is0 is1 alignWindow
            = (ccAt sqrt A B is0 is1 o, o) ∧
          (ccAt sqrt A B is0 is1 o).gt (TValueCC.fin (-1)) = true)) := by
  constructor
  · intro h0
    subst h0
    have hnil : order = [] := List.Perm.eq_nil hord
    subst hnil
    exact ⟨rfl, fun i _ hi => absurd hi (List.not_mem_nil _)⟩
  · intro hn
    obtain ⟨h1, h2⟩ := findBestCC_char sqrt nWorkers order A B is0 is1 alignWindow hn hord
    refine ⟨?_, h2, h1⟩
    intro o ho1 ho2
    obtain ⟨i, hi, hmem⟩ := workerOffsets_cover alignWindow nWorkers hn o ho1 ho2
    exact ⟨i, (hord.mem_iff).2 (List.mem_range.2 hi), hmem⟩

end TieBreak

section TieBreakConcrete

theorem cc_ramp_ramp_m1 :
    ccAt Real.sqrt ([0, 1, 2, 0] : List ℝ) [0, 1, 2, 0] 1 3 (-1) = TValueCC.fin 1 := by
  rw [ccAt_eq_nccVal _ _ _ _ _ _ (by norm_num), centre_four _ (by rfl)]
  have h3 : ((3 : Int) - 1).toNat = 2 := by decide
  rw [h3]
  norm_num [nccVal, covN, Finset.sum_range_succ, sampleAt, fsqrt, fdiv, toNat_lit0, toNat_lit1,
    toNat_lit2, toNat_lit3]

theorem cc_ramp_ramp_0 :
    ccAt Real.sqrt ([0, 1, 2, 0] : List ℝ) [0, 1, 2, 0] 1 3 0 = TValueCC.fin 1 := by
  rw [ccAt_eq_nccVal _ _ _ _ _ _ (by norm_num), centre_four _ (by rfl)]
  have h3 : ((3 : Int) - 1).toNat = 2 := by decide
  rw [h3]
  norm_num [nccVal, covN, Finset.sum_range_succ, sampleAt, fsqrt, fdiv, toNat_lit0, toNat_lit1,
    toNat_lit2, toNat_lit3]

/-- Two workers, the offsets `-1` and `0` both score `1`: when worker `1` takes the mutex first
the offset `0` is returned, not the smallest offset `-1` that attains the maximum; when worker
`0` is first the offset `-1` is returned. -/
theorem findBestCC_tie_order :
    findBestCC Real.sqrt 2 [1, 0] ([0, 1, 2, 0] : List ℝ) [0, 1, 2, 0] 1 3 1
      = (TValueCC.fin 1, 0) ∧
    ccAt Real.sqrt ([0, 1, 2, 0] : List ℝ) [0, 1, 2, 0] 1 3 (-1) = TValueCC.fin 1 ∧
    findBestCC Real.sqrt 2 [0, 1] ([0, 1, 2, 0] : List ℝ) [0, 1, 2, 0] 1 3 1
      = (TValueCC.fin 1, -1) := by
  refine ⟨?_, cc_ramp_ramp_m1, ?_⟩
  · rw [findBestCC_eq_foldl]
    norm_num [keepBest, workerBest, scanOffsets, cc_ramp_ramp_m1, cc_ramp_ramp_0, TValueCC.gt]
  · rw [findBestCC_eq_foldl]
    norm_num [keepBest, workerBest, scanOffsets, cc_ramp_ramp_m1, cc_ramp_ramp_0, TValueCC.gt]

/-- A reported parallelism of `0`: `(-1, -1)` is returned although the offset `-1` scores
`1`. -/
theorem findBestCC_no_worker :
    findBestCC Real.sqrt 0 [] ([0, 1, 2, 0] : List ℝ) [0, 1, 0, 0] 1 3 1
      = (TValueCC.fin (-1), -1) ∧
    ccAt Real.sqrt ([0, 1, 2, 0] : List ℝ) [0, 1, 0, 0] 1 3 (-1) = TValueCC.fin 1 :=
  ⟨rfl, cc_ramp_peak_m1⟩

theorem findBestCC_workers_witness :
    findBestCC Real.sqrt 0 [] ([0, 1, 2, 0] : List ℝ) [0, 1, 0, 0] 1 3 1
      = (TValueCC.fin (-1), -1) :=
  ((findBestCC_workers Real.sqrt 0 [] ([0, 1, 2, 0] : List ℝ) [0, 1, 0, 0] 1 3 1
    (List.Perm.refl _)).1 rfl).1

end TieBreakConcrete
end Keytap
namespace Keytap
section ConstantSignal
variable {F : Type} [LinearOrderedField F]

theorem acc_of_uniform (k : Int) (hk : 1 ≤ k) (frames : Record F) (c : F)
    (hframes : ∀ f ∈ frames, f.length = k.toNat) (hall : ∀ f ∈ frames, ∀ x ∈ f, |x| = c)
    (j : Int) (h0 : 0 ≤ j) (h1 : j < (frames.length : Int) * k) : acc k frames j = c := by
  have hdiv : Int.tdiv j k = j / k := Int.tdiv_eq_ediv h0 (by omega)
  have hmod : Int.tmod j k = j % k := Int.tmod_eq_emod h0 (by omega)
  have hq0 : 0 ≤ j / k := Int.ediv_nonneg h0 (by omega)
  have hq1 : j / k < (frames.length : Int) := Int.ediv_lt_of_lt_mul (by omega) h1
  have hr0 : 0 ≤ j % k := Int.emod_nonneg j (by omega)
  have hr1 : j % k < k := Int.emod_lt_of_pos j (by omega)
  unfold acc frameAt sampleAt
  rw [hdiv, hmod, if_pos hq0, if_pos hr0]
  have hf : (j / k).toNat < frames.length := by omega
  have e1 : frames.getD (j / k).toNat [] = frames[(j / k).toNat] := by
    rw [List.getD_eq_getElem?_getD, List.getElem?_eq_getElem hf]
    rfl
  rw [e1]
  have hmem : frames[(j / k).toNat] ∈ frames := List.getElem_mem _
  have hs : (j % k).toNat < (frames[(j / k).toNat]).length := by
    rw [hframes _ hmem]
    omega
  have e2 : (frames[(j / k).toNat]).getD (j % k).toNat 0
      = (frames[(j / k).toNat])[(j % k).toNat] := by
    rw [List.getD_eq_getElem?_getD, List.getElem?_eq_getElem hs]
    rfl
  rw [e2]
  exact hall _ hmem _ (List.getElem_mem _)

/-- The candidates of a buffer whose `_acc` is constant: none when `kSamplesPerFrame >= 2`,
every index of the valid range when `kSamplesPerFrame = 1`. -/
theorem peakDetect_constant (k : Int) (hk : 1 ≤ k) (thr avg : F) (frames : Record F) (c : F)
    (hconst : ∀ j, 0 ≤ j → j < (frames.length : Int) * k → acc k frames j = c) :
    (2 ≤ k → (peakDetect k thr avg frames).positionsToPredict = []) ∧
    (k = 1 → thr * avg < c → ∀ p, 2 * k ≤ p → p < ((frames.length : Int) - 2) * k →
      p ∈ (peakDetect k thr avg frames).positionsToPredict) := by
  constructor
  · intro hk2
    apply List.eq_nil_iff_forall_not_mem.2
    intro p hp
    rw [peakDetect_mem k hk] at hp
    obtain ⟨⟨hr1, hr2⟩, ⟨_, hlt⟩, _⟩ := hp
    have hdiv : Int.tdiv k 2 = k / 2 := Int.tdiv_eq_ediv (by omega) (by norm_num)
    have hh : 1 ≤ Int.tdiv k 2 := by rw [hdiv]; omega
    have h := hlt (p + 1) (by omega) (by omega)
    have hlen : p + 1 < (frames.length : Int) * k := by nlinarith
    rw [hconst p (by omega) (by nlinarith), hconst (p + 1) (by omega) hlen] at h
    exact lt_irrefl _ h
  · intro hk1 hthr p hr1 hr2
    subst hk1
    rw [peakDetect_mem 1 le_rfl]
    have hdiv : Int.tdiv 1 2 = 0 := by decide
    rw [hdiv]
    refine ⟨⟨hr1, hr2⟩, ⟨?_, ?_⟩, ?_⟩
    · intro j hj1 hj2
      have : j = p := by omega
      rw [this]
    · intro j hj1 hj2
      omega
    · rw [hconst p (by omega) (by omega)]
      exact hthr

theorem cbAudioPredict_snd (k : Int) (thresholdBackground : F) (rb : RingBuffer F)
    (frames : Record F) :
    (cbAudioPredict k thresholdBackground rb frames).2 =
      (peakDetect k thresholdBackground (rbUpdate rb frames).rbAverage
        frames).positionsToPredict := rfl

/-- C25 (amended): for a prediction-mode buffer of frames of `k = kSamplesPerFrame` samples
whose `|sample|` is the same constant `c` at every index, the peak detector emits no candidate
at all when `k >= 2` (a later equal sample pops every earlier index off the deque, whose front
is then the newest index and never `i - k/2`); only for `k = 1`, and `c > thresholdBackground *
rbAverage`, it emits every index of the valid range. -/
theorem peak_constant (k : Int) (hk : 1 ≤ k) (thresholdBackground : F) (rb : RingBuffer F)
    (frames : Record F) (c : F) (hframes : ∀ f ∈ frames, f.length = k.toNat)
    (hall : ∀ f ∈ frames, ∀ x ∈ f, |x| = c) :
    (2 ≤ k → (cbAudioPredict k thresholdBackground rb frames).2 = []) ∧
    (k = 1 → c > thresholdBackground * (rbUpdate rb frames).rbAverage →
      ∀ p, 2 * k ≤ p → p < ((frames.length : Int) - 2) * k →
        p ∈ (cbAudioPredict k thresholdBackground rb frames).2) :=
  peakDetect_constant k hk thresholdBackground (rbUpdate rb frames).rbAverage frames c
    (acc_of_uniform k hk frames c hframes hall)

end ConstantSignal

section ConstantConcrete

theorem constant_average_le (frames : Record ℚ) (h : ∀ f ∈ frames, ∀ x ∈ f, |x| = 1) :
    (1 / 2 : ℚ) * (rbUpdate (rbReach [] []) frames).rbAverage < 1 := by
  have havg : (rbUpdate (rbReach [] []) frames).rbAverage ≤ 1 := by
    rw [rbUpdate_rbReach]
    apply rbReach_average_le _ _ 1 (by norm_num)
    intro x hx
    simp only [List.flatMap_nil, List.nil_append, flattenFrames, List.mem_flatMap] at hx
    obtain ⟨f, hf, hxf⟩ := hx
    exact le_of_eq (h f hf x hxf)
  linarith

/-- Six frames of two samples, every sample `1`, above the background threshold: the valid range
`[4, 8)` is not empty and no candidate is emitted. -/
theorem peak_constant_none :
    (cbAudioPredict 2 (1 / 2 : ℚ) (rbReach [] [])
      [[1, 1], [1, 1], [1, 1], [1, 1], [1, 1], [1, 1]]).2 = [] ∧
    (1 : ℚ) > (1 / 2 : ℚ) * (rbUpdate (rbReach [] [])
      ([[1, 1], [1, 1], [1, 1], [1, 1], [1, 1], [1, 1]] : Record ℚ)).rbAverage ∧
    ((2 : Int) * 2 ≤ 4 ∧ (4 : Int) < ((6 : Int) - 2) * 2) := by
  have hall : ∀ f ∈ ([[1, 1], [1, 1], [1, 1], [1, 1], [1, 1], [1, 1]] : Record ℚ),
      ∀ x ∈ f, |x| = 1 := by
    intro f hf x hx
    simp only [List.mem_cons, List.mem_singleton, List.not_mem_nil, or_false, or_self] at hf
    subst hf
    simp only [List.mem_cons, List.mem_singleton, List.not_mem_nil, or_false, or_self] at hx
    subst hx
    norm_num
  have hframes : ∀ f ∈ ([[1, 1], [1, 1], [1, 1], [1, 1], [1, 1], [1, 1]] : Record ℚ),
      f.length = (2 : Int).toNat := by
    intro f hf
    simp only [List.mem_cons, List.mem_singleton, List.not_mem_nil, or_false, or_self] at hf
    subst hf
    rfl
  refine ⟨?_, constant_average_le _ hall, by norm_num, by norm_num⟩
  rw [cbAudioPredict_snd]
  exact (peakDetect_constant 2 (by norm_num) _ _ _ 1
    (acc_of_uniform 2 (by norm_num) _ 1 hframes hall)).1 le_rfl

theorem peak_constant_witness :
    (2 : Int) ∈ (cbAudioPredict 1 (1 / 2 : ℚ) (rbReach [] []) [[1], [1], [1], [1], [1]]).2 := by
  have hall : ∀ f ∈ ([[1], [1], [1], [1], [1]] : Record ℚ), ∀ x ∈ f, |x| = 1 := by
    intro f hf x hx
    simp only [List.mem_cons, List.mem_singleton, List.not_mem_nil, or_false, or_self] at hf
    subst hf
    simp only [List.mem_singleton] at hx
    subst hx
    norm_num
  have hframes : ∀ f ∈ ([[1], [1], [1], [1], [1]] : Record ℚ), f.length = (1 : Int).toNat := by
    intro f hf
    simp only [List.mem_cons, List.mem_singleton, List.not_mem_nil, or_false, or_self] at hf
    subst hf
    rfl
  exact (peak_constant 1 le_rfl (1 / 2 : ℚ) (rbReach [] []) [[1], [1], [1], [1], [1]] 1 hframes
    hall).2 rfl (constant_average_le _ hall) 2 (by decide) (by decide)

end ConstantConcrete
end Keytap
namespace Keytap
section QueueTrim
variable {F : Type} [LinearOrderedField F]

theorem trimQueue_replay {α : Type} (q : List α) : trimQueue true q = q := by
  cases q with
  | nil => rfl
  | cons x rest => simp [trimQueue]

theorem trimQueue_live {α : Type} (q : List α) :
    trimQueue false q = q.drop (q.length - 30) := by
  induction q with
  | nil => rfl
  | cons x rest ih =>
    unfold trimQueue
    by_cases h : (x :: rest).length > 30
    · rw [if_pos ⟨h, rfl⟩, ih]
      have hl : (x :: rest).length = rest.length + 1 := rfl
      have e : (x :: rest).length - 30 = (rest.length - 30) + 1 := by omega
      rw [e, List.drop_succ_cons]
    · rw [if_neg (fun hc => h hc.1)]
      have e : (x :: rest).length - 30 = 0 := by omega
      rw [e, List.drop_zero]

theorem trimQueue_length {α : Type} (q : List α) : (trimQueue false q).length ≤ 30 := by
  rw [trimQueue_live, List.length_drop]
  omega

theorem workerDequeue_live {α : Type} (q : List α) :
    (workerDequeue false q).1 = (q.drop (q.length - 30)).tail ∧
    (workerDequeue false q).2 = (q.drop (q.length - 30)).head? ∧
    (workerDequeue false q).1.length ≤ 29 := by
  have hl := trimQueue_length q
  unfold workerDequeue
  rw [trimQueue_live] at hl ⊢
  cases h : q.drop (q.length - 30) with
  | nil => simp
  | cons x rest =>
    rw [h] at hl
    simp only [List.length_cons] at hl
    exact ⟨rfl, rfl, by simp only []; omega⟩

theorem workerDequeue_replay {α : Type} (q : List α) :
    workerDequeue true q = (q.tail, q.head?) := by
  unfold workerDequeue
  rw [trimQueue_replay]
  cases q <;> rfl

theorem cbAudioEnqueue_cases (k : Int) (thresholdBackground : F)
    (st : RingBuffer F × List (WorkData F)) (frames : Record F) :
    (cbAudioEnqueue k thresholdBackground st frames).1 = rbUpdate st.1 frames ∧
    (((cbAudioPredict k thresholdBackground st.1 frames).2 = [] ∧
        (cbAudioEnqueue k thresholdBackground st frames).2 = st.2) ∨
      ((cbAudioPredict k thresholdBackground st.1 frames).2 ≠ [] ∧
        (cbAudioEnqueue k thresholdBackground st frames).2 = st.2 ++
          [{ ampl := flattenFrames frames,
             positionsToPredict := (cbAudioPredict k thresholdBackground st.1 frames).2 }])) := by
  unfold cbAudioEnqueue
  simp only []
  by_cases h : (cbAudioPredict k thresholdBackground st.1 frames).2.length > 0
  · rw [if_pos h]
    exact ⟨rfl, Or.inr ⟨List.ne_nil_of_length_pos h, rfl⟩⟩
  · rw [if_neg h]
    refine ⟨rfl, Or.inl ⟨?_, rfl⟩⟩
    apply List.eq_nil_of_length_eq_zero
    omega

/-- C22 (amended): the audio callback only appends to the work queue, and the worker is the one
that trims it. In live-microphone mode the queue holds at most 29 items right after every pass of
the worker through its critical section (at most 30 after the trimming loop), whatever the
interleaving before it; the trimming drops the oldest items; in replay mode the worker removes
nothing but the item it takes. After an enqueue the queue is one item longer than before, with
no bound. -/
theorem queue_backpressure (k : Int) (thresholdBackground : F)
    (st : RingBuffer F × List (WorkData F)) :
    (∀ events : List (QueueEvent F),
      ((events ++ [QueueEvent.worker]).foldl (queueStep k thresholdBackground false) st).2.length
        ≤ 29) ∧
    (∀ q : List (WorkData F),
      trimQueue false q = q.drop (q.length - 30) ∧ (trimQueue false q).length ≤ 30 ∧
      (workerDequeue false q).1 = (q.drop (q.length - 30)).tail ∧
      (workerDequeue false q).2 = (q.drop (q.length - 30)).head?) ∧
    (∀ q : List (WorkData F), workerDequeue true q = (q.tail, q.head?)) ∧
    (∀ (processingRecord : Bool) (frames : Record F),
      (queueStep k thresholdBackground processingRecord st (QueueEvent.audio frames)).2 = st.2 ∨
      ∃ item, (queueStep k thresholdBackground processingRecord st
        (QueueEvent.audio frames)).2 = st.2 ++ [item]) := by
  refine ⟨?_, ?_, workerDequeue_replay, ?_⟩
  · intro events
    rw [List.foldl_append, List.foldl_cons, List.foldl_nil]
    exact (workerDequeue_live _).2.2
  · intro q
    exact ⟨trimQueue_live q, trimQueue_length q, (workerDequeue_live q).1,
      (workerDequeue_live q).2.1⟩
  · intro processingRecord frames
    rcases (cbAudioEnqueue_cases k thresholdBackground st frames).2 with h | h
    · exact Or.inl h.2
    · exact Or.inr ⟨_, h.2⟩

end QueueTrim

section QueueConcrete

theorem acc_spike (j : Int) :
    acc 1 ([[0], [0], [1], [0], [0]] : Record ℚ) j = if j = 2 then 1 else 0 := by
  unfold acc frameAt sampleAt
  rw [Int.tdiv_one, Int.tmod_one]
  by_cases h0 : 0 ≤ j
  · lift j to ℕ using h0
    simp only [Int.toNat_ofNat, Nat.cast_nonneg, if_true, le_refl, Int.toNat_zero]
    rcases j with _ | _ | _ | _ | _ | n
    · simp
    · simp
    · simp
    · simp
    · simp
    · have : ¬ ((n : Int) + 1 + 1 + 1 + 1 + 1 = 2) := by omega
      simp [this]
  · have : j ≠ 2 := by omega
    simp [h0, this]

theorem spike_enqueued (n : ℕ) (q : List (WorkData ℚ)) :
    (cbAudioEnqueue 1 (1 / 2 : ℚ)
      (rbReach (List.replicate n [[0], [0], [1], [0], [0]]) [], q)
      [[0], [0], [1], [0], [0]]).1
      = rbReach (List.replicate (n + 1) [[0], [0], [1], [0], [0]]) [] ∧
    (cbAudioEnqueue 1 (1 / 2 : ℚ)
      (rbReach (List.replicate n [[0], [0], [1], [0], [0]]) [], q)
      [[0], [0], [1], [0], [0]]).2.length = q.length + 1 := by
  have hc := cbAudioEnqueue_cases 1 (1 / 2 : ℚ)
    (rbReach (List.replicate n [[0], [0], [1], [0], [0]]) [], q) [[0], [0], [1], [0], [0]]
  constructor
  · rw [hc.1]
    show rbUpdate (rbReach (List.replicate n [[0], [0], [1], [0], [0]]) []) _ = _
    rw [List.replicate_succ']
    unfold rbReach
    simp only [List.foldl_nil, List.foldl_append, List.foldl_cons]
  · have havg : ((rbUpdate (rbReach (List.replicate n [[0], [0], [1], [0], [0]]) [])
        ([[0], [0], [1], [0], [0]] : Record ℚ))).rbAverage ≤ 1 := by
      rw [rbUpdate_rbReach]
      apply rbReach_average_le _ _ 1 (by norm_num)
      intro x hx
      simp only [List.mem_append, List.mem_flatMap, List.nil_append, flattenFrames] at hx
      have hx1 : x = 0 ∨ x = 1 := by
        rcases hx with ⟨fr, hfr, f, hf, hxf⟩ | ⟨f, hf, hxf⟩
        · rw [(List.mem_replicate.1 hfr).2] at hf
          simp only [List.mem_cons, List.mem_singleton, List.not_mem_nil, or_false] at hf
          rcases hf with rfl | rfl | rfl | rfl | rfl <;> simp at hxf <;> simp [hxf]
        · simp only [List.mem_cons, List.mem_singleton, List.not_mem_nil, or_false] at hf
          rcases hf with rfl | rfl | rfl | rfl | rfl <;> simp at hxf <;> simp [hxf]
      rcases hx1 with rfl | rfl <;> norm_num
    have hmem : (2 : Int) ∈ (cbAudioPredict 1 (1 / 2 : ℚ)
        (rbReach (List.replicate n [[0], [0], [1], [0], [0]]) [])
        [[0], [0], [1], [0], [0]]).2 := by
      rw [cbAudioPredict_snd, peakDetect_mem 1 le_rfl]
      have hdiv : Int.tdiv 1 2 = 0 := by decide
      rw [hdiv]
      refine ⟨by decide, ⟨?_, ?_⟩, ?_⟩
      · intro j hj1 hj2
        have : j = 2 := by omega
        rw [this]
      · intro j hj1 hj2
        omega
      · rw [acc_spike, if_pos rfl]
        linarith
    rcases hc.2 with h | h
    · rw [h.1] at hmem
      exact absurd hmem (List.not_mem_nil _)
    · rw [h.2, List.length_append]
      rfl

/-- Live-microphone mode, 31 audio callbacks that each detect a keystroke and no pass of the
worker in between: the work queue holds 31 items right after the last enqueue. -/
theorem queue_exceeds_thirty :
    ((List.replicate 31 (QueueEvent.audio ([[0], [0], [1], [0], [0]] : Record ℚ))).foldl
      (queueStep 1 (1 / 2 : ℚ) false) (rbReach [] [], [])).2.length = 31 := by
  have h : ∀ n : ℕ,
      ((List.replicate n (QueueEvent.audio ([[0], [0], [1], [0], [0]] : Record ℚ))).foldl
        (queueStep 1 (1 / 2 : ℚ) false) (rbReach [] [], [])).1
        = rbReach (List.replicate n [[0], [0], [1], [0], [0]]) [] ∧
      ((List.replicate n (QueueEvent.audio ([[0], [0], [1], [0], [0]] : Record ℚ))).foldl
        (queueStep 1 (1 / 2 : ℚ) false) (rbReach [] [], [])).2.length = n := by
    intro n
    induction n with
    | zero => exact ⟨rfl, rfl⟩
    | succ n ih =>
      rw [List.replicate_succ', List.foldl_append, List.foldl_cons, List.foldl_nil]
      generalize (List.replicate n (QueueEvent.audio ([[0], [0], [1], [0], [0]] : Record ℚ))).foldl
        (queueStep 1 (1 / 2 : ℚ) false) (rbReach [] [], []) = s at ih
      obtain ⟨s1, s2⟩ := s
      simp only [] at ih
      obtain ⟨ih1, ih2⟩ := ih
      subst ih1
      have := spike_enqueued n s2
      rw [ih2] at this
      exact this
  exact (h 31).2

end QueueConcrete
end Keytap

/-! ## The worker on a repeated work item: results -/

namespace Keytap
section WorkerRepeat
variable {F : Type} [LinearOrderedField F]

theorem ne_false_eq {a b : TValueCC F} (h : a.ne b = false) : a = b := by
  cases a <;> cases b <;> simp [TValueCC.ne] at h ⊢
  exact h

theorem ne_self_of_gt {a b : TValueCC F} (h : a.gt b = true) : a.ne a = false := by
  cases a <;> cases b <;> simp [TValueCC.ne, TValueCC.gt] at h ⊢

theorem workerUpdate_below (W : Int) (thresholdCC : F) (ws : WorkerState F) (c : Classified F)
    (ampl : TKeyWaveform F) (p : Int) (h : c.maxcc.gt (TValueCC.fin thresholdCC) = false) :
    workerUpdate W thresholdCC ws c ampl p = ws := by
  unfold workerUpdate
  rw [h]
  rfl

theorem workerUpdate_same (W : Int) (thresholdCC : F) (ws : WorkerState F) (c : Classified F)
    (ampl : TKeyWaveform F) (p : Int) (h1 : ws.lastkey = c.res)
    (h2 : ws.lastcc.ne c.maxcc = false) :
    workerUpdate W thresholdCC ws c ampl p = ws := by
  have hno : ¬ (ws.lastkey ≠ c.res ∨ ws.lastcc.ne c.maxcc = true) := by
    rintro (h3 | h3)
    · exact h3 h1
    · rw [h2] at h3
      exact Bool.noConfusion h3
  have e := ne_false_eq h2
  unfold workerUpdate
  rw [if_neg hno]
  split_ifs with h
  · cases ws
    simp only [] at h1 e
    subst h1 e
    rfl
  · rfl

theorem workerUpdate_emit (W : Int) (thresholdCC : F) (ws : WorkerState F) (c : Classified F)
    (ampl : TKeyWaveform F) (p : Int) (h : c.maxcc.gt (TValueCC.fin thresholdCC) = true)
    (h2 : ws.lastkey ≠ c.res ∨ ws.lastcc.ne c.maxcc = true) :
    (workerUpdate W thresholdCC ws c ampl p).lastkey = c.res ∧
    (workerUpdate W thresholdCC ws c ampl p).lastcc = c.maxcc ∧
    (workerUpdate W thresholdCC ws c ampl p).predictedKey = c.res ∧
    (workerUpdate W thresholdCC ws c ampl p).predictedCC = c.maxcc ∧
    (workerUpdate W thresholdCC ws c ampl p).predictions
      = ws.predictions ++ [(c.res, c.maxcc)] := by
  unfold workerUpdate
  simp [h, h2, emitPrediction]

theorem workerUpdate_last (W : Int) (thresholdCC : F) (ws : WorkerState F) (c : Classified F)
    (ampl : TKeyWaveform F) (p : Int) (h : c.maxcc.gt (TValueCC.fin thresholdCC) = true) :
    (workerUpdate W thresholdCC ws c ampl p).lastkey = c.res ∧
    (workerUpdate W thresholdCC ws c ampl p).lastcc = c.maxcc := by
  unfold workerUpdate
  simp [h]

/-- One step of the worker either leaves the state as it is (the position is settled) or emits
a prediction. -/
theorem workerUpdate_cases (W : Int) (thresholdCC : F) (ws : WorkerState F) (c : Classified F)
    (ampl : TKeyWaveform F) (p : Int) :
    ((c.maxcc.gt (TValueCC.fin thresholdCC) = true →
        ws.lastkey = c.res ∧ ws.lastcc.ne c.maxcc = false) ∧
      workerUpdate W thresholdCC ws c ampl p = ws) ∨
    (c.maxcc.gt (TValueCC.fin thresholdCC) = true ∧
      (ws.lastkey ≠ c.res ∨ ws.lastcc.ne c.maxcc = true)) := by
  by_cases h : c.maxcc.gt (TValueCC.fin thresholdCC) = true
  · by_cases h2 : ws.lastkey ≠ c.res ∨ ws.lastcc.ne c.maxcc = true
    · exact Or.inr ⟨h, h2⟩
    · left
      have h3 : ws.lastkey = c.res ∧ ws.lastcc.ne c.maxcc = false := by
        constructor
        · by_contra hc
          exact h2 (Or.inl hc)
        · by_contra hc
          exact h2 (Or.inr (by simpa using hc))
      exact ⟨fun _ => h3, workerUpdate_same W thresholdCC ws c ampl p h3.1 h3.2⟩
  · left
    exact ⟨fun hc => absurd hc h,
      workerUpdate_below W thresholdCC ws c ampl p (by simpa using h)⟩

theorem run_settled (W : Int) (thresholdCC : F) (c : Int → Classified F)
    (ampl : TKeyWaveform F) (ps : List Int) (ws : WorkerState F)
    (h : Settled thresholdCC c ws ps) :
    ps.foldl (fun ws p => workerUpdate W thresholdCC ws (c p) ampl p) ws = ws := by
  induction ps with
  | nil => rfl
  | cons p ps ih =>
    rw [List.foldl_cons]
    have hp : workerUpdate W thresholdCC ws (c p) ampl p = ws := by
      by_cases hgt : (c p).maxcc.gt (TValueCC.fin thresholdCC) = true
      · obtain ⟨h1, h2⟩ := h p (List.mem_cons_self _ _) hgt
        exact workerUpdate_same W thresholdCC ws (c p) ampl p h1 h2
      · exact workerUpdate_below W thresholdCC ws (c p) ampl p (by simpa using hgt)
    rw [hp]
    exact ih (fun q hq => h q (List.mem_cons_of_mem _ hq))

theorem workerUpdate_inv (W : Int) (thresholdCC : F) (ws : WorkerState F) (c : Classified F)
    (ampl : TKeyWaveform F) (p : Int)
    (h : ws.predictedKey = ws.lastkey ∧ ws.predictedCC = ws.lastcc) :
    (workerUpdate W thresholdCC ws c ampl p).predictedKey
        = (workerUpdate W thresholdCC ws c ampl p).lastkey ∧
      (workerUpdate W thresholdCC ws c ampl p).predictedCC
        = (workerUpdate W thresholdCC ws c ampl p).lastcc := by
  rcases workerUpdate_cases W thresholdCC ws c ampl p with ⟨_, h1⟩ | ⟨h1, h2⟩
  · rw [h1]
    exact h
  · obtain ⟨e1, e2, e3, e4, _⟩ := workerUpdate_emit W thresholdCC ws c ampl p h1 h2
    rw [e1, e2, e3, e4]
    exact ⟨rfl, rfl⟩

theorem run_inv (W : Int) (thresholdCC : F) (c : Int → Classified F)
    (ampl : TKeyWaveform F) (ps : List Int) (ws : WorkerState F)
    (h : ws.predictedKey = ws.lastkey ∧ ws.predictedCC = ws.lastcc) :
    (ps.foldl (fun ws p => workerUpdate W thresholdCC ws (c p) ampl p) ws).predictedKey
        = (ps.foldl (fun ws p => workerUpdate W thresholdCC ws (c p) ampl p) ws).lastkey ∧
      (ps.foldl (fun ws p => workerUpdate W thresholdCC ws (c p) ampl p) ws).predictedCC
        = (ps.foldl (fun ws p => workerUpdate W thresholdCC ws (c p) ampl p) ws).lastcc := by
  induction ps generalizing ws with
  | nil => exact h
  | cons p ps ih =>
    rw [List.foldl_cons]
    exact ih _ (workerUpdate_inv W thresholdCC ws (c p) ampl p h)

/-- After a pass over a list of positions the predicted pair is the remembered pair, unless the
pass found every position settled and changed nothing. -/
theorem run_inv_or_settled (W : Int) (thresholdCC : F) (c : Int → Classified F)
    (ampl : TKeyWaveform F) (ps : List Int) (ws : WorkerState F) :
    ((ps.foldl (fun ws p => workerUpdate W thresholdCC ws (c p) ampl p) ws).predictedKey
        = (ps.foldl (fun ws p => workerUpdate W thresholdCC ws (c p) ampl p) ws).lastkey ∧
      (ps.foldl (fun ws p => workerUpdate W thresholdCC ws (c p) ampl p) ws).predictedCC
        = (ps.foldl (fun ws p => workerUpdate W thresholdCC ws (c p) ampl p) ws).lastcc) ∨
    Settled thresholdCC c ws ps := by
  induction ps generalizing ws with
  | nil => exact Or.inr (fun p hp => absurd hp (List.not_mem_nil _))
  | cons p ps ih =>
    rw [List.foldl_cons]
    rcases workerUpdate_cases W thresholdCC ws (c p) ampl p with ⟨h0, h1⟩ | ⟨h1, h2⟩
    · rw [h1]
      rcases ih ws with h | h
      · exact Or.inl h
      · right
        intro q hq hgt
        rcases List.mem_cons.1 hq with rfl | hq
        · exact h0 hgt
        · exact h q hq hgt
    · left
      apply run_inv
      obtain ⟨e1, e2, e3, e4, _⟩ := workerUpdate_emit W thresholdCC ws (c p) ampl p h1 h2
      rw [e1, e2, e3, e4]
      exact ⟨rfl, rfl⟩

/-- The pair remembered after a pass that meets a position above the threshold is the result of
such a position, the last one of the list, whatever the state before the pass. -/
theorem run_last (W : Int) (thresholdCC : F) (c : Int → Classified F)
    (ampl : TKeyWaveform F) (ps : List Int)
    (hex : ∃ p ∈ ps, (c p).maxcc.gt (TValueCC.fin thresholdCC) = true) :
    ∃ q ∈ ps, (c q).maxcc.gt (TValueCC.fin thresholdCC) = true ∧ ∀ ws : WorkerState F,
      (ps.foldl (fun ws p => workerUpdate W thresholdCC ws (c p) ampl p) ws).lastkey
        = (c q).res ∧
      (ps.foldl (fun ws p => workerUpdate W thresholdCC ws (c p) ampl p) ws).lastcc
        = (c q).maxcc := by
  induction ps using List.reverseRecOn with
  | nil =>
    obtain ⟨p, hp, _⟩ := hex
    exact absurd hp (List.not_mem_nil _)
  | append_singleton ps p ih =>
    by_cases hgt : (c p).maxcc.gt (TValueCC.fin thresholdCC) = true
    · refine ⟨p, by simp, hgt, fun ws => ?_⟩
      rw [List.foldl_append, List.foldl_cons, List.foldl_nil]
      exact workerUpdate_last W thresholdCC _ (c p) ampl p hgt
    · have hex1 : ∃ q ∈ ps, (c q).maxcc.gt (TValueCC.fin thresholdCC) = true := by
        obtain ⟨q, hq, hq2⟩ := hex
        rcases List.mem_append.1 hq with h | h
        · exact ⟨q, h, hq2⟩
        · rw [List.mem_singleton] at h
          rw [h] at hq2
          exact absurd hq2 hgt
      obtain ⟨q, hq, hq2, hq3⟩ := ih hex1
      refine ⟨q, List.mem_append_left _ hq, hq2, fun ws => ?_⟩
      rw [List.foldl_append, List.foldl_cons, List.foldl_nil,
        workerUpdate_below W thresholdCC _ (c p) ampl p (by simpa using hgt)]
      exact hq3 ws

/-- The predictions printed by a pass extend the list, by nothing exactly when every position
is settled. -/
theorem run_predictions (W : Int) (thresholdCC : F) (c : Int → Classified F)
    (ampl : TKeyWaveform F) (ps : List Int) (ws : WorkerState F) :
    ∃ extra, (ps.foldl (fun ws p => workerUpdate W thresholdCC ws (c p) ampl p) ws).predictions
        = ws.predictions ++ extra ∧
      (extra = [] ↔ Settled thresholdCC c ws ps) := by
  induction ps generalizing ws with
  | nil =>
    exact ⟨[], by simp, by simp [Settled]⟩
  | cons p ps ih =>
    rw [List.foldl_cons]
    rcases workerUpdate_cases W thresholdCC ws (c p) ampl p with ⟨h0, h1⟩ | ⟨h1, h2⟩
    · rw [h1]
      obtain ⟨extra, e1, e2⟩ := ih ws
      refine ⟨extra, e1, ?_⟩
      rw [e2]
      constructor
      · intro h q hq hgt
        rcases List.mem_cons.1 hq with rfl | hq
        · exact h0 hgt
        · exact h q hq hgt
      · intro h q hq
        exact h q (List.mem_cons_of_mem _ hq)
    · obtain ⟨extra, e1, _⟩ := ih (workerUpdate W thresholdCC ws (c p) ampl p)
      obtain ⟨_, _, _, _, e5⟩ := workerUpdate_emit W thresholdCC ws (c p) ampl p h1 h2
      refine ⟨[((c p).res, (c p).maxcc)] ++ extra, ?_, ?_⟩
      · rw [e1, e5, List.append_assoc]
      · constructor
        · intro h
          simp at h
        · intro h
          exfalso
          obtain ⟨h3, h4⟩ := h p (List.mem_cons_self _ _) h1
          rcases h2 with h2 | h2
          · exact h2 h3
          · rw [h4] at h2
            exact Bool.noConfusion h2

theorem settled_congr (thresholdCC : F) (c1 c2 : Int → Classified F)
    (hres : ∀ p, (c1 p).res = (c2 p).res) (hcc : ∀ p, (c1 p).maxcc = (c2 p).maxcc)
    (ws : WorkerState F) (ps : List Int) :
    Settled thresholdCC c1 ws ps ↔ Settled thresholdCC c2 ws ps := by
  unfold Settled
  constructor
  · intro h p hp hgt
    rw [← hres, ← hcc]
    rw [← hcc] at hgt
    exact h p hp hgt
  · intro h p hp hgt
    rw [hres, hcc]
    rw [hcc] at hgt
    exact h p hp hgt

/-- Two passes whose classifications agree in key and score, started from states that remember
the same pair, end remembering the same pair. -/
theorem run_last_congr (W : Int) (thresholdCC : F) (c1 c2 : Int → Classified F)
    (hres : ∀ p, (c1 p).res = (c2 p).res) (hcc : ∀ p, (c1 p).maxcc = (c2 p).maxcc)
    (ampl : TKeyWaveform F) (ps : List Int) (ws1 ws2 : WorkerState F)
    (h : ws1.lastkey = ws2.lastkey ∧ ws1.lastcc = ws2.lastcc) :
    (ps.foldl (fun ws p => workerUpdate W thresholdCC ws (c2 p) ampl p) ws1).lastkey
      = (ps.foldl (fun ws p => workerUpdate W thresholdCC ws (c1 p) ampl p) ws2).lastkey ∧
    (ps.foldl (fun ws p => workerUpdate W thresholdCC ws (c2 p) ampl p) ws1).lastcc
      = (ps.foldl (fun ws p => workerUpdate W thresholdCC ws (c1 p) ampl p) ws2).lastcc := by
  induction ps generalizing ws1 ws2 with
  | nil => exact h
  | cons p ps ih =>
    rw [List.foldl_cons, List.foldl_cons]
    apply ih
    by_cases hgt : (c1 p).maxcc.gt (TValueCC.fin thresholdCC) = true
    · have u1 := workerUpdate_last W thresholdCC ws2 (c1 p) ampl p hgt
      have u2 := workerUpdate_last W thresholdCC ws1 (c2 p) ampl p (by rw [← hcc]; exact hgt)
      rw [u1.1, u1.2, u2.1, u2.2]
      exact ⟨(hres p).symm, (hcc p).symm⟩
    · rw [workerUpdate_below W thresholdCC ws2 (c1 p) ampl p (by simpa using hgt),
        workerUpdate_below W thresholdCC ws1 (c2 p) ampl p (by rw [← hcc]; simpa using hgt)]
      exact h

/-- Two passes over the same positions, whose classifications agree in key and score. -/
theorem run_twice (W : Int) (thresholdCC : F) (c1 c2 : Int → Classified F)
    (hres : ∀ p, (c1 p).res = (c2 p).res) (hcc : ∀ p, (c1 p).maxcc = (c2 p).maxcc)
    (ampl : TKeyWaveform F) (ps : List Int) (ws : WorkerState F) :
    (ps.foldl (fun ws p => workerUpdate W thresholdCC ws (c2 p) ampl p)
        (ps.foldl (fun ws p => workerUpdate W thresholdCC ws (c1 p) ampl p) ws)).predictedKey
      = (ps.foldl (fun ws p => workerUpdate W thresholdCC ws (c1 p) ampl p) ws).predictedKey ∧
    (ps.foldl (fun ws p => workerUpdate W thresholdCC ws (c2 p) ampl p)
        (ps.foldl (fun ws p => workerUpdate W thresholdCC ws (c1 p) ampl p) ws)).predictedCC
      = (ps.foldl (fun ws p => workerUpdate W thresholdCC ws (c1 p) ampl p) ws).predictedCC ∧
    ((ps.foldl (fun ws p => workerUpdate W thresholdCC ws (c2 p) ampl p)
        (ps.foldl (fun ws p => workerUpdate W thresholdCC ws (c1 p) ampl p) ws)).predictions
      = (ps.foldl (fun ws p => workerUpdate W thresholdCC ws (c1 p) ampl p) ws).predictions ↔
      ∀ p ∈ ps, ∀ q ∈ ps, (c1 p).maxcc.gt (TValueCC.fin thresholdCC) = true →
        (c1 q).maxcc.gt (TValueCC.fin thresholdCC) = true →
        (c1 p).res = (c1 q).res ∧ (c1 p).maxcc = (c1 q).maxcc) := by
  have hkey : (∃ p ∈ ps, (c1 p).maxcc.gt (TValueCC.fin thresholdCC) = true) →
      (Settled thresholdCC c2
        (ps.foldl (fun ws p => workerUpdate W thresholdCC ws (c1 p) ampl p) ws) ps ↔
      ∀ p ∈ ps, ∀ q ∈ ps, (c1 p).maxcc.gt (TValueCC.fin thresholdCC) = true →
        (c1 q).maxcc.gt (TValueCC.fin thresholdCC) = true →
        (c1 p).res = (c1 q).res ∧ (c1 p).maxcc = (c1 q).maxcc) := by
    intro hex
    obtain ⟨r, hr, hr2, hr3⟩ := run_last W thresholdCC c1 ampl ps hex
    obtain ⟨l1, l2⟩ := hr3 ws
    rw [← settled_congr thresholdCC c1 c2 hres hcc]
    constructor
    · intro hs p hp q hq hp2 hq2
      obtain ⟨a1, a2⟩ := hs p hp hp2
      obtain ⟨b1, b2⟩ := hs q hq hq2
      exact ⟨a1.symm.trans b1, (ne_false_eq a2).symm.trans (ne_false_eq b2)⟩
    · intro hall p hp hp2
      obtain ⟨a1, a2⟩ := hall r hr p hp hr2 hp2
      rw [l1, l2]
      refine ⟨a1, ?_⟩
      rw [a2]
      exact ne_self_of_gt hp2
  have hnone : (¬ ∃ p ∈ ps, (c1 p).maxcc.gt (TValueCC.fin thresholdCC) = true) →
      ∀ ws1 : WorkerState F, Settled thresholdCC c2 ws1 ps := by
    intro hno ws1 p hp hgt
    rw [← hcc] at hgt
    exact absurd ⟨p, hp, hgt⟩ hno
  obtain ⟨extra, e1, e2⟩ := run_predictions W thresholdCC c2 ampl ps
    (ps.foldl (fun ws p => workerUpdate W thresholdCC ws (c1 p) ampl p) ws)
  have hpred : ((ps.foldl (fun ws p => workerUpdate W thresholdCC ws (c2 p) ampl p)
        (ps.foldl (fun ws p => workerUpdate W thresholdCC ws (c1 p) ampl p) ws)).predictions
      = (ps.foldl (fun ws p => workerUpdate W thresholdCC ws (c1 p) ampl p) ws).predictions ↔
      Settled thresholdCC c2
        (ps.foldl (fun ws p => workerUpdate W thresholdCC ws (c1 p) ampl p) ws) ps) := by
    rw [e1, ← e2]
    constructor
    · intro h
      exact List.append_right_eq_self.1 h
    · intro h
      rw [h, List.append_nil]
  by_cases hex : ∃ p ∈ ps, (c1 p).maxcc.gt (TValueCC.fin thresholdCC) = true
  · refine ⟨?_, ?_, hpred.trans (hkey hex)⟩
    all_goals
      rcases run_inv_or_settled W thresholdCC c1 ampl ps ws with hI | hS
      · have hI2 := run_inv W thresholdCC c2 ampl ps _ hI
        obtain ⟨r, _, _, hr3⟩ := run_last W thresholdCC c1 ampl ps hex
        have hex2 : ∃ p ∈ ps, (c2 p).maxcc.gt (TValueCC.fin thresholdCC) = true := by
          obtain ⟨p, hp, hp2⟩ := hex
          exact ⟨p, hp, by rw [← hcc]; exact hp2⟩
        obtain ⟨r2, _, _, hr4⟩ := run_last W thresholdCC c2 ampl ps hex2
        have hsame : ∀ ws1 ws2 : WorkerState F,
            (ps.foldl (fun ws p => workerUpdate W thresholdCC ws (c2 p) ampl p) ws1).lastkey
              = (ps.foldl (fun ws p => workerUpdate W thresholdCC ws (c1 p) ampl p) ws2).lastkey ∧
            (ps.foldl (fun ws p => workerUpdate W thresholdCC ws (c2 p) ampl p) ws1).lastcc
              = (ps.foldl (fun ws p => workerUpdate W thresholdCC ws (c1 p) ampl p) ws2).lastcc := by
          intro ws1 ws2
          have b := hr3 ws2
          have c := run_last_congr W thresholdCC c1 c2 hres hcc ampl ps ws1 ws1 ⟨rfl, rfl⟩
          exact ⟨c.1.trans ((hr3 ws1).1.trans b.1.symm),
            c.2.trans ((hr3 ws1).2.trans b.2.symm)⟩
        have hs := hsame (ps.foldl (fun ws p => workerUpdate W thresholdCC ws (c1 p) ampl p) ws) ws
        first
          | exact hI2.1.trans (hs.1.trans hI.1.symm)
          | exact hI2.2.trans (hs.2.trans hI.2.symm)
      · rw [run_settled W thresholdCC c1 ampl ps ws hS,
          run_settled W thresholdCC c2 ampl ps ws
            ((settled_congr thresholdCC c1 c2 hres hcc ws ps).1 hS)]
  · have hS1 : Settled thresholdCC c1 ws ps := fun p hp hgt => absurd ⟨p, hp, hgt⟩ hex
    rw [run_settled W thresholdCC c1 ampl ps ws hS1,
      run_settled W thresholdCC c2 ampl ps ws (hnone hex ws)]
    refine ⟨rfl, rfl, ?_⟩
    constructor
    · intro _ p hp q hq hp2
      exact absurd ⟨p, hp, hp2⟩ hex
    · intro _
      rfl

end WorkerRepeat
end Keytap
namespace Keytap
section WorkerRepeatConcrete

theorem toNat_lit6 : Int.toNat 6 = 6 := rfl
theorem toNat_lit7 : Int.toNat 7 = 7 := rfl
theorem toNat_lit8 : Int.toNat 8 = 8 := rfl
theorem toNat_lit9 : Int.toNat 9 = 9 := rfl

theorem centre_six_early (w : List ℝ) (h : w.length = 6) :
    (w.length : Int) / 2 - Int.tdiv (7 - 3) 2 = 1 := by
  rw [h]; decide

theorem centre_six_late (w : List ℝ) (h : w.length = 6) :
    (w.length : Int) / 2 - Int.tdiv (10 - 6) 2 = 1 := by
  rw [h]; decide

theorem cc_two_flat (A : List ℝ) :
    ccAt Real.sqrt A ([2, 2, 2, 2, 2, 2, 0, 0, 0, 2, 0, 0, 0, 0, 0, 0] : List ℝ) 3 7 (-1)
      = TValueCC.nan := by
  rw [ccAt_eq_nccVal _ _ _ _ _ _ (by norm_num)]
  apply nccVal_flat _ isSqrt_real
  right
  rw [covN_self_eq_zero_iff]
  have h3 : ((7 : Int) - 3).toNat = 4 := by decide
  rw [h3]
  intro i hi j hj
  have hi4 : i = 0 ∨ i = 1 ∨ i = 2 ∨ i = 3 := by omega
  have hj4 : j = 0 ∨ j = 1 ∨ j = 2 ∨ j = 3 := by omega
  rcases hi4 with rfl | rfl | rfl | rfl <;> rcases hj4 with rfl | rfl | rfl | rfl <;>
    norm_num [sampleAt, toNat_lit2, toNat_lit3, toNat_lit4, toNat_lit5]

theorem cc_two_early_a :
    ccAt Real.sqrt ([0, 1, 1, 1, 0, 0] : List ℝ) [2, 2, 2, 2, 2, 2, 0, 0, 0, 2, 0, 0, 0, 0, 0, 0] 3 7 0
      = TValueCC.fin 1 := by
  rw [ccAt_eq_nccVal _ _ _ _ _ _ (by norm_num), centre_six_early _ (by rfl)]
  have h3 : ((7 : Int) - 3).toNat = 4 := by decide
  rw [h3]
  norm_num [nccVal, covN, Finset.sum_range_succ, sampleAt, fsqrt, fdiv, toNat_lit0, toNat_lit1,
    toNat_lit2, toNat_lit3, toNat_lit4, toNat_lit5, toNat_lit6, toNat_lit7, toNat_lit8,
    toNat_lit9, sqrt_36]

theorem cc_two_early_b :
    ccAt Real.sqrt ([0, 0, 0, 0, 1, 0] : List ℝ) [2, 2, 2, 2, 2, 2, 0, 0, 0, 2, 0, 0, 0, 0, 0, 0] 3 7 0
      = TValueCC.fin (-1) := by
  rw [ccAt_eq_nccVal _ _ _ _ _ _ (by norm_num), centre_six_early _ (by rfl)]
  have h3 : ((7 : Int) - 3).toNat = 4 := by decide
  rw [h3]
  norm_num [nccVal, covN, Finset.sum_range_succ, sampleAt, fsqrt, fdiv, toNat_lit0, toNat_lit1,
    toNat_lit2, toNat_lit3, toNat_lit4, toNat_lit5, toNat_lit6, toNat_lit7, toNat_lit8,
    toNat_lit9, sqrt_36]

theorem cc_two_late_a :
    ccAt Real.sqrt ([0, 1, 1, 1, 0, 0] : List ℝ) [2, 2, 2, 2, 2, 2, 0, 0, 0, 2, 0, 0, 0, 0, 0, 0] 6 10 (-1)
      = TValueCC.fin (1 / 3) := by
  rw [ccAt_eq_nccVal _ _ _ _ _ _ (by norm_num), centre_six_late _ (by rfl)]
  have h3 : ((10 : Int) - 6).toNat = 4 := by decide
  rw [h3]
  norm_num [nccVal, covN, Finset.sum_range_succ, sampleAt, fsqrt, fdiv, toNat_lit0, toNat_lit1,
    toNat_lit2, toNat_lit3, toNat_lit4, toNat_lit5, toNat_lit6, toNat_lit7, toNat_lit8,
    toNat_lit9, sqrt_36]

theorem cc_two_late_b :
    ccAt Real.sqrt ([0, 1, 1, 1, 0, 0] : List ℝ) [2, 2, 2, 2, 2, 2, 0, 0, 0, 2, 0, 0, 0, 0, 0, 0] 6 10 0
      = TValueCC.fin (-1) := by
  rw [ccAt_eq_nccVal _ _ _ _ _ _ (by norm_num), centre_six_late _ (by rfl)]
  have h3 : ((10 : Int) - 6).toNat = 4 := by decide
  rw [h3]
  norm_num [nccVal, covN, Finset.sum_range_succ, sampleAt, fsqrt, fdiv, toNat_lit0, toNat_lit1,
    toNat_lit2, toNat_lit3, toNat_lit4, toNat_lit5, toNat_lit6, toNat_lit7, toNat_lit8,
    toNat_lit9, sqrt_36]

theorem cc_two_late_c :
    ccAt Real.sqrt ([0, 0, 0, 0, 1, 0] : List ℝ) [2, 2, 2, 2, 2, 2, 0, 0, 0, 2, 0, 0, 0, 0, 0, 0] 6 10 (-1)
      = TValueCC.fin (-(1 / 3)) := by
  rw [ccAt_eq_nccVal _ _ _ _ _ _ (by norm_num), centre_six_late _ (by rfl)]
  have h3 : ((10 : Int) - 6).toNat = 4 := by decide
  rw [h3]
  norm_num [nccVal, covN, Finset.sum_range_succ, sampleAt, fsqrt, fdiv, toNat_lit0, toNat_lit1,
    toNat_lit2, toNat_lit3, toNat_lit4, toNat_lit5, toNat_lit6, toNat_lit7, toNat_lit8,
    toNat_lit9, sqrt_36]

theorem cc_two_late_d :
    ccAt Real.sqrt ([0, 0, 0, 0, 1, 0] : List ℝ) [2, 2, 2, 2, 2, 2, 0, 0, 0, 2, 0, 0, 0, 0, 0, 0] 6 10 0
      = TValueCC.fin 1 := by
  rw [ccAt_eq_nccVal _ _ _ _ _ _ (by norm_num), centre_six_late _ (by rfl)]
  have h3 : ((10 : Int) - 6).toNat = 4 := by decide
  rw [h3]
  norm_num [nccVal, covN, Finset.sum_range_succ, sampleAt, fsqrt, fdiv, toNat_lit0, toNat_lit1,
    toNat_lit2, toNat_lit3, toNat_lit4, toNat_lit5, toNat_lit6, toNat_lit7, toNat_lit8,
    toNat_lit9, sqrt_36]

theorem best_two_early_match :
    findBestCC Real.sqrt 1 [0] ([0, 1, 1, 1, 0, 0] : List ℝ) [2, 2, 2, 2, 2, 2, 0, 0, 0, 2, 0, 0, 0, 0, 0, 0] 3 7 1
      = (TValueCC.fin 1, 0) := by
  rw [findBestCC_eq_foldl]
  norm_num [keepBest, workerBest, scanOffsets, cc_two_flat, cc_two_early_a, TValueCC.gt]

theorem best_two_early_opposite :
    findBestCC Real.sqrt 1 [0] ([0, 0, 0, 0, 1, 0] : List ℝ) [2, 2, 2, 2, 2, 2, 0, 0, 0, 2, 0, 0, 0, 0, 0, 0] 3 7 1
      = (TValueCC.fin (-1), -1) := by
  rw [findBestCC_eq_foldl]
  norm_num [keepBest, workerBest, scanOffsets, cc_two_flat, cc_two_early_b, TValueCC.gt]

theorem best_two_late_match :
    findBestCC Real.sqrt 1 [0] ([0, 1, 1, 1, 0, 0] : List ℝ) [2, 2, 2, 2, 2, 2, 0, 0, 0, 2, 0, 0, 0, 0, 0, 0] 6 10 1
      = (TValueCC.fin (1 / 3), -1) := by
  rw [findBestCC_eq_foldl]
  norm_num [keepBest, workerBest, scanOffsets, cc_two_late_a, cc_two_late_b, TValueCC.gt]

theorem best_two_late_opposite :
    findBestCC Real.sqrt 1 [0] ([0, 0, 0, 0, 1, 0] : List ℝ) [2, 2, 2, 2, 2, 2, 0, 0, 0, 2, 0, 0, 0, 0, 0, 0] 6 10 1
      = (TValueCC.fin 1, 0) := by
  rw [findBestCC_eq_foldl]
  norm_num [keepBest, workerBest, scanOffsets, cc_two_late_c, cc_two_late_d, TValueCC.gt]

theorem score_two_early_match (key : TKey) :
    scoreOf Real.sqrt 1 (fun _ => [0]) 2 ([2, 2, 2, 2, 2, 2, 0, 0, 0, 2, 0, 0, 0, 0, 0, 0] : List ℝ) 5
      (key, [0, 1, 1, 1, 0, 0]) = (TValueCC.fin 1, 0) := best_two_early_match

theorem score_two_early_opposite (key : TKey) :
    scoreOf Real.sqrt 1 (fun _ => [0]) 2 ([2, 2, 2, 2, 2, 2, 0, 0, 0, 2, 0, 0, 0, 0, 0, 0] : List ℝ) 5
      (key, [0, 0, 0, 0, 1, 0]) = (TValueCC.fin (-1), -1) := best_two_early_opposite

theorem score_two_late_match (key : TKey) :
    scoreOf Real.sqrt 1 (fun _ => [0]) 2 ([2, 2, 2, 2, 2, 2, 0, 0, 0, 2, 0, 0, 0, 0, 0, 0] : List ℝ) 8
      (key, [0, 1, 1, 1, 0, 0]) = (TValueCC.fin (1 / 3), -1) := best_two_late_match

theorem score_two_late_opposite (key : TKey) :
    scoreOf Real.sqrt 1 (fun _ => [0]) 2 ([2, 2, 2, 2, 2, 2, 0, 0, 0, 2, 0, 0, 0, 0, 0, 0] : List ℝ) 8
      (key, [0, 0, 0, 0, 1, 0]) = (TValueCC.fin 1, 0) := best_two_late_opposite

theorem classify_two_early :
    classifyPosition Real.sqrt 1 (fun _ => [0]) 2
      [(1, ([0, 1, 1, 1, 0, 0] : List ℝ)), (2, [0, 0, 0, 0, 1, 0])]
      [2, 2, 2, 2, 2, 2, 0, 0, 0, 2, 0, 0, 0, 0, 0, 0] 5
      = { res := 1, maxcc := TValueCC.fin 1, offs := 0,
          keyConfidenceTmp := [(1, TValueCC.fin 1), (2, TValueCC.fin (-1))] } := by
  rw [classifyPosition_eq]
  simp only [List.foldl_cons, List.foldl_nil, score_two_early_match, score_two_early_opposite,
    classifyKey]
  norm_num [TValueCC.gt, mapSet, toChar]

theorem classify_two_late :
    classifyPosition Real.sqrt 1 (fun _ => [0]) 2
      [(1, ([0, 1, 1, 1, 0, 0] : List ℝ)), (2, [0, 0, 0, 0, 1, 0])]
      [2, 2, 2, 2, 2, 2, 0, 0, 0, 2, 0, 0, 0, 0, 0, 0] 8
      = { res := 2, maxcc := TValueCC.fin 1, offs := 0,
          keyConfidenceTmp := [(1, TValueCC.fin (1 / 3)), (2, TValueCC.fin 1)] } := by
  rw [classifyPosition_eq]
  simp only [List.foldl_cons, List.foldl_nil, score_two_late_match, score_two_late_opposite,
    classifyKey]
  norm_num [TValueCC.gt, mapSet, toChar]

end WorkerRepeatConcrete
end Keytap
namespace Keytap
section WorkerRepeatClaim
variable {F : Type} [LinearOrderedField F]

/-- The winner and its score depend only on the scores of the prototypes, not on the offsets
found with them. -/
theorem classify_congr (find1 find2 : TKey × TKeyWaveform F → TValueCC F × TOffset)
    (protos : List (TKey × TKeyWaveform F)) (h : ∀ ka ∈ protos, (find1 ka).1 = (find2 ka).1)
    (st1 st2 : Classified F) (hres : st1.res = st2.res) (hcc : st1.maxcc = st2.maxcc) :
    (protos.foldl (fun st ka => classifyKey st ka.1 (find1 ka)) st1).res
      = (protos.foldl (fun st ka => classifyKey st ka.1 (find2 ka)) st2).res ∧
    (protos.foldl (fun st ka => classifyKey st ka.1 (find1 ka)) st1).maxcc
      = (protos.foldl (fun st ka => classifyKey st ka.1 (find2 ka)) st2).maxcc := by
  induction protos generalizing st1 st2 with
  | nil => exact ⟨hres, hcc⟩
  | cons ka rest ih =>
    rw [List.foldl_cons, List.foldl_cons]
    have e := h ka (List.mem_cons_self _ _)
    apply ih (fun kb hkb => h kb (List.mem_cons_of_mem _ hkb))
    · unfold classifyKey
      simp only []
      rw [e, hcc]
      split_ifs
      · rfl
      · exact hres
    · unfold classifyKey
      simp only []
      rw [e, hcc]
      split_ifs
      · rfl
      · exact hcc

/-- The key and the score of the classification of a position do not depend on the order in
which the threads of `findBestCC` take the mutex. -/
theorem classifyPosition_sched (sqrt : F → F) (nWorkers : Nat) (hn : 1 ≤ nWorkers)
    (sched1 sched2 : TKey → List Nat)
    (h1 : ∀ key, (sched1 key).Perm (List.range nWorkers))
    (h2 : ∀ key, (sched2 key).Perm (List.range nWorkers))
    (k : Int) (protos : List (TKey × TKeyWaveform F)) (ampl : TKeyWaveform F) (curPos : Int) :
    (classifyPosition sqrt nWorkers sched1 k protos ampl curPos).res
      = (classifyPosition sqrt nWorkers sched2 k protos ampl curPos).res ∧
    (classifyPosition sqrt nWorkers sched1 k protos ampl curPos).maxcc
      = (classifyPosition sqrt nWorkers sched2 k protos ampl curPos).maxcc := by
  rw [classifyPosition_eq, classifyPosition_eq]
  apply classify_congr _ _ _ _ _ _ rfl rfl
  intro ka _
  exact findBestCC_unique sqrt nWorkers nWorkers (sched2 ka.1) (sched1 ka.1) ka.2 ampl
    (curPos - k) (curPos + k) (Int.tdiv k 2) hn (h2 ka.1) hn (h1 ka.1)

theorem workerItem_eq_foldl (sqrt : F → F) (nWorkers : Nat) (sched : Int → TKey → List Nat)
    (k W : Int) (thresholdCC : F) (protos : List (TKey × TKeyWaveform F))
    (ws : WorkerState F) (item : WorkData F) :
    workerItem sqrt nWorkers sched k W thresholdCC protos ws item =
      item.positionsToPredict.foldl (fun ws p => workerUpdate W thresholdCC ws
        (classifyPosition sqrt nWorkers (sched p) k protos item.ampl p) item.ampl p) ws := rfl

/-- C21 (amended): worker, the processing of one work item twice in a row.  For every worker
state, every work item with any number of candidate positions and every order in which the
threads of `findBestCC` take the mutex in either pass (at least one thread), after the second
pass `predictedKey` and `predictedCC` are what they were after the first pass; and the second
pass prints no prediction exactly when all the positions of the item whose best score exceeds
the threshold have the same key and the same score, as for an item with a single position. -/
theorem worker_repeat (sqrt : F → F) (nWorkers : Nat) (hn : 1 ≤ nWorkers)
    (sched1 sched2 : Int → TKey → List Nat)
    (h1 : ∀ p key, (sched1 p key).Perm (List.range nWorkers))
    (h2 : ∀ p key, (sched2 p key).Perm (List.range nWorkers))
    (k W : Int) (thresholdCC : F) (protos : List (TKey × TKeyWaveform F))
    (ws : WorkerState F) (item : WorkData F) :
    (workerItem sqrt nWorkers sched2 k W thresholdCC protos
        (workerItem sqrt nWorkers sched1 k W thresholdCC protos ws item) item).predictedKey
      = (workerItem sqrt nWorkers sched1 k W thresholdCC protos ws item).predictedKey ∧
    (workerItem sqrt nWorkers sched2 k W thresholdCC protos
        (workerItem sqrt nWorkers sched1 k W thresholdCC protos ws item) item).predictedCC
      = (workerItem sqrt nWorkers sched1 k W thresholdCC protos ws item).predictedCC ∧
    ((workerItem sqrt nWorkers sched2 k W thresholdCC protos
        (workerItem sqrt nWorkers sched1 k W thresholdCC protos ws item) item).predictions
      = (workerItem sqrt nWorkers sched1 k W thresholdCC protos ws item).predictions ↔
      ∀ p ∈ item.positionsToPredict, ∀ q ∈ item.positionsToPredict,
        (classifyPosition sqrt nWorkers (sched1 p) k protos item.ampl p).maxcc.gt
          (TValueCC.fin thresholdCC) = true →
        (classifyPosition sqrt nWorkers (sched1 q) k protos item.ampl q).maxcc.gt
          (TValueCC.fin thresholdCC) = true →
        (classifyPosition sqrt nWorkers (sched1 p) k protos item.ampl p).res
          = (classifyPosition sqrt nWorkers (sched1 q) k protos item.ampl q).res ∧
        (classifyPosition sqrt nWorkers (sched1 p) k protos item.ampl p).maxcc
          = (classifyPosition sqrt nWorkers (sched1 q) k protos item.ampl q).maxcc) := by
  simp only [workerItem_eq_foldl]
  exact run_twice W thresholdCC
    (fun p => classifyPosition sqrt nWorkers (sched1 p) k protos item.ampl p)
    (fun p => classifyPosition sqrt nWorkers (sched2 p) k protos item.ampl p)
    (fun p => (classifyPosition_sched sqrt nWorkers hn (sched1 p) (sched2 p) (h1 p) (h2 p)
      k protos item.ampl p).1)
    (fun p => (classifyPosition_sched sqrt nWorkers hn (sched1 p) (sched2 p) (h1 p) (h2 p)
      k protos item.ampl p).2)
    item.ampl item.positionsToPredict ws

end WorkerRepeatClaim
end Keytap
namespace Keytap
section WorkerRepeatExamples

theorem item_two_first (ws : WorkerState ℝ) :
    workerItem Real.sqrt 1 (fun _ _ => [0]) 2 6 (1 / 2)
      [(1, ([0, 1, 1, 1, 0, 0] : List ℝ)), (2, [0, 0, 0, 0, 1, 0])] ws
      { ampl := [2, 2, 2, 2, 2, 2, 0, 0, 0, 2, 0, 0, 0, 0, 0, 0],
        positionsToPredict := [5, 8] }
    = workerUpdate 6 (1 / 2)
        (workerUpdate 6 (1 / 2) ws
          { res := 1, maxcc := TValueCC.fin 1, offs := 0,
            keyConfidenceTmp := [(1, TValueCC.fin 1), (2, TValueCC.fin (-1))] }
          [2, 2, 2, 2, 2, 2, 0, 0, 0, 2, 0, 0, 0, 0, 0, 0] 5)
        { res := 2, maxcc := TValueCC.fin 1, offs := 0,
          keyConfidenceTmp := [(1, TValueCC.fin (1 / 3)), (2, TValueCC.fin 1)] }
        [2, 2, 2, 2, 2, 2, 0, 0, 0, 2, 0, 0, 0, 0, 0, 0] 8 := by
  rw [workerItem_eq_foldl]
  simp only [List.foldl_cons, List.foldl_nil]
  rw [classify_two_early, classify_two_late]

/-- C21, counterexample: an item with two candidate positions that match different keys.  The
worker starts from its initial state; the first pass prints the predictions of key 1 and
key 2, and the second pass over the same item prints both again. -/
theorem worker_repeat_emits :
    (workerItem Real.sqrt 1 (fun _ _ => [0]) 2 6 (1 / 2)
      [(1, ([0, 1, 1, 1, 0, 0] : List ℝ)), (2, [0, 0, 0, 0, 1, 0])] (workerInit 6)
      { ampl := [2, 2, 2, 2, 2, 2, 0, 0, 0, 2, 0, 0, 0, 0, 0, 0],
        positionsToPredict := [5, 8] }).predictions
      = [(1, TValueCC.fin 1), (2, TValueCC.fin 1)] ∧
    (workerItem Real.sqrt 1 (fun _ _ => [0]) 2 6 (1 / 2)
      [(1, ([0, 1, 1, 1, 0, 0] : List ℝ)), (2, [0, 0, 0, 0, 1, 0])]
      (workerItem Real.sqrt 1 (fun _ _ => [0]) 2 6 (1 / 2)
        [(1, ([0, 1, 1, 1, 0, 0] : List ℝ)), (2, [0, 0, 0, 0, 1, 0])] (workerInit 6)
        { ampl := [2, 2, 2, 2, 2, 2, 0, 0, 0, 2, 0, 0, 0, 0, 0, 0],
          positionsToPredict := [5, 8] })
      { ampl := [2, 2, 2, 2, 2, 2, 0, 0, 0, 2, 0, 0, 0, 0, 0, 0],
        positionsToPredict := [5, 8] }).predictions
      = [(1, TValueCC.fin 1), (2, TValueCC.fin 1), (1, TValueCC.fin 1), (2, TValueCC.fin 1)] := by
  rw [item_two_first, item_two_first]
  constructor <;>
    norm_num [workerUpdate, emitPrediction, workerInit, TValueCC.gt, TValueCC.ne]

theorem item_one (ws : WorkerState ℝ) :
    workerItem Real.sqrt 1 (fun _ _ => [0]) 2 6 (1 / 2)
      [(1, ([0, 1, 1, 1, 0, 0] : List ℝ)), (2, [0, 0, 0, 0, 1, 0])] ws
      { ampl := [2, 2, 2, 2, 0, 0], positionsToPredict := [3] }
    = workerUpdate 6 (1 / 2) ws
        { res := 1, maxcc := TValueCC.fin 1, offs := 0,
          keyConfidenceTmp := [(1, TValueCC.fin 1), (2, TValueCC.fin (-1))] }
        [2, 2, 2, 2, 0, 0] 3 := by
  rw [workerItem_eq_foldl]
  simp only [List.foldl_cons, List.foldl_nil]
  rw [classify_two_keys]

theorem worker_repeat_witness :
    (workerItem Real.sqrt 1 (fun _ _ => [0]) 2 6 (1 / 2)
      [(1, ([0, 1, 1, 1, 0, 0] : List ℝ)), (2, [0, 0, 0, 0, 1, 0])]
      (workerItem Real.sqrt 1 (fun _ _ => [0]) 2 6 (1 / 2)
        [(1, ([0, 1, 1, 1, 0, 0] : List ℝ)), (2, [0, 0, 0, 0, 1, 0])] (workerInit 6)
        { ampl := [2, 2, 2, 2, 0, 0], positionsToPredict := [3] })
      { ampl := [2, 2, 2, 2, 0, 0], positionsToPredict := [3] }).predictedKey = 1 ∧
    (workerItem Real.sqrt 1 (fun _ _ => [0]) 2 6 (1 / 2)
      [(1, ([0, 1, 1, 1, 0, 0] : List ℝ)), (2, [0, 0, 0, 0, 1, 0])]
      (workerItem Real.sqrt 1 (fun _ _ => [0]) 2 6 (1 / 2)
        [(1, ([0, 1, 1, 1, 0, 0] : List ℝ)), (2, [0, 0, 0, 0, 1, 0])] (workerInit 6)
        { ampl := [2, 2, 2, 2, 0, 0], positionsToPredict := [3] })
      { ampl := [2, 2, 2, 2, 0, 0], positionsToPredict := [3] }).predictions
      = [(1, TValueCC.fin 1)] := by
  have h := worker_repeat Real.sqrt 1 (le_refl 1) (fun _ _ => [0]) (fun _ _ => [0])
    (fun _ _ => List.Perm.refl _) (fun _ _ => List.Perm.refl _) 2 6 (1 / 2)
    [(1, ([0, 1, 1, 1, 0, 0] : List ℝ)), (2, [0, 0, 0, 0, 1, 0])] (workerInit 6)
    { ampl := [2, 2, 2, 2, 0, 0], positionsToPredict := [3] }
  obtain ⟨hk, _, hp⟩ := h
  have hall := hp.2 (by
    intro p hp q hq _ _
    rw [List.mem_singleton] at hp hq
    rw [hp, hq]
    exact ⟨rfl, rfl⟩)
  rw [hk, hall, item_one]
  constructor <;>
    norm_num [workerUpdate, emitPrediction, workerInit, TValueCC.gt, TValueCC.ne]

end WorkerRepeatExamples
end Keytap

/-! ## The centering of the recordings: results -/

namespace Keytap
section Centering
variable {F : Type} [LinearOrderedField F]

theorem sampleAt_beyond (w : TKeyWaveform F) (i : Int) (h : (w.length : Int) ≤ i) :
    sampleAt w i = 0 := by
  unfold sampleAt
  split_ifs with h0
  · rw [List.getD_eq_getElem?_getD, List.getElem?_eq_none (by omega)]
    rfl
  · rfl

theorem sampleAt_shift (W : Int) (w : TKeyWaveform F) (offset i : Int) (h0 : 0 ≤ i)
    (h1 : i < W) :
    sampleAt (shiftWaveform W w offset) i
      = if 0 ≤ i + offset ∧ i + offset < W then sampleAt w (i + offset) else 0 := by
  have hlen : (shiftWaveform W w offset).length = W.toNat := by simp [shiftWaveform]
  have hi : i.toNat < (shiftWaveform W w offset).length := by omega
  have e : sampleAt (shiftWaveform W w offset) i = (shiftWaveform W w offset)[i.toNat] := by
    unfold sampleAt
    rw [if_pos h0, List.getD_eq_getElem?_getD, List.getElem?_eq_getElem hi]
    rfl
  rw [e]
  simp only [shiftWaveform, List.getElem_map, List.getElem_range, Int.toNat_of_nonneg h0,
    ge_iff_le]

/-- The first index of the largest absolute sample of a waveform with a non-zero sample. -/
theorem first_peak (w : TKeyWaveform F) (hnz : ∃ i : Nat, sampleAt w (i : Int) ≠ 0) :
    ∃ p : Nat, p < w.length ∧ 0 < |sampleAt w (p : Int)| ∧
      (∀ i : Nat, |sampleAt w (i : Int)| ≤ |sampleAt w (p : Int)|) ∧
      ∀ i : Nat, i < p → |sampleAt w (i : Int)| < |sampleAt w (p : Int)| := by
  obtain ⟨i0, hi0⟩ := hnz
  have hi0len : i0 < w.length := by
    by_contra hc
    exact hi0 (sampleAt_beyond w _ (by omega))
  obtain ⟨m, hm, hmax⟩ := Finset.exists_max_image (Finset.range w.length)
    (fun i : Nat => |sampleAt w (i : Int)|) ⟨i0, Finset.mem_range.2 hi0len⟩
  have hmpos : 0 < |sampleAt w (m : Int)| :=
    lt_of_lt_of_le (abs_pos.2 hi0) (hmax i0 (Finset.mem_range.2 hi0len))
  have hall : ∀ i : Nat, |sampleAt w (i : Int)| ≤ |sampleAt w (m : Int)| := by
    intro i
    by_cases hi : i < w.length
    · exact hmax i (Finset.mem_range.2 hi)
    · rw [sampleAt_beyond w _ (by omega), abs_zero]
      exact le_of_lt hmpos
  have hex : ∃ p : Nat, |sampleAt w (p : Int)| = |sampleAt w (m : Int)| := ⟨m, rfl⟩
  classical
  refine ⟨Nat.find hex, ?_, ?_, ?_, ?_⟩
  · by_contra hc
    have h := Nat.find_spec hex
    rw [sampleAt_beyond w _ (by omega), abs_zero] at h
    rw [← h] at hmpos
    exact lt_irrefl _ hmpos
  · rw [Nat.find_spec hex]
    exact hmpos
  · intro i
    rw [Nat.find_spec hex]
    exact hall i
  · intro i hi
    rw [Nat.find_spec hex]
    exact lt_of_le_of_ne (hall i) (Nat.find_min hex hi)

theorem centerWaveforms_getD (W : Int) (history : List (TKeyWaveform F)) (j : Nat)
    (hj : j < history.length) :
    (centerWaveforms W history).getD j []
      = shiftWaveform W (history.getD j [])
          (peakMax W (history.getD j []) - W / 2) := by
  unfold centerWaveforms
  rw [List.getD_eq_getElem?_getD, List.getD_eq_getElem?_getD, List.getElem?_map,
    List.getElem?_eq_getElem hj]
  rfl

/-- C26: trainKey, the centering of the recordings.  A recorded waveform `w` of `W` samples
with a non-zero sample is replaced by a waveform `w'` of `W` samples with
`w'[i] = w[i + imax - W/2]` when that index is in `[0, W)` and `0` otherwise, where `imax` is
the first index of the largest `|w[i]|`; so `w'[W/2] = w[imax]` and `|w'[W/2]|` is the largest
absolute sample of `w'`. -/
theorem center_spec (W : Int) (history : List (TKeyWaveform F)) (j : Nat)
    (hj : j < history.length) (hlen : (history.getD j []).length = W.toNat)
    (hnz : ∃ i : Nat, sampleAt (history.getD j []) (i : Int) ≠ 0) :
    ∃ imax : Nat, (imax : Int) < W ∧ peakMax W (history.getD j []) = (imax : Int) ∧
      (∀ i : Nat, |sampleAt (history.getD j []) (i : Int)|
        ≤ |sampleAt (history.getD j []) (imax : Int)|) ∧
      (∀ i : Nat, i < imax → |sampleAt (history.getD j []) (i : Int)|
        < |sampleAt (history.getD j []) (imax : Int)|) ∧
      ((centerWaveforms W history).getD j []).length = W.toNat ∧
      (∀ i : Int, 0 ≤ i → i < W →
        sampleAt ((centerWaveforms W history).getD j []) i
          = if 0 ≤ i + (imax : Int) - W / 2 ∧ i + (imax : Int) - W / 2 < W then
              sampleAt (history.getD j []) (i + (imax : Int) - W / 2)
            else 0) ∧
      sampleAt ((centerWaveforms W history).getD j []) (W / 2)
        = sampleAt (history.getD j []) (imax : Int) ∧
      ∀ i : Int, |sampleAt ((centerWaveforms W history).getD j []) i|
        ≤ |sampleAt ((centerWaveforms W history).getD j []) (W / 2)| := by
  obtain ⟨p, hp, h0, hall, hfirst⟩ := first_peak (history.getD j []) hnz
  have hpW : (p : Int) < W := by omega
  have hpk : peakMax W (history.getD j []) = (p : Int) :=
    peakMax_eq W (history.getD j []) p hpW h0 hfirst (fun i _ => hall i)
  have hW : 0 < W := by omega
  have hc0 : 0 ≤ W / 2 := Int.ediv_nonneg (le_of_lt hW) (by norm_num)
  have hc1 : W / 2 < W := Int.ediv_lt_of_lt_mul (by norm_num) (by omega)
  have hsample : ∀ i : Int, 0 ≤ i → i < W →
      sampleAt ((centerWaveforms W history).getD j []) i
        = if 0 ≤ i + (p : Int) - W / 2 ∧ i + (p : Int) - W / 2 < W then
            sampleAt (history.getD j []) (i + (p : Int) - W / 2)
          else 0 := by
    intro i hi0 hi1
    rw [centerWaveforms_getD W history j hj, hpk, sampleAt_shift W _ _ i hi0 hi1,
      ← add_sub_assoc]
  have hcentre : sampleAt ((centerWaveforms W history).getD j []) (W / 2)
      = sampleAt (history.getD j []) (p : Int) := by
    rw [hsample (W / 2) hc0 hc1, if_pos ⟨by omega, by omega⟩]
    congr 1
    omega
  have hlen2 : ((centerWaveforms W history).getD j []).length = W.toNat := by
    rw [centerWaveforms_getD W history j hj]
    simp [shiftWaveform]
  refine ⟨p, hpW, hpk, hall, hfirst, hlen2, hsample, hcentre, ?_⟩
  intro i
  rw [hcentre]
  by_cases hi : 0 ≤ i ∧ i < W
  · rw [hsample i hi.1 hi.2]
    split_ifs with hin
    · have e : i + (p : Int) - W / 2 = ((i + (p : Int) - W / 2).toNat : Int) :=
        (Int.toNat_of_nonneg hin.1).symm
      rw [e]
      exact hall _
    · rw [abs_zero]
      exact le_of_lt h0
  · have hz : sampleAt ((centerWaveforms W history).getD j []) i = 0 := by
      by_cases hneg : 0 ≤ i
      · exact sampleAt_beyond _ _ (by rw [hlen2]; omega)
      · unfold sampleAt
        rw [if_neg hneg]
    rw [hz, abs_zero]
    exact le_of_lt h0

theorem center_spec_witness :
    ∃ imax : Nat, (imax : Int) < 4 ∧
      peakMax 4 (([[1, -3, 3, 0]] : List (List ℚ)).getD 0 []) = (imax : Int) ∧
      (∀ i : Nat, |sampleAt (([[1, -3, 3, 0]] : List (List ℚ)).getD 0 []) (i : Int)|
        ≤ |sampleAt (([[1, -3, 3, 0]] : List (List ℚ)).getD 0 []) (imax : Int)|) ∧
      (∀ i : Nat, i < imax → |sampleAt (([[1, -3, 3, 0]] : List (List ℚ)).getD 0 []) (i : Int)|
        < |sampleAt (([[1, -3, 3, 0]] : List (List ℚ)).getD 0 []) (imax : Int)|) ∧
      ((centerWaveforms 4 ([[1, -3, 3, 0]] : List (List ℚ))).getD 0 []).length
        = (4 : Int).toNat ∧
      (∀ i : Int, 0 ≤ i → i < 4 →
        sampleAt ((centerWaveforms 4 ([[1, -3, 3, 0]] : List (List ℚ))).getD 0 []) i
          = if 0 ≤ i + (imax : Int) - 4 / 2 ∧ i + (imax : Int) - 4 / 2 < 4 then
              sampleAt (([[1, -3, 3, 0]] : List (List ℚ)).getD 0 []) (i + (imax : Int) - 4 / 2)
            else 0) ∧
      sampleAt ((centerWaveforms 4 ([[1, -3, 3, 0]] : List (List ℚ))).getD 0 []) (4 / 2)
        = sampleAt (([[1, -3, 3, 0]] : List (List ℚ)).getD 0 []) (imax : Int) ∧
      ∀ i : Int, |sampleAt ((centerWaveforms 4 ([[1, -3, 3, 0]] : List (List ℚ))).getD 0 []) i|
        ≤ |sampleAt ((centerWaveforms 4 ([[1, -3, 3, 0]] : List (List ℚ))).getD 0 []) (4 / 2)| :=
  center_spec 4 ([[1, -3, 3, 0]] : List (List ℚ)) 0 (by decide) (by decide)
    ⟨0, by norm_num [sampleAt]⟩

end Centering
end Keytap

/-! ## The table of pairwise correlations: results -/

namespace Keytap
section TableClaim
variable {F : Type} [LinearOrderedField F]

/-- C27 (amended): trainKey, the table `ccs` after the loop over the pairs.  For a key with
`N` waveforms and every pair `i < j < N`, with
`(cc_ij, off_ij) = findBestCC(W_i, W_j, is0, is1, 64)` on the centred waveforms, the table
holds `ccs[j][i] = (cc_ij, off_ij)` and `ccs[i][j] = (cc_ij, -off_ij)`, and
`ccs[i][i] = (1.0, 0)` for every `i < N`. -/
theorem ccs_table (sqrt : F → F) (hs : IsSqrt sqrt) (nWorkers : Nat)
    (sched : Nat → Nat → List Nat) (k W : Int) (hk : 0 ≤ k)
    (history : List (TKeyWaveform F)) :
    (∀ i : Nat, i < history.length →
      (anchorLoop (trainFind sqrt nWorkers sched k W (centerWaveforms W history))
        history.length).ccs (i : Int) (i : Int) = (1, 0)) ∧
    ∀ i j : Nat, i < j → j < history.length →
      ∃ (cc : F) (off : TOffset),
        findBestCC sqrt nWorkers (sched i j) ((centerWaveforms W history).getD i [])
          ((centerWaveforms W history).getD j []) (W / 2 - k) (W / 2 + k) 64
          = (TValueCC.fin cc, off) ∧
        (anchorLoop (trainFind sqrt nWorkers sched k W (centerWaveforms W history))
          history.length).ccs (j : Int) (i : Int) = (cc, off) ∧
        (anchorLoop (trainFind sqrt nWorkers sched k W (centerWaveforms W history))
          history.length).ccs (i : Int) (j : Int) = (cc, -off) := by
  constructor
  · intro i hi
    rw [anchorLoop_entry _ _ i i hi hi, if_pos rfl]
  · intro i j hij hj
    obtain ⟨x, hx, _, _⟩ := findBestCC_finite sqrt hs nWorkers (sched i j)
      ((centerWaveforms W history).getD i []) ((centerWaveforms W history).getD j [])
      (W / 2 - k) (W / 2 + k) 64 (by omega)
    have hfind : trainFind sqrt nWorkers sched k W (centerWaveforms W history) i j
        = (x, (findBestCC sqrt nWorkers (sched i j) ((centerWaveforms W history).getD i [])
          ((centerWaveforms W history).getD j []) (W / 2 - k) (W / 2 + k) 64).2) := by
      unfold trainFind
      rw [hx]
      rfl
    refine ⟨x, (findBestCC sqrt nWorkers (sched i j) ((centerWaveforms W history).getD i [])
      ((centerWaveforms W history).getD j []) (W / 2 - k) (W / 2 + k) 64).2, ?_, ?_, ?_⟩
    · rw [← hx]
    · rw [anchorLoop_entry _ _ j i hj (by omega), if_neg (by omega), if_pos hij, hfind]
    · rw [anchorLoop_entry _ _ i j (by omega) hj, if_neg (by omega), if_neg (by omega), hfind]

end TableClaim
end Keytap
namespace Keytap
section TableExample

theorem mirrorCores_peaks : ∀ c ∈ mirrorCores, peakAt c 12 6 = true := by
  decide

theorem mirrorCores_centered :
    centerWaveforms 144 (mirrorCores.map (fun c => (padRecording 66 c : TKeyWaveform ℝ)))
      = mirrorCores.map (fun c => (padRecording 66 c : TKeyWaveform ℝ)) :=
  centerWaveforms_pad mirrorCores mirrorCores_peaks

theorem sqrt_mirror : Real.sqrt (116 * 116) = 116 :=
  Real.sqrt_mul_self (by norm_num)

/-- At offset `0` the first two recordings of `mirrorCores` have the correlation `-1`. -/
theorem cc_mirror_zero :
    ccAt Real.sqrt (padRecording 66 [0, 0, 0, 0, 0, 0, 3, -1, 0, 0, 0, 0] : TKeyWaveform ℝ)
      (padRecording 66 [0, 0, 0, 0, 0, 0, -3, 1, 0, 0, 0, 0]) 66 78 0 = TValueCC.fin (-1) := by
  rw [ccAt_pad Real.sqrt _ _ (by rfl) 0]
  have c1 : covN (fun j => ((sampleZ [0, 0, 0, 0, 0, 0, 3, -1, 0, 0, 0, 0] (j : Int) : Int) : ℝ))
      (fun j => ((sampleZ [0, 0, 0, 0, 0, 0, 3, -1, 0, 0, 0, 0] (j : Int) : Int) : ℝ)) 12
      = 116 := by
    rw [covN_cast]
    have : covZ (fun j => sampleZ [0, 0, 0, 0, 0, 0, 3, -1, 0, 0, 0, 0] (j : Int))
        (fun j => sampleZ [0, 0, 0, 0, 0, 0, 3, -1, 0, 0, 0, 0] (j : Int)) 12 = 116 := by
      decide
    rw [this]
    norm_num
  have c2 : covN
      (fun j => ((sampleZ [0, 0, 0, 0, 0, 0, -3, 1, 0, 0, 0, 0] (0 + (j : Int)) : Int) : ℝ))
      (fun j => ((sampleZ [0, 0, 0, 0, 0, 0, -3, 1, 0, 0, 0, 0] (0 + (j : Int)) : Int) : ℝ)) 12
      = 116 := by
    rw [covN_cast]
    have : covZ (fun j => sampleZ [0, 0, 0, 0, 0, 0, -3, 1, 0, 0, 0, 0] (0 + (j : Int)))
        (fun j => sampleZ [0, 0, 0, 0, 0, 0, -3, 1, 0, 0, 0, 0] (0 + (j : Int))) 12 = 116 := by
      decide
    rw [this]
    norm_num
  have c3 : covN (fun j => ((sampleZ [0, 0, 0, 0, 0, 0, 3, -1, 0, 0, 0, 0] (j : Int) : Int) : ℝ))
      (fun j => ((sampleZ [0, 0, 0, 0, 0, 0, -3, 1, 0, 0, 0, 0] (0 + (j : Int)) : Int) : ℝ)) 12
      = -116 := by
    rw [covN_cast]
    have : covZ (fun j => sampleZ [0, 0, 0, 0, 0, 0, 3, -1, 0, 0, 0, 0] (j : Int))
        (fun j => sampleZ [0, 0, 0, 0, 0, 0, -3, 1, 0, 0, 0, 0] (0 + (j : Int))) 12 = -116 := by
      decide
    rw [this]
    norm_num
  rw [nccVal_pos Real.sqrt isSqrt_real _ _ 12 (by rw [c1]; norm_num) (by rw [c2]; norm_num),
    c1, c2, c3, sqrt_mirror]
  norm_num

/-- The search never returns the offset `0` for the first two recordings of `mirrorCores`. -/
theorem best_mirror_offset :
    (findBestCC Real.sqrt 1 [0]
      (padRecording 66 [0, 0, 0, 0, 0, 0, 3, -1, 0, 0, 0, 0] : TKeyWaveform ℝ)
      (padRecording 66 [0, 0, 0, 0, 0, 0, -3, 1, 0, 0, 0, 0]) 66 78 64).2 ≠ 0 := by
  obtain ⟨h1, _⟩ := findBestCC_char Real.sqrt 1 [0]
    (padRecording 66 [0, 0, 0, 0, 0, 0, 3, -1, 0, 0, 0, 0] : TKeyWaveform ℝ)
    (padRecording 66 [0, 0, 0, 0, 0, 0, -3, 1, 0, 0, 0, 0]) 66 78 64 le_rfl (List.Perm.refl _)
  rcases h1 with h1 | ⟨o, _, _, h1, hgt⟩
  · rw [h1]
    norm_num
  · rw [h1]
    intro ho
    simp only [] at ho
    rw [ho, cc_mirror_zero] at hgt
    simp [TValueCC.gt] at hgt

/-- C27, counterexample: three recordings of which the second is the first with the opposite
sign.  The pair `(cc_01, off_01)` found for the waveforms 0 and 1 has a non-zero offset and is
stored in `ccs[1][0]`; the entry `ccs[0][1]` holds the opposite offset and is not
`(cc_01, off_01)`, and `ccs[1][0]` is not `(cc_01, -off_01)`. -/
theorem ccs_table_transposed :
    ∃ (cc : ℝ) (off : TOffset),
      findBestCC Real.sqrt 1 [0]
        ((centerWaveforms 144
          (mirrorCores.map (fun c => (padRecording 66 c : TKeyWaveform ℝ)))).getD 0 [])
        ((centerWaveforms 144
          (mirrorCores.map (fun c => (padRecording 66 c : TKeyWaveform ℝ)))).getD 1 [])
        (144 / 2 - 6) (144 / 2 + 6) 64 = (TValueCC.fin cc, off) ∧
      (anchorLoop (trainFind Real.sqrt 1 (fun _ _ => [0]) 6 144
        (centerWaveforms 144 (mirrorCores.map (fun c => (padRecording 66 c : TKeyWaveform ℝ)))))
        3).ccs 0 1 ≠ (cc, off) ∧
      (anchorLoop (trainFind Real.sqrt 1 (fun _ _ => [0]) 6 144
        (centerWaveforms 144 (mirrorCores.map (fun c => (padRecording 66 c : TKeyWaveform ℝ)))))
        3).ccs 1 0 ≠ (cc, -off) ∧
      (anchorLoop (trainFind Real.sqrt 1 (fun _ _ => [0]) 6 144
        (centerWaveforms 144 (mirrorCores.map (fun c => (padRecording 66 c : TKeyWaveform ℝ)))))
        3).ccs 1 0 = (cc, off) := by
  obtain ⟨x, hx, _, _⟩ := findBestCC_finite Real.sqrt isSqrt_real 1 [0]
    (padRecording 66 [0, 0, 0, 0, 0, 0, 3, -1, 0, 0, 0, 0] : TKeyWaveform ℝ)
    (padRecording 66 [0, 0, 0, 0, 0, 0, -3, 1, 0, 0, 0, 0]) 66 78 64 (by norm_num)
  have hoff := best_mirror_offset
  have e01 := anchorLoop_entry (trainFind Real.sqrt 1 (fun _ _ => [0]) 6 144
    (mirrorCores.map (fun c => (padRecording 66 c : TKeyWaveform ℝ)))) 3 0 1
    (by norm_num) (by norm_num)
  have e10 := anchorLoop_entry (trainFind Real.sqrt 1 (fun _ _ => [0]) 6 144
    (mirrorCores.map (fun c => (padRecording 66 c : TKeyWaveform ℝ)))) 3 1 0
    (by norm_num) (by norm_num)
  rw [if_neg (by norm_num), if_neg (by norm_num)] at e01
  rw [if_neg (by norm_num), if_pos (by norm_num)] at e10
  have hfind : trainFind Real.sqrt 1 (fun _ _ => [0]) 6 144
      (mirrorCores.map (fun c => (padRecording 66 c : TKeyWaveform ℝ))) 0 1
      = (x, (findBestCC Real.sqrt 1 [0]
        (padRecording 66 [0, 0, 0, 0, 0, 0, 3, -1, 0, 0, 0, 0] : TKeyWaveform ℝ)
        (padRecording 66 [0, 0, 0, 0, 0, 0, -3, 1, 0, 0, 0, 0]) 66 78 64).2) := by
    have e : trainFind Real.sqrt 1 (fun _ _ => [0]) 6 144
        (mirrorCores.map (fun c => (padRecording 66 c : TKeyWaveform ℝ))) 0 1
        = ((findBestCC Real.sqrt 1 [0]
            (padRecording 66 [0, 0, 0, 0, 0, 0, 3, -1, 0, 0, 0, 0] : TKeyWaveform ℝ)
            (padRecording 66 [0, 0, 0, 0, 0, 0, -3, 1, 0, 0, 0, 0]) 66 78 64).1.toF,
          (findBestCC Real.sqrt 1 [0]
            (padRecording 66 [0, 0, 0, 0, 0, 0, 3, -1, 0, 0, 0, 0] : TKeyWaveform ℝ)
            (padRecording 66 [0, 0, 0, 0, 0, 0, -3, 1, 0, 0, 0, 0]) 66 78 64).2) := rfl
    rw [e, hx]
    rfl
  rw [hfind] at e01 e10
  rw [mirrorCores_centered]
  refine ⟨x, (findBestCC Real.sqrt 1 [0]
    (padRecording 66 [0, 0, 0, 0, 0, 0, 3, -1, 0, 0, 0, 0] : TKeyWaveform ℝ)
    (padRecording 66 [0, 0, 0, 0, 0, 0, -3, 1, 0, 0, 0, 0]) 66 78 64).2, ?_, ?_, ?_, ?_⟩
  · rw [← hx]
    rfl
  · have e : ((0 : Nat) : Int) = 0 := rfl
    have e1 : ((1 : Nat) : Int) = 1 := rfl
    rw [e, e1] at e01
    rw [e01]
    intro hc
    have h3 : -(findBestCC Real.sqrt 1 [0]
        (padRecording 66 [0, 0, 0, 0, 0, 0, 3, -1, 0, 0, 0, 0] : TKeyWaveform ℝ)
        (padRecording 66 [0, 0, 0, 0, 0, 0, -3, 1, 0, 0, 0, 0]) 66 78 64).2
      = (findBestCC Real.sqrt 1 [0]
        (padRecording 66 [0, 0, 0, 0, 0, 0, 3, -1, 0, 0, 0, 0] : TKeyWaveform ℝ)
        (padRecording 66 [0, 0, 0, 0, 0, 0, -3, 1, 0, 0, 0, 0]) 66 78 64).2 :=
      congrArg Prod.snd hc
    exact hoff (by linarith)
  · have e : ((0 : Nat) : Int) = 0 := rfl
    have e1 : ((1 : Nat) : Int) = 1 := rfl
    rw [e, e1] at e10
    rw [e10]
    intro hc
    have h3 : (findBestCC Real.sqrt 1 [0]
        (padRecording 66 [0, 0, 0, 0, 0, 0, 3, -1, 0, 0, 0, 0] : TKeyWaveform ℝ)
        (padRecording 66 [0, 0, 0, 0, 0, 0, -3, 1, 0, 0, 0, 0]) 66 78 64).2
      = -(findBestCC Real.sqrt 1 [0]
        (padRecording 66 [0, 0, 0, 0, 0, 0, 3, -1, 0, 0, 0, 0] : TKeyWaveform ℝ)
        (padRecording 66 [0, 0, 0, 0, 0, 0, -3, 1, 0, 0, 0, 0]) 66 78 64).2 :=
      congrArg Prod.snd hc
    exact hoff (by linarith)
  · exact e10

theorem ccs_table_witness :
    ∃ (cc : ℝ) (off : TOffset),
      findBestCC Real.sqrt 1 [0]
        ((centerWaveforms 144
          (mirrorCores.map (fun c => (padRecording 66 c : TKeyWaveform ℝ)))).getD 0 [])
        ((centerWaveforms 144
          (mirrorCores.map (fun c => (padRecording 66 c : TKeyWaveform ℝ)))).getD 1 [])
        (144 / 2 - 6) (144 / 2 + 6) 64 = (TValueCC.fin cc, off) ∧
      (anchorLoop (trainFind Real.sqrt 1 (fun _ _ => [0]) 6 144
        (centerWaveforms 144 (mirrorCores.map (fun c => (padRecording 66 c : TKeyWaveform ℝ)))))
        (mirrorCores.map (fun c => (padRecording 66 c : TKeyWaveform ℝ))).length).ccs
          ((1 : Nat) : Int) ((0 : Nat) : Int) = (cc, off) ∧
      (anchorLoop (trainFind Real.sqrt 1 (fun _ _ => [0]) 6 144
        (centerWaveforms 144 (mirrorCores.map (fun c => (padRecording 66 c : TKeyWaveform ℝ)))))
        (mirrorCores.map (fun c => (padRecording 66 c : TKeyWaveform ℝ))).length).ccs
          ((0 : Nat) : Int) ((1 : Nat) : Int) = (cc, -off) :=
  (ccs_table Real.sqrt isSqrt_real 1 (fun _ _ => [0]) 6 144 (by norm_num)
    (mirrorCores.map (fun c => (padRecording 66 c : TKeyWaveform ℝ)))).2 0 1 (by norm_num)
    (by decide)

end TableExample
end Keytap

/-! ## The choice of the anchor: results -/

namespace Keytap
section AnchorClaim
variable {F : Type} [LinearOrderedField F]

end AnchorClaim
end Keytap

/-! ## The end of training in the update loop: results -/

namespace Keytap
section UpdateClaim
variable {F : Type} [LinearOrderedField F]

/-- C30 (amended): g_update, the end of training.  The pass through the training block leaves
the training state for the predicting state whatever the outcome of training:
`isReadyToPredict` is `true` and `doRecord` has been consumed after it for every training
history, and a program that was in the training state holds the prototypes that training has
produced, none when no key was trained. -/
theorem training_always_ready (sqrt : F → F) (nWorkers : Nat)
    (sched : TKey → Nat → Nat → List Nat) (k W : Int)
    (keySoundHistoryAmpl : List (TKey × List (TKeyWaveform F))) (st : UpdateState F) :
    (updateTail sqrt nWorkers sched k W keySoundHistoryAmpl st).isReadyToPredict = true ∧
    (updateTail sqrt nWorkers sched k W keySoundHistoryAmpl st).doRecord = false ∧
    (updateTail sqrt nWorkers sched k W keySoundHistoryAmpl
        { isReadyToPredict := false, doRecord := st.doRecord,
          keySoundAverageAmpl := st.keySoundAverageAmpl, amplMax := st.amplMax,
          amplMin := st.amplMin }).keySoundAverageAmpl
      = (normalize (trainAll sqrt nWorkers sched k W keySoundHistoryAmpl)).keySoundAverageAmpl := by
  refine ⟨?_, ?_, ?_⟩
  · unfold updateTail
    cases h1 : st.isReadyToPredict <;> cases h2 : st.doRecord <;> simp [h1, h2]
  · unfold updateTail
    cases h1 : st.isReadyToPredict <;> cases h2 : st.doRecord <;> simp [h1, h2]
  · unfold updateTail
    simp

/-- C30, counterexample: the only key of the training history has two recordings.  Training
puts the key on the list `failedToTrain` and produces no prototype, and the program enters the
predicting state all the same. -/
theorem training_ready_without_key :
    (trainAll Real.sqrt 1 (fun _ _ _ => [0]) 1 130
      [(97, [List.replicate 130 (0 : ℝ), List.replicate 130 0])]).failedToTrain = [97] ∧
    (updateTail Real.sqrt 1 (fun _ _ _ => [0]) 1 130
      [(97, [List.replicate 130 (0 : ℝ), List.replicate 130 0])]
      updateInit).keySoundAverageAmpl = [] ∧
    (updateTail Real.sqrt 1 (fun _ _ _ => [0]) 1 130
      [(97, [List.replicate 130 (0 : ℝ), List.replicate 130 0])]
      updateInit).isReadyToPredict = true := by
  have h : trainAll Real.sqrt 1 (fun _ _ _ => [0]) 1 130
      [(97, [List.replicate 130 (0 : ℝ), List.replicate 130 0])]
      = { keySoundAverageAmpl := [], failedToTrain := [97], amplMax := 0, amplMin := 0 } := by
    unfold trainAll
    rw [List.foldl_cons, List.foldl_nil]
    unfold trainStep
    rw [if_neg (by simp)]
    rfl
  refine ⟨by rw [h], ?_, ?_⟩
  · unfold updateTail updateInit
    simp only [if_true]
    rw [h]
    rfl
  · unfold updateTail updateInit
    rfl

theorem training_always_ready_witness :
    (updateTail Real.sqrt 1 (fun _ _ _ => [0]) 1 130
      [(97, [List.replicate 130 (0 : ℝ), List.replicate 130 0, List.replicate 130 0])]
      updateInit).isReadyToPredict = true ∧
    (updateTail Real.sqrt 1 (fun _ _ _ => [0]) 1 130
      [(97, [List.replicate 130 (0 : ℝ), List.replicate 130 0, List.replicate 130 0])]
      updateInit).doRecord = false :=
  have h := training_always_ready Real.sqrt 1 (fun _ _ _ => [0]) 1 130
    [(97, [List.replicate 130 (0 : ℝ), List.replicate 130 0, List.replicate 130 0])] updateInit
  ⟨h.1, h.2.1⟩

end UpdateClaim
end Keytap

/-! ## The tie-break of the offset search on a concrete input -/

namespace Keytap
section TieBreakWitness

theorem findBestCC_tiebreak_witness :
    findBestCC Real.sqrt 1 [0] ([0, 0, 0, 0, 1, 0] : List ℝ)
        [2, 2, 2, 2, 2, 2, 0, 0, 0, 2, 0, 0, 0, 0, 0, 0] 6 10 1 = (TValueCC.fin 1, 0) ∧
    ccAt Real.sqrt ([0, 0, 0, 0, 1, 0] : List ℝ)
        [2, 2, 2, 2, 2, 2, 0, 0, 0, 2, 0, 0, 0, 0, 0, 0] 6 10 (-1) = TValueCC.fin (-(1 / 3)) ∧
    (ccAt Real.sqrt ([0, 0, 0, 0, 1, 0] : List ℝ)
        [2, 2, 2, 2, 2, 2, 0, 0, 0, 2, 0, 0, 0, 0, 0, 0] 6 10 (-1)).ge
      (findBestCC Real.sqrt 1 [0] ([0, 0, 0, 0, 1, 0] : List ℝ)
        [2, 2, 2, 2, 2, 2, 0, 0, 0, 2, 0, 0, 0, 0, 0, 0] 6 10 1).1 = false :=
  ⟨best_two_late_opposite, cc_two_late_c,
    (findBestCC_tiebreak Real.sqrt 1 [0] ([0, 0, 0, 0, 1, 0] : List ℝ)
      [2, 2, 2, 2, 2, 2, 0, 0, 0, 2, 0, 0, 0, 0, 0, 0] 6 10 1 le_rfl (List.Perm.refl _)
      (by rw [best_two_late_opposite]; norm_num [TValueCC.gt])).2 rfl (-1) (by norm_num)
      (by rw [best_two_late_opposite]; norm_num)⟩

end TieBreakWitness
end Keytap

/-! ## The reads of the classifier: results -/

namespace Keytap
section BoundsClaim
variable {F : Type}

theorem calcSumOut_false (w : TKeyWaveform F) (is0 is1 : Int) (h0 : 0 ≤ is0)
    (h1 : is1 ≤ (w.length : Int)) : calcSumOut w is0 is1 = false := by
  unfold calcSumOut
  rw [List.any_eq_false]
  intro j hj
  have hj2 := List.mem_range.1 hj
  simp only [decide_eq_true_eq, not_or, not_lt, ge_iff_le, not_le]
  omega

theorem calcCCBug_false (w0 w1 : TKeyWaveform F) (is00 is0 is1 : Int) (h00 : 0 ≤ is00)
    (h01 : is00 + (is1 - is0) ≤ (w0.length : Int)) (h10 : 0 ≤ is0)
    (h11 : is1 ≤ (w1.length : Int)) : calcCCBug w0 w1 is00 is0 is1 = false := by
  unfold calcCCBug calcCCBug0 calcCCBug1
  rw [List.any_eq_false]
  intro j hj
  have hj2 := List.mem_range.1 hj
  simp only [Bool.or_eq_true, decide_eq_true_eq, not_or, not_lt, ge_iff_le, not_le]
  omega

theorem findBestCCOut_false (nWorkers : Nat) (w0 w1 : TKeyWaveform F)
    (is0 is1 alignWindow : Int)
    (h00 : 0 ≤ (w0.length : Int) / 2 - Int.tdiv (is1 - is0) 2)
    (h01 : (w0.length : Int) / 2 - Int.tdiv (is1 - is0) 2 + (is1 - is0) ≤ (w0.length : Int))
    (h1 : ∀ o, -alignWindow ≤ o → o < alignWindow →
      0 ≤ is0 + o ∧ is1 + o ≤ (w1.length : Int)) :
    findBestCCOut nWorkers w0 w1 is0 is1 alignWindow = false := by
  unfold findBestCCOut
  rw [Bool.or_eq_false_iff]
  constructor
  · exact calcSumOut_false w0 _ _ h00 (by omega)
  · rw [List.any_eq_false]
    intro i _
    rw [Bool.not_eq_true, List.any_eq_false]
    intro o ho
    rw [Bool.not_eq_true]
    obtain ⟨b1, b2, _⟩ := workerOffsets_bounds alignWindow nWorkers i o ho
    obtain ⟨c1, c2⟩ := h1 o b1 b2
    exact calcCCBug_false w0 w1 _ _ _ h00 (by omega) c1 c2

/-- The arithmetic of the classifier's windows: with `W = k*T`, `T ≥ 2`, a recording of
`nFrames*k` samples and a position `2k ≤ p < (nFrames - 2)k`, the frame size `k` is positive,
the prototype window `[W/2 - k, W/2 + k)` lies in `[0, W]` and every shifted window
`[p - k + o, p + k + o)`, `-k/2 ≤ o < k/2`, lies in `[0, nFrames*k]`. -/
theorem classifier_windows (k T nFrames p W N : Int) (hT : 2 ≤ T) (hW : W = k * T)
    (hW0 : 0 ≤ W) (hN : N = nFrames * k) (hp0 : 2 * k ≤ p) (hp1 : p < (nFrames - 2) * k) :
    1 ≤ k ∧ Int.tdiv k 2 = k / 2 ∧ Int.tdiv (p + k - (p - k)) 2 = k ∧
      0 ≤ W / 2 - k ∧ W / 2 - k + 2 * k ≤ W ∧
      ∀ o, -(k / 2) ≤ o → o < k / 2 → 0 ≤ p - k + o ∧ p + k + o ≤ N := by
  have hk0 : 0 ≤ k := by
    by_contra hc
    have hneg : k * T < 0 := mul_neg_of_neg_of_pos (by omega) (by omega)
    omega
  have hk : 1 ≤ k := by
    by_contra hc
    have hz : k = 0 := by omega
    rw [hz] at hp0 hp1
    simp at hp0 hp1
    omega
  have hW2 : 2 * k ≤ W := by
    have := mul_le_mul_of_nonneg_left hT hk0
    rw [hW]
    linarith
  have hN2 : (nFrames - 2) * k = N - 2 * k := by
    rw [hN]
    ring
  rw [hN2] at hp1
  have e1 : p + k - (p - k) = 2 * k := by ring
  have e2 : Int.tdiv (2 * k) 2 = k := by
    rw [Int.tdiv_eq_ediv (by omega) (by norm_num)]
    omega
  refine ⟨hk, Int.tdiv_eq_ediv hk0 (by norm_num), by rw [e1, e2], by omega, by omega, ?_⟩
  intro o ho1 ho2
  constructor <;> omega

/-- C31: worker, the reads of the classifier.  For a work item whose recording `ampl` has
`nFrames*k` samples, a candidate position `2k ≤ p < (nFrames - 2)k` and a prototype of
`W = k*T` samples with `T ≥ 2`, the call `findBestCC(prototype, ampl, p - k, p + k, k/2)`
has `is00 = W/2 - k ≥ 0` and `is00 + 2k ≤ W`, every offset `o` in `[-k/2, k/2)` has
`p - k + o ≥ 0` and `p + k + o ≤ ampl.size()`, and for every worker count no call of `calcSum`
or `calcCC` made by it reads outside a waveform: the out-of-range branches of `calcCC` are
not taken. -/
theorem classifier_in_bounds (nWorkers : Nat) (k T nFrames p : Int)
    (prototype ampl : TKeyWaveform F) (hT : 2 ≤ T)
    (hproto : (prototype.length : Int) = k * T) (hampl : (ampl.length : Int) = nFrames * k)
    (hp0 : 2 * k ≤ p) (hp1 : p < (nFrames - 2) * k) :
    (prototype.length : Int) / 2 - Int.tdiv (p + k - (p - k)) 2 = k * T / 2 - k ∧
    0 ≤ k * T / 2 - k ∧ k * T / 2 - k + 2 * k ≤ k * T ∧
    (∀ o, -Int.tdiv k 2 ≤ o → o < Int.tdiv k 2 →
      0 ≤ p - k + o ∧ p + k + o ≤ (ampl.length : Int)) ∧
    findBestCCOut nWorkers prototype ampl (p - k) (p + k) (Int.tdiv k 2) = false ∧
    ∀ o, -Int.tdiv k 2 ≤ o → o < Int.tdiv k 2 →
      calcCCBug prototype ampl ((prototype.length : Int) / 2 - Int.tdiv (p + k - (p - k)) 2)
        (p - k + o) (p + k + o) = false := by
  obtain ⟨hk, e1, e2, b1, b2, b3⟩ := classifier_windows k T nFrames p (prototype.length : Int)
    (ampl.length : Int) hT hproto (Int.ofNat_nonneg _) hampl hp0 hp1
  rw [e1, e2, ← hproto]
  refine ⟨rfl, b1, b2, b3, ?_, ?_⟩
  · apply findBestCCOut_false nWorkers prototype ampl (p - k) (p + k) (k / 2)
    · rw [e2]
      exact b1
    · rw [e2]
      omega
    · exact b3
  · intro o ho1 ho2
    obtain ⟨c1, c2⟩ := b3 o ho1 ho2
    exact calcCCBug_false prototype ampl _ _ _ b1 (by omega) c1 c2

theorem classifier_in_bounds_witness :
    (([0, 1, 1, 1, 0, 0] : List ℚ).length : Int) / 2 - Int.tdiv (5 + 2 - (5 - 2)) 2
      = 2 * 3 / 2 - 2 ∧
    (0 : Int) ≤ 2 * 3 / 2 - 2 ∧ (2 : Int) * 3 / 2 - 2 + 2 * 2 ≤ 2 * 3 ∧
    (∀ o, -Int.tdiv 2 2 ≤ o → o < Int.tdiv 2 2 →
      0 ≤ 5 - 2 + o ∧
        5 + 2 + o ≤ (([2, 2, 2, 2, 2, 2, 0, 0, 0, 2, 0, 0, 0, 0, 0, 0] : List ℚ).length : Int)) ∧
    findBestCCOut 2 ([0, 1, 1, 1, 0, 0] : List ℚ)
      [2, 2, 2, 2, 2, 2, 0, 0, 0, 2, 0, 0, 0, 0, 0, 0] (5 - 2) (5 + 2) (Int.tdiv 2 2) = false ∧
    ∀ o, -Int.tdiv 2 2 ≤ o → o < Int.tdiv 2 2 →
      calcCCBug ([0, 1, 1, 1, 0, 0] : List ℚ) [2, 2, 2, 2, 2, 2, 0, 0, 0, 2, 0, 0, 0, 0, 0, 0]
        ((([0, 1, 1, 1, 0, 0] : List ℚ).length : Int) / 2 - Int.tdiv (5 + 2 - (5 - 2)) 2)
        (5 - 2 + o) (5 + 2 + o) = false :=
  classifier_in_bounds 2 2 3 8 5 ([0, 1, 1, 1, 0, 0] : List ℚ)
    [2, 2, 2, 2, 2, 2, 0, 0, 0, 2, 0, 0, 0, 0, 0, 0] (by decide) (by decide) (by decide)
    (by decide) (by decide)

end BoundsClaim
end Keytap

/-! ## Rounding to nearest: results -/

namespace Keytap
section RoundingTheory

theorem bitsAux_spec (fuel n : Nat) (h : n ≤ fuel) (hn : 0 < n) :
    2 ^ (bitsAux fuel n - 1) ≤ n ∧ n < 2 ^ bitsAux fuel n ∧ 0 < bitsAux fuel n := by
  induction fuel generalizing n with
  | zero => omega
  | succ fuel ih =>
    unfold bitsAux
    rw [if_neg (by omega)]
    by_cases h1 : n / 2 = 0
    · have hn1 : n = 1 := by omega
      subst hn1
      have : bitsAux fuel (1 / 2) = 0 := by
        cases fuel <;> simp [bitsAux]
      rw [this]
      simp
    · obtain ⟨a, b, c⟩ := ih (n / 2) (by omega) (by omega)
      refine ⟨?_, ?_, by omega⟩
      · have e : bitsAux fuel (n / 2) + 1 - 1 = (bitsAux fuel (n / 2) - 1) + 1 := by omega
        rw [e, pow_succ]
        omega
      · rw [pow_succ]
        omega

theorem bits_spec (n : Nat) (hn : 0 < n) :
    2 ^ (bits n - 1) ≤ n ∧ n < 2 ^ bits n ∧ 0 < bits n :=
  bitsAux_spec n n le_rfl hn

theorem floorLog2_spec (x : ℚ) (hx : 0 < x) :
    (2 : ℚ) ^ floorLog2 x ≤ x ∧ x < (2 : ℚ) ^ (floorLog2 x + 1) := by
  have hnum : 0 < x.num := Rat.num_pos.2 hx
  have hden : 0 < x.den := x.den_pos
  obtain ⟨a1, a2, a3⟩ := bits_spec x.num.natAbs (by omega)
  obtain ⟨b1, b2, b3⟩ := bits_spec x.den hden
  have hxe : x = (x.num.natAbs : ℚ) / (x.den : ℚ) := by
    have h1 : (x.num.natAbs : ℚ) = (x.num : ℚ) := by
      rw [Nat.cast_natAbs, abs_of_pos (by exact_mod_cast hnum)]
    rw [h1]
    exact (Rat.num_div_den x).symm
  have hdq : (0 : ℚ) < (x.den : ℚ) := by exact_mod_cast hden
  have two_pos : ∀ z : Int, (0 : ℚ) < (2 : ℚ) ^ z := fun z => zpow_pos (by norm_num) z
  -- bounds of numerator and denominator as rationals
  have A1 : (2 : ℚ) ^ ((bits x.num.natAbs : Int) - 1) ≤ (x.num.natAbs : ℚ) := by
    have : ((2 ^ (bits x.num.natAbs - 1) : ℕ) : ℚ) ≤ (x.num.natAbs : ℚ) := by exact_mod_cast a1
    have e : ((bits x.num.natAbs : Int) - 1) = ((bits x.num.natAbs - 1 : ℕ) : Int) := by omega
    rw [e, zpow_natCast]
    simpa using this
  have A2 : (x.num.natAbs : ℚ) < (2 : ℚ) ^ (bits x.num.natAbs : Int) := by
    have : (x.num.natAbs : ℚ) < ((2 ^ bits x.num.natAbs : ℕ) : ℚ) := by exact_mod_cast a2
    rw [zpow_natCast]
    simpa using this
  have B1 : (2 : ℚ) ^ ((bits x.den : Int) - 1) ≤ (x.den : ℚ) := by
    have : ((2 ^ (bits x.den - 1) : ℕ) : ℚ) ≤ (x.den : ℚ) := by exact_mod_cast b1
    have e : ((bits x.den : Int) - 1) = ((bits x.den - 1 : ℕ) : Int) := by omega
    rw [e, zpow_natCast]
    simpa using this
  have B2 : (x.den : ℚ) < (2 : ℚ) ^ (bits x.den : Int) := by
    have : (x.den : ℚ) < ((2 ^ bits x.den : ℕ) : ℚ) := by exact_mod_cast b2
    rw [zpow_natCast]
    simpa using this
  have hup : x < (2 : ℚ) ^ ((bits x.num.natAbs : Int) - (bits x.den : Int) + 1) := by
    refine lt_of_eq_of_lt hxe ?_
    rw [div_lt_iff₀ hdq]
    have e : (2 : ℚ) ^ ((bits x.num.natAbs : Int) - (bits x.den : Int) + 1)
        = (2 : ℚ) ^ (bits x.num.natAbs : Int) / (2 : ℚ) ^ ((bits x.den : Int) - 1) := by
      rw [← zpow_sub₀ (by norm_num : (2 : ℚ) ≠ 0)]
      congr 1
      ring
    rw [e, div_mul_eq_mul_div, lt_div_iff₀ (two_pos _)]
    calc (x.num.natAbs : ℚ) * (2 : ℚ) ^ ((bits x.den : Int) - 1)
        ≤ (x.num.natAbs : ℚ) * (x.den : ℚ) :=
          mul_le_mul_of_nonneg_left B1 (by positivity)
      _ < (2 : ℚ) ^ (bits x.num.natAbs : Int) * (x.den : ℚ) :=
          mul_lt_mul_of_pos_right A2 hdq
  have hlow : (2 : ℚ) ^ ((bits x.num.natAbs : Int) - (bits x.den : Int) - 1) ≤ x := by
    refine le_of_le_of_eq ?_ hxe.symm
    rw [le_div_iff₀ hdq]
    have e : (2 : ℚ) ^ ((bits x.num.natAbs : Int) - (bits x.den : Int) - 1)
        = (2 : ℚ) ^ ((bits x.num.natAbs : Int) - 1) / (2 : ℚ) ^ (bits x.den : Int) := by
      rw [← zpow_sub₀ (by norm_num : (2 : ℚ) ≠ 0)]
      congr 1
      ring
    rw [e, div_mul_eq_mul_div, div_le_iff₀ (two_pos _)]
    calc (2 : ℚ) ^ ((bits x.num.natAbs : Int) - 1) * (x.den : ℚ)
        ≤ (x.num.natAbs : ℚ) * (x.den : ℚ) :=
          mul_le_mul_of_nonneg_right A1 (le_of_lt hdq)
      _ ≤ (x.num.natAbs : ℚ) * (2 : ℚ) ^ (bits x.den : Int) :=
          mul_le_mul_of_nonneg_left (le_of_lt B2) (by positivity)
  unfold floorLog2
  split_ifs with h
  · exact ⟨h, hup⟩
  · refine ⟨hlow, ?_⟩
    have e : (bits x.num.natAbs : Int) - (bits x.den : Int) - 1 + 1
        = (bits x.num.natAbs : Int) - (bits x.den : Int) := by ring
    rw [e]
    exact not_le.1 h

theorem two_zpow_lt_iff (a b : Int) : (2 : ℚ) ^ a < (2 : ℚ) ^ b ↔ a < b :=
  zpow_lt_zpow_iff_right₀ (by norm_num)

theorem two_zpow_le_iff (a b : Int) : (2 : ℚ) ^ a ≤ (2 : ℚ) ^ b ↔ a ≤ b :=
  zpow_le_zpow_iff_right₀ (by norm_num)

theorem roundHalfEven_int (n : Int) : roundHalfEven (n : ℚ) = n := by
  unfold roundHalfEven
  rw [Int.floor_intCast]
  simp

theorem roundHalfEven_bounds (q : ℚ) : ⌊q⌋ ≤ roundHalfEven q ∧ roundHalfEven q ≤ ⌊q⌋ + 1 := by
  unfold roundHalfEven
  split_ifs <;> constructor <;> omega

theorem roundHalfEven_le (q : ℚ) (n : Int) (h : q ≤ (n : ℚ)) : roundHalfEven q ≤ n := by
  by_cases hq : q = (n : ℚ)
  · rw [hq, roundHalfEven_int]
  · have hlt : q < (n : ℚ) := lt_of_le_of_ne h hq
    have hf : ⌊q⌋ < n := Int.floor_lt.2 hlt
    have := (roundHalfEven_bounds q).2
    omega

theorem roundHalfEven_ge (q : ℚ) (n : Int) (h : (n : ℚ) ≤ q) : n ≤ roundHalfEven q := by
  have hf : n ≤ ⌊q⌋ := Int.le_floor.2 h
  have := (roundHalfEven_bounds q).1
  omega

end RoundingTheory
end Keytap

namespace Keytap
section RoundingTheory2

theorem two_zpow_pos (z : Int) : (0 : ℚ) < (2 : ℚ) ^ z := zpow_pos (by norm_num) z

theorem two_zpow_toNat (k : Int) (hk : 0 ≤ k) : (2 : ℚ) ^ k = (((2 : Int) ^ k.toNat : Int) : ℚ) := by
  have e : k = (k.toNat : Int) := (Int.toNat_of_nonneg hk).symm
  conv_lhs => rw [e]
  rw [zpow_natCast]
  push_cast
  rfl

theorem ulpAt_pos (fmt : FloatFormat) (x : ℚ) : 0 < ulpAt fmt x := two_zpow_pos _

theorem roundHalfEven_mono (p q : ℚ) (h : p ≤ q) : roundHalfEven p ≤ roundHalfEven q := by
  by_cases hf : ⌊p⌋ < ⌊q⌋
  · have a := (roundHalfEven_bounds p).2
    have b := (roundHalfEven_bounds q).1
    omega
  · have hle : ⌊p⌋ ≤ ⌊q⌋ := Int.floor_mono h
    have he : ⌊p⌋ = ⌊q⌋ := by omega
    unfold roundHalfEven
    rw [he]
    have hfr : p - (⌊q⌋ : ℚ) ≤ q - (⌊q⌋ : ℚ) := by linarith
    split_ifs <;> first | omega | (exfalso; linarith)

/-- A positive value of the form m * 2 ^ j with fewer than prec significant bits and an exponent
that the format allows is not changed by rounding. -/
theorem roundMag_exact (fmt : FloatFormat) (x : ℚ) (m : Nat) (j : Int)
    (hx : x = (m : ℚ) * (2 : ℚ) ^ j) (hm0 : 0 < m) (hm : m < 2 ^ fmt.prec)
    (hj : fmt.emin - (fmt.prec : Int) + 1 ≤ j) : roundMag fmt x = x := by
  have hxpos : 0 < x := by
    rw [hx]
    exact mul_pos (by exact_mod_cast hm0) (two_zpow_pos j)
  obtain ⟨s1, s2⟩ := floorLog2_spec x hxpos
  have hfl : floorLog2 x < (fmt.prec : Int) + j := by
    have h1 : x < (2 : ℚ) ^ ((fmt.prec : Int) + j) := by
      rw [hx, zpow_add₀ (by norm_num : (2 : ℚ) ≠ 0), zpow_natCast]
      exact mul_lt_mul_of_pos_right (by exact_mod_cast hm) (two_zpow_pos j)
    have := lt_of_le_of_lt s1 h1
    rwa [two_zpow_lt_iff] at this
  have hk : 0 ≤ j - (max (floorLog2 x) fmt.emin - (fmt.prec : Int) + 1) := by
    rcases max_cases (floorLog2 x) fmt.emin with ⟨h1, _⟩ | ⟨h1, _⟩ <;> rw [h1] <;> omega
  have hq : x / ulpAt fmt x
      = (((m : Int) * (2 : Int) ^ (j - (max (floorLog2 x) fmt.emin - (fmt.prec : Int) + 1)).toNat : Int) : ℚ) := by
    unfold ulpAt
    rw [div_eq_iff (ne_of_gt (two_zpow_pos _))]
    push_cast
    have := two_zpow_toNat _ hk
    push_cast at this
    rw [mul_assoc, ← this, ← zpow_add₀ (by norm_num : (2 : ℚ) ≠ 0)]
    rw [hx]
    congr 2
    ring
  unfold roundMag
  rw [hq, roundHalfEven_int, ← hq]
  exact div_mul_cancel₀ x (ne_of_gt (ulpAt_pos fmt x))

/-- Rounding never crosses a power of two from below. -/
theorem roundMag_le_pow (fmt : FloatFormat) (x : ℚ) (t : Int) (hx : 0 < x)
    (hxt : x ≤ (2 : ℚ) ^ t) (ht : fmt.emin ≤ t) (hp : 0 < fmt.prec) :
    roundMag fmt x ≤ (2 : ℚ) ^ t := by
  obtain ⟨s1, s2⟩ := floorLog2_spec x hx
  have hfl : floorLog2 x ≤ t := by
    have := le_trans s1 hxt
    rwa [two_zpow_le_iff] at this
  have hk : 0 ≤ t - (max (floorLog2 x) fmt.emin - (fmt.prec : Int) + 1) := by
    rcases max_cases (floorLog2 x) fmt.emin with ⟨h1, _⟩ | ⟨h1, _⟩ <;> rw [h1] <;> omega
  have hpow : (2 : ℚ) ^ t / ulpAt fmt x
      = (((2 : Int) ^ (t - (max (floorLog2 x) fmt.emin - (fmt.prec : Int) + 1)).toNat : Int) : ℚ) := by
    unfold ulpAt
    rw [← two_zpow_toNat _ hk, ← zpow_sub₀ (by norm_num : (2 : ℚ) ≠ 0)]
  have hq : x / ulpAt fmt x ≤ (2 : ℚ) ^ t / ulpAt fmt x :=
    div_le_div_of_nonneg_right hxt (le_of_lt (ulpAt_pos fmt x))
  have hr := roundHalfEven_le _ _ (hpow ▸ hq)
  unfold roundMag
  have hr2 : ((roundHalfEven (x / ulpAt fmt x) : Int) : ℚ) ≤ (2 : ℚ) ^ t / ulpAt fmt x := by
    rw [hpow]
    exact_mod_cast hr
  calc (roundHalfEven (x / ulpAt fmt x) : ℚ) * ulpAt fmt x
      ≤ (2 : ℚ) ^ t / ulpAt fmt x * ulpAt fmt x :=
        mul_le_mul_of_nonneg_right hr2 (le_of_lt (ulpAt_pos fmt x))
    _ = (2 : ℚ) ^ t := div_mul_cancel₀ _ (ne_of_gt (ulpAt_pos fmt x))

/-- Rounding never crosses the lower end of the binade of a normal value. -/
theorem roundMag_ge_binade (fmt : FloatFormat) (x : ℚ) (hx : 0 < x)
    (he : fmt.emin ≤ floorLog2 x) (hp : 0 < fmt.prec) :
    (2 : ℚ) ^ floorLog2 x ≤ roundMag fmt x := by
  obtain ⟨s1, s2⟩ := floorLog2_spec x hx
  have hmax : max (floorLog2 x) fmt.emin = floorLog2 x := max_eq_left he
  have hk : (0 : Int) ≤ (fmt.prec : Int) - 1 := by omega
  have hpow : (2 : ℚ) ^ floorLog2 x / ulpAt fmt x
      = (((2 : Int) ^ ((fmt.prec : Int) - 1).toNat : Int) : ℚ) := by
    unfold ulpAt
    rw [← two_zpow_toNat _ hk, ← zpow_sub₀ (by norm_num : (2 : ℚ) ≠ 0), hmax]
    congr 1
    ring
  have hq : (2 : ℚ) ^ floorLog2 x / ulpAt fmt x ≤ x / ulpAt fmt x :=
    div_le_div_of_nonneg_right s1 (le_of_lt (ulpAt_pos fmt x))
  have hr := roundHalfEven_ge _ _ (hpow ▸ hq)
  unfold roundMag
  have hr2 : (2 : ℚ) ^ floorLog2 x / ulpAt fmt x ≤ ((roundHalfEven (x / ulpAt fmt x) : Int) : ℚ) := by
    rw [hpow]
    exact_mod_cast hr
  calc (2 : ℚ) ^ floorLog2 x
      = (2 : ℚ) ^ floorLog2 x / ulpAt fmt x * ulpAt fmt x :=
        (div_mul_cancel₀ _ (ne_of_gt (ulpAt_pos fmt x))).symm
    _ ≤ (roundHalfEven (x / ulpAt fmt x) : ℚ) * ulpAt fmt x :=
        mul_le_mul_of_nonneg_right hr2 (le_of_lt (ulpAt_pos fmt x))

theorem roundMag_ge_pow (fmt : FloatFormat) (x : ℚ) (t : Int)
    (hxt : (2 : ℚ) ^ t ≤ x) (ht : fmt.emin ≤ t) (hp : 0 < fmt.prec) :
    (2 : ℚ) ^ t ≤ roundMag fmt x := by
  have hx : 0 < x := lt_of_lt_of_le (two_zpow_pos t) hxt
  obtain ⟨s1, s2⟩ := floorLog2_spec x hx
  have hfl : t ≤ floorLog2 x := by
    have := lt_of_le_of_lt hxt s2
    rw [two_zpow_lt_iff] at this
    omega
  refine le_trans ?_ (roundMag_ge_binade fmt x hx (by omega) hp)
  rwa [two_zpow_le_iff]

theorem roundMag_nonneg (fmt : FloatFormat) (x : ℚ) (hx : 0 ≤ x) : 0 ≤ roundMag fmt x := by
  unfold roundMag
  refine mul_nonneg ?_ (le_of_lt (ulpAt_pos fmt x))
  have h : (0 : ℚ) ≤ x / ulpAt fmt x := div_nonneg hx (le_of_lt (ulpAt_pos fmt x))
  have := roundHalfEven_ge _ 0 (by simpa using h)
  exact_mod_cast this

/-- Rounding to nearest is monotone. -/
theorem roundMag_mono (fmt : FloatFormat) (x y : ℚ) (hx : 0 < x) (hxy : x ≤ y)
    (hp : 0 < fmt.prec) : roundMag fmt x ≤ roundMag fmt y := by
  have hy : 0 < y := lt_of_lt_of_le hx hxy
  obtain ⟨x1, x2⟩ := floorLog2_spec x hx
  obtain ⟨y1, y2⟩ := floorLog2_spec y hy
  have hfl : floorLog2 x ≤ floorLog2 y := by
    have := lt_of_le_of_lt (le_trans x1 hxy) y2
    rw [two_zpow_lt_iff] at this
    omega
  by_cases hsame : max (floorLog2 x) fmt.emin = max (floorLog2 y) fmt.emin
  · have hu : ulpAt fmt x = ulpAt fmt y := by
      unfold ulpAt
      rw [hsame]
    unfold roundMag
    rw [hu]
    refine mul_le_mul_of_nonneg_right ?_ (le_of_lt (ulpAt_pos fmt y))
    have := roundHalfEven_mono (x / ulpAt fmt y) (y / ulpAt fmt y)
      (div_le_div_of_nonneg_right hxy (le_of_lt (ulpAt_pos fmt y)))
    exact_mod_cast this
  · have hlt : floorLog2 x < floorLog2 y ∧ fmt.emin ≤ floorLog2 y - 1 := by
      rcases max_cases (floorLog2 x) fmt.emin with ⟨h1, h1b⟩ | ⟨h1, h1b⟩ <;>
      rcases max_cases (floorLog2 y) fmt.emin with ⟨h2, h2b⟩ | ⟨h2, h2b⟩ <;>
      rw [h1, h2] at hsame <;> constructor <;> omega
    have a : roundMag fmt x ≤ (2 : ℚ) ^ floorLog2 y := by
      refine roundMag_le_pow fmt x _ hx ?_ (by omega) hp
      refine le_trans (le_of_lt x2) ?_
      rw [two_zpow_le_iff]
      omega
    exact le_trans a (roundMag_ge_binade fmt y hy (by omega) hp)

end RoundingTheory2
end Keytap

namespace Keytap
section RoundingTheory3

theorem roundQ_pos (fmt : FloatFormat) (x : ℚ) (z : Bool) (hx : 0 < x)
    (h0 : 0 < roundMag fmt x) (h1 : roundMag fmt x < (2 : ℚ) ^ (fmt.emax + 1)) :
    roundQ fmt x z = Fl.num (roundMag fmt x) := by
  unfold roundQ
  rw [abs_of_pos hx, if_neg (ne_of_gt hx), if_neg (not_le.2 h1), if_neg (ne_of_gt h0),
    if_neg (not_lt.2 (le_of_lt hx))]

theorem roundQ_neg (fmt : FloatFormat) (x : ℚ) (z : Bool) (hx : x < 0)
    (h0 : 0 < roundMag fmt (-x)) (h1 : roundMag fmt (-x) < (2 : ℚ) ^ (fmt.emax + 1)) :
    roundQ fmt x z = Fl.num (-roundMag fmt (-x)) := by
  unfold roundQ
  rw [abs_of_neg hx, if_neg (ne_of_lt hx), if_neg (not_le.2 h1), if_neg (ne_of_gt h0),
    if_pos hx]

theorem roundQ_zero (fmt : FloatFormat) (z : Bool) :
    roundQ fmt 0 z = if z then Fl.nzero else Fl.num 0 := by
  unfold roundQ
  rw [if_pos rfl]

/-- A non-zero value whose magnitude is m * 2 ^ j with fewer than prec significant bits, in the
range of the format, is its own rounding. -/
theorem roundQ_exact (fmt : FloatFormat) (x : ℚ) (z : Bool) (m : Nat) (j : Int)
    (hx : |x| = (m : ℚ) * (2 : ℚ) ^ j) (hm0 : 0 < m) (hm : m < 2 ^ fmt.prec)
    (hj : fmt.emin - (fmt.prec : Int) + 1 ≤ j) (hov : |x| < (2 : ℚ) ^ (fmt.emax + 1)) :
    roundQ fmt x z = Fl.num x := by
  have hr := roundMag_exact fmt |x| m j hx hm0 hm hj
  have hpos : 0 < |x| := by
    rw [hx]
    exact mul_pos (by exact_mod_cast hm0) (two_zpow_pos j)
  rcases lt_trichotomy x 0 with h | h | h
  · rw [abs_of_neg h] at hr hpos hov
    rw [roundQ_neg fmt x z h (by rw [hr]; exact hpos) (by rw [hr]; exact hov), hr, neg_neg]
  · rw [h] at hpos
    simp at hpos
  · rw [abs_of_pos h] at hr hov
    rw [roundQ_pos fmt x z h (by rw [hr]; exact h) (by rw [hr]; exact hov), hr]

theorem roundQ_int64 (n : Int) (z : Bool) (hn : n ≠ 0) (hb : |n| < 2 ^ 53) :
    roundQ binary64 (n : ℚ) z = Fl.num (n : ℚ) := by
  have habs : |(n : ℚ)| = ((n.natAbs : Nat) : ℚ) := by
    rw [Nat.cast_natAbs]
    push_cast
    rfl
  have hb2 : n.natAbs < 2 ^ 53 := by
    have hb3 := abs_lt.1 hb
    omega
  have hq : ((n.natAbs : Nat) : ℚ) < 2 ^ 53 := by exact_mod_cast hb2
  refine roundQ_exact binary64 (n : ℚ) z n.natAbs 0 (by rw [habs]; simp) (by omega) hb2
    (by decide) ?_
  rw [habs]
  refine lt_trans hq ?_
  norm_num [binary64]

theorem roundQ_int32 (n : Int) (z : Bool) (hn : n ≠ 0) (hb : |n| < 2 ^ 24) :
    roundQ binary32 (n : ℚ) z = Fl.num (n : ℚ) := by
  have habs : |(n : ℚ)| = ((n.natAbs : Nat) : ℚ) := by
    rw [Nat.cast_natAbs]
    push_cast
    rfl
  have hb2 : n.natAbs < 2 ^ 24 := by
    have hb3 := abs_lt.1 hb
    omega
  have hq : ((n.natAbs : Nat) : ℚ) < 2 ^ 24 := by exact_mod_cast hb2
  refine roundQ_exact binary32 (n : ℚ) z n.natAbs 0 (by rw [habs]; simp) (by omega) hb2
    (by decide) ?_
  rw [habs]
  refine lt_trans hq ?_
  norm_num [binary32]

theorem Fl_add_num (fmt : FloatFormat) (a b : ℚ) :
    Fl.add fmt (Fl.num a) (Fl.num b) = roundQ fmt (a + b) (decide (a < 0) && decide (b < 0)) := by
  simp [Fl.add, Fl.isNan, Fl.isFin, Fl.val, Fl.sign]

theorem Fl_mul_num (fmt : FloatFormat) (a b : ℚ) :
    Fl.mul fmt (Fl.num a) (Fl.num b) = roundQ fmt (a * b) (decide (a < 0) != decide (b < 0)) := by
  simp [Fl.mul, Fl.isNan, Fl.isFin, Fl.val, Fl.sign]

/-- Finite values, up to the sign of zero. -/
theorem Fl_fin_cases (v : Fl) (q : ℚ) (h : v.isFin = true ∧ v.val = q) :
    v = Fl.num q ∨ (v = Fl.nzero ∧ q = 0) := by
  obtain ⟨h1, h2⟩ := h
  cases v with
  | num r => left; simp [Fl.val] at h2; rw [h2]
  | nzero => right; simp [Fl.val] at h2; exact ⟨rfl, h2.symm⟩
  | pinf => simp [Fl.isFin] at h1
  | ninf => simp [Fl.isFin] at h1
  | nan => simp [Fl.isFin] at h1

/-- The product of two integer samples whose product has fewer than 24 bits is exact in
float; a zero product may carry either sign. -/
theorem mul32_int (x y : Int) (hb : |x * y| < 2 ^ 24) :
    (Fl.mul binary32 (Fl.num (x : ℚ)) (Fl.num (y : ℚ))).isFin = true ∧
    (Fl.mul binary32 (Fl.num (x : ℚ)) (Fl.num (y : ℚ))).val = ((x * y : Int) : ℚ) := by
  rw [Fl_mul_num]
  by_cases h : x * y = 0
  · have hq : (x : ℚ) * (y : ℚ) = 0 := by exact_mod_cast h
    rw [hq, roundQ_zero, h]
    split_ifs <;> simp [Fl.isFin, Fl.val]
  · have := roundQ_int32 (x * y) (decide ((x : ℚ) < 0) != decide ((y : ℚ) < 0)) h hb
    push_cast at this
    rw [this]
    simp [Fl.isFin, Fl.val]

/-- Adding a finite integer value to an integer sum in double is exact below 2 ^ 53, and the
zero that it can produce is the positive one. -/
theorem add64_int (s z : Int) (v : Fl) (hv : v.isFin = true ∧ v.val = (z : ℚ))
    (hb : |s + z| < 2 ^ 53) :
    Fl.add binary64 (Fl.num (s : ℚ)) v = Fl.num ((s + z : Int) : ℚ) := by
  rcases Fl_fin_cases v _ hv with h | ⟨h, h0⟩
  · rw [h, Fl_add_num]
    by_cases hs : s + z = 0
    · have hq : (s : ℚ) + (z : ℚ) = 0 := by exact_mod_cast hs
      rw [hq, roundQ_zero, hs]
      have : (decide ((s : ℚ) < 0) && decide ((z : ℚ) < 0)) = false := by
        by_contra hc
        simp at hc
        have h1 : s < 0 := by exact_mod_cast hc.1
        have h2 : z < 0 := by exact_mod_cast hc.2
        omega
      rw [this]
      simp
    · have := roundQ_int64 (s + z) (decide ((s : ℚ) < 0) && decide ((z : ℚ) < 0)) hs hb
      push_cast at this
      push_cast
      exact this
  · have hz : z = 0 := by exact_mod_cast h0
    subst hz
    rw [h]
    by_cases hs : s = 0
    · subst hs
      simp [Fl.add, Fl.isNan, Fl.isFin, Fl.val, Fl.sign, roundQ_zero]
    · have := roundQ_int64 s (decide ((s : ℚ) < 0) && true) hs (by simpa using hb)
      simp [Fl.add, Fl.isNan, Fl.isFin, Fl.val, Fl.sign]
      simpa using this

end RoundingTheory3
end Keytap

namespace Keytap
section SqrtTheory

theorem isqrtLoop_spec (n : Nat) (b r : Nat) (h1 : r ^ 2 ≤ n) (h2 : n < (r + 2 ^ (b + 1)) ^ 2) :
    isqrtLoop n b r ^ 2 ≤ n ∧ n < (isqrtLoop n b r + 1) ^ 2 := by
  induction b generalizing r with
  | zero =>
    unfold isqrtLoop
    split_ifs with h
    · refine ⟨h, ?_⟩
      have e : r + 1 + 1 = r + 2 ^ (0 + 1) := by norm_num
      rw [e]
      exact h2
    · exact ⟨h1, not_le.1 h⟩
  | succ b ih =>
    unfold isqrtLoop
    split_ifs with h
    · refine ih _ h ?_
      have e : r + 2 ^ (b + 1) + 2 ^ (b + 1) = r + 2 ^ (b + 1 + 1) := by
        rw [pow_succ 2 (b + 1)]
        ring
      rw [e]
      exact h2
    · exact ih _ h1 (not_le.1 h)

/-- The integer square root: the largest natural number whose square is at most n. -/
theorem isqrt_spec (n : Nat) : isqrt n ^ 2 ≤ n ∧ n < (isqrt n + 1) ^ 2 := by
  unfold isqrt
  refine isqrtLoop_spec n (bits n) 0 (by simp) ?_
  rcases Nat.eq_zero_or_pos n with h | h
  · subst h
    simp
  · obtain ⟨_, b, _⟩ := bits_spec n h
    have h1 : 2 ^ bits n ≤ 2 ^ (bits n + 1) := Nat.pow_le_pow_right (by norm_num) (by omega)
    have h2 : 2 ^ (bits n + 1) ≤ (2 ^ (bits n + 1)) ^ 2 := by
      have : 1 ≤ 2 ^ (bits n + 1) := Nat.one_le_two_pow
      nlinarith
    simp only [zero_add]
    omega

theorem le_isqrt (n r : Nat) (h : r ^ 2 ≤ n) : r ≤ isqrt n := by
  by_contra hc
  have h1 : isqrt n + 1 ≤ r := by omega
  have h2 : (isqrt n + 1) ^ 2 ≤ r ^ 2 := Nat.pow_le_pow_left h1 2
  have := (isqrt_spec n).2
  omega

theorem isqrt_sq (r : Nat) : isqrt (r ^ 2) = r := by
  have h1 := le_isqrt (r ^ 2) r le_rfl
  have h2 := (isqrt_spec (r ^ 2)).1
  have h3 : isqrt (r ^ 2) ≤ r := by
    by_contra hc
    have : r + 1 ≤ isqrt (r ^ 2) := by omega
    have := Nat.pow_le_pow_left this 2
    nlinarith
  omega

/-- The value of sqrt on a positive integer below 2 ^ 53: an integer multiple n of 2 ^ (-k)
with n at least the integer square root of the scaled argument. -/
theorem sqrtMag_int (D : Nat) (hD : 0 < D) (hb : D < 2 ^ 53) :
    ∃ k n : Nat, sqrtMag binary64 (D : ℚ) = (n : ℚ) / (2 : ℚ) ^ k ∧ isqrt (D * 4 ^ k) ≤ n ∧
      (4 * ((D * 4 ^ k : Nat) : ℚ) < (2 * (isqrt (D * 4 ^ k) : ℚ) + 1) ^ 2 →
        n = isqrt (D * 4 ^ k)) := by
  have hDq : (0 : ℚ) < (D : ℚ) := by exact_mod_cast hD
  obtain ⟨s1, s2⟩ := floorLog2_spec (D : ℚ) hDq
  have hfl0 : 0 ≤ floorLog2 (D : ℚ) := by
    have h1 : (1 : ℚ) ≤ (D : ℚ) := by exact_mod_cast hD
    have : (2 : ℚ) ^ (0 : Int) < (2 : ℚ) ^ (floorLog2 (D : ℚ) + 1) := by
      simpa using lt_of_le_of_lt h1 s2
    rw [two_zpow_lt_iff] at this
    omega
  have hfl1 : floorLog2 (D : ℚ) < 53 := by
    have h1 : (D : ℚ) < (2 : ℚ) ^ (53 : Int) := by
      have h0 : (D : ℚ) < (2 : ℚ) ^ (53 : Nat) := by exact_mod_cast hb
      rw [show (53 : Int) = ((53 : Nat) : Int) from rfl, zpow_natCast]
      exact h0
    have := lt_of_le_of_lt s1 h1
    rwa [two_zpow_lt_iff] at this
  have hh0 : 0 ≤ floorLog2 (D : ℚ) / 2 := Int.ediv_nonneg hfl0 (by norm_num)
  have hh1 : floorLog2 (D : ℚ) / 2 ≤ 26 := by omega
  have hmax : max (floorLog2 (D : ℚ) / 2) binary64.emin = floorLog2 (D : ℚ) / 2 := by
    apply max_eq_left
    have : binary64.emin = -1022 := rfl
    omega
  obtain ⟨k, hk⟩ : ∃ k : Nat, (k : Int) = 52 - floorLog2 (D : ℚ) / 2 :=
    ⟨(52 - floorLog2 (D : ℚ) / 2).toNat, by omega⟩
  have hu : (2 : ℚ) ^ (max (floorLog2 (D : ℚ) / 2) binary64.emin - (binary64.prec : Int) + 1)
      = 1 / (2 : ℚ) ^ k := by
    rw [hmax]
    have e : floorLog2 (D : ℚ) / 2 - (binary64.prec : Int) + 1 = -(k : Int) := by
      have : (binary64.prec : Int) = 53 := rfl
      omega
    rw [e, zpow_neg, zpow_natCast, one_div]
  have hz : (D : ℚ) / (1 / (2 : ℚ) ^ k * (1 / (2 : ℚ) ^ k)) = ((D * 4 ^ k : Nat) : ℚ) := by
    have h2 : ((2 : ℚ) ^ k) ≠ 0 := pow_ne_zero _ (by norm_num)
    have h4 : (4 : ℚ) ^ k = (2 : ℚ) ^ k * (2 : ℚ) ^ k := by
      rw [← mul_pow]
      norm_num
    push_cast
    rw [h4]
    field_simp
  have hfloor : ⌊((D * 4 ^ k : Nat) : ℚ)⌋.toNat = D * 4 ^ k := by
    rw [Int.floor_natCast]
    exact Int.toNat_natCast _
  refine ⟨k, (if 4 * ((D * 4 ^ k : Nat) : ℚ) < (2 * (isqrt (D * 4 ^ k) : ℚ) + 1) ^ 2
      then isqrt (D * 4 ^ k)
      else if (2 * (isqrt (D * 4 ^ k) : ℚ) + 1) ^ 2 < 4 * ((D * 4 ^ k : Nat) : ℚ)
        then isqrt (D * 4 ^ k) + 1
        else if isqrt (D * 4 ^ k) % 2 = 0 then isqrt (D * 4 ^ k)
          else isqrt (D * 4 ^ k) + 1), ?_, ?_, ?_⟩
  · unfold sqrtMag
    simp only []
    rw [hu, hz, hfloor, mul_one_div]
  · split_ifs <;> omega
  · intro h
    rw [if_pos h]

theorem sqrtMag_pos (D : Nat) (hD : 0 < D) (hb : D < 2 ^ 53) : 0 < sqrtMag binary64 (D : ℚ) := by
  obtain ⟨k, n, e, h1, _⟩ := sqrtMag_int D hD hb
  rw [e]
  have : 1 ≤ isqrt (D * 4 ^ k) := by
    apply le_isqrt
    have : 1 ≤ 4 ^ k := Nat.one_le_pow _ _ (by norm_num)
    nlinarith
  have hn : (0 : ℚ) < (n : ℚ) := by
    have : 0 < n := by omega
    exact_mod_cast this
  positivity

/-- The computed square root of an integer is not below an integer whose square is not above
the argument. -/
theorem sqrtMag_ge (D m : Nat) (hD : 0 < D) (hb : D < 2 ^ 53) (hm : m ^ 2 ≤ D) :
    (m : ℚ) ≤ sqrtMag binary64 (D : ℚ) := by
  obtain ⟨k, n, e, h1, _⟩ := sqrtMag_int D hD hb
  rw [e, le_div_iff₀ (by positivity)]
  have h2 : m * 2 ^ k ≤ isqrt (D * 4 ^ k) := by
    apply le_isqrt
    have : (m * 2 ^ k) ^ 2 = m ^ 2 * 4 ^ k := by
      rw [mul_pow, ← pow_mul, mul_comm k 2, pow_mul]
      norm_num
    rw [this]
    exact Nat.mul_le_mul_right _ hm
  have : m * 2 ^ k ≤ n := le_trans h2 h1
  exact_mod_cast this

/-- The computed square root of a perfect square is exact. -/
theorem sqrtMag_sq (m : Nat) (hm : 0 < m) (hb : m ^ 2 < 2 ^ 53) :
    sqrtMag binary64 ((m ^ 2 : Nat) : ℚ) = (m : ℚ) := by
  obtain ⟨k, n, e, h1, h2⟩ := sqrtMag_int (m ^ 2) (by positivity) hb
  have hsq : m ^ 2 * 4 ^ k = (m * 2 ^ k) ^ 2 := by
    rw [mul_pow, ← pow_mul, mul_comm k 2, pow_mul]
    norm_num
  have hi : isqrt (m ^ 2 * 4 ^ k) = m * 2 ^ k := by rw [hsq, isqrt_sq]
  have hn : n = m * 2 ^ k := by
    rw [← hi]
    apply h2
    rw [hi, hsq]
    push_cast
    have hx : (0 : ℚ) ≤ (m : ℚ) * 2 ^ k := by positivity
    nlinarith
  rw [e, hn]
  push_cast
  field_simp

end SqrtTheory
end Keytap

/-! ## The correlation kernel on bounded integers: results -/

namespace Keytap
section IntRegime

theorem sumZ_succ (f : ℕ → Int) (n : ℕ) : sumZ f (n + 1) = sumZ f n + f n := by
  simp [sumZ, List.range_succ]

theorem sumZ_zero (f : ℕ → Int) : sumZ f 0 = 0 := by simp [sumZ]

theorem abs_sumZ_le (f : ℕ → Int) (n : ℕ) (B : Int) (h : ∀ j < n, |f j| ≤ B) :
    |sumZ f n| ≤ n * B := by
  induction n with
  | zero => simp [sumZ_zero]
  | succ n ih =>
    rw [sumZ_succ]
    have h1 := ih (fun j hj => h j (by omega))
    have h2 := h n (by omega)
    have := abs_add (sumZ f n) (f n)
    push_cast
    linarith

theorem covZ_eq (f g : ℕ → Int) (n : ℕ) :
    covZ f g n = sumZ (fun j => f j * g j) n * (n : Int) - sumZ f n * sumZ g n := rfl

theorem abs_mul_le_sq (x y M : Int) (hx : |x| ≤ M) (hy : |y| ≤ M) : |x * y| ≤ M * M := by
  rw [abs_mul]
  exact mul_le_mul hx hy (abs_nonneg _) (le_trans (abs_nonneg _) hx)

/-- The loop of calcSum on a window of bounded integers computes the two integer sums
exactly. -/
theorem calcSumFl_int (w : List Fl) (is0 : Int) (n : ℕ) (a : ℕ → Int) (M : Int)
    (hw : IsIntWindow w is0 n a M) (hM0 : 0 ≤ M) (hM : M ≤ 4095) (hn : (n : Int) * M ≤ 8192) :
    calcSumFl w is0 (is0 + (n : Int))
      = (Fl.num ((sumZ a n : Int) : ℚ), Fl.num ((sumZ (fun j => a j * a j) n : Int) : ℚ)) := by
  unfold calcSumFl
  have e : (is0 + (n : Int) - is0).toNat = n := by omega
  rw [e]
  have key : ∀ t ≤ n, (List.range t).foldl
      (fun (acc : Fl × Fl) (j : Nat) =>
        (Fl.add binary64 acc.1 (sampleAtFl w (is0 + (j : Int))),
         Fl.add binary64 acc.2
          (Fl.mul binary32 (sampleAtFl w (is0 + (j : Int)))
            (sampleAtFl w (is0 + (j : Int))))))
      (Fl.num 0, Fl.num 0)
      = (Fl.num ((sumZ a t : Int) : ℚ), Fl.num ((sumZ (fun j => a j * a j) t : Int) : ℚ)) := by
    intro t
    induction t with
    | zero => intro _; simp [sumZ_zero]
    | succ t ih =>
      intro ht
      rw [List.range_succ, List.foldl_append, ih (by omega)]
      simp only [List.foldl_cons, List.foldl_nil]
      obtain ⟨hs, hb⟩ := hw t (by omega)
      rw [hs]
      have hsq : |a t * a t| ≤ M * M := abs_mul_le_sq _ _ _ hb hb
      have hMM : M * M ≤ 4095 * 4095 := by nlinarith
      have b1 : |sumZ a (t + 1)| ≤ ((t + 1 : ℕ) : Int) * M :=
        abs_sumZ_le a (t + 1) M (fun j hj => (hw j (by omega)).2)
      have b2 : |sumZ (fun j => a j * a j) (t + 1)| ≤ ((t + 1 : ℕ) : Int) * (M * M) :=
        abs_sumZ_le _ (t + 1) (M * M)
          (fun j hj => abs_mul_le_sq _ _ _ (hw j (by omega)).2 (hw j (by omega)).2)
      have ht1 : ((t + 1 : ℕ) : Int) ≤ (n : Int) := by exact_mod_cast ht
      have c1 : ((t + 1 : ℕ) : Int) * M ≤ 8192 := le_trans (mul_le_mul_of_nonneg_right ht1 hM0) hn
      have c2 : ((t + 1 : ℕ) : Int) * (M * M) ≤ 8192 * 4095 := by
        rw [← mul_assoc]
        exact mul_le_mul c1 hM hM0 (by norm_num)
      rw [sumZ_succ] at b1 b2
      have r1 := add64_int (sumZ a t) (a t) (Fl.num ((a t : Int) : ℚ))
        ⟨rfl, rfl⟩ (by
          have : |sumZ a t + a t| ≤ 8192 := le_trans b1 c1
          exact lt_of_le_of_lt this (by norm_num))
      have r2 := add64_int (sumZ (fun j => a j * a j) t) (a t * a t) _
        (mul32_int (a t) (a t) (lt_of_le_of_lt (le_trans hsq hMM) (by norm_num))) (by
          have : |sumZ (fun j => a j * a j) t + a t * a t| ≤ 8192 * 4095 := le_trans b2 c2
          exact lt_of_le_of_lt this (by norm_num))
      rw [r1, r2, sumZ_succ, sumZ_succ]
  exact key n le_rfl

/-- The accumulation loop of calcCC on two windows of bounded integers computes the three
integer sums exactly. -/
theorem calcCCSumsFl_int (w0 w1 : List Fl) (is00 is0 : Int) (n : ℕ) (a b : ℕ → Int) (M : Int)
    (hA : IsIntWindow w0 is00 n a M) (hB : IsIntWindow w1 is0 n b M)
    (hM0 : 0 ≤ M) (hM : M ≤ 4095) (hn : (n : Int) * M ≤ 8192) :
    calcCCSumsFl w0 w1 is00 is0 (is0 + (n : Int))
      = (Fl.num ((sumZ b n : Int) : ℚ), Fl.num ((sumZ (fun j => b j * b j) n : Int) : ℚ),
          Fl.num ((sumZ (fun j => a j * b j) n : Int) : ℚ)) := by
  unfold calcCCSumsFl
  have e : (is0 + (n : Int) - is0).toNat = n := by omega
  rw [e]
  have key : ∀ t ≤ n, (List.range t).foldl
      (fun (acc : Fl × Fl × Fl) (j : Nat) =>
        (Fl.add binary64 acc.1 (sampleAtFl w1 (is0 + (j : Int))),
         Fl.add binary64 acc.2.1
          (Fl.mul binary32 (sampleAtFl w1 (is0 + (j : Int)))
            (sampleAtFl w1 (is0 + (j : Int)))),
         Fl.add binary64 acc.2.2
          (Fl.mul binary32 (sampleAtFl w0 (is00 + (j : Int)))
            (sampleAtFl w1 (is0 + (j : Int))))))
      (Fl.num 0, Fl.num 0, Fl.num 0)
      = (Fl.num ((sumZ b t : Int) : ℚ), Fl.num ((sumZ (fun j => b j * b j) t : Int) : ℚ),
          Fl.num ((sumZ (fun j => a j * b j) t : Int) : ℚ)) := by
    intro t
    induction t with
    | zero => intro _; simp [sumZ_zero]
    | succ t ih =>
      intro ht
      rw [List.range_succ, List.foldl_append, ih (by omega)]
      simp only [List.foldl_cons, List.foldl_nil]
      obtain ⟨hsa, hba⟩ := hA t (by omega)
      obtain ⟨hsb, hbb⟩ := hB t (by omega)
      rw [hsa, hsb]
      have hMM : M * M ≤ 4095 * 4095 := by nlinarith
      have b1 : |sumZ b (t + 1)| ≤ ((t + 1 : ℕ) : Int) * M :=
        abs_sumZ_le b (t + 1) M (fun j hj => (hB j (by omega)).2)
      have b2 : |sumZ (fun j => b j * b j) (t + 1)| ≤ ((t + 1 : ℕ) : Int) * (M * M) :=
        abs_sumZ_le _ (t + 1) (M * M)
          (fun j hj => abs_mul_le_sq _ _ _ (hB j (by omega)).2 (hB j (by omega)).2)
      have b3 : |sumZ (fun j => a j * b j) (t + 1)| ≤ ((t + 1 : ℕ) : Int) * (M * M) :=
        abs_sumZ_le _ (t + 1) (M * M)
          (fun j hj => abs_mul_le_sq _ _ _ (hA j (by omega)).2 (hB j (by omega)).2)
      have ht1 : ((t + 1 : ℕ) : Int) ≤ (n : Int) := by exact_mod_cast ht
      have c1 : ((t + 1 : ℕ) : Int) * M ≤ 8192 := le_trans (mul_le_mul_of_nonneg_right ht1 hM0) hn
      have c2 : ((t + 1 : ℕ) : Int) * (M * M) ≤ 8192 * 4095 := by
        rw [← mul_assoc]
        exact mul_le_mul c1 hM hM0 (by norm_num)
      rw [sumZ_succ] at b1 b2 b3
      have r1 := add64_int (sumZ b t) (b t) (Fl.num ((b t : Int) : ℚ))
        ⟨rfl, rfl⟩ (lt_of_le_of_lt (le_trans b1 c1) (by norm_num))
      have r2 := add64_int (sumZ (fun j => b j * b j) t) (b t * b t) _
        (mul32_int (b t) (b t)
          (lt_of_le_of_lt (le_trans (abs_mul_le_sq _ _ _ hbb hbb) hMM) (by norm_num)))
        (lt_of_le_of_lt (le_trans b2 c2) (by norm_num))
      have r3 := add64_int (sumZ (fun j => a j * b j) t) (a t * b t) _
        (mul32_int (a t) (b t)
          (lt_of_le_of_lt (le_trans (abs_mul_le_sq _ _ _ hba hbb) hMM) (by norm_num)))
        (lt_of_le_of_lt (le_trans b3 c2) (by norm_num))
      rw [r1, r2, r3, sumZ_succ, sumZ_succ, sumZ_succ]
  exact key n le_rfl

end IntRegime
end Keytap

namespace Keytap
section IntRegime2

theorem mul64_int (x y : Int) (hb : |x * y| < 2 ^ 53) :
    (Fl.mul binary64 (Fl.num (x : ℚ)) (Fl.num (y : ℚ))).isFin = true ∧
    (Fl.mul binary64 (Fl.num (x : ℚ)) (Fl.num (y : ℚ))).val = ((x * y : Int) : ℚ) := by
  rw [Fl_mul_num]
  by_cases h : x * y = 0
  · have hq : (x : ℚ) * (y : ℚ) = 0 := by exact_mod_cast h
    rw [hq, roundQ_zero, h]
    split_ifs <;> simp [Fl.isFin, Fl.val]
  · have := roundQ_int64 (x * y) (decide ((x : ℚ) < 0) != decide ((y : ℚ) < 0)) h hb
    push_cast at this
    rw [this]
    simp [Fl.isFin, Fl.val]

theorem mul64_int_pos (x n : Int) (hn : 0 < n) (hb : |x * n| < 2 ^ 53) :
    Fl.mul binary64 (Fl.num (x : ℚ)) (Fl.ofInt n) = Fl.num ((x * n : Int) : ℚ) := by
  unfold Fl.ofInt
  rw [Fl_mul_num]
  by_cases h : x = 0
  · subst h
    have hn' : ¬ ((n : ℚ) < 0) := by
      have : (0 : ℚ) < (n : ℚ) := by exact_mod_cast hn
      linarith
    simp [roundQ_zero, hn']
  · have hxn : x * n ≠ 0 := mul_ne_zero h (ne_of_gt hn)
    have := roundQ_int64 (x * n) (decide ((x : ℚ) < 0) != decide ((n : ℚ) < 0)) hxn hb
    push_cast at this
    push_cast
    exact this

theorem mul64_int_nonneg (x y : Int) (hx : 0 ≤ x) (hy : 0 ≤ y) (hb : x * y < 2 ^ 53) :
    Fl.mul binary64 (Fl.num (x : ℚ)) (Fl.num (y : ℚ)) = Fl.num ((x * y : Int) : ℚ) := by
  rw [Fl_mul_num]
  have hx' : ¬ ((x : ℚ) < 0) := by
    have : (0 : ℚ) ≤ (x : ℚ) := by exact_mod_cast hx
    linarith
  have hy' : ¬ ((y : ℚ) < 0) := by
    have : (0 : ℚ) ≤ (y : ℚ) := by exact_mod_cast hy
    linarith
  by_cases h : x * y = 0
  · have hq : (x : ℚ) * (y : ℚ) = 0 := by exact_mod_cast h
    rw [hq, roundQ_zero, h]
    simp [hx', hy']
  · have hb' : |x * y| < 2 ^ 53 := by
      rw [abs_of_nonneg (mul_nonneg hx hy)]
      exact hb
    have := roundQ_int64 (x * y) (decide ((x : ℚ) < 0) != decide ((y : ℚ) < 0)) h hb'
    push_cast at this
    push_cast
    exact this

theorem Fl_neg_fin (v : Fl) (q : Int) (hv : v.isFin = true ∧ v.val = (q : ℚ)) :
    (Fl.neg v).isFin = true ∧ (Fl.neg v).val = ((-q : Int) : ℚ) := by
  rcases Fl_fin_cases v _ hv with h | ⟨h, h0⟩
  · rw [h]
    by_cases h1 : (q : ℚ) = 0
    · have hq : q = 0 := by exact_mod_cast h1
      simp [Fl.neg, Fl.isFin, Fl.val, hq]
    · simp [Fl.neg, Fl.isFin, Fl.val, h1]
  · have hq : q = 0 := by exact_mod_cast h0
    rw [h, hq]
    simp [Fl.neg, Fl.isFin, Fl.val]

theorem sub64_int (p q : Int) (v : Fl) (hv : v.isFin = true ∧ v.val = (q : ℚ))
    (hb : |p - q| < 2 ^ 53) :
    Fl.sub binary64 (Fl.num (p : ℚ)) v = Fl.num ((p - q : Int) : ℚ) := by
  unfold Fl.sub
  have := add64_int p (-q) (Fl.neg v) (Fl_neg_fin v q hv) (by simpa [sub_eq_add_neg] using hb)
  rw [this, sub_eq_add_neg]

/-- The last block of calcCC on integer sums of moderate size: the numerator and the product
under the root are computed exactly, only the root and the quotient round. -/
theorem ccOfSums_int (s0 s02 s1 s12 s01 n : Int) (hn : 0 < n)
    (h0 : |s0| ≤ 8192) (h1 : |s1| ≤ 8192)
    (h02 : |s02 * n| ≤ 2 ^ 26) (h12 : |s12 * n| ≤ 2 ^ 26) (h01 : |s01 * n| ≤ 2 ^ 26)
    (ha : 0 ≤ s02 * n - s0 * s0) (hb : 0 ≤ s12 * n - s1 * s1) :
    ccOfSums (Fl.num (s0 : ℚ)) (Fl.num (s02 : ℚ)) (Fl.num (s1 : ℚ)) (Fl.num (s12 : ℚ))
        (Fl.num (s01 : ℚ)) n
      = Fl.div binary64 (Fl.num ((s01 * n - s0 * s1 : Int) : ℚ))
          (Fl.sqrt (Fl.num (((s02 * n - s0 * s0) * (s12 * n - s1 * s1) : Int) : ℚ))) := by
  have q00 : |s0 * s0| ≤ 8192 * 8192 := abs_mul_le_sq _ _ _ h0 h0
  have q11 : |s1 * s1| ≤ 8192 * 8192 := abs_mul_le_sq _ _ _ h1 h1
  have q01 : |s0 * s1| ≤ 8192 * 8192 := abs_mul_le_sq _ _ _ h0 h1
  have e00 := abs_le.1 q00
  have e11 := abs_le.1 q11
  have e01 := abs_le.1 q01
  have e02 := abs_le.1 h02
  have e12 := abs_le.1 h12
  have e0112 := abs_le.1 h01
  have n1 : Fl.sub binary64 (Fl.mul binary64 (Fl.num (s01 : ℚ)) (Fl.ofInt n))
      (Fl.mul binary64 (Fl.num (s0 : ℚ)) (Fl.num (s1 : ℚ)))
      = Fl.num ((s01 * n - s0 * s1 : Int) : ℚ) := by
    rw [mul64_int_pos s01 n hn (lt_of_le_of_lt h01 (by norm_num))]
    refine sub64_int _ _ _ (mul64_int s0 s1 (lt_of_le_of_lt q01 (by norm_num))) ?_
    rw [abs_lt]
    constructor <;> omega
  have n2 : Fl.sub binary64 (Fl.mul binary64 (Fl.num (s02 : ℚ)) (Fl.ofInt n))
      (Fl.mul binary64 (Fl.num (s0 : ℚ)) (Fl.num (s0 : ℚ)))
      = Fl.num ((s02 * n - s0 * s0 : Int) : ℚ) := by
    rw [mul64_int_pos s02 n hn (lt_of_le_of_lt h02 (by norm_num))]
    refine sub64_int _ _ _ (mul64_int s0 s0 (lt_of_le_of_lt q00 (by norm_num))) ?_
    rw [abs_lt]
    constructor <;> omega
  have n3 : Fl.sub binary64 (Fl.mul binary64 (Fl.num (s12 : ℚ)) (Fl.ofInt n))
      (Fl.mul binary64 (Fl.num (s1 : ℚ)) (Fl.num (s1 : ℚ)))
      = Fl.num ((s12 * n - s1 * s1 : Int) : ℚ) := by
    rw [mul64_int_pos s12 n hn (lt_of_le_of_lt h12 (by norm_num))]
    refine sub64_int _ _ _ (mul64_int s1 s1 (lt_of_le_of_lt q11 (by norm_num))) ?_
    rw [abs_lt]
    constructor <;> omega
  have sq0 : 0 ≤ s0 * s0 := mul_self_nonneg s0
  have sq1 : 0 ≤ s1 * s1 := mul_self_nonneg s1
  have da : s02 * n - s0 * s0 ≤ 2 ^ 26 := by omega
  have db : s12 * n - s1 * s1 ≤ 2 ^ 26 := by omega
  have dd : (s02 * n - s0 * s0) * (s12 * n - s1 * s1) < 2 ^ 53 := by
    have : (s02 * n - s0 * s0) * (s12 * n - s1 * s1) ≤ 2 ^ 26 * 2 ^ 26 :=
      mul_le_mul da db hb (by norm_num)
    exact lt_of_le_of_lt this (by norm_num)
  unfold ccOfSums
  rw [n1, n2, n3, mul64_int_nonneg _ _ ha hb dd]

end IntRegime2
end Keytap

namespace Keytap
section IntRegime3

theorem covZ_cs (a b : ℕ → Int) (n : ℕ) : covZ a b n ^ 2 ≤ covZ a a n * covZ b b n := by
  have h := covN_cs (fun j => ((a j : Int) : ℚ)) (fun j => ((b j : Int) : ℚ)) n
  rw [covN_cast, covN_cast, covN_cast] at h
  exact_mod_cast h

theorem covZ_self_nonneg (a : ℕ → Int) (n : ℕ) : 0 ≤ covZ a a n := by
  have h := covN_self_nonneg (fun j => ((a j : Int) : ℚ)) n
  rw [covN_cast] at h
  exact_mod_cast h

theorem covZ_self_eq_zero_iff (a : ℕ → Int) (n : ℕ) :
    covZ a a n = 0 ↔ ∀ i < n, ∀ j < n, a i = a j := by
  have h := covN_self_eq_zero_iff (fun j => ((a j : Int) : ℚ)) n
  rw [covN_cast] at h
  constructor
  · intro h0 i hi j hj
    have := h.1 (by exact_mod_cast h0) i hi j hj
    exact_mod_cast this
  · intro h1
    have := h.2 (fun i hi j hj => by rw [h1 i hi j hj])
    exact_mod_cast this

/-- The sizes of the sums of two windows of bounded integers. -/
theorem sumZ_bounds (n : ℕ) (a b : ℕ → Int) (M : Int)
    (ha : ∀ j < n, |a j| ≤ M) (hb : ∀ j < n, |b j| ≤ M)
    (hM0 : 0 ≤ M) (hn : (n : Int) * M ≤ 8192) :
    |sumZ a n| ≤ 8192 ∧ |sumZ (fun j => a j * b j) n * (n : Int)| ≤ 2 ^ 26 := by
  constructor
  · exact le_trans (abs_sumZ_le a n M ha) hn
  · have h1 : |sumZ (fun j => a j * b j) n| ≤ (n : Int) * (M * M) :=
      abs_sumZ_le _ n (M * M) (fun j hj => abs_mul_le_sq _ _ _ (ha j hj) (hb j hj))
    have hn0 : (0 : Int) ≤ (n : Int) := Int.natCast_nonneg n
    rw [abs_mul, abs_of_nonneg hn0]
    have h2 : |sumZ (fun j => a j * b j) n| * (n : Int) ≤ (n : Int) * (M * M) * (n : Int) :=
      mul_le_mul_of_nonneg_right h1 hn0
    have h3 : (n : Int) * (M * M) * (n : Int) = ((n : Int) * M) * ((n : Int) * M) := by ring
    have h4 : ((n : Int) * M) * ((n : Int) * M) ≤ 8192 * 8192 :=
      mul_le_mul hn hn (mul_nonneg hn0 hM0) (by norm_num)
    rw [h3] at h2
    exact le_trans h2 (le_trans h4 (by norm_num))

/-- On windows of bounded integers calcCC returns the correctly rounded quotient of the exact
numerator by the correctly rounded square root of the exact product of the two denominator
factors. -/
theorem calcCCFl_int (A B : List Fl) (is00 is0 : Int) (n : ℕ) (a b : ℕ → Int) (M : Int)
    (hA : IsIntWindow A is00 n a M) (hB : IsIntWindow B is0 n b M) (hn0 : 0 < n)
    (hM0 : 0 ≤ M) (hM : M ≤ 4095) (hn : (n : Int) * M ≤ 8192) :
    calcCCFl A B (calcSumFl A is00 (is00 + (n : Int))).1 (calcSumFl A is00 (is00 + (n : Int))).2
        is00 is0 (is0 + (n : Int))
      = Fl.div binary64 (Fl.num ((covZ a b n : Int) : ℚ))
          (Fl.sqrt (Fl.num ((covZ a a n * covZ b b n : Int) : ℚ))) := by
  have ha : ∀ j < n, |a j| ≤ M := fun j hj => (hA j hj).2
  have hb : ∀ j < n, |b j| ≤ M := fun j hj => (hB j hj).2
  unfold calcCCFl
  rw [calcSumFl_int A is00 n a M hA hM0 hM hn, calcCCSumsFl_int A B is00 is0 n a b M hA hB hM0 hM hn]
  have e : is0 + (n : Int) - is0 = (n : Int) := by ring
  rw [e]
  simp only []
  rw [ccOfSums_int _ _ _ _ _ (n : Int) (by exact_mod_cast hn0)
    (sumZ_bounds n a a M ha ha hM0 hn).1 (sumZ_bounds n b b M hb hb hM0 hn).1
    (sumZ_bounds n a a M ha ha hM0 hn).2 (sumZ_bounds n b b M hb hb hM0 hn).2
    (sumZ_bounds n a b M ha hb hM0 hn).2
    (by rw [← covZ_eq]; exact covZ_self_nonneg a n)
    (by rw [← covZ_eq]; exact covZ_self_nonneg b n)]
  rw [← covZ_eq, ← covZ_eq, ← covZ_eq]

/-- The sizes of the exact numerator and denominator factors on windows of bounded integers. -/
theorem covZ_bounds (n : ℕ) (a b : ℕ → Int) (M : Int)
    (ha : ∀ j < n, |a j| ≤ M) (hb : ∀ j < n, |b j| ≤ M)
    (hM0 : 0 ≤ M) (hn : (n : Int) * M ≤ 8192) :
    covZ a a n * covZ b b n < 2 ^ 53 := by
  have sqa : 0 ≤ sumZ a n * sumZ a n := mul_self_nonneg _
  have sqb : 0 ≤ sumZ b n * sumZ b n := mul_self_nonneg _
  have h1 := abs_le.1 (sumZ_bounds n a a M ha ha hM0 hn).2
  have h2 := abs_le.1 (sumZ_bounds n b b M hb hb hM0 hn).2
  have da : covZ a a n ≤ 2 ^ 26 := by rw [covZ_eq]; omega
  have db : covZ b b n ≤ 2 ^ 26 := by rw [covZ_eq]; omega
  have : covZ a a n * covZ b b n ≤ 2 ^ 26 * 2 ^ 26 :=
    mul_le_mul da db (covZ_self_nonneg b n) (by norm_num)
  exact lt_of_le_of_lt this (by norm_num)

theorem roundQ_abs_le_one (x : ℚ) (z : Bool) (hx : |x| ≤ 1) :
    (roundQ binary64 x z).isFin = true ∧ |(roundQ binary64 x z).val| ≤ 1 := by
  by_cases h0 : x = 0
  · subst h0
    rw [roundQ_zero]
    split_ifs <;> simp [Fl.isFin, Fl.val]
  · have hpos : 0 < |x| := abs_pos.2 h0
    have hr : roundMag binary64 |x| ≤ (2 : ℚ) ^ (0 : Int) :=
      roundMag_le_pow binary64 |x| 0 hpos (by simpa using hx) (by decide) (by decide)
    have hr1 : roundMag binary64 |x| ≤ 1 := by simpa using hr
    have hr0 : 0 ≤ roundMag binary64 |x| := roundMag_nonneg binary64 |x| (le_of_lt hpos)
    have hbig : ¬ ((2 : ℚ) ^ (binary64.emax + 1) ≤ roundMag binary64 |x|) := by
      have : (1 : ℚ) < (2 : ℚ) ^ (binary64.emax + 1) := by
        have h1 : (2 : ℚ) ^ (0 : Int) < (2 : ℚ) ^ (binary64.emax + 1) := by
          rw [two_zpow_lt_iff]
          decide
        simpa using h1
      intro hc
      linarith
    unfold roundQ
    rw [if_neg h0, if_neg hbig]
    split_ifs
    · simp [Fl.isFin, Fl.val]
    · simp [Fl.isFin, Fl.val]
    · simp only [Fl.isFin, Fl.val, abs_neg, abs_of_nonneg hr0]
      exact ⟨trivial, hr1⟩
    · simp only [Fl.isFin, Fl.val, abs_of_nonneg hr0]
      exact ⟨trivial, hr1⟩

theorem Fl_sqrt_int (D : Int) (hD : 0 < D) :
    Fl.sqrt (Fl.num ((D : Int) : ℚ)) = Fl.num (sqrtMag binary64 ((D.toNat : Nat) : ℚ)) := by
  have h1 : ¬ ((D : ℚ) < 0) := by
    have : (0 : ℚ) < (D : ℚ) := by exact_mod_cast hD
    linarith
  have h2 : ¬ ((D : ℚ) = 0) := by
    have : (0 : ℚ) < (D : ℚ) := by exact_mod_cast hD
    exact ne_of_gt this
  have h3 : ((D.toNat : Nat) : ℚ) = (D : ℚ) := by
    have : ((D.toNat : Nat) : Int) = D := Int.toNat_of_nonneg (le_of_lt hD)
    exact_mod_cast this
  unfold Fl.sqrt
  simp only [h1, h2, if_false, h3]

/-- The quotient of an integer by the computed root of a positive integer that bounds its square
is finite, of magnitude at most one. -/
theorem ccInt_fin (nom D : Int) (hcs : nom ^ 2 ≤ D) (hD : 0 < D) (hb : D < 2 ^ 53) :
    (Fl.div binary64 (Fl.num (nom : ℚ)) (Fl.sqrt (Fl.num (D : ℚ)))).isFin = true ∧
      |(Fl.div binary64 (Fl.num (nom : ℚ)) (Fl.sqrt (Fl.num (D : ℚ)))).val| ≤ 1 := by
  rw [Fl_sqrt_int D hD]
  have hDn : 0 < D.toNat := by omega
  have hbn : D.toNat < 2 ^ 53 := by omega
  have hs := sqrtMag_pos D.toNat hDn hbn
  have hge := sqrtMag_ge D.toNat nom.natAbs hDn hbn (by
    have : ((nom.natAbs ^ 2 : Nat) : Int) ≤ ((D.toNat : Nat) : Int) := by
      rw [Int.toNat_of_nonneg (le_of_lt hD)]
      push_cast
      rw [sq_abs]
      exact hcs
    exact_mod_cast this)
  have habs : |(nom : ℚ)| = ((nom.natAbs : Nat) : ℚ) := by
    rw [Nat.cast_natAbs]
    push_cast
    rfl
  have hq : |(nom : ℚ) / sqrtMag binary64 ((D.toNat : Nat) : ℚ)| ≤ 1 := by
    rw [abs_div, abs_of_pos hs, div_le_one hs, habs]
    exact hge
  have hdiv : Fl.div binary64 (Fl.num (nom : ℚ)) (Fl.num (sqrtMag binary64 ((D.toNat : Nat) : ℚ)))
      = roundQ binary64 ((nom : ℚ) / sqrtMag binary64 ((D.toNat : Nat) : ℚ))
          (decide ((nom : ℚ) < 0) != decide (sqrtMag binary64 ((D.toNat : Nat) : ℚ) < 0)) := by
    simp [Fl.div, Fl.isNan, Fl.isFin, Fl.val, Fl.sign, ne_of_gt hs]
  rw [hdiv]
  exact roundQ_abs_le_one _ _ hq

/-- The quotient of zero by the computed root of zero is NaN. -/
theorem ccInt_nan : Fl.div binary64 (Fl.num ((0 : Int) : ℚ)) (Fl.sqrt (Fl.num ((0 : Int) : ℚ)))
    = Fl.nan := by
  simp [Fl.sqrt, Fl.div, Fl.isNan, Fl.isFin, Fl.val]

/-- The quotient of a positive integer by the computed root of its square is exactly one. -/
theorem ccInt_self (d : Int) (hd : 0 < d) (hb : d * d < 2 ^ 53) :
    Fl.div binary64 (Fl.num (d : ℚ)) (Fl.sqrt (Fl.num ((d * d : Int) : ℚ))) = Fl.num 1 := by
  rw [Fl_sqrt_int (d * d) (mul_pos hd hd)]
  have e : (d * d).toNat = d.toNat ^ 2 := by
    have h1 : ((d.toNat : Nat) : Int) = d := Int.toNat_of_nonneg (le_of_lt hd)
    have : (((d * d).toNat : Nat) : Int) = ((d.toNat ^ 2 : Nat) : Int) := by
      rw [Int.toNat_of_nonneg (le_of_lt (mul_pos hd hd))]
      push_cast
      rw [h1]
      ring
    exact_mod_cast this
  have hb2 : d.toNat ^ 2 < 2 ^ 53 := by
    rw [← e]
    omega
  rw [e, sqrtMag_sq d.toNat (by omega) hb2]
  have h3 : ((d.toNat : Nat) : ℚ) = (d : ℚ) := by
    have : ((d.toNat : Nat) : Int) = d := Int.toNat_of_nonneg (le_of_lt hd)
    exact_mod_cast this
  rw [h3]
  have hdq : (0 : ℚ) < (d : ℚ) := by exact_mod_cast hd
  have hdiv : Fl.div binary64 (Fl.num (d : ℚ)) (Fl.num (d : ℚ))
      = roundQ binary64 ((d : ℚ) / (d : ℚ)) (decide ((d : ℚ) < 0) != decide ((d : ℚ) < 0)) := by
    simp [Fl.div, Fl.isNan, Fl.isFin, Fl.val, Fl.sign, ne_of_gt hdq]
  rw [hdiv, div_self (ne_of_gt hdq)]
  have := roundQ_int64 1 (decide ((d : ℚ) < 0) != decide ((d : ℚ) < 0)) (by norm_num) (by norm_num)
  simpa using this

end IntRegime3
end Keytap

/-! ## The offset search in the arithmetic of the program: results -/

namespace Keytap
section FloatSearch

theorem scanOffsetsFl_bridge (cc : Int → Fl) (alignWindow nWorkers : Int) (fuel : Nat) (o : Int)
    (st : Fl × TOffset) :
    toCCPair (scanOffsetsFl cc alignWindow nWorkers fuel o st)
      = scanOffsets (fun o => (cc o).toCC) alignWindow nWorkers fuel o (toCCPair st) := by
  induction fuel generalizing o st with
  | zero => rfl
  | succ fuel ih =>
    unfold scanOffsetsFl scanOffsets
    split_ifs with h1 h2 h3 h3
    · rw [ih]; rfl
    · exact absurd h2 (by simpa [toCCPair, Fl.gt] using h3)
    · exact absurd (by simpa [toCCPair, Fl.gt] using h3) h2
    · rw [ih]
    · rfl

theorem workerBestFl_bridge (cc : Int → Fl) (alignWindow : Int) (nWorkers i : Nat) :
    toCCPair (workerBestFl cc alignWindow nWorkers i)
      = workerBest (fun o => (cc o).toCC) alignWindow nWorkers i := by
  unfold workerBestFl workerBest
  rw [scanOffsetsFl_bridge]
  rfl

theorem foldFl_bridge (val : Nat → Fl × TOffset) (order : List Nat) (st : Fl × TOffset) :
    toCCPair (order.foldl (fun best i => if (val i).1.gt best.1 then val i else best) st)
      = order.foldl (keepBest (fun i => toCCPair (val i))) (toCCPair st) := by
  induction order generalizing st with
  | nil => rfl
  | cons i rest ih =>
    simp only [List.foldl_cons]
    rw [ih]
    congr 1
    unfold keepBest
    split_ifs with h1 h2 h2
    · rfl
    · exact absurd h1 (by simpa [toCCPair, Fl.gt] using h2)
    · exact absurd (by simpa [toCCPair, Fl.gt] using h2) h1
    · rfl

/-- The search of the program, seen through the comparisons of double, is the search of the
model on the scores of the program. -/
theorem findBestCCFl_bridge (nWorkers : Nat) (order : List Nat) (A B : List Fl)
    (is0 is1 alignWindow : Int) :
    toCCPair (findBestCCFl nWorkers order A B is0 is1 alignWindow)
      = order.foldl
          (keepBest (workerBest (fun o => (ccAtFl A B is0 is1 o).toCC) alignWindow nWorkers))
          (TValueCC.fin (-1), -1) := by
  unfold findBestCCFl
  rw [foldFl_bridge]
  have e : (fun i => toCCPair (workerBestFl (ccAtFl A B is0 is1) alignWindow nWorkers i))
      = workerBest (fun o => (ccAtFl A B is0 is1 o).toCC) alignWindow nWorkers := by
    funext i
    exact workerBestFl_bridge _ _ _ _
  rw [e]
  rfl

theorem Fl_gt_trans {x y z : Fl} (h1 : x.gt y = true) (h2 : y.gt z = true) : x.gt z = true :=
  TValueCC.gt_trans h1 h2

theorem scanOffsetsFl_inv (cc : Int → Fl) (alignWindow nWorkers : Int) (fuel : Nat) (o : Int)
    (st : Fl × TOffset)
    (hst : st = (Fl.num (-1), -1) ∨ ∃ x, st = (cc x, x) ∧ (cc x).gt (Fl.num (-1)) = true) :
    scanOffsetsFl cc alignWindow nWorkers fuel o st = (Fl.num (-1), -1) ∨
      ∃ x, scanOffsetsFl cc alignWindow nWorkers fuel o st = (cc x, x) ∧
        (cc x).gt (Fl.num (-1)) = true := by
  induction fuel generalizing o st with
  | zero => exact hst
  | succ fuel ih =>
    unfold scanOffsetsFl
    split_ifs with h1 h2
    · apply ih
      right
      refine ⟨o, rfl, ?_⟩
      rcases hst with h | ⟨x, h, hx⟩
      · rw [h] at h2; exact h2
      · rw [h] at h2; exact Fl_gt_trans h2 hx
    · exact ih _ _ hst
    · exact hst

theorem foldFl_inv (cc : Int → Fl) (val : Nat → Fl × TOffset)
    (hval : ∀ i, val i = (Fl.num (-1), -1) ∨ ∃ x, val i = (cc x, x) ∧
      (cc x).gt (Fl.num (-1)) = true)
    (order : List Nat) (st : Fl × TOffset)
    (hst : st = (Fl.num (-1), -1) ∨ ∃ x, st = (cc x, x) ∧ (cc x).gt (Fl.num (-1)) = true) :
    order.foldl (fun best i => if (val i).1.gt best.1 then val i else best) st
        = (Fl.num (-1), -1) ∨
      ∃ x, order.foldl (fun best i => if (val i).1.gt best.1 then val i else best) st = (cc x, x) ∧
        (cc x).gt (Fl.num (-1)) = true := by
  induction order generalizing st with
  | nil => exact hst
  | cons i rest ih =>
    simp only [List.foldl_cons]
    apply ih
    split_ifs
    · exact hval i
    · exact hst

/-- The result of the search of the program is the start value or an offset of the range
together with its score, which then compares above -1; no offset of the range compares above
the result. -/
theorem findBestCCFl_char (nWorkers : Nat) (order : List Nat) (A B : List Fl)
    (is0 is1 alignWindow : Int) (hn : 1 ≤ nWorkers) (hord : order.Perm (List.range nWorkers)) :
    (findBestCCFl nWorkers order A B is0 is1 alignWindow = (Fl.num (-1), -1) ∨
      ∃ o, -alignWindow ≤ o ∧ o < alignWindow ∧
        findBestCCFl nWorkers order A B is0 is1 alignWindow = (ccAtFl A B is0 is1 o, o) ∧
        (ccAtFl A B is0 is1 o).gt (Fl.num (-1)) = true) ∧
    (∀ o, -alignWindow ≤ o → o < alignWindow →
      (ccAtFl A B is0 is1 o).gt (findBestCCFl nWorkers order A B is0 is1 alignWindow).1 = false) := by
  have hb := findBestCCFl_bridge nWorkers order A B is0 is1 alignWindow
  obtain ⟨s1, s2, _⟩ := search_char (fun o => (ccAtFl A B is0 is1 o).toCC) alignWindow nWorkers
    order hn (fun i hi => (hord.mem_iff).2 (List.mem_range.2 hi))
  rw [← hb] at s1 s2
  have hinv : findBestCCFl nWorkers order A B is0 is1 alignWindow = (Fl.num (-1), -1) ∨
      ∃ x, findBestCCFl nWorkers order A B is0 is1 alignWindow = (ccAtFl A B is0 is1 x, x) ∧
        (ccAtFl A B is0 is1 x).gt (Fl.num (-1)) = true := by
    unfold findBestCCFl
    exact foldFl_inv (ccAtFl A B is0 is1) _
      (fun i => scanOffsetsFl_inv _ _ _ _ _ _ (Or.inl rfl)) order _ (Or.inl rfl)
  refine ⟨?_, fun o h1 h2 => s2 o h1 h2⟩
  rcases hinv with h | ⟨x, h, hx⟩
  · exact Or.inl h
  · right
    refine ⟨x, ?_, ?_, h, hx⟩ <;>
    · rcases s1 with s | ⟨o, ho1, ho2, s, _⟩
      · rw [h] at s
        have e : (ccAtFl A B is0 is1 x).toCC = TValueCC.fin (-1) := congrArg Prod.fst s
        have hx2 : ((ccAtFl A B is0 is1 x).toCC).gt (TValueCC.fin (-1)) = true := hx
        rw [e, TValueCC.gt_irrefl] at hx2
        exact Bool.noConfusion hx2
      · rw [h] at s
        have e : x = o := congrArg Prod.snd s
        omega

end FloatSearch
end Keytap

namespace Keytap
section FloatKernelLemmas

theorem search_unique (cc : Int → TValueCC ℚ) (alignWindow : Int) (nWorkers nWorkers' : Nat)
    (order order' : List Nat) (hn : 1 ≤ nWorkers) (hord : order.Perm (List.range nWorkers))
    (hn' : 1 ≤ nWorkers') (hord' : order'.Perm (List.range nWorkers')) :
    (order'.foldl (keepBest (workerBest cc alignWindow nWorkers')) (TValueCC.fin (-1), -1)).1 =
      (order.foldl (keepBest (workerBest cc alignWindow nWorkers)) (TValueCC.fin (-1), -1)).1 := by
  obtain ⟨h1, h2, _⟩ := search_char cc alignWindow nWorkers order hn
    (fun i hi => (hord.mem_iff).2 (List.mem_range.2 hi))
  obtain ⟨h1', h2', _⟩ := search_char cc alignWindow nWorkers' order' hn'
    (fun i hi => (hord'.mem_iff).2 (List.mem_range.2 hi))
  rcases h1 with h1 | ⟨o, ho1, ho2, h1, hgt⟩
  · rcases h1' with h1' | ⟨o', ho1', ho2', h1', hgt'⟩
    · rw [h1, h1']
    · have := h2 o' ho1' ho2'
      rw [h1] at this
      rw [hgt'] at this; exact Bool.noConfusion this
  · rcases h1' with h1' | ⟨o', ho1', ho2', h1', hgt'⟩
    · have := h2' o ho1 ho2
      rw [h1'] at this
      rw [hgt] at this; exact Bool.noConfusion this
    · have e1 := h2 o' ho1' ho2'
      have e2 := h2' o ho1 ho2
      rw [h1] at e1 ⊢
      rw [h1'] at e2 ⊢
      exact TValueCC.eq_of_not_gt (TValueCC.ne_nan_of_gt hgt') (TValueCC.ne_nan_of_gt hgt)
        (TValueCC.ne_ninf_of_gt hgt') (TValueCC.ne_ninf_of_gt hgt) e1 e2

/-- The score of findBestCC at an offset where both windows hold bounded integers. -/
theorem ccAtFl_int (A B : List Fl) (is0 is1 o : Int) (a b : ℕ → Int) (M : Int) (hwin : is0 < is1)
    (hA : IsIntWindow A ((A.length : Int) / 2 - Int.tdiv (is1 - is0) 2) (is1 - is0).toNat a M)
    (hB : IsIntWindow B (is0 + o) (is1 - is0).toNat b M)
    (hM0 : 0 ≤ M) (hM : M ≤ 4095) (hn : (is1 - is0) * M ≤ 8192) :
    ccAtFl A B is0 is1 o
      = Fl.div binary64 (Fl.num ((covZ a b (is1 - is0).toNat : Int) : ℚ))
          (Fl.sqrt (Fl.num ((covZ a a (is1 - is0).toNat * covZ b b (is1 - is0).toNat : Int) : ℚ))) := by
  have e : (((is1 - is0).toNat : ℕ) : Int) = is1 - is0 := Int.toNat_of_nonneg (by omega)
  have h := calcCCFl_int A B ((A.length : Int) / 2 - Int.tdiv (is1 - is0) 2) (is0 + o)
    (is1 - is0).toNat a b M hA hB (by omega) hM0 hM (by rw [e]; exact hn)
  rw [e] at h
  unfold ccAtFl
  have e1 : (A.length : Int) / 2 - Int.tdiv (is1 - is0) 2 + is1 - is0
      = (A.length : Int) / 2 - Int.tdiv (is1 - is0) 2 + (is1 - is0) := by ring
  have e2 : is1 + o = is0 + o + (is1 - is0) := by ring
  rw [e1, e2]
  exact h

theorem Fl_mul_zero_cases (fmt : FloatFormat) (a : Fl) :
    Fl.mul fmt a (Fl.num 0) = Fl.num 0 ∨ Fl.mul fmt a (Fl.num 0) = Fl.nzero ∨
      Fl.mul fmt a (Fl.num 0) = Fl.nan := by
  cases a with
  | num q =>
    rw [Fl_mul_num, mul_zero, roundQ_zero]
    split_ifs <;> simp
  | nzero => simp [Fl.mul, Fl.isNan, Fl.isFin, Fl.val, Fl.sign, roundQ_zero]
  | pinf => simp [Fl.mul, Fl.isNan, Fl.isFin, Fl.val, Fl.sign]
  | ninf => simp [Fl.mul, Fl.isNan, Fl.isFin, Fl.val, Fl.sign]
  | nan => simp [Fl.mul, Fl.isNan, Fl.isFin, Fl.val, Fl.sign]

theorem Fl_zero_mul_nat (n : ℕ) : Fl.mul binary64 (Fl.num 0) (Fl.ofInt (n : Int)) = Fl.num 0 := by
  unfold Fl.ofInt
  rw [Fl_mul_num, zero_mul, roundQ_zero]
  have : ¬ (((n : Int) : ℚ) < 0) := by
    have : (0 : ℚ) ≤ ((n : Int) : ℚ) := by exact_mod_cast Int.natCast_nonneg n
    linarith
  simp [this]

/-- The sums of calcCC over a silent second window: both sums of the second window are 0 and
the mixed sum is 0 or NaN, whatever the first window holds. -/
theorem calcCCSumsFl_silent (A B : List Fl) (is00 is0 : Int) (n : ℕ)
    (hB : ∀ j < n, sampleAtFl B (is0 + (j : Int)) = Fl.num 0) :
    ∃ s01, calcCCSumsFl A B is00 is0 (is0 + (n : Int)) = (Fl.num 0, Fl.num 0, s01) ∧
      (s01 = Fl.num 0 ∨ s01 = Fl.nan) := by
  unfold calcCCSumsFl
  have e : (is0 + (n : Int) - is0).toNat = n := by omega
  rw [e]
  have key : ∀ t ≤ n, ∃ s01, (List.range t).foldl
      (fun (acc : Fl × Fl × Fl) (j : Nat) =>
        (Fl.add binary64 acc.1 (sampleAtFl B (is0 + (j : Int))),
         Fl.add binary64 acc.2.1
          (Fl.mul binary32 (sampleAtFl B (is0 + (j : Int)))
            (sampleAtFl B (is0 + (j : Int)))),
         Fl.add binary64 acc.2.2
          (Fl.mul binary32 (sampleAtFl A (is00 + (j : Int)))
            (sampleAtFl B (is0 + (j : Int))))))
      (Fl.num 0, Fl.num 0, Fl.num 0) = (Fl.num 0, Fl.num 0, s01) ∧
      (s01 = Fl.num 0 ∨ s01 = Fl.nan) := by
    intro t
    induction t with
    | zero => intro _; exact ⟨Fl.num 0, rfl, Or.inl rfl⟩
    | succ t ih =>
      intro ht
      obtain ⟨s01, h1, h2⟩ := ih (by omega)
      rw [List.range_succ, List.foldl_append, h1]
      simp only [List.foldl_cons, List.foldl_nil]
      rw [hB t (by omega)]
      have z1 : Fl.add binary64 (Fl.num 0) (Fl.num 0) = Fl.num 0 := by
        rw [Fl_add_num]; simp [roundQ_zero]
      have z2 : Fl.mul binary32 (Fl.num 0) (Fl.num 0) = Fl.num 0 := by
        rw [Fl_mul_num]; simp [roundQ_zero]
      rw [z2, z1]
      refine ⟨_, rfl, ?_⟩
      rcases Fl_mul_zero_cases binary32 (sampleAtFl A (is00 + (t : Int))) with h | h | h <;>
        rcases h2 with h3 | h3 <;> rw [h, h3] <;>
        simp [Fl.add, Fl.isNan, Fl.isFin, Fl.val, Fl.sign, roundQ_zero]
  exact key n le_rfl

/-- The last block of calcCC on the sums of a silent second window is NaN. -/
theorem ccOfSums_silent (sum0 sum02 s01 : Fl) (n : ℕ) (h : s01 = Fl.num 0 ∨ s01 = Fl.nan) :
    ccOfSums sum0 sum02 (Fl.num 0) (Fl.num 0) s01 (n : Int) = Fl.nan := by
  unfold ccOfSums
  have z2 : Fl.mul binary64 (Fl.num 0) (Fl.num 0) = Fl.num 0 := by
    rw [Fl_mul_num]; simp [roundQ_zero]
  have hb : Fl.sub binary64 (Fl.mul binary64 (Fl.num 0) (Fl.ofInt (n : Int)))
      (Fl.mul binary64 (Fl.num 0) (Fl.num 0)) = Fl.num 0 := by
    rw [Fl_zero_mul_nat, z2]
    simp [Fl.sub, Fl.neg, Fl.add, Fl.isNan, Fl.isFin, Fl.val, Fl.sign, roundQ_zero]
  rw [hb]
  have hnom : Fl.sub binary64 (Fl.mul binary64 s01 (Fl.ofInt (n : Int)))
        (Fl.mul binary64 sum0 (Fl.num 0)) = Fl.num 0 ∨
      Fl.sub binary64 (Fl.mul binary64 s01 (Fl.ofInt (n : Int)))
        (Fl.mul binary64 sum0 (Fl.num 0)) = Fl.nan := by
    rcases h with h | h
    · rw [h, Fl_zero_mul_nat]
      rcases Fl_mul_zero_cases binary64 sum0 with h1 | h1 | h1 <;> rw [h1] <;>
        simp [Fl.sub, Fl.neg, Fl.add, Fl.isNan, Fl.isFin, Fl.val, Fl.sign, roundQ_zero]
    · rw [h]
      right
      simp [Fl.sub, Fl.mul, Fl.add, Fl.isNan]
  have hs : ∀ X : Fl, Fl.sqrt (Fl.mul binary64 X (Fl.num 0)) = Fl.num 0 ∨
      Fl.sqrt (Fl.mul binary64 X (Fl.num 0)) = Fl.nzero ∨
      Fl.sqrt (Fl.mul binary64 X (Fl.num 0)) = Fl.nan := by
    intro X
    rcases Fl_mul_zero_cases binary64 X with h1 | h1 | h1 <;> rw [h1] <;> simp [Fl.sqrt]
  rcases hnom with h1 | h1 <;>
    rcases hs (Fl.sub binary64 (Fl.mul binary64 sum02 (Fl.ofInt (n : Int)))
      (Fl.mul binary64 sum0 sum0)) with h2 | h2 | h2 <;>
    rw [h1, h2] <;> simp [Fl.div, Fl.isNan, Fl.isFin, Fl.val]

/-- Against a silent second window calcCC returns NaN for every first waveform and every pair
of sums passed for it. -/
theorem calcCCFl_silent (A B : List Fl) (sum0 sum02 : Fl) (is00 is0 : Int) (n : ℕ)
    (hB : ∀ j < n, sampleAtFl B (is0 + (j : Int)) = Fl.num 0) :
    calcCCFl A B sum0 sum02 is00 is0 (is0 + (n : Int)) = Fl.nan := by
  obtain ⟨s01, h1, h2⟩ := calcCCSumsFl_silent A B is00 is0 n hB
  unfold calcCCFl
  rw [h1]
  have e : is0 + (n : Int) - is0 = (n : Int) := by ring
  rw [e]
  exact ccOfSums_silent sum0 sum02 s01 n h2

theorem roundQ_neg_toCC (fmt : FloatFormat) (x : ℚ) (z1 z2 : Bool) :
    (roundQ fmt (-x) z1).toCC = ((roundQ fmt x z2).toCC).neg := by
  unfold roundQ
  rw [abs_neg]
  by_cases h0 : x = 0
  · subst h0
    simp only [neg_zero, if_true]
    cases z1 <;> cases z2 <;> simp [Fl.toCC, TValueCC.neg]
  · have h0' : -x ≠ 0 := neg_ne_zero.2 h0
    rw [if_neg h0, if_neg h0']
    rcases lt_or_gt_of_ne h0 with hx | hx
    · have hx' : ¬ (-x < 0) := by linarith
      split_ifs <;> simp [Fl.toCC, TValueCC.neg]
    · have hx' : -x < 0 := by linarith
      have hx2 : ¬ (x < 0) := by linarith
      split_ifs <;> simp [Fl.toCC, TValueCC.neg]

/-- Changing the sign of the dividend changes the sign of the quotient. -/
theorem div64_neg_toCC (p s : ℚ) :
    (Fl.div binary64 (Fl.num (-p)) (Fl.num s)).toCC
      = ((Fl.div binary64 (Fl.num p) (Fl.num s)).toCC).neg := by
  by_cases hs : s = 0
  · subst hs
    by_cases hp : p = 0
    · subst hp
      simp [Fl.div, Fl.isNan, Fl.isFin, Fl.val, Fl.toCC, TValueCC.neg]
    · rcases lt_or_gt_of_ne hp with h | h
      · have h1 : ¬ (0 < p) := by linarith
        simp [Fl.div, Fl.isNan, Fl.isFin, Fl.val, Fl.sign, Fl.inf, Fl.toCC, TValueCC.neg, hp, h, h1]
      · have h1 : ¬ (p < 0) := by linarith
        simp [Fl.div, Fl.isNan, Fl.isFin, Fl.val, Fl.sign, Fl.inf, Fl.toCC, TValueCC.neg, hp, h, h1]
  · have e1 : Fl.div binary64 (Fl.num (-p)) (Fl.num s)
        = roundQ binary64 (-(p / s)) (decide (-p < 0) != decide (s < 0)) := by
      simp [Fl.div, Fl.isNan, Fl.isFin, Fl.val, Fl.sign, hs, neg_div]
    have e2 : Fl.div binary64 (Fl.num p) (Fl.num s)
        = roundQ binary64 (p / s) (decide (p < 0) != decide (s < 0)) := by
      simp [Fl.div, Fl.isNan, Fl.isFin, Fl.val, Fl.sign, hs]
    rw [e1, e2]
    exact roundQ_neg_toCC _ _ _ _

theorem covZ_shift_left (a b : ℕ → Int) (n : ℕ) (al be : Int) :
    covZ (fun j => al * a j + be) b n = al * covZ a b n := by
  have h := covN_affine_left (fun j => ((a j : Int) : ℚ)) (fun j => ((b j : Int) : ℚ)) n
    (al : ℚ) (be : ℚ)
  have e : (fun j => (al : ℚ) * ((a j : Int) : ℚ) + (be : ℚ))
      = fun j => (((al * a j + be : Int)) : ℚ) := by
    funext j
    push_cast
    rfl
  rw [e, covN_cast, covN_cast] at h
  exact_mod_cast h

theorem covZ_comm (a b : ℕ → Int) (n : ℕ) : covZ a b n = covZ b a n := by
  have h := covN_comm (fun j => ((a j : Int) : ℚ)) (fun j => ((b j : Int) : ℚ)) n
  rw [covN_cast, covN_cast] at h
  exact_mod_cast h

theorem covZ_shift_self (a : ℕ → Int) (n : ℕ) (al be : Int) :
    covZ (fun j => al * a j + be) (fun j => al * a j + be) n = al * al * covZ a a n := by
  rw [covZ_shift_left, covZ_comm, covZ_shift_left]
  ring

end FloatKernelLemmas
end Keytap

namespace Keytap
section FloatPearson

theorem Fl_mul_comm (fmt : FloatFormat) (a b : Fl) : Fl.mul fmt a b = Fl.mul fmt b a := by
  cases a <;> cases b <;>
    simp [Fl.mul, Fl.isNan, Fl.isFin, Fl.val, Fl.sign, Fl.inf, mul_comm, Bool.xor_comm]

theorem windowOfFl_length (w : List Fl) (s : Int) (n : ℕ) (hs : 0 ≤ s)
    (he : s + (n : Int) ≤ (w.length : Int)) : (windowOfFl w s n).length = n := by
  unfold windowOfFl
  rw [List.length_take, List.length_drop]
  omega

theorem range_map_sampleAtFl (w : List Fl) (s : Int) (n : ℕ) (hs : 0 ≤ s)
    (he : s + (n : Int) ≤ (w.length : Int)) :
    (List.range n).map (fun (j : ℕ) => sampleAtFl w (s + (j : Int))) = windowOfFl w s n := by
  apply List.ext_getElem
  · rw [List.length_map, List.length_range, windowOfFl_length w s n hs he]
  · intro i h1 h2
    rw [List.getElem_map, List.getElem_range]
    unfold windowOfFl sampleAtFl
    rw [if_pos (by omega), List.getElem_take, List.getElem_drop]
    have e : (s + (i : Int)).toNat = s.toNat + i := by omega
    rw [e]
    rw [List.length_map, List.length_range] at h1
    have hlt : s.toNat + i < w.length := by omega
    rw [List.getD_eq_getElem?_getD, List.getElem?_eq_getElem hlt]
    rfl

theorem foldl_pair_split (f : Fl → Fl) (l : List Fl) (i1 i2 : Fl) :
    l.foldl (fun (acc : Fl × Fl) x => (Fl.add binary64 acc.1 x, Fl.add binary64 acc.2 (f x)))
        (i1, i2)
      = (l.foldl (Fl.add binary64) i1, (l.map f).foldl (Fl.add binary64) i2) := by
  induction l generalizing i1 i2 with
  | nil => rfl
  | cons x rest ih => simp only [List.foldl_cons, List.map_cons]; rw [ih]

theorem foldl_triple_split (la lb : List Fl) (i1 i2 i3 : Fl) (h : la.length = lb.length) :
    (List.zip la lb).foldl
        (fun (acc : Fl × Fl × Fl) (p : Fl × Fl) =>
          (Fl.add binary64 acc.1 p.2, Fl.add binary64 acc.2.1 (Fl.mul binary32 p.2 p.2),
            Fl.add binary64 acc.2.2 (Fl.mul binary32 p.1 p.2)))
        (i1, i2, i3)
      = (lb.foldl (Fl.add binary64) i1,
          (lb.map (fun x => Fl.mul binary32 x x)).foldl (Fl.add binary64) i2,
          (List.zipWith (Fl.mul binary32) la lb).foldl (Fl.add binary64) i3) := by
  induction la generalizing lb i1 i2 i3 with
  | nil =>
    cases lb with
    | nil => rfl
    | cons y rest => simp at h
  | cons x rest ih =>
    cases lb with
    | nil => simp at h
    | cons y rest2 =>
      simp only [List.zip_cons_cons, List.foldl_cons, List.map_cons, List.zipWith_cons_cons]
      rw [ih rest2 _ _ _ (by simpa using h)]

theorem calcSumFl_eq_sumFl (w : List Fl) (is0 : Int) (n : ℕ) (hs : 0 ≤ is0)
    (he : is0 + (n : Int) ≤ (w.length : Int)) :
    calcSumFl w is0 (is0 + (n : Int))
      = (sumFl (windowOfFl w is0 n),
          sumFl ((windowOfFl w is0 n).map (fun x => Fl.mul binary32 x x))) := by
  unfold calcSumFl sumFl
  have e : (is0 + (n : Int) - is0).toNat = n := by omega
  rw [e, ← range_map_sampleAtFl w is0 n hs he, ← foldl_pair_split, List.foldl_map]

theorem calcCCSumsFl_eq_sumFl (w0 w1 : List Fl) (is00 is0 : Int) (n : ℕ)
    (hs0 : 0 ≤ is00) (he0 : is00 + (n : Int) ≤ (w0.length : Int))
    (hs1 : 0 ≤ is0) (he1 : is0 + (n : Int) ≤ (w1.length : Int)) :
    calcCCSumsFl w0 w1 is00 is0 (is0 + (n : Int))
      = (sumFl (windowOfFl w1 is0 n),
          sumFl ((windowOfFl w1 is0 n).map (fun x => Fl.mul binary32 x x)),
          sumFl (List.zipWith (Fl.mul binary32) (windowOfFl w0 is00 n) (windowOfFl w1 is0 n))) := by
  unfold calcCCSumsFl sumFl
  have e : (is0 + (n : Int) - is0).toNat = n := by omega
  rw [e, ← foldl_triple_split _ _ _ _ _
    ((windowOfFl_length w0 is00 n hs0 he0).trans (windowOfFl_length w1 is0 n hs1 he1).symm),
    ← range_map_sampleAtFl w0 is00 n hs0 he0, ← range_map_sampleAtFl w1 is0 n hs1 he1,
    List.zip_map', List.foldl_map]

theorem calcCCFl_eq_pearsonFl_nat (A B : List Fl) (is00 is0 : Int) (n : ℕ)
    (a1 : 0 ≤ is00) (a2 : is00 + (n : Int) ≤ (A.length : Int))
    (b1 : 0 ≤ is0) (b2 : is0 + (n : Int) ≤ (B.length : Int)) :
    calcCCFl A B (calcSumFl A is00 (is00 + (n : Int))).1
        (calcSumFl A is00 (is00 + (n : Int))).2 is00 is0 (is0 + (n : Int))
      = pearsonFl (windowOfFl A is00 n) (windowOfFl B is0 n) := by
  have hlen := windowOfFl_length A is00 n a1 a2
  unfold calcCCFl pearsonFl
  rw [calcSumFl_eq_sumFl A is00 n a1 a2, calcCCSumsFl_eq_sumFl A B is00 is0 n a1 a2 b1 b2, hlen]
  unfold ccOfSums
  have e2 : is0 + (n : Int) - is0 = (n : Int) := by ring
  simp only [e2]
  rw [Fl_mul_comm binary64 (Fl.ofInt _) (sumFl (List.zipWith _ _ _)),
    Fl_mul_comm binary64 (Fl.ofInt _) (sumFl (List.map _ (windowOfFl A _ _))),
    Fl_mul_comm binary64 (Fl.ofInt _) (sumFl (List.map _ (windowOfFl B _ _)))]

/-- Refinement: with the sums of calcSum over the first window, calcCC computes the Pearson
formula of the specification in the arithmetic of the program. -/
theorem calcCCFl_eq_pearsonFl (A B : List Fl) (is00 is0 is1 : Int) (hle : is0 ≤ is1)
    (hA : InBounds A is00 (is00 + (is1 - is0))) (hB : InBounds B is0 is1) :
    calcCCFl A B (calcSumFl A is00 (is00 + (is1 - is0))).1
        (calcSumFl A is00 (is00 + (is1 - is0))).2 is00 is0 is1
      = pearsonFl (windowOfFl A is00 (is1 - is0).toNat) (windowOfFl B is0 (is1 - is0).toNat) := by
  obtain ⟨n, hn⟩ : ∃ n : ℕ, is1 = is0 + (n : Int) := ⟨(is1 - is0).toNat, by omega⟩
  subst hn
  obtain ⟨a1, a2⟩ := hA
  obtain ⟨b1, b2⟩ := hB
  have e2 : is0 + (n : Int) - is0 = (n : Int) := by ring
  rw [e2] at a2 ⊢
  rw [Int.toNat_natCast]
  exact calcCCFl_eq_pearsonFl_nat A B is00 is0 n a1 a2 b1 b2

end FloatPearson
end Keytap

/-! ## The correlation kernel in the arithmetic of the program: results -/

namespace Keytap
section FloatKernelClaims

theorem Fl_eq_neg_one (v : Fl) (h1 : v.isFin = true) (h2 : |v.val| ≤ 1)
    (h3 : v.gt (Fl.num (-1)) = false) : v = Fl.num (-1) := by
  cases v with
  | num q =>
    simp only [Fl.gt, Fl.toCC, TValueCC.gt, decide_eq_false_iff_not, not_lt] at h3
    simp only [Fl.val] at h2
    have := (abs_le.1 h2).1
    rw [le_antisymm h3 this]
  | nzero => simp [Fl.gt, Fl.toCC, TValueCC.gt] at h3
  | pinf => simp [Fl.isFin] at h1
  | ninf => simp [Fl.isFin] at h1
  | nan => simp [Fl.isFin] at h1

theorem Fl_ge_of_not_gt (x y : Fl) (hx : x.isFin = true) (hy : y.isFin = true)
    (h : y.gt x = false) : (x.toCC).ge y.toCC = true := by
  cases x <;> cases y <;>
    simp_all [Fl.isFin, Fl.gt, Fl.toCC, TValueCC.gt, TValueCC.ge]

theorem covZ_pos_of_varying (a : ℕ → Int) (n : ℕ) (h : ∃ i < n, ∃ j < n, a i ≠ a j) :
    0 < covZ a a n := by
  rcases (covZ_self_nonneg a n).lt_or_eq with h1 | h1
  · exact h1
  · exfalso
    obtain ⟨i, hi, j, hj, hij⟩ := h
    exact hij ((covZ_self_eq_zero_iff a n).1 h1.symm i hi j hj)

/-- On windows of bounded integers: the value of calcCC is NaN exactly when one of the two
windows is constant, and otherwise it is finite and of magnitude at most one. -/
theorem calcCCFl_regime (A B : List Fl) (is00 is0 : Int) (n : ℕ) (a b : ℕ → Int) (M : Int)
    (hA : IsIntWindow A is00 n a M) (hB : IsIntWindow B is0 n b M) (hn0 : 0 < n)
    (hM0 : 0 ≤ M) (hM : M ≤ 4095) (hn : (n : Int) * M ≤ 8192) :
    (((∀ i < n, ∀ j < n, a i = a j) ∨ (∀ i < n, ∀ j < n, b i = b j)) →
      calcCCFl A B (calcSumFl A is00 (is00 + (n : Int))).1
        (calcSumFl A is00 (is00 + (n : Int))).2 is00 is0 (is0 + (n : Int)) = Fl.nan) ∧
    (((∃ i < n, ∃ j < n, a i ≠ a j) ∧ (∃ i < n, ∃ j < n, b i ≠ b j)) →
      (calcCCFl A B (calcSumFl A is00 (is00 + (n : Int))).1
        (calcSumFl A is00 (is00 + (n : Int))).2 is00 is0 (is0 + (n : Int))).isFin = true ∧
      |(calcCCFl A B (calcSumFl A is00 (is00 + (n : Int))).1
        (calcSumFl A is00 (is00 + (n : Int))).2 is00 is0 (is0 + (n : Int))).val| ≤ 1) := by
  rw [calcCCFl_int A B is00 is0 n a b M hA hB hn0 hM0 hM hn]
  have hcs := covZ_cs a b n
  have hb := covZ_bounds n a b M (fun j hj => (hA j hj).2) (fun j hj => (hB j hj).2) hM0 hn
  constructor
  · intro h
    have hD : covZ a a n * covZ b b n = 0 := by
      rcases h with h | h
      · rw [(covZ_self_eq_zero_iff a n).2 h, zero_mul]
      · rw [(covZ_self_eq_zero_iff b n).2 h, mul_zero]
    have hnom : covZ a b n = 0 := by
      rw [hD] at hcs
      exact pow_eq_zero_iff (by norm_num) |>.1 (le_antisymm hcs (sq_nonneg _))
    rw [hD, hnom]
    exact ccInt_nan
  · rintro ⟨ha, hb2⟩
    exact ccInt_fin _ _ hcs
      (mul_pos (covZ_pos_of_varying a n ha) (covZ_pos_of_varying b n hb2)) hb

/-- The score of findBestCC at an offset where both windows hold bounded integers and neither
is constant is finite and of magnitude at most one. -/
theorem ccAtFl_varying (A B : List Fl) (is0 is1 o M : Int) (hwin : is0 < is1)
    (hA : IsVaryingIntWindow A ((A.length : Int) / 2 - Int.tdiv (is1 - is0) 2)
      (is1 - is0).toNat M)
    (hB : IsVaryingIntWindow B (is0 + o) (is1 - is0).toNat M)
    (hM0 : 0 ≤ M) (hM : M ≤ 4095) (hn : (is1 - is0) * M ≤ 8192) :
    (ccAtFl A B is0 is1 o).isFin = true ∧ |(ccAtFl A B is0 is1 o).val| ≤ 1 := by
  obtain ⟨a, ha, hva⟩ := hA
  obtain ⟨b, hb, hvb⟩ := hB
  have e : (((is1 - is0).toNat : ℕ) : Int) = is1 - is0 := Int.toNat_of_nonneg (by omega)
  rw [ccAtFl_int A B is0 is1 o a b M hwin ha hb hM0 hM hn]
  exact ccInt_fin _ _ (covZ_cs a b _)
    (mul_pos (covZ_pos_of_varying a _ hva) (covZ_pos_of_varying b _ hvb))
    (covZ_bounds _ a b M (fun j hj => (ha j hj).2) (fun j hj => (hb j hj).2) hM0
      (by rw [e]; exact hn))

/-- C1 (amended): in the arithmetic of the program (samples in float, sums and scores in
double), findBestCC returns an offset of the range and a score that no offset of the range
exceeds; either no score compares above -1 and the result is the start value (-1, -1), or the
returned score is the one calcCC computes at the returned offset; when all compared windows
hold bounded integers and none is constant, the returned score is the one at the returned offset
and is at least every score of the range; the returned score does not depend on the worker count
or on the order of the final reduction, and the worker progressions cover the range exactly
once. -/
theorem findBestCCFl_argmax (nWorkers nWorkers' : Nat) (order order' : List Nat)
    (A B : List Fl) (is0 is1 alignWindow M : Int) (hwin : is0 < is1) (hal : 1 ≤ alignWindow)
    (hA : InBounds A ((A.length : Int) / 2 - Int.tdiv (is1 - is0) 2)
      ((A.length : Int) / 2 - Int.tdiv (is1 - is0) 2 + (is1 - is0)))
    (hB : InBounds B (is0 - alignWindow) (is1 + alignWindow - 1))
    (hn : 1 ≤ nWorkers) (hord : order.Perm (List.range nWorkers))
    (hn' : 1 ≤ nWorkers') (hord' : order'.Perm (List.range nWorkers')) :
    (-alignWindow ≤ (findBestCCFl nWorkers order A B is0 is1 alignWindow).2 ∧
      (findBestCCFl nWorkers order A B is0 is1 alignWindow).2 < alignWindow) ∧
    (∀ o, -alignWindow ≤ o → o < alignWindow →
      (ccAtFl A B is0 is1 o).gt (findBestCCFl nWorkers order A B is0 is1 alignWindow).1 = false) ∧
    ((findBestCCFl nWorkers order A B is0 is1 alignWindow = (Fl.num (-1), -1) ∧
        ∀ o, -alignWindow ≤ o → o < alignWindow →
          (ccAtFl A B is0 is1 o).gt (Fl.num (-1)) = false) ∨
      ((findBestCCFl nWorkers order A B is0 is1 alignWindow).1 =
          ccAtFl A B is0 is1 (findBestCCFl nWorkers order A B is0 is1 alignWindow).2 ∧
        (findBestCCFl nWorkers order A B is0 is1 alignWindow).1.gt (Fl.num (-1)) = true)) ∧
    ((0 ≤ M ∧ M ≤ 4095 ∧ (is1 - is0) * M ≤ 8192 ∧
        IsVaryingIntWindow A ((A.length : Int) / 2 - Int.tdiv (is1 - is0) 2)
          (is1 - is0).toNat M ∧
        ∀ o, -alignWindow ≤ o → o < alignWindow →
          IsVaryingIntWindow B (is0 + o) (is1 - is0).toNat M) →
      (findBestCCFl nWorkers order A B is0 is1 alignWindow).1 =
          ccAtFl A B is0 is1 (findBestCCFl nWorkers order A B is0 is1 alignWindow).2 ∧
        ∀ o, -alignWindow ≤ o → o < alignWindow →
          ((findBestCCFl nWorkers order A B is0 is1 alignWindow).1.toCC).ge
            (ccAtFl A B is0 is1 o).toCC = true) ∧
    (findBestCCFl nWorkers' order' A B is0 is1 alignWindow).1.toCC =
      (findBestCCFl nWorkers order A B is0 is1 alignWindow).1.toCC ∧
    ((List.range nWorkers).flatMap (workerOffsets alignWindow nWorkers)).Perm
      ((List.range (2 * alignWindow).toNat).map (fun t : ℕ => -alignWindow + (t : Int))) := by
  obtain ⟨h1, h2⟩ := findBestCCFl_char nWorkers order A B is0 is1 alignWindow hn hord
  have hrange : -alignWindow ≤ (findBestCCFl nWorkers order A B is0 is1 alignWindow).2 ∧
      (findBestCCFl nWorkers order A B is0 is1 alignWindow).2 < alignWindow := by
    rcases h1 with h1 | ⟨o', ho1', ho2', h1, _⟩
    · rw [h1]; exact ⟨by show -alignWindow ≤ -1; omega, by show (-1 : Int) < alignWindow; omega⟩
    · rw [h1]; exact ⟨ho1', ho2'⟩
  have hcase : (findBestCCFl nWorkers order A B is0 is1 alignWindow = (Fl.num (-1), -1) ∧
        ∀ o, -alignWindow ≤ o → o < alignWindow →
          (ccAtFl A B is0 is1 o).gt (Fl.num (-1)) = false) ∨
      ((findBestCCFl nWorkers order A B is0 is1 alignWindow).1 =
          ccAtFl A B is0 is1 (findBestCCFl nWorkers order A B is0 is1 alignWindow).2 ∧
        (findBestCCFl nWorkers order A B is0 is1 alignWindow).1.gt (Fl.num (-1)) = true) := by
    rcases h1 with h1 | ⟨o', _, _, h1, hgt⟩
    · left
      refine ⟨h1, fun o ho1 ho2 => ?_⟩
      have := h2 o ho1 ho2
      rw [h1] at this
      exact this
    · right
      rw [h1]
      exact ⟨rfl, hgt⟩
  have huniq : (findBestCCFl nWorkers' order' A B is0 is1 alignWindow).1.toCC =
      (findBestCCFl nWorkers order A B is0 is1 alignWindow).1.toCC := by
    have e1 := congrArg Prod.fst (findBestCCFl_bridge nWorkers order A B is0 is1 alignWindow)
    have e2 := congrArg Prod.fst (findBestCCFl_bridge nWorkers' order' A B is0 is1 alignWindow)
    have := search_unique (fun o => (ccAtFl A B is0 is1 o).toCC) alignWindow nWorkers nWorkers'
      order order' hn hord hn' hord'
    rw [← e1, ← e2] at this
    exact this
  refine ⟨hrange, h2, hcase, ?_, huniq, workerOffsets_perm alignWindow nWorkers hn⟩
  rintro ⟨hM0, hM, hnM, hvA, hvB⟩
  have hfin : ∀ o, -alignWindow ≤ o → o < alignWindow →
      (ccAtFl A B is0 is1 o).isFin = true ∧ |(ccAtFl A B is0 is1 o).val| ≤ 1 :=
    fun o ho1 ho2 => ccAtFl_varying A B is0 is1 o M hwin hvA (hvB o ho1 ho2) hM0 hM hnM
  have hval : (findBestCCFl nWorkers order A B is0 is1 alignWindow).1 =
      ccAtFl A B is0 is1 (findBestCCFl nWorkers order A B is0 is1 alignWindow).2 := by
    rcases hcase with ⟨hc, hall⟩ | ⟨hc, _⟩
    · rw [hc]
      obtain ⟨f1, f2⟩ := hfin (-1) (by omega) (by omega)
      exact (Fl_eq_neg_one _ f1 f2 (hall (-1) (by omega) (by omega))).symm
    · exact hc
  refine ⟨hval, fun o ho1 ho2 => ?_⟩
  have hr := hfin _ hrange.1 hrange.2
  rw [← hval] at hr
  exact Fl_ge_of_not_gt _ _ hr.1 (hfin o ho1 ho2).1 (h2 o ho1 ho2)

end FloatKernelClaims
end Keytap

namespace Keytap
section FloatKernelClaims2

theorem intWindow_ramp :
    IsIntWindow [Fl.num 0, Fl.num 1, Fl.num 2, Fl.num 0] 1 2
      (fun j => if j = 0 then 1 else 2) 3 := by
  intro j hj
  interval_cases j <;> refine ⟨?_, by decide⟩ <;> simp [sampleAtFl]

theorem intWindow_step (o : Int) (h1 : -1 ≤ o) (h2 : o < 1) :
    IsVaryingIntWindow [Fl.num 0, Fl.num 1, Fl.num 3, Fl.num 0] (1 + o) 2 3 := by
  have ho : o = -1 ∨ o = 0 := by omega
  rcases ho with rfl | rfl
  · refine ⟨fun j => if j = 0 then 0 else 1, ?_, 0, by norm_num, 1, by norm_num, by decide⟩
    intro j hj
    interval_cases j <;> refine ⟨?_, by decide⟩ <;> simp [sampleAtFl]
  · refine ⟨fun j => if j = 0 then 1 else 3, ?_, 0, by norm_num, 1, by norm_num, by decide⟩
    intro j hj
    interval_cases j <;> refine ⟨?_, by decide⟩ <;> simp [sampleAtFl]

/-- C1, counterexample: against a silent second waveform every score is NaN; findBestCC returns
the start value (-1, -1), whose first component is not the value of calcCC at offset -1. -/
theorem findBestCCFl_argmax_fails :
    findBestCCFl 1 [0] [Fl.num 0, Fl.num 1, Fl.num 2, Fl.num 0]
        [Fl.num 0, Fl.num 0, Fl.num 0, Fl.num 0] 1 3 1 = (Fl.num (-1), -1) ∧
    ccAtFl [Fl.num 0, Fl.num 1, Fl.num 2, Fl.num 0] [Fl.num 0, Fl.num 0, Fl.num 0, Fl.num 0] 1 3 (-1)
      = Fl.nan ∧
    ¬ ((findBestCCFl 1 [0] [Fl.num 0, Fl.num 1, Fl.num 2, Fl.num 0]
          [Fl.num 0, Fl.num 0, Fl.num 0, Fl.num 0] 1 3 1).1 =
        ccAtFl [Fl.num 0, Fl.num 1, Fl.num 2, Fl.num 0] [Fl.num 0, Fl.num 0, Fl.num 0, Fl.num 0]
          1 3 (findBestCCFl 1 [0] [Fl.num 0, Fl.num 1, Fl.num 2, Fl.num 0]
            [Fl.num 0, Fl.num 0, Fl.num 0, Fl.num 0] 1 3 1).2) := by
  have h1 : findBestCCFl 1 [0] [Fl.num 0, Fl.num 1, Fl.num 2, Fl.num 0]
      [Fl.num 0, Fl.num 0, Fl.num 0, Fl.num 0] 1 3 1 = (Fl.num (-1), -1) := by decide!
  have h2 : ccAtFl [Fl.num 0, Fl.num 1, Fl.num 2, Fl.num 0]
      [Fl.num 0, Fl.num 0, Fl.num 0, Fl.num 0] 1 3 (-1) = Fl.nan := by decide!
  refine ⟨h1, h2, ?_⟩
  rw [h1, h2]
  simp

/-- C1, witness: on the recordings (0, 1, 2, 0) and (0, 1, 3, 0) two workers reducing in the
order 1, 0 return the score of the returned offset, which is at least the score of every offset
and equals the score that a single worker returns. -/
theorem findBestCCFl_argmax_witness :
    ((findBestCCFl 2 [1, 0] [Fl.num 0, Fl.num 1, Fl.num 2, Fl.num 0]
          [Fl.num 0, Fl.num 1, Fl.num 3, Fl.num 0] 1 3 1).1 =
        ccAtFl [Fl.num 0, Fl.num 1, Fl.num 2, Fl.num 0] [Fl.num 0, Fl.num 1, Fl.num 3, Fl.num 0] 1 3
          (findBestCCFl 2 [1, 0] [Fl.num 0, Fl.num 1, Fl.num 2, Fl.num 0]
            [Fl.num 0, Fl.num 1, Fl.num 3, Fl.num 0] 1 3 1).2 ∧
      ∀ o, -1 ≤ o → o < 1 →
        ((findBestCCFl 2 [1, 0] [Fl.num 0, Fl.num 1, Fl.num 2, Fl.num 0]
          [Fl.num 0, Fl.num 1, Fl.num 3, Fl.num 0] 1 3 1).1.toCC).ge
          (ccAtFl [Fl.num 0, Fl.num 1, Fl.num 2, Fl.num 0]
            [Fl.num 0, Fl.num 1, Fl.num 3, Fl.num 0] 1 3 o).toCC = true) ∧
    (findBestCCFl 1 [0] [Fl.num 0, Fl.num 1, Fl.num 2, Fl.num 0]
        [Fl.num 0, Fl.num 1, Fl.num 3, Fl.num 0] 1 3 1).1.toCC =
      (findBestCCFl 2 [1, 0] [Fl.num 0, Fl.num 1, Fl.num 2, Fl.num 0]
        [Fl.num 0, Fl.num 1, Fl.num 3, Fl.num 0] 1 3 1).1.toCC :=
  ⟨(findBestCCFl_argmax 2 1 [1, 0] [0] [Fl.num 0, Fl.num 1, Fl.num 2, Fl.num 0]
      [Fl.num 0, Fl.num 1, Fl.num 3, Fl.num 0] 1 3 1 3 (by norm_num) le_rfl
      ⟨by decide, by decide⟩ ⟨by decide, by decide⟩ (by norm_num) (by decide) le_rfl
      (by decide)).2.2.2.1
      ⟨by norm_num, by norm_num, by norm_num,
        ⟨fun j => if j = 0 then 1 else 2, intWindow_ramp, 0, by decide, 1, by decide, by decide⟩,
        intWindow_step⟩,
    (findBestCCFl_argmax 2 1 [1, 0] [0] [Fl.num 0, Fl.num 1, Fl.num 2, Fl.num 0]
      [Fl.num 0, Fl.num 1, Fl.num 3, Fl.num 0] 1 3 1 3 (by norm_num) le_rfl
      ⟨by decide, by decide⟩ ⟨by decide, by decide⟩ (by norm_num) (by decide) le_rfl
      (by decide)).2.2.2.2.1⟩

/-- C2 (amended): with the sums of calcSum over the window of the first waveform, calcCC
returns the Pearson formula of the specification evaluated in the arithmetic of the program
(products of samples rounded to float, sums accumulated from left to right in double, the
remaining operations rounded to double), so that the precomputed sums give the same value as
recomputed ones; on windows of bounded integers the numerator and the product of the two
denominator factors are exact, and the value is the rounded quotient of the exact numerator by
the rounded square root of that exact product. -/
theorem calcCCFl_pearson (A B : List Fl) (is00 is0 is1 : Int) (hle : is0 ≤ is1)
    (hA : InBounds A is00 (is00 + (is1 - is0))) (hB : InBounds B is0 is1) :
    calcCCFl A B (calcSumFl A is00 (is00 + (is1 - is0))).1
        (calcSumFl A is00 (is00 + (is1 - is0))).2 is00 is0 is1
      = pearsonFl (windowOfFl A is00 (is1 - is0).toNat) (windowOfFl B is0 (is1 - is0).toNat) ∧
    ∀ (a b : ℕ → Int) (M : Int), is0 < is1 → 0 ≤ M → M ≤ 4095 → (is1 - is0) * M ≤ 8192 →
      IsIntWindow A is00 (is1 - is0).toNat a M → IsIntWindow B is0 (is1 - is0).toNat b M →
      calcCCFl A B (calcSumFl A is00 (is00 + (is1 - is0))).1
          (calcSumFl A is00 (is00 + (is1 - is0))).2 is00 is0 is1
        = Fl.div binary64 (Fl.num ((covZ a b (is1 - is0).toNat : Int) : ℚ))
            (Fl.sqrt (Fl.num ((covZ a a (is1 - is0).toNat * covZ b b (is1 - is0).toNat : Int) : ℚ))) := by
  refine ⟨calcCCFl_eq_pearsonFl A B is00 is0 is1 hle hA hB, ?_⟩
  intro a b M hlt hM0 hM hn ha hb
  have e : (((is1 - is0).toNat : ℕ) : Int) = is1 - is0 := Int.toNat_of_nonneg (by omega)
  have h := calcCCFl_int A B is00 is0 (is1 - is0).toNat a b M ha hb (by omega) hM0 hM
    (by rw [e]; exact hn)
  rw [e] at h
  have e2 : is0 + (is1 - is0) = is1 := by ring
  rw [e2] at h
  exact h

end FloatKernelClaims2
end Keytap

namespace Keytap
section FloatKernelClaims3

theorem intWindow_step_zero :
    IsIntWindow [Fl.num 0, Fl.num 1, Fl.num 3, Fl.num 0] 1 2
      (fun j => if j = 0 then 1 else 3) 3 := by
  intro j hj
  interval_cases j <;> refine ⟨?_, by decide⟩ <;> simp [sampleAtFl]

/-- C2, witness: the windows (1, 2) and (1, 3) of the recordings (0, 1, 2, 0) and
(0, 1, 3, 0). -/
theorem calcCCFl_pearson_witness :
    calcCCFl [Fl.num 0, Fl.num 1, Fl.num 2, Fl.num 0] [Fl.num 0, Fl.num 1, Fl.num 3, Fl.num 0]
        (calcSumFl [Fl.num 0, Fl.num 1, Fl.num 2, Fl.num 0] 1 (1 + (3 - 1))).1
        (calcSumFl [Fl.num 0, Fl.num 1, Fl.num 2, Fl.num 0] 1 (1 + (3 - 1))).2 1 1 3
      = pearsonFl [Fl.num 1, Fl.num 2] [Fl.num 1, Fl.num 3] ∧
    calcCCFl [Fl.num 0, Fl.num 1, Fl.num 2, Fl.num 0] [Fl.num 0, Fl.num 1, Fl.num 3, Fl.num 0]
        (calcSumFl [Fl.num 0, Fl.num 1, Fl.num 2, Fl.num 0] 1 (1 + (3 - 1))).1
        (calcSumFl [Fl.num 0, Fl.num 1, Fl.num 2, Fl.num 0] 1 (1 + (3 - 1))).2 1 1 3
      = Fl.div binary64
          (Fl.num ((covZ (fun j => if j = 0 then 1 else 2) (fun j => if j = 0 then 1 else 3) 2
            : Int) : ℚ))
          (Fl.sqrt (Fl.num ((covZ (fun j => if j = 0 then 1 else 2)
              (fun j => if j = 0 then 1 else 2) 2 *
            covZ (fun j => if j = 0 then 1 else 3) (fun j => if j = 0 then 1 else 3) 2
            : Int) : ℚ))) :=
  ⟨(calcCCFl_pearson [Fl.num 0, Fl.num 1, Fl.num 2, Fl.num 0]
      [Fl.num 0, Fl.num 1, Fl.num 3, Fl.num 0] 1 1 3 (by norm_num) ⟨by decide, by decide⟩
      ⟨by decide, by decide⟩).1,
    (calcCCFl_pearson [Fl.num 0, Fl.num 1, Fl.num 2, Fl.num 0]
      [Fl.num 0, Fl.num 1, Fl.num 3, Fl.num 0] 1 1 3 (by norm_num) ⟨by decide, by decide⟩
      ⟨by decide, by decide⟩).2 _ _ 3 (by norm_num) (by norm_num) (by norm_num) (by norm_num)
      intWindow_ramp intWindow_step_zero⟩

/-- C2, counterexample: on the windows (3, 3 + 2^-21) and (3 + 2^-21, 3) the Pearson correlation
is -1, and calcCC returns 8388607. -/
theorem calcCCFl_pearson_fails :
    calcCCFl [Fl.num 3, Fl.num (3 + 1 / 2 ^ 21)] [Fl.num (3 + 1 / 2 ^ 21), Fl.num 3]
        (calcSumFl [Fl.num 3, Fl.num (3 + 1 / 2 ^ 21)] 0 2).1
        (calcSumFl [Fl.num 3, Fl.num (3 + 1 / 2 ^ 21)] 0 2).2 0 0 2 = Fl.num 8388607 ∧
    pearson Real.sqrt ([3, 3 + 1 / 2 ^ 21] : List ℝ) [3 + 1 / 2 ^ 21, 3] = TValueCC.fin (-1) := by
  constructor
  · decide!
  · have hs : Real.sqrt (1 / 19342813113834066795298816 : ℝ) = 1 / 4398046511104 := by
      have e : (1 / 19342813113834066795298816 : ℝ)
          = (1 / 4398046511104) * (1 / 4398046511104) := by norm_num
      rw [e]
      exact Real.sqrt_mul_self (by norm_num)
    simp only [pearson, List.zipWith, List.map, List.sum_cons, List.sum_nil, List.length_cons,
      List.length_nil, fsqrt]
    norm_num only []
    rw [if_neg not_false, hs]
    simp only [fdiv]
    norm_num

end FloatKernelClaims3
end Keytap

namespace Keytap
section FloatKernelClaims4

/-- C3 (amended): on two windows of n integers of magnitude at most M, with M at most 4095 and
n * M at most 8192 (every intermediate value of calcSum and calcCC is then an integer below
2^53 and is computed exactly, only the square root and the quotient round), calcCC returns NaN
exactly when one of the windows is constant, and otherwise a finite value of [-1, 1]. -/
theorem calcCCFl_range (A B : List Fl) (is00 is0 is1 : Int) (a b : ℕ → Int) (M : Int)
    (hlt : is0 < is1) (hA : InBounds A is00 (is00 + (is1 - is0))) (hB : InBounds B is0 is1)
    (hM0 : 0 ≤ M) (hM : M ≤ 4095) (hn : (is1 - is0) * M ≤ 8192)
    (ha : IsIntWindow A is00 (is1 - is0).toNat a M)
    (hb : IsIntWindow B is0 (is1 - is0).toNat b M) :
    (calcCCFl A B (calcSumFl A is00 (is00 + (is1 - is0))).1
        (calcSumFl A is00 (is00 + (is1 - is0))).2 is00 is0 is1 = Fl.nan ↔
      ((∀ i < (is1 - is0).toNat, ∀ j < (is1 - is0).toNat, a i = a j) ∨
        (∀ i < (is1 - is0).toNat, ∀ j < (is1 - is0).toNat, b i = b j))) ∧
    (calcCCFl A B (calcSumFl A is00 (is00 + (is1 - is0))).1
        (calcSumFl A is00 (is00 + (is1 - is0))).2 is00 is0 is1 = Fl.nan ∨
      ((calcCCFl A B (calcSumFl A is00 (is00 + (is1 - is0))).1
          (calcSumFl A is00 (is00 + (is1 - is0))).2 is00 is0 is1).isFin = true ∧
        -1 ≤ (calcCCFl A B (calcSumFl A is00 (is00 + (is1 - is0))).1
          (calcSumFl A is00 (is00 + (is1 - is0))).2 is00 is0 is1).val ∧
        (calcCCFl A B (calcSumFl A is00 (is00 + (is1 - is0))).1
          (calcSumFl A is00 (is00 + (is1 - is0))).2 is00 is0 is1).val ≤ 1)) := by
  have e : (((is1 - is0).toNat : ℕ) : Int) = is1 - is0 := Int.toNat_of_nonneg (by omega)
  have h := calcCCFl_regime A B is00 is0 (is1 - is0).toNat a b M ha hb (by omega) hM0 hM
    (by rw [e]; exact hn)
  rw [e] at h
  have e2 : is0 + (is1 - is0) = is1 := by ring
  rw [e2] at h
  obtain ⟨h1, h2⟩ := h
  by_cases hc : (∀ i < (is1 - is0).toNat, ∀ j < (is1 - is0).toNat, a i = a j) ∨
      (∀ i < (is1 - is0).toNat, ∀ j < (is1 - is0).toNat, b i = b j)
  · exact ⟨⟨fun _ => hc, fun _ => h1 hc⟩, Or.inl (h1 hc)⟩
  · have hv : (∃ i < (is1 - is0).toNat, ∃ j < (is1 - is0).toNat, a i ≠ a j) ∧
        (∃ i < (is1 - is0).toNat, ∃ j < (is1 - is0).toNat, b i ≠ b j) := by
      constructor
      · by_contra hx
        apply hc
        left
        intro i hi j hj
        by_contra hij
        exact hx ⟨i, hi, j, hj, hij⟩
      · by_contra hx
        apply hc
        right
        intro i hi j hj
        by_contra hij
        exact hx ⟨i, hi, j, hj, hij⟩
    obtain ⟨f1, f2⟩ := h2 hv
    refine ⟨⟨fun hnan => ?_, fun hx => absurd hx hc⟩, Or.inr ⟨f1, (abs_le.1 f2).1, (abs_le.1 f2).2⟩⟩
    rw [hnan] at f1
    simp [Fl.isFin] at f1

/-- C3, witness: the windows (1, 2) and (1, 3) of the recordings (0, 1, 2, 0) and
(0, 1, 3, 0). -/
theorem calcCCFl_range_witness :
    (calcCCFl [Fl.num 0, Fl.num 1, Fl.num 2, Fl.num 0] [Fl.num 0, Fl.num 1, Fl.num 3, Fl.num 0]
        (calcSumFl [Fl.num 0, Fl.num 1, Fl.num 2, Fl.num 0] 1 (1 + (3 - 1))).1
        (calcSumFl [Fl.num 0, Fl.num 1, Fl.num 2, Fl.num 0] 1 (1 + (3 - 1))).2 1 1 3 = Fl.nan ∨
      ((calcCCFl [Fl.num 0, Fl.num 1, Fl.num 2, Fl.num 0] [Fl.num 0, Fl.num 1, Fl.num 3, Fl.num 0]
          (calcSumFl [Fl.num 0, Fl.num 1, Fl.num 2, Fl.num 0] 1 (1 + (3 - 1))).1
          (calcSumFl [Fl.num 0, Fl.num 1, Fl.num 2, Fl.num 0] 1 (1 + (3 - 1))).2 1 1 3).isFin = true ∧
        -1 ≤ (calcCCFl [Fl.num 0, Fl.num 1, Fl.num 2, Fl.num 0]
          [Fl.num 0, Fl.num 1, Fl.num 3, Fl.num 0]
          (calcSumFl [Fl.num 0, Fl.num 1, Fl.num 2, Fl.num 0] 1 (1 + (3 - 1))).1
          (calcSumFl [Fl.num 0, Fl.num 1, Fl.num 2, Fl.num 0] 1 (1 + (3 - 1))).2 1 1 3).val ∧
        (calcCCFl [Fl.num 0, Fl.num 1, Fl.num 2, Fl.num 0] [Fl.num 0, Fl.num 1, Fl.num 3, Fl.num 0]
          (calcSumFl [Fl.num 0, Fl.num 1, Fl.num 2, Fl.num 0] 1 (1 + (3 - 1))).1
          (calcSumFl [Fl.num 0, Fl.num 1, Fl.num 2, Fl.num 0] 1 (1 + (3 - 1))).2 1 1 3).val ≤ 1)) :=
  (calcCCFl_range [Fl.num 0, Fl.num 1, Fl.num 2, Fl.num 0]
    [Fl.num 0, Fl.num 1, Fl.num 3, Fl.num 0] 1 1 3 _ _ 3 (by norm_num) ⟨by decide, by decide⟩
    ⟨by decide, by decide⟩ (by norm_num) (by norm_num) (by norm_num)
    intWindow_ramp intWindow_step_zero).2

/-- C3, counterexample: on the windows (2, 3) and (2, 3 + 2^-21) calcCC returns a value above
1, and on the windows (0, 1) and (c, c) with c = 1 + 2^-12 + 2^-23 it returns 0 although the
second window is constant. -/
theorem calcCCFl_range_fails :
    calcCCFl [Fl.num 2, Fl.num 3] [Fl.num 2, Fl.num (3 + 1 / 2 ^ 21)]
        (calcSumFl [Fl.num 2, Fl.num 3] 0 2).1 (calcSumFl [Fl.num 2, Fl.num 3] 0 2).2 0 0 2
      = Fl.num (4398050705407 / 4398046511104) ∧
    (1 : ℚ) < 4398050705407 / 4398046511104 ∧
    calcCCFl [Fl.num 0, Fl.num 1]
        [Fl.num (1 + 1 / 2 ^ 12 + 1 / 2 ^ 23), Fl.num (1 + 1 / 2 ^ 12 + 1 / 2 ^ 23)]
        (calcSumFl [Fl.num 0, Fl.num 1] 0 2).1 (calcSumFl [Fl.num 0, Fl.num 1] 0 2).2 0 0 2
      = Fl.num 0 := by
  refine ⟨by decide!, by norm_num, by decide!⟩

/-- C4 (amended): on a window of n integers of magnitude at most M that is not constant, with M
at most 4095 and n * M at most 8192, calcCC of the waveform against itself on that window
returns exactly 1. -/
theorem calcCCFl_self (A : List Fl) (is0 is1 : Int) (a : ℕ → Int) (M : Int) (hlt : is0 < is1)
    (hA : InBounds A is0 is1) (hM0 : 0 ≤ M) (hM : M ≤ 4095) (hn : (is1 - is0) * M ≤ 8192)
    (ha : IsIntWindow A is0 (is1 - is0).toNat a M)
    (hv : ∃ i < (is1 - is0).toNat, ∃ j < (is1 - is0).toNat, a i ≠ a j) :
    calcCCFl A A (calcSumFl A is0 is1).1 (calcSumFl A is0 is1).2 is0 is0 is1 = Fl.num 1 := by
  have e : (((is1 - is0).toNat : ℕ) : Int) = is1 - is0 := Int.toNat_of_nonneg (by omega)
  have h := calcCCFl_int A A is0 is0 (is1 - is0).toNat a a M ha ha (by omega) hM0 hM
    (by rw [e]; exact hn)
  rw [e] at h
  have e2 : is0 + (is1 - is0) = is1 := by ring
  rw [e2] at h
  rw [h]
  exact ccInt_self _ (covZ_pos_of_varying a _ hv)
    (covZ_bounds _ a a M (fun j hj => (ha j hj).2) (fun j hj => (ha j hj).2) hM0
      (by rw [e]; exact hn))

/-- C4, witness: the window (1, 2) of the recording (0, 1, 2, 0). -/
theorem calcCCFl_self_witness :
    calcCCFl [Fl.num 0, Fl.num 1, Fl.num 2, Fl.num 0] [Fl.num 0, Fl.num 1, Fl.num 2, Fl.num 0]
      (calcSumFl [Fl.num 0, Fl.num 1, Fl.num 2, Fl.num 0] 1 3).1
      (calcSumFl [Fl.num 0, Fl.num 1, Fl.num 2, Fl.num 0] 1 3).2 1 1 3 = Fl.num 1 :=
  calcCCFl_self [Fl.num 0, Fl.num 1, Fl.num 2, Fl.num 0] 1 3 _ 3 (by norm_num)
    ⟨by decide, by decide⟩ (by norm_num) (by norm_num) (by norm_num) intWindow_ramp
    ⟨0, by decide, 1, by decide, by decide⟩

/-- C4, counterexample: the window (1, 1 + 2^-20) is not constant, and calcCC of it against
itself returns -1. -/
theorem calcCCFl_self_fails :
    calcCCFl [Fl.num 1, Fl.num (1 + 1 / 2 ^ 20)] [Fl.num 1, Fl.num (1 + 1 / 2 ^ 20)]
      (calcSumFl [Fl.num 1, Fl.num (1 + 1 / 2 ^ 20)] 0 2).1
      (calcSumFl [Fl.num 1, Fl.num (1 + 1 / 2 ^ 20)] 0 2).2 0 0 2 = Fl.num (-1) ∧
    (1 : ℚ) ≠ 1 + 1 / 2 ^ 20 := by
  refine ⟨by decide!, by norm_num⟩

end FloatKernelClaims4
end Keytap

namespace Keytap
section FloatKernelClaims5

theorem sumZ_congr (f g : ℕ → Int) (n : ℕ) (h : ∀ j < n, f j = g j) : sumZ f n = sumZ g n := by
  unfold sumZ
  congr 1
  apply List.map_congr_left
  intro j hj
  exact h j (List.mem_range.1 hj)

theorem covZ_congr_left (f f' g : ℕ → Int) (n : ℕ) (h : ∀ j < n, f j = f' j) :
    covZ f g n = covZ f' g n := by
  rw [covZ_eq, covZ_eq, sumZ_congr f f' n h,
    sumZ_congr (fun j => f j * g j) (fun j => f' j * g j) n
      (fun j hj => by show f j * g j = f' j * g j; rw [h j hj])]

theorem covZ_congr_self (f f' : ℕ → Int) (n : ℕ) (h : ∀ j < n, f j = f' j) :
    covZ f f n = covZ f' f' n := by
  rw [covZ_eq, covZ_eq, sumZ_congr f f' n h,
    sumZ_congr (fun j => f j * f j) (fun j => f' j * f' j) n
      (fun j hj => by show f j * f j = f' j * f' j; rw [h j hj])]

theorem Fl_sqrt_num (q : ℚ) (hq : 0 ≤ q) : ∃ s : ℚ, Fl.sqrt (Fl.num q) = Fl.num s := by
  simp only [Fl.sqrt, if_neg (not_lt.2 hq)]
  split_ifs
  · exact ⟨0, rfl⟩
  · exact ⟨_, rfl⟩

/-- C5 (amended): on windows of n integers of magnitude at most M, with M at most 4095 and
n * M at most 8192, replacing the first window a by al * a + be with al = 1 or al = -1 and an
integer be (the new window within the same bound) multiplies the value of calcCC by the sign of
al; the values are compared as double values, so that the two zeros count as equal. -/
theorem calcCCFl_affine (A A' B : List Fl) (is00 is0 is1 : Int) (a a' b : ℕ → Int)
    (M al be : Int) (hal : al = 1 ∨ al = -1) (hlt : is0 < is1)
    (hA : InBounds A is00 (is00 + (is1 - is0))) (hA' : InBounds A' is00 (is00 + (is1 - is0)))
    (hB : InBounds B is0 is1)
    (hM0 : 0 ≤ M) (hM : M ≤ 4095) (hn : (is1 - is0) * M ≤ 8192)
    (ha : IsIntWindow A is00 (is1 - is0).toNat a M)
    (ha' : IsIntWindow A' is00 (is1 - is0).toNat a' M)
    (hb : IsIntWindow B is0 (is1 - is0).toNat b M)
    (hrel : ∀ j < (is1 - is0).toNat, a' j = al * a j + be) :
    (calcCCFl A' B (calcSumFl A' is00 (is00 + (is1 - is0))).1
        (calcSumFl A' is00 (is00 + (is1 - is0))).2 is00 is0 is1).toCC =
      TValueCC.scale (sign (al : ℚ))
        (calcCCFl A B (calcSumFl A is00 (is00 + (is1 - is0))).1
          (calcSumFl A is00 (is00 + (is1 - is0))).2 is00 is0 is1).toCC := by
  have e : (((is1 - is0).toNat : ℕ) : Int) = is1 - is0 := Int.toNat_of_nonneg (by omega)
  have h := calcCCFl_int A B is00 is0 (is1 - is0).toNat a b M ha hb (by omega) hM0 hM
    (by rw [e]; exact hn)
  have h' := calcCCFl_int A' B is00 is0 (is1 - is0).toNat a' b M ha' hb (by omega) hM0 hM
    (by rw [e]; exact hn)
  rw [e] at h h'
  have e2 : is0 + (is1 - is0) = is1 := by ring
  rw [e2] at h h'
  rw [h, h']
  have c1 : covZ a' b (is1 - is0).toNat = al * covZ a b (is1 - is0).toNat := by
    rw [covZ_congr_left a' (fun j => al * a j + be) b _ hrel, covZ_shift_left]
  have c2 : covZ a' a' (is1 - is0).toNat = covZ a a (is1 - is0).toNat := by
    rw [covZ_congr_self a' (fun j => al * a j + be) _ hrel, covZ_shift_self]
    rcases hal with rfl | rfl <;> ring
  rw [c1, c2]
  obtain ⟨s, hs⟩ := Fl_sqrt_num (((covZ a a (is1 - is0).toNat * covZ b b (is1 - is0).toNat : Int)) : ℚ)
    (by exact_mod_cast mul_nonneg (covZ_self_nonneg a _) (covZ_self_nonneg b _))
  rw [hs]
  rcases hal with rfl | rfl
  · have e3 : sign ((1 : Int) : ℚ) = 1 := by simp [sign]
    rw [e3, one_mul]
    cases (Fl.div binary64 (Fl.num ((covZ a b (is1 - is0).toNat : Int) : ℚ)) (Fl.num s)).toCC <;>
      simp [TValueCC.scale]
  · have e3 : sign (((-1 : Int)) : ℚ) = -1 := by simp [sign]
    have e4 : (((-1 * covZ a b (is1 - is0).toNat : Int)) : ℚ)
        = -((covZ a b (is1 - is0).toNat : Int) : ℚ) := by push_cast; ring
    rw [e3, e4, div64_neg_toCC]
    cases (Fl.div binary64 (Fl.num ((covZ a b (is1 - is0).toNat : Int) : ℚ)) (Fl.num s)).toCC <;>
      norm_num [TValueCC.scale, TValueCC.neg]

theorem intWindow_ramp_neg :
    IsIntWindow [Fl.num 3, Fl.num 2, Fl.num 1, Fl.num 3] 1 2
      (fun j => if j = 0 then 2 else 1) 3 := by
  intro j hj
  interval_cases j <;> refine ⟨?_, by decide⟩ <;> simp [sampleAtFl]

/-- C5, witness: the recording (0, 1, 2, 0) and its image (3, 2, 1, 3) under x ↦ 3 - x, against
(0, 1, 3, 0). -/
theorem calcCCFl_affine_witness :
    (calcCCFl [Fl.num 3, Fl.num 2, Fl.num 1, Fl.num 3] [Fl.num 0, Fl.num 1, Fl.num 3, Fl.num 0]
        (calcSumFl [Fl.num 3, Fl.num 2, Fl.num 1, Fl.num 3] 1 (1 + (3 - 1))).1
        (calcSumFl [Fl.num 3, Fl.num 2, Fl.num 1, Fl.num 3] 1 (1 + (3 - 1))).2 1 1 3).toCC =
      TValueCC.scale (sign (((-1 : Int)) : ℚ))
        (calcCCFl [Fl.num 0, Fl.num 1, Fl.num 2, Fl.num 0] [Fl.num 0, Fl.num 1, Fl.num 3, Fl.num 0]
          (calcSumFl [Fl.num 0, Fl.num 1, Fl.num 2, Fl.num 0] 1 (1 + (3 - 1))).1
          (calcSumFl [Fl.num 0, Fl.num 1, Fl.num 2, Fl.num 0] 1 (1 + (3 - 1))).2 1 1 3).toCC :=
  calcCCFl_affine [Fl.num 0, Fl.num 1, Fl.num 2, Fl.num 0] [Fl.num 3, Fl.num 2, Fl.num 1, Fl.num 3]
    [Fl.num 0, Fl.num 1, Fl.num 3, Fl.num 0] 1 1 3 _ _ _ 3 (-1) 3 (Or.inr rfl) (by norm_num)
    ⟨by decide, by decide⟩ ⟨by decide, by decide⟩ ⟨by decide, by decide⟩
    (by norm_num) (by norm_num) (by norm_num) intWindow_ramp intWindow_ramp_neg
    intWindow_step_zero (by
      intro j hj
      have hj2 : j < 2 := hj
      interval_cases j <;> decide)

/-- C5, counterexample: scaling the window (0, 0, 1) by 3 changes the value of calcCC against
(0, 1, 2) in the last place, and shifting the window (0, 2^-20) by 1 changes the value of
calcCC against (0, 1) from 1 to NaN. -/
theorem calcCCFl_affine_fails :
    calcCCFl [Fl.num 0, Fl.num 0, Fl.num 3] [Fl.num 0, Fl.num 1, Fl.num 2]
        (calcSumFl [Fl.num 0, Fl.num 0, Fl.num 3] 0 3).1
        (calcSumFl [Fl.num 0, Fl.num 0, Fl.num 3] 0 3).2 0 0 3
      = Fl.num (3900231685776981 / 4503599627370496) ∧
    calcCCFl [Fl.num 0, Fl.num 0, Fl.num 1] [Fl.num 0, Fl.num 1, Fl.num 2]
        (calcSumFl [Fl.num 0, Fl.num 0, Fl.num 1] 0 3).1
        (calcSumFl [Fl.num 0, Fl.num 0, Fl.num 1] 0 3).2 0 0 3
      = Fl.num (7800463371553963 / 9007199254740992) ∧
    (3900231685776981 / 4503599627370496 : ℚ) ≠ 7800463371553963 / 9007199254740992 ∧
    calcCCFl [Fl.num 1, Fl.num (1 + 1 / 2 ^ 20)] [Fl.num 0, Fl.num 1]
        (calcSumFl [Fl.num 1, Fl.num (1 + 1 / 2 ^ 20)] 0 2).1
        (calcSumFl [Fl.num 1, Fl.num (1 + 1 / 2 ^ 20)] 0 2).2 0 0 2 = Fl.nan ∧
    calcCCFl [Fl.num 0, Fl.num (1 / 2 ^ 20)] [Fl.num 0, Fl.num 1]
        (calcSumFl [Fl.num 0, Fl.num (1 / 2 ^ 20)] 0 2).1
        (calcSumFl [Fl.num 0, Fl.num (1 / 2 ^ 20)] 0 2).2 0 0 2 = Fl.num 1 := by
  refine ⟨by decide!, by decide!, by norm_num, by decide!, by decide!⟩

/-- C7 (amended): calcCC has no guard.  On a window of the second waveform that is all zero it
returns NaN (not -1), whatever the first waveform and the sums passed for it; on windows of
bounded integers it returns NaN as soon as one of the two windows is constant.  The search
findBestCC never returns NaN: a NaN score never replaces the running best, and when every score
of the range is NaN the result is the start value (-1, -1). -/
theorem calcCCFl_flat (nWorkers : Nat) (order : List Nat) (A B : List Fl)
    (is0 is1 alignWindow : Int) (hwin : is0 < is1) (hn : 1 ≤ nWorkers)
    (hord : order.Perm (List.range nWorkers)) :
    (∀ (sum0 sum02 : Fl) (is00 s : Int),
      (∀ j < (is1 - is0).toNat, sampleAtFl B (s + (j : Int)) = Fl.num 0) →
      calcCCFl A B sum0 sum02 is00 s (s + (is1 - is0)) = Fl.nan) ∧
    (∀ (is00 s : Int) (a b : ℕ → Int) (M : Int), 0 ≤ M → M ≤ 4095 → (is1 - is0) * M ≤ 8192 →
      IsIntWindow A is00 (is1 - is0).toNat a M → IsIntWindow B s (is1 - is0).toNat b M →
      ((∀ i < (is1 - is0).toNat, ∀ j < (is1 - is0).toNat, a i = a j) ∨
        (∀ i < (is1 - is0).toNat, ∀ j < (is1 - is0).toNat, b i = b j)) →
      calcCCFl A B (calcSumFl A is00 (is00 + (is1 - is0))).1
        (calcSumFl A is00 (is00 + (is1 - is0))).2 is00 s (s + (is1 - is0)) = Fl.nan) ∧
    (findBestCCFl nWorkers order A B is0 is1 alignWindow).1 ≠ Fl.nan ∧
    ((∀ o, -alignWindow ≤ o → o < alignWindow → ccAtFl A B is0 is1 o = Fl.nan) →
      findBestCCFl nWorkers order A B is0 is1 alignWindow = (Fl.num (-1), -1)) := by
  have e : (((is1 - is0).toNat : ℕ) : Int) = is1 - is0 := Int.toNat_of_nonneg (by omega)
  obtain ⟨h1, h2⟩ := findBestCCFl_char nWorkers order A B is0 is1 alignWindow hn hord
  refine ⟨?_, ?_, ?_, ?_⟩
  · intro sum0 sum02 is00 s hs
    have := calcCCFl_silent A B sum0 sum02 is00 s (is1 - is0).toNat hs
    rw [e] at this
    exact this
  · intro is00 s a b M hM0 hM hnM ha hb hc
    have := (calcCCFl_regime A B is00 s (is1 - is0).toNat a b M ha hb (by omega) hM0 hM
      (by rw [e]; exact hnM)).1 hc
    rw [e] at this
    exact this
  · rcases h1 with h1 | ⟨o, _, _, h1, hgt⟩
    · rw [h1]
      intro hc
      cases hc
    · rw [h1]
      intro hc
      have hc2 : ccAtFl A B is0 is1 o = Fl.nan := hc
      rw [hc2] at hgt
      simp [Fl.gt, Fl.toCC, TValueCC.gt] at hgt
  · intro hall
    rcases h1 with h1 | ⟨o, ho1, ho2, _, hgt⟩
    · exact h1
    · rw [hall o ho1 ho2] at hgt
      simp [Fl.gt, Fl.toCC, TValueCC.gt] at hgt

theorem intWindow_silent (s : Int) :
    IsIntWindow [Fl.num 0, Fl.num 0, Fl.num 0, Fl.num 0] s 2 (fun _ => 0) 3 := by
  intro j hj
  refine ⟨?_, by norm_num⟩
  unfold sampleAtFl
  split_ifs
  · rcases Nat.lt_or_ge (s + (j : Int)).toNat 4 with h | h
    · interval_cases (s + (j : Int)).toNat <;> simp
    · rw [List.getD_eq_default _ _ (by simpa using h)]
      simp
  · simp

/-- C7, witness: the recording (0, 1, 2, 0) against the silent recording (0, 0, 0, 0): the
score is NaN at both offsets, by either of the two arguments, and the search returns the start
value. -/
theorem calcCCFl_flat_witness :
    calcCCFl [Fl.num 0, Fl.num 1, Fl.num 2, Fl.num 0] [Fl.num 0, Fl.num 0, Fl.num 0, Fl.num 0]
      (calcSumFl [Fl.num 0, Fl.num 1, Fl.num 2, Fl.num 0] 1 3).1
      (calcSumFl [Fl.num 0, Fl.num 1, Fl.num 2, Fl.num 0] 1 3).2 1 0 (0 + (3 - 1)) = Fl.nan ∧
    calcCCFl [Fl.num 0, Fl.num 1, Fl.num 2, Fl.num 0] [Fl.num 0, Fl.num 0, Fl.num 0, Fl.num 0]
      (calcSumFl [Fl.num 0, Fl.num 1, Fl.num 2, Fl.num 0] 1 (1 + (3 - 1))).1
      (calcSumFl [Fl.num 0, Fl.num 1, Fl.num 2, Fl.num 0] 1 (1 + (3 - 1))).2 1 1 (1 + (3 - 1))
        = Fl.nan ∧
    findBestCCFl 1 [0] [Fl.num 0, Fl.num 1, Fl.num 2, Fl.num 0]
      [Fl.num 0, Fl.num 0, Fl.num 0, Fl.num 0] 1 3 1 = (Fl.num (-1), -1) :=
  ⟨(calcCCFl_flat 1 [0] [Fl.num 0, Fl.num 1, Fl.num 2, Fl.num 0]
      [Fl.num 0, Fl.num 0, Fl.num 0, Fl.num 0] 1 3 1 (by norm_num) le_rfl (by decide)).1 _ _ 1 0
      (fun j _ => (intWindow_silent 0 j (by assumption)).1),
    (calcCCFl_flat 1 [0] [Fl.num 0, Fl.num 1, Fl.num 2, Fl.num 0]
      [Fl.num 0, Fl.num 0, Fl.num 0, Fl.num 0] 1 3 1 (by norm_num) le_rfl (by decide)).2.1 1 1 _ _ 3
      (by norm_num) (by norm_num) (by norm_num) intWindow_ramp (intWindow_silent 1)
      (Or.inr (fun _ _ _ _ => rfl)),
    (calcCCFl_flat 1 [0] [Fl.num 0, Fl.num 1, Fl.num 2, Fl.num 0]
      [Fl.num 0, Fl.num 0, Fl.num 0, Fl.num 0] 1 3 1 (by norm_num) le_rfl (by decide)).2.2.2
      (fun o ho1 ho2 => by
        have ho : o = -1 ∨ o = 0 := by omega
        rcases ho with rfl | rfl <;> decide!)⟩

/-- C7, counterexample: on the silent window the value of calcCC is NaN, not -1; on the
constant window (c, c) with c = 1 + 2^-12 + 2^-23 it is 0; and for the recordings
(0, 0, 1 + 2^-23, 0) and (3, 3, 3, 3) every score is +infinity, which findBestCC returns. -/
theorem calcCCFl_flat_fails :
    ccAtFl [Fl.num 0, Fl.num 1, Fl.num 2, Fl.num 0] [Fl.num 0, Fl.num 0, Fl.num 0, Fl.num 0] 1 3 0
      = Fl.nan ∧
    ccAtFl [Fl.num 0, Fl.num 1]
      [Fl.num (1 + 1 / 2 ^ 12 + 1 / 2 ^ 23), Fl.num (1 + 1 / 2 ^ 12 + 1 / 2 ^ 23)] 0 2 0
      = Fl.num 0 ∧
    findBestCCFl 1 [0] [Fl.num 0, Fl.num 0, Fl.num (1 + 1 / 2 ^ 23), Fl.num 0]
      [Fl.num 3, Fl.num 3, Fl.num 3, Fl.num 3] 1 3 1 = (Fl.pinf, -1) := by
  refine ⟨by decide!, by decide!, by decide!⟩

end FloatKernelClaims5
end Keytap

/-! ## The ring buffer in the arithmetic of the program: results -/

namespace Keytap
section DyadicTheory

theorem roundQ_dyadic (q : ℚ) (z : Bool) (h : IsDyadic53 q) (h0 : q ≠ 0) :
    roundQ binary64 q z = Fl.num q := by
  obtain ⟨n, s, hn, hs, hq⟩ := h
  have hn0 : n ≠ 0 := by
    rintro rfl
    apply h0
    rw [hq]
    simp
  have hb3 := abs_lt.1 hn
  have hb2 : n.natAbs < 2 ^ 53 := by omega
  have habs : |q| = ((n.natAbs : Nat) : ℚ) * (2 : ℚ) ^ (-(s : Int)) := by
    rw [hq, abs_div, abs_of_pos (by positivity : (0 : ℚ) < 2 ^ s), zpow_neg, zpow_natCast,
      Nat.cast_natAbs, div_eq_mul_inv]
    push_cast
    rfl
  refine roundQ_exact binary64 q z n.natAbs (-(s : Int)) habs (by omega) hb2 ?_ ?_
  · have : binary64.emin - (binary64.prec : Int) + 1 = -1074 := by decide
    rw [this]
    omega
  · rw [habs]
    have h1 : ((n.natAbs : Nat) : ℚ) < 2 ^ 53 := by exact_mod_cast hb2
    have h2 : (2 : ℚ) ^ (-(s : Int)) ≤ 1 := by
      rw [zpow_neg, zpow_natCast]
      exact inv_le_one_of_one_le₀ (one_le_pow₀ (by norm_num))
    have h3 : (0 : ℚ) < (2 : ℚ) ^ (-(s : Int)) := two_zpow_pos _
    have h4 : ((2 : ℚ) ^ 53) < (2 : ℚ) ^ (binary64.emax + 1) := by
      have : (2 : ℚ) ^ ((53 : ℕ) : Int) < (2 : ℚ) ^ (binary64.emax + 1) := by
        rw [two_zpow_lt_iff]
        decide
      rwa [zpow_natCast] at this
    calc ((n.natAbs : Nat) : ℚ) * (2 : ℚ) ^ (-(s : Int))
        ≤ ((n.natAbs : Nat) : ℚ) * 1 := mul_le_mul_of_nonneg_left h2 (by positivity)
      _ < (2 : ℚ) ^ (binary64.emax + 1) := by rw [mul_one]; exact lt_trans h1 h4

/-- Adding to a non-negative value is exact when the sum is a dyadic value of double. -/
theorem add64_dyadic (a b : ℚ) (ha : 0 ≤ a) (h : a + b ≠ 0 → IsDyadic53 (a + b)) :
    Fl.add binary64 (Fl.num a) (Fl.num b) = Fl.num (a + b) := by
  rw [Fl_add_num]
  have hs : (decide (a < 0) && decide (b < 0)) = false := by
    simp [not_lt.2 ha]
  rw [hs]
  by_cases h0 : a + b = 0
  · rw [h0, roundQ_zero]
    simp
  · exact roundQ_dyadic _ _ (h h0) h0

/-- Subtracting from a non-negative value is exact when the difference is a dyadic value of
double. -/
theorem sub64_dyadic (a b : ℚ) (ha : 0 ≤ a) (h : a - b ≠ 0 → IsDyadic53 (a - b)) :
    Fl.sub binary64 (Fl.num a) (Fl.num b) = Fl.num (a - b) := by
  unfold Fl.sub
  by_cases hb : b = 0
  · subst hb
    simp only [Fl.neg, if_true, sub_zero] at h ⊢
    by_cases h0 : a = 0
    · subst h0
      simp [Fl.add, Fl.isNan, Fl.isFin, Fl.val, Fl.sign, roundQ_zero]
    · have := roundQ_dyadic a (decide (a < 0) && true) (h h0) h0
      simp only [Fl.add, Fl.isNan, Fl.isFin, Fl.val, Fl.sign, Bool.or_self, Bool.false_eq_true,
        if_false, Bool.and_self, if_true, add_zero]
      exact this
  · simp only [Fl.neg, if_neg hb]
    have := add64_dyadic a (-b) ha (by rw [← sub_eq_add_neg]; exact h)
    rw [this, sub_eq_add_neg]

/-- Multiplying a non-negative value by a positive integer is exact when the product is a dyadic
value of double. -/
theorem mul64_dyadic (a : ℚ) (c : Int) (ha : 0 ≤ a) (hc : 0 < c)
    (h : a * (c : ℚ) ≠ 0 → IsDyadic53 (a * (c : ℚ))) :
    Fl.mul binary64 (Fl.num a) (Fl.ofInt c) = Fl.num (a * (c : ℚ)) := by
  unfold Fl.ofInt
  rw [Fl_mul_num]
  have hcq : (0 : ℚ) < (c : ℚ) := by exact_mod_cast hc
  have hs : (decide (a < 0) != decide ((c : ℚ) < 0)) = false := by
    simp [not_lt.2 ha, not_lt.2 (le_of_lt hcq)]
  rw [hs]
  by_cases h0 : a * (c : ℚ) = 0
  · rw [h0, roundQ_zero]
    simp
  · exact roundQ_dyadic _ _ (h h0) h0

/-- Dividing a non-negative value by a positive integer is exact when the quotient is a dyadic
value of double. -/
theorem div64_dyadic (a : ℚ) (c : Int) (ha : 0 ≤ a) (hc : 0 < c)
    (h : a / (c : ℚ) ≠ 0 → IsDyadic53 (a / (c : ℚ))) :
    Fl.div binary64 (Fl.num a) (Fl.ofInt c) = Fl.num (a / (c : ℚ)) := by
  unfold Fl.ofInt
  have hcq : (0 : ℚ) < (c : ℚ) := by exact_mod_cast hc
  have e : Fl.div binary64 (Fl.num a) (Fl.num (c : ℚ))
      = roundQ binary64 (a / (c : ℚ)) (decide (a < 0) != decide ((c : ℚ) < 0)) := by
    simp [Fl.div, Fl.isNan, Fl.isFin, Fl.val, Fl.sign, ne_of_gt hcq]
  rw [e]
  have hs : (decide (a < 0) != decide ((c : ℚ) < 0)) = false := by
    simp [not_lt.2 ha, not_lt.2 (le_of_lt hcq)]
  rw [hs]
  by_cases h0 : a / (c : ℚ) = 0
  · rw [h0, roundQ_zero]
    simp
  · exact roundQ_dyadic _ _ (h h0) h0

end DyadicTheory
end Keytap

namespace Keytap
section FloatRing

theorem sampleAtFl_map (l : List ℚ) (i : Int) :
    sampleAtFl (l.map Fl.num) i = Fl.num (sampleAt l i) := by
  unfold sampleAtFl sampleAt
  split_ifs
  · rw [List.getD_eq_getElem?_getD, List.getD_eq_getElem?_getD, List.getElem?_map]
    cases l[i.toNat]? <;> rfl
  · rfl

theorem rbUpdateFl_eq (rb : RingBuffer Fl) (frames : Record Fl) :
    rbUpdateFl rb frames = (frames.flatMap (fun frame => frame)).foldl rbPushFl rb := by
  unfold rbUpdateFl
  induction frames generalizing rb with
  | nil => rfl
  | cons f fs ih =>
    simp only [List.foldl_cons, List.flatMap_cons, List.foldl_append]
    exact ih _

theorem rbRunFl_eq (rb : RingBuffer Fl) (records : List (Record Fl)) :
    records.foldl rbUpdateFl rb =
      (records.flatMap (fun frames => frames.flatMap (fun frame => frame))).foldl rbPushFl rb := by
  induction records generalizing rb with
  | nil => rfl
  | cons r rs ih =>
    simp only [List.foldl_cons, List.flatMap_cons, List.foldl_append]
    rw [ih, rbUpdateFl_eq]

theorem rbReachFl_eq (records : List (Record Fl)) (xs : List Fl) :
    rbReachFl records xs =
      ((records.flatMap (fun frames => frames.flatMap (fun frame => frame))) ++ xs).foldl
        rbPushFl rbInitFl := by
  unfold rbReachFl
  rw [rbRunFl_eq, List.foldl_append]

theorem rbPushFl_samples (rb : RingBuffer Fl) (sample : Fl) :
    (rbPushFl rb sample).rbSamples = rb.rbSamples.set rb.rbBegin.toNat (Fl.abs sample) := rfl

theorem rbPushFl_begin (rb : RingBuffer Fl) (sample : Fl) :
    (rbPushFl rb sample).rbBegin =
      if rb.rbBegin + 1 ≥ (rb.rbSamples.length : Int) then 0 else rb.rbBegin + 1 := rfl

theorem rbPushFl_average (rb : RingBuffer Fl) (sample : Fl) :
    (rbPushFl rb sample).rbAverage =
      Fl.div binary64
        (Fl.add binary64
          (Fl.sub binary64
            (Fl.mul binary64 rb.rbAverage (Fl.ofInt (rb.rbSamples.length : Int)))
            (sampleAtFl rb.rbSamples rb.rbBegin))
          (Fl.abs sample))
        (Fl.ofInt (rb.rbSamples.length : Int)) := rfl

theorem rbPush_samples (rb : RingBuffer ℚ) (sample : ℚ) :
    (rbPush rb sample).rbSamples = rb.rbSamples.set rb.rbBegin.toNat |sample| := rfl

theorem rbPush_begin (rb : RingBuffer ℚ) (sample : ℚ) :
    (rbPush rb sample).rbBegin =
      if rb.rbBegin + 1 ≥ (rb.rbSamples.length : Int) then 0 else rb.rbBegin + 1 := rfl

theorem rbPush_average (rb : RingBuffer ℚ) (sample : ℚ) :
    (rbPush rb sample).rbAverage =
      (rb.rbAverage * (rb.rbSamples.length : ℚ) - sampleAt rb.rbSamples rb.rbBegin + |sample|)
        / (rb.rbSamples.length : ℚ) := rfl

/-- The places of the ring buffer of the program hold the values that the ring buffer of the
exact model holds, and the write index is the same, after pushes of finite values. -/
theorem ringFl_slots (qs : List ℚ) :
    ((qs.map Fl.num).foldl rbPushFl rbInitFl).rbSamples
        = ((qs.foldl rbPush rbInit).rbSamples).map Fl.num ∧
    ((qs.map Fl.num).foldl rbPushFl rbInitFl).rbBegin = (qs.foldl rbPush rbInit).rbBegin := by
  induction qs using List.reverseRecOn with
  | nil =>
    constructor
    · simp [rbInitFl, rbInit]
    · rfl
  | append_singleton qs q ih =>
    obtain ⟨h1, h2⟩ := ih
    rw [List.map_append, List.foldl_append, List.foldl_append]
    simp only [List.map_cons, List.map_nil, List.foldl_cons, List.foldl_nil]
    constructor
    · rw [rbPushFl_samples, rbPush_samples, h1, h2, List.map_set]
      rfl
    · rw [rbPushFl_begin, rbPush_begin, h1, h2, List.length_map]

/-- The entry that the next push overwrites. -/
theorem ring_oldest (qs : List ℚ) :
    sampleAt (qs.foldl rbPush rbInit).rbSamples (qs.foldl rbPush rbInit).rbBegin
      = oldestEntry qs := by
  obtain ⟨_, h2, _, _, h5⟩ := ring_state qs
  have := h5 0 (by decide)
  rw [h2]
  unfold sampleAt oldestEntry
  rw [if_pos (Int.ofNat_nonneg _), Int.toNat_ofNat]
  simpa using this

/-- The mean of the ring buffer of the program after one more push of a finite value. -/
theorem ringFl_average_step (qs : List ℚ) (q : ℚ) :
    (((qs ++ [q]).map Fl.num).foldl rbPushFl rbInitFl).rbAverage
      = avgStep ((qs.map Fl.num).foldl rbPushFl rbInitFl).rbAverage
          (Fl.num (oldestEntry qs)) (Fl.num |q|) := by
  obtain ⟨h1, h2⟩ := ringFl_slots qs
  obtain ⟨hl, _⟩ := ring_state qs
  rw [List.map_append, List.foldl_append]
  simp only [List.map_cons, List.map_nil, List.foldl_cons, List.foldl_nil]
  rw [rbPushFl_average, h1, h2, List.length_map, hl, sampleAtFl_map, ring_oldest]
  rfl

end FloatRing
end Keytap

namespace Keytap
section FloatRingRegime

theorem ring_entries_scaled (s : ℕ) (qs : List ℚ) (h : ∀ q ∈ qs, IsScaledSample s q) :
    ∀ e ∈ (qs.foldl rbPush rbInit).rbSamples,
      ∃ n : Int, 0 ≤ n ∧ n ≤ 2 ^ 35 ∧ e = (n : ℚ) / 2 ^ s := by
  induction qs using List.reverseRecOn with
  | nil =>
    intro e he
    have : e = 0 := by
      simp only [List.foldl_nil, rbInit] at he
      exact List.eq_of_mem_replicate he
    exact ⟨0, le_rfl, by norm_num, by simp [this]⟩
  | append_singleton qs q ih =>
    intro e he
    rw [List.foldl_append] at he
    simp only [List.foldl_cons, List.foldl_nil] at he
    rw [rbPush_samples] at he
    rcases List.mem_or_eq_of_mem_set he with h1 | h1
    · exact ih (fun x hx => h x (List.mem_append_left _ hx)) e h1
    · obtain ⟨n, hn, hq⟩ := h q (List.mem_append_right _ (List.mem_singleton.2 rfl))
      refine ⟨|n|, abs_nonneg n, hn, ?_⟩
      rw [h1, hq, abs_div, abs_of_pos (by positivity : (0 : ℚ) < 2 ^ s)]
      push_cast
      rfl

theorem scaled_sum (s : ℕ) (X : Int) (l : List ℚ)
    (h : ∀ e ∈ l, ∃ n : Int, 0 ≤ n ∧ n ≤ X ∧ e = (n : ℚ) / 2 ^ s) :
    ∃ N : Int, 0 ≤ N ∧ N ≤ (l.length : Int) * X ∧ l.sum = (N : ℚ) / 2 ^ s := by
  induction l with
  | nil => exact ⟨0, le_rfl, by simp, by simp⟩
  | cons x l ih =>
    obtain ⟨N, hN0, hN1, hN⟩ := ih (fun e he => h e (List.mem_cons_of_mem _ he))
    obtain ⟨n, hn0, hn1, hn⟩ := h x (List.mem_cons_self _ _)
    refine ⟨n + N, by omega, ?_, ?_⟩
    · simp only [List.length_cons]
      push_cast
      linarith
    · rw [List.sum_cons, hN, hn]
      push_cast
      ring

theorem isDyadic53_of_scaled (N : Int) (s : ℕ) (h0 : 0 ≤ N) (h1 : N ≤ 2 ^ 52) (hs : s ≤ 1000) :
    IsDyadic53 ((N : ℚ) / 2 ^ s) :=
  ⟨N, s, by rw [abs_of_nonneg h0]; omega, hs, rfl⟩

theorem ring_average_step (qs : List ℚ) (q : ℚ) :
    ((qs ++ [q]).foldl rbPush rbInit).rbAverage
      = ((qs.foldl rbPush rbInit).rbAverage * (kRingBufferSize : ℚ) - oldestEntry qs + |q|)
          / (kRingBufferSize : ℚ) := by
  obtain ⟨hl, _⟩ := ring_state qs
  rw [List.foldl_append]
  simp only [List.foldl_cons, List.foldl_nil]
  rw [rbPush_average, hl, ring_oldest]

/-- On samples that are integer multiples of 2^-s of magnitude at most 2^35 * 2^-s the mean
kept by the program is the mean of the exact model: no operation rounds. -/
theorem ringFl_average_exact (s : ℕ) (hs : s ≤ 900) (qs : List ℚ)
    (h : ∀ q ∈ qs, IsScaledSample s q) :
    ((qs.map Fl.num).foldl rbPushFl rbInitFl).rbAverage
      = Fl.num (qs.foldl rbPush rbInit).rbAverage := by
  induction qs using List.reverseRecOn with
  | nil => rfl
  | append_singleton qs q ih =>
    have hqs : ∀ x ∈ qs, IsScaledSample s x := fun x hx => h x (List.mem_append_left _ hx)
    have hq : IsScaledSample s q := h q (List.mem_append_right _ (List.mem_singleton.2 rfl))
    rw [ringFl_average_step, ih hqs, ring_average_step]
    obtain ⟨hl, hb, havg, hnn, _⟩ := ring_state qs
    have hC : (kRingBufferSize : ℚ) = 131072 := by norm_num [kRingBufferSize]
    have hCi : ((kRingBufferSize : Int) : ℚ) = 131072 := by norm_num [kRingBufferSize]
    have hCz : (kRingBufferSize : Int) = 131072 := by norm_num [kRingBufferSize]
    -- the sum of the entries before the push
    obtain ⟨N, hN0, hN1, hN⟩ := scaled_sum s (2 ^ 35) _ (ring_entries_scaled s qs hqs)
    rw [hl, hCz] at hN1
    have hAC : (qs.foldl rbPush rbInit).rbAverage * (kRingBufferSize : ℚ) = (N : ℚ) / 2 ^ s := by
      rw [havg, hN, hC]
      field_simp
      ring
    -- the sum without the overwritten entry
    have hblt : (qs.foldl rbPush rbInit).rbBegin.toNat < (qs.foldl rbPush rbInit).rbSamples.length := by
      rw [hl, hb, Int.toNat_ofNat]
      exact Nat.mod_lt _ (by decide)
    have hold : oldestEntry qs = (qs.foldl rbPush rbInit).rbSamples.getD
        (qs.foldl rbPush rbInit).rbBegin.toNat 0 := by
      rw [← ring_oldest]
      unfold sampleAt
      rw [if_pos (by rw [hb]; exact Int.ofNat_nonneg _)]
    obtain ⟨T, hT0, hT1, hT⟩ := scaled_sum s (2 ^ 35)
      ((qs.foldl rbPush rbInit).rbSamples.set (qs.foldl rbPush rbInit).rbBegin.toNat 0)
      (fun e he => by
        rcases List.mem_or_eq_of_mem_set he with h1 | h1
        · exact ring_entries_scaled s qs hqs e h1
        · exact ⟨0, le_rfl, by norm_num, by simp [h1]⟩)
    rw [List.length_set, hl, hCz] at hT1
    rw [sum_set _ _ _ hblt, ← hold, hN, add_zero] at hT
    -- the sum after the push
    obtain ⟨N', hN'0, hN'1, hN'⟩ := scaled_sum s (2 ^ 35)
      ((qs.foldl rbPush rbInit).rbSamples.set (qs.foldl rbPush rbInit).rbBegin.toNat |q|)
      (fun e he => by
        rcases List.mem_or_eq_of_mem_set he with h1 | h1
        · exact ring_entries_scaled s qs hqs e h1
        · obtain ⟨n, hn, hq2⟩ := hq
          refine ⟨|n|, abs_nonneg n, hn, ?_⟩
          rw [h1, hq2, abs_div, abs_of_pos (by positivity : (0 : ℚ) < 2 ^ s)]
          push_cast
          rfl)
    rw [List.length_set, hl, hCz] at hN'1
    rw [sum_set _ _ _ hblt, ← hold, hN] at hN'
    have b52 : (131072 : Int) * 2 ^ 35 = 2 ^ 52 := by norm_num
    rw [b52] at hN1 hT1 hN'1
    have hA0 : 0 ≤ (qs.foldl rbPush rbInit).rbAverage := by
      rw [havg]
      exact div_nonneg (List.sum_nonneg hnn) (by positivity)
    unfold avgStep
    rw [mul64_dyadic _ _ hA0 (by decide) (by
        intro _
        rw [hCi, ← hC, hAC]
        exact isDyadic53_of_scaled N s hN0 hN1 (by omega)),
      hCi, ← hC,
      sub64_dyadic _ _ (by rw [hAC]; positivity) (by
        intro _
        rw [hAC, hT]
        exact isDyadic53_of_scaled T s hT0 hT1 (by omega)),
      add64_dyadic _ _ (by rw [hAC, hT]; positivity) (by
        intro _
        rw [hAC, hN']
        exact isDyadic53_of_scaled N' s hN'0 hN'1 (by omega))]
    have hdiv := div64_dyadic
      ((qs.foldl rbPush rbInit).rbAverage * (kRingBufferSize : ℚ) - oldestEntry qs + |q|)
      (kRingBufferSize : Int) (by rw [hAC, hN']; positivity) (by decide) (by
        intro _
        rw [hAC, hN', hCi]
        refine ⟨N', s + 17, by rw [abs_of_nonneg hN'0]; omega, by omega, ?_⟩
        rw [pow_add]
        norm_num
        field_simp)
    rw [hdiv, hCi, hC]

end FloatRingRegime
end Keytap

namespace Keytap
section FloatRingClaims

theorem flatten_recordFl (records : List (Record ℚ)) :
    ((records.map recordFl).flatMap (fun frames => frames.flatMap (fun frame => frame)))
      = (records.flatMap (fun frames => frames.flatMap (fun frame => frame))).map Fl.num := by
  induction records with
  | nil => rfl
  | cons r rs ih =>
    simp only [List.map_cons, List.flatMap_cons, List.map_append, ih]
    congr 1
    unfold recordFl
    induction r with
    | nil => rfl
    | cons f fs ih2 => simp only [List.map_cons, List.flatMap_cons, List.map_append, ih2]

theorem rbReachFl_image (records : List (Record ℚ)) (xs : List ℚ) :
    rbReachFl (records.map recordFl) (xs.map Fl.num)
      = (((records.flatMap (fun frames => frames.flatMap (fun frame => frame))) ++ xs).map
          Fl.num).foldl rbPushFl rbInitFl := by
  rw [rbReachFl_eq, flatten_recordFl, List.map_append]

theorem map_val_num (l : List ℚ) : (l.map Fl.num).map Fl.val = l := by
  induction l with
  | nil => rfl
  | cons x l ih => simp only [List.map_cons, ih]; rfl

/-- C8 (amended): in the arithmetic of the program, in the start state and after every push
of a finite sample, the capacity is kRingBufferSize, the write index is in
[0, kRingBufferSize), every entry is a non-negative number, a push writes |sample| at the write
index, and the entry j places after the write index is the value pushed kRingBufferSize - j
pushes ago (or the initial 0), so that a push overwrites the oldest entry; rbAverage is the sum
of the entries divided by kRingBufferSize when every pushed sample is an integer multiple of
2^-s of magnitude at most 2^35 * 2^-s for one s (no operation of the update rounds then). -/
theorem ringFl_invariant (records : List (Record ℚ)) (xs : List ℚ) :
    (rbReachFl (records.map recordFl) (xs.map Fl.num)).rbSamples.length = kRingBufferSize ∧
    (0 ≤ (rbReachFl (records.map recordFl) (xs.map Fl.num)).rbBegin ∧
      (rbReachFl (records.map recordFl) (xs.map Fl.num)).rbBegin < (kRingBufferSize : Int)) ∧
    (∀ e ∈ (rbReachFl (records.map recordFl) (xs.map Fl.num)).rbSamples,
      ∃ q : ℚ, 0 ≤ q ∧ e = Fl.num q) ∧
    (∀ sample : Fl,
      (rbPushFl (rbReachFl (records.map recordFl) (xs.map Fl.num)) sample).rbSamples =
        (rbReachFl (records.map recordFl) (xs.map Fl.num)).rbSamples.set
          (rbReachFl (records.map recordFl) (xs.map Fl.num)).rbBegin.toNat (Fl.abs sample)) ∧
    (∀ j : ℕ, j < kRingBufferSize →
      sampleAtFl (rbReachFl (records.map recordFl) (xs.map Fl.num)).rbSamples
          (((rbReachFl (records.map recordFl) (xs.map Fl.num)).rbBegin + (j : Int))
            % (kRingBufferSize : Int)) =
        Fl.num ((pushedValues records xs).reverse.getD (kRingBufferSize - 1 - j) 0)) ∧
    (∀ s : ℕ, s ≤ 900 →
      (∀ q ∈ (records.flatMap (fun frames => frames.flatMap (fun frame => frame))) ++ xs,
        IsScaledSample s q) →
      (rbReachFl (records.map recordFl) (xs.map Fl.num)).rbAverage =
        Fl.num (((rbReachFl (records.map recordFl) (xs.map Fl.num)).rbSamples.map Fl.val).sum
          / (kRingBufferSize : ℚ))) := by
  obtain ⟨e1, e2, e3, ⟨e4, e4'⟩, _, e6⟩ := ring_invariant records xs
  have hs := ringFl_slots ((records.flatMap (fun frames => frames.flatMap (fun frame => frame))) ++ xs)
  rw [← rbReachFl_image, ← rbReach_eq] at hs
  obtain ⟨hs1, hs2⟩ := hs
  refine ⟨?_, ?_, ?_, fun _ => rfl, ?_, ?_⟩
  · rw [hs1, List.length_map, e1]
  · rw [hs2]
    exact ⟨e4, e4'⟩
  · intro e he
    rw [hs1] at he
    obtain ⟨q, hq, rfl⟩ := List.mem_map.1 he
    exact ⟨q, e3 q hq, rfl⟩
  · intro j hj
    rw [hs1, hs2, sampleAtFl_map, e6 j hj]
  · intro s hs900 hreg
    rw [hs1, map_val_num, ← e2, rbReachFl_image, rbReach_eq]
    exact ringFl_average_exact s hs900 _ hreg

theorem oldestEntry_short (qs : List ℚ) (h : qs.length < kRingBufferSize) :
    oldestEntry qs = 0 := by
  unfold oldestEntry
  apply List.getD_eq_default
  rw [List.length_reverse, List.length_map]
  omega

/-- C8, witness: after the pushes 1 and 1/2 the mean is the sum of the entries divided by the
capacity. -/
theorem ringFl_invariant_witness :
    (rbReachFl (([] : List (Record ℚ)).map recordFl) (([1, 1 / 2] : List ℚ).map Fl.num)).rbAverage =
      Fl.num (((rbReachFl (([] : List (Record ℚ)).map recordFl)
          (([1, 1 / 2] : List ℚ).map Fl.num)).rbSamples.map Fl.val).sum
        / (kRingBufferSize : ℚ)) :=
  (ringFl_invariant [] [1, 1 / 2]).2.2.2.2.2 1 (by norm_num) (by
    intro q hq
    simp only [List.flatMap_nil, List.nil_append, List.mem_cons, List.mem_singleton,
      List.not_mem_nil, or_false] at hq
    rcases hq with rfl | rfl
    · exact ⟨2, by norm_num, by norm_num⟩
    · exact ⟨1, by norm_num, by norm_num⟩)

/-- C8, counterexample: after the pushes 1 and 2^-60 the entries sum to 1 + 2^-60, and the
mean kept by the program is 2^-17: the second push was absorbed by the rounding of
`rbAverage += acur`. -/
theorem ringFl_invariant_fails :
    (rbReachFl [] [Fl.num 1, Fl.num (1 / 2 ^ 60)]).rbAverage = Fl.num (1 / 2 ^ 17) ∧
    ((rbReachFl [] [Fl.num 1, Fl.num (1 / 2 ^ 60)]).rbSamples.map Fl.val).sum
        / (kRingBufferSize : ℚ) = (1 + 1 / 2 ^ 60) / 2 ^ 17 ∧
    (1 / 2 ^ 17 : ℚ) ≠ (1 + 1 / 2 ^ 60) / 2 ^ 17 := by
  have himg := rbReachFl_image [] [1, 1 / 2 ^ 60]
  simp only [List.map_nil, List.flatMap_nil, List.nil_append, List.map_cons] at himg
  have o0 : oldestEntry [] = 0 := oldestEntry_short [] (by decide)
  have o1 : oldestEntry [1] = 0 := oldestEntry_short [1] (by decide)
  have hC : (kRingBufferSize : ℚ) = 131072 := by norm_num [kRingBufferSize]
  refine ⟨?_, ?_, by norm_num⟩
  · rw [himg]
    have h1 := ringFl_average_step [] 1
    have h2 := ringFl_average_step [1] (1 / 2 ^ 60)
    simp only [List.nil_append, List.map_cons, List.map_nil, List.foldl_cons, List.foldl_nil,
      List.singleton_append] at h1 h2
    simp only [List.foldl_cons, List.foldl_nil]
    rw [h2, h1, o0, o1]
    have a0 : rbInitFl.rbAverage = Fl.num 0 := rfl
    rw [a0]
    decide!
  · have hs := (ringFl_slots [1, 1 / 2 ^ 60]).1
    simp only [List.map_cons, List.map_nil] at hs
    rw [himg, hs, map_val_num]
    obtain ⟨_, _, havg, _⟩ := ring_state ([1, 1 / 2 ^ 60] : List ℚ)
    rw [← havg]
    have h1 := ring_average_step [] (1 : ℚ)
    have h2 := ring_average_step [1] (1 / 2 ^ 60 : ℚ)
    simp only [List.nil_append, List.singleton_append] at h1 h2
    rw [h2, h1, o0, o1]
    have a0 : (([] : List ℚ).foldl rbPush rbInit).rbAverage = 0 := rfl
    rw [a0, hC, abs_of_pos (by norm_num : (0 : ℚ) < 1 / 2 ^ 60)]
    norm_num

/-- C9 (amended): in the arithmetic of the program, from every state that the ring buffer
reaches by pushes of integer multiples of 2^-s of magnitude at most 2^35 * 2^-s,
kRingBufferSize consecutive pushes of one such value x >= 0 leave rbAverage = x. -/
theorem ringFl_mean_constant (s : ℕ) (hs : s ≤ 900) (records : List (Record ℚ)) (xs : List ℚ)
    (x : ℚ) (hx : 0 ≤ x)
    (hreg : ∀ q ∈ (records.flatMap (fun frames => frames.flatMap (fun frame => frame))) ++ xs,
      IsScaledSample s q)
    (hxs : IsScaledSample s x) :
    ((List.replicate kRingBufferSize (Fl.num x)).foldl rbPushFl
      (rbReachFl (records.map recordFl) (xs.map Fl.num))).rbAverage = Fl.num x := by
  rw [rbReachFl_image, ← List.foldl_append]
  have e : List.replicate kRingBufferSize (Fl.num x)
      = (List.replicate kRingBufferSize x).map Fl.num := by
    rw [List.map_replicate]
  rw [e, ← List.map_append]
  rw [ringFl_average_exact s hs _ (by
    intro q hq
    rcases List.mem_append.1 hq with h | h
    · exact hreg q h
    · rw [List.eq_of_mem_replicate h]
      exact hxs)]
  rw [List.foldl_append, ← rbReach_eq, ring_mean_constant records xs x hx]

/-- C9, witness: kRingBufferSize pushes of 1/2 after the push 1. -/
theorem ringFl_mean_constant_witness :
    ((List.replicate kRingBufferSize (Fl.num (1 / 2))).foldl rbPushFl
      (rbReachFl (([] : List (Record ℚ)).map recordFl) (([1] : List ℚ).map Fl.num))).rbAverage
      = Fl.num (1 / 2) :=
  ringFl_mean_constant 1 (by norm_num) [] [1] (1 / 2) (by norm_num) (by
    intro q hq
    simp only [List.flatMap_nil, List.nil_append, List.mem_singleton] at hq
    rw [hq]
    exact ⟨2, by norm_num, by norm_num⟩) ⟨1, by norm_num, by norm_num⟩

end FloatRingClaims
end Keytap

namespace Keytap
section FloatRingDrift

theorem oldestEntry_at (qs : List ℚ) (h : kRingBufferSize ≤ qs.length) :
    oldestEntry qs = |qs.getD (qs.length - kRingBufferSize) 0| := by
  have hC : 0 < kRingBufferSize := by decide
  unfold oldestEntry
  rw [List.getD_eq_getElem?_getD, List.getD_eq_getElem?_getD,
    List.getElem?_reverse (by rw [List.length_map]; omega), List.length_map, List.getElem?_map]
  have e : qs.length - 1 - (kRingBufferSize - 1) = qs.length - kRingBufferSize := by omega
  rw [e]
  have hlt : qs.length - kRingBufferSize < qs.length := by omega
  rw [List.getElem?_eq_getElem hlt]
  rfl

theorem drift_start :
    (((1 :: List.replicate 0 (1 / 2 ^ 60 : ℚ)).map Fl.num).foldl rbPushFl rbInitFl).rbAverage
      = Fl.num (1 / 2 ^ 17) := by
  have h1 := ringFl_average_step [] 1
  have o0 : oldestEntry [] = 0 := oldestEntry_short [] (by decide)
  simp only [List.nil_append, List.map_cons, List.map_nil, List.foldl_cons, List.foldl_nil] at h1
  simp only [List.replicate_zero, List.map_cons, List.map_nil, List.foldl_cons, List.foldl_nil]
  rw [h1, o0]
  have a0 : rbInitFl.rbAverage = Fl.num 0 := rfl
  rw [a0]
  decide!

/-- After the push 1, fewer than kRingBufferSize pushes of 2^-60 leave the mean at 2^-17:
each of them is absorbed. -/
theorem drift_absorb (j : ℕ) (hj : j + 1 ≤ kRingBufferSize) :
    (((1 :: List.replicate j (1 / 2 ^ 60 : ℚ)).map Fl.num).foldl rbPushFl rbInitFl).rbAverage
      = Fl.num (1 / 2 ^ 17) := by
  induction j with
  | zero => exact drift_start
  | succ j ih =>
    have e : (1 :: List.replicate (j + 1) (1 / 2 ^ 60 : ℚ))
        = (1 :: List.replicate j (1 / 2 ^ 60 : ℚ)) ++ [1 / 2 ^ 60] := by
      rw [List.replicate_succ', List.cons_append]
    rw [e, ringFl_average_step, ih (by omega),
      oldestEntry_short _ (by rw [List.length_cons, List.length_replicate]; omega)]
    decide!

/-- The push of 2^-60 that overwrites the entry 1 leaves the mean 2^-77, although every entry
is then 2^-60. -/
theorem drift_full :
    (((1 :: List.replicate kRingBufferSize (1 / 2 ^ 60 : ℚ)).map Fl.num).foldl rbPushFl
      rbInitFl).rbAverage = Fl.num (1 / 2 ^ 77) := by
  obtain ⟨n, hn⟩ : ∃ n, kRingBufferSize = n + 1 := ⟨131071, by decide⟩
  have e : (1 :: List.replicate kRingBufferSize (1 / 2 ^ 60 : ℚ))
      = (1 :: List.replicate n (1 / 2 ^ 60 : ℚ)) ++ [1 / 2 ^ 60] := by
    rw [hn, List.replicate_succ', List.cons_append]
  rw [e, ringFl_average_step, drift_absorb n (by omega)]
  have ho : oldestEntry (1 :: List.replicate n (1 / 2 ^ 60 : ℚ)) = 1 := by
    rw [oldestEntry_at _ (by rw [List.length_cons, List.length_replicate]; omega)]
    have : (1 :: List.replicate n (1 / 2 ^ 60 : ℚ)).length - kRingBufferSize = 0 := by
      rw [List.length_cons, List.length_replicate]
      omega
    rw [this]
    simp
  rw [ho]
  decide!

theorem oldestEntry_drift (t : ℕ) (ht : t < kRingBufferSize) :
    oldestEntry ((1 :: List.replicate kRingBufferSize (1 / 2 ^ 60 : ℚ)) ++ List.replicate t 0)
      = 1 / 2 ^ 60 := by
  rw [oldestEntry_at _ (by
    rw [List.length_append, List.length_cons, List.length_replicate, List.length_replicate]
    omega)]
  have e : ((1 :: List.replicate kRingBufferSize (1 / 2 ^ 60 : ℚ)) ++ List.replicate t 0).length
      - kRingBufferSize = t + 1 := by
    rw [List.length_append, List.length_cons, List.length_replicate, List.length_replicate]
    omega
  rw [e, List.getD_eq_getElem?_getD, List.getElem?_append_left (by
    rw [List.length_cons, List.length_replicate]; omega)]
  rw [List.getElem?_cons_succ, List.getElem?_replicate, if_pos ht]
  simp

/-- After the push 1 and kRingBufferSize pushes of 2^-60, five pushes of 0 leave a negative
mean. -/
theorem drift_negative :
    ((((1 :: List.replicate kRingBufferSize (1 / 2 ^ 60 : ℚ)) ++ [0, 0, 0, 0, 0]).map
      Fl.num).foldl rbPushFl rbInitFl).rbAverage = Fl.num (-(1 / 2 ^ 75)) := by
  have hC : 5 < kRingBufferSize := by decide
  have s1 := ringFl_average_step
    ((1 :: List.replicate kRingBufferSize (1 / 2 ^ 60 : ℚ)) ++ List.replicate 0 0) 0
  have s2 := ringFl_average_step
    ((1 :: List.replicate kRingBufferSize (1 / 2 ^ 60 : ℚ)) ++ List.replicate 1 0) 0
  have s3 := ringFl_average_step
    ((1 :: List.replicate kRingBufferSize (1 / 2 ^ 60 : ℚ)) ++ List.replicate 2 0) 0
  have s4 := ringFl_average_step
    ((1 :: List.replicate kRingBufferSize (1 / 2 ^ 60 : ℚ)) ++ List.replicate 3 0) 0
  have s5 := ringFl_average_step
    ((1 :: List.replicate kRingBufferSize (1 / 2 ^ 60 : ℚ)) ++ List.replicate 4 0) 0
  rw [oldestEntry_drift 0 (by omega)] at s1
  rw [oldestEntry_drift 1 (by omega)] at s2
  rw [oldestEntry_drift 2 (by omega)] at s3
  rw [oldestEntry_drift 3 (by omega)] at s4
  rw [oldestEntry_drift 4 (by omega)] at s5
  simp only [List.replicate_zero, List.append_nil] at s1
  rw [drift_full] at s1
  have r1 : (1 :: List.replicate kRingBufferSize (1 / 2 ^ 60 : ℚ)) ++ List.replicate 1 0
      = (1 :: List.replicate kRingBufferSize (1 / 2 ^ 60 : ℚ)) ++ [0] := rfl
  have r2 : ((1 :: List.replicate kRingBufferSize (1 / 2 ^ 60 : ℚ)) ++ List.replicate 1 0) ++ [0]
      = (1 :: List.replicate kRingBufferSize (1 / 2 ^ 60 : ℚ)) ++ List.replicate 2 0 := by
    rw [List.append_assoc]; rfl
  have r3 : ((1 :: List.replicate kRingBufferSize (1 / 2 ^ 60 : ℚ)) ++ List.replicate 2 0) ++ [0]
      = (1 :: List.replicate kRingBufferSize (1 / 2 ^ 60 : ℚ)) ++ List.replicate 3 0 := by
    rw [List.append_assoc]; rfl
  have r4 : ((1 :: List.replicate kRingBufferSize (1 / 2 ^ 60 : ℚ)) ++ List.replicate 3 0) ++ [0]
      = (1 :: List.replicate kRingBufferSize (1 / 2 ^ 60 : ℚ)) ++ List.replicate 4 0 := by
    rw [List.append_assoc]; rfl
  have r5 : ((1 :: List.replicate kRingBufferSize (1 / 2 ^ 60 : ℚ)) ++ List.replicate 4 0) ++ [0]
      = (1 :: List.replicate kRingBufferSize (1 / 2 ^ 60 : ℚ)) ++ [0, 0, 0, 0, 0] := by
    rw [List.append_assoc]; rfl
  rw [← r1] at s1
  rw [r2, s1] at s2
  rw [r3, s2] at s3
  rw [r4, s3] at s4
  rw [r5, s4] at s5
  rw [s5]
  decide!

/-- C9, counterexample: from the state reached by the push 1, kRingBufferSize pushes of
2^-60 leave rbAverage = 2^-77, not 2^-60. -/
theorem ringFl_mean_constant_fails :
    ((List.replicate kRingBufferSize (Fl.num (1 / 2 ^ 60))).foldl rbPushFl
      (rbReachFl [] [Fl.num 1])).rbAverage = Fl.num (1 / 2 ^ 77) ∧
    (1 / 2 ^ 77 : ℚ) ≠ 1 / 2 ^ 60 := by
  refine ⟨?_, by norm_num⟩
  have h := drift_full
  rw [List.map_cons, List.map_replicate, List.foldl_cons] at h
  rw [rbReachFl_eq]
  simp only [List.flatMap_nil, List.nil_append, List.foldl_cons, List.foldl_nil]
  exact h

end FloatRingDrift
end Keytap

/-! ## Silence in the peak detector: results -/

namespace Keytap
section FloatPeakClaims

theorem sampleAtFl_mem_or_zero (w : List Fl) (i : Int) :
    sampleAtFl w i = Fl.num 0 ∨ sampleAtFl w i ∈ w := by
  unfold sampleAtFl
  split_ifs
  · by_cases h : i.toNat < w.length
    · right
      rw [List.getD_eq_getElem?_getD, List.getElem?_eq_getElem h]
      exact List.getElem_mem h
    · left
      exact List.getD_eq_default _ _ (by omega)
  · exact Or.inl rfl

theorem frameAt_mem_or_nil_fl (frames : Record Fl) (f : Int) :
    frameAt frames f = [] ∨ frameAt frames f ∈ frames := by
  unfold frameAt
  split_ifs
  · by_cases h : f.toNat < frames.length
    · right
      rw [List.getD_eq_getElem?_getD, List.getElem?_eq_getElem h]
      exact List.getElem_mem h
    · left
      exact List.getD_eq_default _ _ (by omega)
  · exact Or.inl rfl

theorem accFl_zero_of_silent (k : Int) (frames : Record Fl)
    (hzero : ∀ f ∈ frames, ∀ x ∈ f, x = Fl.num 0 ∨ x = Fl.nzero) (j : Int) :
    accFl k frames j = Fl.num 0 := by
  unfold accFl
  rcases sampleAtFl_mem_or_zero (frameAt frames (Int.tdiv j k)) (Int.tmod j k) with h | h
  · rw [h]
    simp [Fl.abs]
  · rcases frameAt_mem_or_nil_fl frames (Int.tdiv j k) with h2 | h2
    · rw [h2] at h
      exact absurd h (List.not_mem_nil _)
    · rcases hzero _ h2 _ h with h3 | h3 <;> rw [h3] <;> simp [Fl.abs]

theorem rdropWhile_all {α : Type} (p : α → Bool) (l : List α) (h : ∀ x ∈ l, p x = true) :
    l.rdropWhile p = [] := by
  unfold List.rdropWhile
  rw [List.reverse_eq_nil_iff, List.dropWhile_eq_nil_iff]
  intro x hx
  exact h x (List.mem_reverse.1 hx)

/-- On a record of zero samples every index pops the whole deque. -/
theorem queStepFl_silent (a : Int → Fl) (ha : ∀ j, a j = Fl.num 0) (k : Int) (que : List Int)
    (i : Int) : queStepFl a k que i = [i] := by
  have hp : ∀ l : List Int, l.rdropWhile (fun j => (a i).ge (a j)) = [] := by
    intro l
    apply rdropWhile_all
    intro x _
    rw [ha i, ha x]
    simp [Fl.ge, Fl.toCC, TValueCC.ge]
  unfold queStepFl
  split_ifs <;> rw [hp] <;> rfl

theorem peakStepFl_silent (a : Int → Fl) (ha : ∀ j, a j = Fl.num 0) (k nFrames : Int)
    (hk : 2 ≤ k) (thr avg : Fl) (st : PeakState) (i : Int) :
    (peakStepFl a k nFrames thr avg st i).positionsToPredict = st.positionsToPredict := by
  have hdiv : Int.tdiv k 2 = k / 2 := Int.tdiv_eq_ediv (by omega) (by norm_num)
  have hh : 1 ≤ Int.tdiv k 2 := by rw [hdiv]; omega
  unfold peakStepFl
  rw [queStepFl_silent a ha]
  split_ifs with h1 h2 h3
  · rfl
  · exfalso
    obtain ⟨_, _, h4⟩ := h2
    simp only [List.head?_cons, Option.some.injEq] at h4
    omega
  · rfl
  · rfl

theorem peakRunFl_silent (a : Int → Fl) (ha : ∀ j, a j = Fl.num 0) (k nFrames : Int)
    (hk : 2 ≤ k) (thr avg : Fl) (n : ℕ) :
    (peakRunFl a k nFrames thr avg n).positionsToPredict = [] := by
  induction n with
  | zero => rfl
  | succ n ih =>
    unfold peakRunFl at ih ⊢
    rw [List.range_succ, List.foldl_append]
    simp only [List.foldl_cons, List.foldl_nil]
    rw [peakStepFl_silent a ha k nFrames hk, ih]

theorem cbAudioPredictFl_fst (k : Int) (thr : Fl) (rb : RingBuffer Fl) (frames : Record Fl) :
    (cbAudioPredictFl k thr rb frames).1 = rbUpdateFl rb frames := rfl

theorem cbAudioPredictFl_snd (k : Int) (thr : Fl) (rb : RingBuffer Fl) (frames : Record Fl) :
    (cbAudioPredictFl k thr rb frames).2 =
      (peakDetectFl k thr (rbUpdateFl rb frames).rbAverage frames).positionsToPredict := rfl

theorem peakDetectFl_drift :
    (peakDetectFl 1 (Fl.num 10) (Fl.num (-(1 / 2 ^ 75)))
      [[Fl.num 0], [Fl.num 0], [Fl.num 0], [Fl.num 0], [Fl.num 0]]).positionsToPredict = [2] := by
  decide!

/-- C13 (amended): for frames of kSamplesPerFrame >= 2 samples, a prediction-mode buffer whose
samples are all zero makes the peak detector emit no candidate, for every thresholdBackground
and every state of the ring buffer, whatever the value of rbAverage (even a negative one or
NaN): every later zero sample pops the deque, whose front is then never the tested index; no
work item is enqueued and the work queue is left unchanged. -/
theorem peakFl_silence (k : Int) (hk : 2 ≤ k) (thresholdBackground : Fl) (rb : RingBuffer Fl)
    (queue : List (WorkData Fl)) (frames : Record Fl)
    (hzero : ∀ f ∈ frames, ∀ x ∈ f, x = Fl.num 0 ∨ x = Fl.nzero) :
    (cbAudioPredictFl k thresholdBackground rb frames).2 = [] ∧
    (cbAudioEnqueueFl k thresholdBackground (rb, queue) frames).2 = queue := by
  have hempty : (cbAudioPredictFl k thresholdBackground rb frames).2 = [] := by
    rw [cbAudioPredictFl_snd]
    unfold peakDetectFl
    exact peakRunFl_silent _ (accFl_zero_of_silent k frames hzero) k _ hk _ _ _
  refine ⟨hempty, ?_⟩
  unfold cbAudioEnqueueFl
  rw [hempty]
  simp

/-- C13, witness: six silent frames of two samples, on the ring buffer reached by the push 1
and kRingBufferSize pushes of 2^-60, whose mean turns negative while the frames are pushed. -/
theorem peakFl_silence_witness :
    (cbAudioPredictFl 2 (Fl.num 10)
      (rbReachFl [] (Fl.num 1 :: List.replicate kRingBufferSize (Fl.num (1 / 2 ^ 60))))
      [[Fl.num 0, Fl.num 0], [Fl.num 0, Fl.num 0], [Fl.num 0, Fl.num 0], [Fl.num 0, Fl.num 0],
        [Fl.num 0, Fl.num 0], [Fl.num 0, Fl.num 0]]).2 = [] ∧
    (cbAudioEnqueueFl 2 (Fl.num 10)
      (rbReachFl [] (Fl.num 1 :: List.replicate kRingBufferSize (Fl.num (1 / 2 ^ 60))), [])
      [[Fl.num 0, Fl.num 0], [Fl.num 0, Fl.num 0], [Fl.num 0, Fl.num 0], [Fl.num 0, Fl.num 0],
        [Fl.num 0, Fl.num 0], [Fl.num 0, Fl.num 0]]).2 = [] :=
  peakFl_silence 2 le_rfl (Fl.num 10)
    (rbReachFl [] (Fl.num 1 :: List.replicate kRingBufferSize (Fl.num (1 / 2 ^ 60)))) []
    [[Fl.num 0, Fl.num 0], [Fl.num 0, Fl.num 0], [Fl.num 0, Fl.num 0], [Fl.num 0, Fl.num 0],
      [Fl.num 0, Fl.num 0], [Fl.num 0, Fl.num 0]]
    (by
      intro f hf x hx
      simp only [List.mem_cons, List.mem_singleton, List.not_mem_nil, or_false, or_self] at hf
      subst hf
      simp only [List.mem_cons, List.mem_singleton, List.not_mem_nil, or_false, or_self] at hx
      exact Or.inl hx)

/-- C13, counterexample: with kSamplesPerFrame = 1 and thresholdBackground = 10, on the ring
buffer reached by the push 1 and kRingBufferSize pushes of 2^-60, five silent frames leave
rbAverage = -2^-75 < 0, and the peak detector emits the position 2. -/
theorem peakFl_silence_fails :
    (cbAudioPredictFl 1 (Fl.num 10)
      (rbReachFl [] (Fl.num 1 :: List.replicate kRingBufferSize (Fl.num (1 / 2 ^ 60))))
      [[Fl.num 0], [Fl.num 0], [Fl.num 0], [Fl.num 0], [Fl.num 0]]).1.rbAverage
        = Fl.num (-(1 / 2 ^ 75)) ∧
    (cbAudioPredictFl 1 (Fl.num 10)
      (rbReachFl [] (Fl.num 1 :: List.replicate kRingBufferSize (Fl.num (1 / 2 ^ 60))))
      [[Fl.num 0], [Fl.num 0], [Fl.num 0], [Fl.num 0], [Fl.num 0]]).2 = [2] := by
  have havg : (rbUpdateFl
      (rbReachFl [] (Fl.num 1 :: List.replicate kRingBufferSize (Fl.num (1 / 2 ^ 60))))
      [[Fl.num 0], [Fl.num 0], [Fl.num 0], [Fl.num 0], [Fl.num 0]]).rbAverage
        = Fl.num (-(1 / 2 ^ 75)) := by
    have h := drift_negative
    rw [List.map_append, List.map_cons, List.map_replicate, List.foldl_append] at h
    rw [rbUpdateFl_eq, rbReachFl_eq]
    simp only [List.flatMap_nil, List.nil_append, List.flatMap_cons, List.singleton_append,
      List.append_nil]
    exact h
  constructor
  · rw [cbAudioPredictFl_fst]
    exact havg
  · rw [cbAudioPredictFl_snd, havg]
    exact peakDetectFl_drift

end FloatPeakClaims
end Keytap

/-! ## The confidence values of the worker: results -/

namespace Keytap
section SignedRounding

theorem roundMag_zero (fmt : FloatFormat) : roundMag fmt 0 = 0 := by
  unfold roundMag
  rw [zero_div, show ((0 : ℚ)) = ((0 : Int) : ℚ) by simp, roundHalfEven_int]
  simp

theorem signedRound_zero (fmt : FloatFormat) : signedRound fmt 0 = 0 := by
  unfold signedRound
  rw [if_neg (lt_irrefl 0), roundMag_zero]

theorem signedRound_mono (fmt : FloatFormat) (hp : 0 < fmt.prec) (x y : ℚ) (h : x ≤ y) :
    signedRound fmt x ≤ signedRound fmt y := by
  unfold signedRound
  by_cases hx : x < 0
  · by_cases hy : y < 0
    · rw [if_pos hx, if_pos hy]
      exact neg_le_neg (roundMag_mono fmt (-y) (-x) (by linarith) (by linarith) hp)
    · rw [if_pos hx, if_neg hy]
      have h1 := roundMag_nonneg fmt (-x) (by linarith)
      have h2 := roundMag_nonneg fmt y (by linarith)
      linarith
  · have hy : ¬ y < 0 := by
      intro hy
      exact hx (lt_of_le_of_lt h hy)
    rw [if_neg hx, if_neg hy]
    rcases (not_lt.1 hx).lt_or_eq with h0 | h0
    · exact roundMag_mono fmt x y h0 h hp
    · rw [← h0, roundMag_zero]
      exact roundMag_nonneg fmt y (not_lt.1 hy)

theorem signedRound_abs (fmt : FloatFormat) (x : ℚ) :
    |signedRound fmt x| = roundMag fmt |x| := by
  unfold signedRound
  by_cases hx : x < 0
  · rw [if_pos hx, abs_neg, abs_of_neg hx, abs_of_nonneg (roundMag_nonneg fmt _ (by linarith))]
  · rw [if_neg hx, abs_of_nonneg (not_lt.1 hx),
      abs_of_nonneg (roundMag_nonneg fmt _ (not_lt.1 hx))]

/-- Without overflow the result of rounding is finite and its value is the rounded value. -/
theorem roundQ_signedRound (fmt : FloatFormat) (x : ℚ) (z : Bool)
    (h : roundMag fmt |x| < (2 : ℚ) ^ (fmt.emax + 1)) :
    (roundQ fmt x z).isFin = true ∧ (roundQ fmt x z).val = signedRound fmt x := by
  unfold roundQ signedRound
  by_cases h0 : x = 0
  · subst h0
    rw [if_pos rfl, if_neg (lt_irrefl 0), roundMag_zero]
    cases z <;> simp [Fl.isFin, Fl.val]
  · rw [if_neg h0, if_neg (not_le.2 h)]
    by_cases hx : x < 0
    · rw [abs_of_neg hx] at h ⊢
      by_cases hr : roundMag fmt (-x) = 0
      · simp [hr, hx, Fl.isFin, Fl.val]
      · simp [hr, hx, Fl.isFin, Fl.val]
    · have hx' : 0 < x := lt_of_le_of_ne (not_lt.1 hx) (Ne.symm h0)
      rw [abs_of_pos hx'] at h ⊢
      by_cases hr : roundMag fmt x = 0
      · simp [hr, hx, Fl.isFin, Fl.val]
      · simp [hr, hx, Fl.isFin, Fl.val]

/-- Bounds that rounding preserves: a value between two bounds rounds, without overflow, to a
finite value between the rounded bounds. -/
theorem roundQ_between (fmt : FloatFormat) (hp : 0 < fmt.prec) (x lo hi : ℚ) (z : Bool)
    (h1 : lo ≤ x) (h2 : x ≤ hi)
    (hlo : roundMag fmt |lo| < (2 : ℚ) ^ (fmt.emax + 1))
    (hhi : roundMag fmt |hi| < (2 : ℚ) ^ (fmt.emax + 1)) :
    (roundQ fmt x z).isFin = true ∧ signedRound fmt lo ≤ (roundQ fmt x z).val ∧
      (roundQ fmt x z).val ≤ signedRound fmt hi := by
  have hno : roundMag fmt |x| < (2 : ℚ) ^ (fmt.emax + 1) := by
    rw [← signedRound_abs] at hlo hhi ⊢
    have a := signedRound_mono fmt hp lo x h1
    have b := signedRound_mono fmt hp x hi h2
    rcases abs_cases (signedRound fmt x) with ⟨e, _⟩ | ⟨e, _⟩ <;> rw [e]
    · exact lt_of_le_of_lt (le_trans b (le_abs_self _)) hhi
    · exact lt_of_le_of_lt (le_trans (neg_le_neg a) (neg_le_abs _)) hlo
  obtain ⟨f1, f2⟩ := roundQ_signedRound fmt x z hno
  rw [f2]
  exact ⟨f1, signedRound_mono fmt hp lo x h1, signedRound_mono fmt hp x hi h2⟩

theorem roundHalfEven_near (q : ℚ) :
    (roundHalfEven q : ℚ) - q ≤ 1 / 2 ∧ q - (roundHalfEven q : ℚ) ≤ 1 / 2 := by
  have hf1 : (⌊q⌋ : ℚ) ≤ q := Int.floor_le q
  have hf2 : q < (⌊q⌋ : ℚ) + 1 := Int.lt_floor_add_one q
  unfold roundHalfEven
  split_ifs with h1 h2 h3
  · constructor <;> linarith
  · constructor <;> first | linarith | (push_cast; linarith)
  · have : q - (⌊q⌋ : ℚ) = 1 / 2 := le_antisymm (not_lt.1 h2) (not_lt.1 h1)
    constructor <;> linarith
  · have : q - (⌊q⌋ : ℚ) = 1 / 2 := le_antisymm (not_lt.1 h2) (not_lt.1 h1)
    constructor <;> first | linarith | (push_cast; linarith)

/-- The relative error of rounding a normal value is at most 2^-prec. -/
theorem roundMag_rel (fmt : FloatFormat) (x : ℚ) (hx : (2 : ℚ) ^ fmt.emin ≤ x) :
    roundMag fmt x ≤ x * (1 + (2 : ℚ) ^ (-(fmt.prec : Int))) ∧
    x * (1 - (2 : ℚ) ^ (-(fmt.prec : Int))) ≤ roundMag fmt x := by
  have hpos : 0 < x := lt_of_lt_of_le (two_zpow_pos _) hx
  obtain ⟨s1, s2⟩ := floorLog2_spec x hpos
  have he : fmt.emin ≤ floorLog2 x := by
    have := lt_of_le_of_lt hx s2
    rw [two_zpow_lt_iff] at this
    omega
  have hu : ulpAt fmt x = (2 : ℚ) ^ floorLog2 x * (2 : ℚ) ^ (-(fmt.prec : Int)) * 2 := by
    unfold ulpAt
    rw [max_eq_left he, ← zpow_add₀ (by norm_num : (2 : ℚ) ≠ 0),
      ← zpow_add_one₀ (by norm_num : (2 : ℚ) ≠ 0)]
    congr 1
  have hup := ulpAt_pos fmt x
  obtain ⟨n1, n2⟩ := roundHalfEven_near (x / ulpAt fmt x)
  have hq : x / ulpAt fmt x * ulpAt fmt x = x := div_mul_cancel₀ x (ne_of_gt hup)
  have hpp : (0 : ℚ) < (2 : ℚ) ^ (-(fmt.prec : Int)) := two_zpow_pos _
  have hhalf : ulpAt fmt x / 2 ≤ x * (2 : ℚ) ^ (-(fmt.prec : Int)) := by
    rw [hu]
    have : (2 : ℚ) ^ floorLog2 x * (2 : ℚ) ^ (-(fmt.prec : Int)) * 2 / 2
        = (2 : ℚ) ^ floorLog2 x * (2 : ℚ) ^ (-(fmt.prec : Int)) := by ring
    rw [this]
    exact mul_le_mul_of_nonneg_right s1 (le_of_lt hpp)
  unfold roundMag
  constructor
  · have : (roundHalfEven (x / ulpAt fmt x) : ℚ) * ulpAt fmt x
        ≤ (x / ulpAt fmt x + 1 / 2) * ulpAt fmt x :=
      mul_le_mul_of_nonneg_right (by linarith) (le_of_lt hup)
    rw [add_mul, hq] at this
    linarith
  · have : (x / ulpAt fmt x - 1 / 2) * ulpAt fmt x
        ≤ (roundHalfEven (x / ulpAt fmt x) : ℚ) * ulpAt fmt x :=
      mul_le_mul_of_nonneg_right (by linarith) (le_of_lt hup)
    rw [sub_mul, hq] at this
    linarith

end SignedRounding
end Keytap

namespace Keytap
section FloatWorkerLemmas

theorem toFloat_between (v : Fl) (hv : v.isFin = true) (lo hi : ℚ)
    (h1 : lo ≤ v.val) (h2 : v.val ≤ hi)
    (hlo : roundMag binary32 |lo| < (2 : ℚ) ^ (binary32.emax + 1))
    (hhi : roundMag binary32 |hi| < (2 : ℚ) ^ (binary32.emax + 1)) :
    (Fl.toFloat v).isFin = true ∧ signedRound binary32 lo ≤ (Fl.toFloat v).val ∧
      (Fl.toFloat v).val ≤ signedRound binary32 hi := by
  cases v with
  | num q => exact roundQ_between binary32 (by decide) q lo hi false h1 h2 hlo hhi
  | nzero =>
    simp only [Fl.val] at h1 h2
    have a := signedRound_mono binary32 (by decide) lo 0 h1
    have b := signedRound_mono binary32 (by decide) 0 hi h2
    rw [signedRound_zero] at a b
    exact ⟨rfl, a, b⟩
  | pinf => simp [Fl.isFin] at hv
  | ninf => simp [Fl.isFin] at hv
  | nan => simp [Fl.isFin] at hv

theorem div64_between (a : Fl) (ha : a.isFin = true) (b : ℚ) (hb : 0 < b) (lo hi : ℚ)
    (h1 : lo ≤ a.val / b) (h2 : a.val / b ≤ hi)
    (hlo : roundMag binary64 |lo| < (2 : ℚ) ^ (binary64.emax + 1))
    (hhi : roundMag binary64 |hi| < (2 : ℚ) ^ (binary64.emax + 1)) :
    (Fl.div binary64 a (Fl.num b)).isFin = true ∧
      signedRound binary64 lo ≤ (Fl.div binary64 a (Fl.num b)).val ∧
      (Fl.div binary64 a (Fl.num b)).val ≤ signedRound binary64 hi := by
  have e : Fl.div binary64 a (Fl.num b)
      = roundQ binary64 (a.val / b) (a.sign != (Fl.num b).sign) := by
    cases a <;> simp [Fl.div, Fl.isNan, Fl.isFin, Fl.val, ne_of_gt hb] at ha ⊢
  rw [e]
  exact roundQ_between binary64 (by decide) _ lo hi _ h1 h2 hlo hhi

theorem findBestCCFl_inv (nWorkers : Nat) (order : List Nat) (A B : List Fl)
    (is0 is1 alignWindow : Int) :
    (findBestCCFl nWorkers order A B is0 is1 alignWindow).1 = Fl.num (-1) ∨
      (findBestCCFl nWorkers order A B is0 is1 alignWindow).1.gt (Fl.num (-1)) = true := by
  have hinv : findBestCCFl nWorkers order A B is0 is1 alignWindow = (Fl.num (-1), -1) ∨
      ∃ x, findBestCCFl nWorkers order A B is0 is1 alignWindow = (ccAtFl A B is0 is1 x, x) ∧
        (ccAtFl A B is0 is1 x).gt (Fl.num (-1)) = true := by
    unfold findBestCCFl
    exact foldFl_inv (ccAtFl A B is0 is1) _
      (fun i => scanOffsetsFl_inv _ _ _ _ _ _ (Or.inl rfl)) order _ (Or.inl rfl)
  rcases hinv with h | ⟨x, h, hx⟩
  · left; rw [h]
  · right; rw [h]; exact hx

/-- The map keyConfidenceTmp after the loop over the prototypes: the scores narrowed to
float. -/
theorem classifyFl_tmp (find : TKey × List Fl → Fl × TOffset)
    (protos : List (TKey × List Fl)) (st0 : ClassifiedFl)
    (hs : protos.Pairwise (fun a b => a.1 < b.1))
    (h0 : ∀ a ∈ st0.keyConfidenceTmp, ∀ b ∈ protos, a.1 < b.1) :
    (protos.foldl (fun st ka => classifyKeyFl st ka.1 (find ka)) st0).keyConfidenceTmp =
      st0.keyConfidenceTmp ++ protos.map (fun ka => (ka.1, Fl.toFloat (find ka).1)) := by
  induction protos generalizing st0 with
  | nil => simp
  | cons ka rest ih =>
    rw [List.pairwise_cons] at hs
    have e : (classifyKeyFl st0 ka.1 (find ka)).keyConfidenceTmp
        = st0.keyConfidenceTmp ++ [(ka.1, Fl.toFloat (find ka).1)] :=
      mapSet_append _ _ _ (fun a ha => h0 a ha ka (List.mem_cons_self _ _))
    rw [List.foldl_cons, ih _ hs.2]
    · rw [e]
      simp
    · intro a ha b hb
      rw [e, List.mem_append, List.mem_singleton] at ha
      rcases ha with ha | rfl
      · exact h0 a ha b (List.mem_cons_of_mem _ hb)
      · exact hs.1 b hb

/-- The largest score after the loop over the prototypes: the start value, or the score of a
prototype that compares above it, in which case res is the key of that prototype. -/
theorem classifyFl_winner (find : TKey × List Fl → Fl × TOffset)
    (protos : List (TKey × List Fl)) (st0 : ClassifiedFl) :
    ((protos.foldl (fun st ka => classifyKeyFl st ka.1 (find ka)) st0).maxcc = st0.maxcc ∧
      (protos.foldl (fun st ka => classifyKeyFl st ka.1 (find ka)) st0).res = st0.res) ∨
    ∃ ka ∈ protos,
      (protos.foldl (fun st ka => classifyKeyFl st ka.1 (find ka)) st0).maxcc = (find ka).1 ∧
      (protos.foldl (fun st ka => classifyKeyFl st ka.1 (find ka)) st0).res = toChar ka.1 ∧
      (find ka).1.gt st0.maxcc = true := by
  induction protos generalizing st0 with
  | nil => left; exact ⟨rfl, rfl⟩
  | cons ka rest ih =>
    rw [List.foldl_cons]
    by_cases hgt : (find ka).1.gt st0.maxcc = true
    · have hm : (classifyKeyFl st0 ka.1 (find ka)).maxcc = (find ka).1 := by
        simp [classifyKeyFl, hgt]
      have hr : (classifyKeyFl st0 ka.1 (find ka)).res = toChar ka.1 := by
        simp [classifyKeyFl, hgt]
      rcases ih (classifyKeyFl st0 ka.1 (find ka)) with ⟨h1, h2⟩ | ⟨kb, hkb, h1, h2, h3⟩
      · right
        exact ⟨ka, List.mem_cons_self _ _, h1.trans hm, h2.trans hr, hgt⟩
      · right
        rw [hm] at h3
        exact ⟨kb, List.mem_cons_of_mem _ hkb, h1, h2, Fl_gt_trans h3 hgt⟩
    · have hm : (classifyKeyFl st0 ka.1 (find ka)).maxcc = st0.maxcc := by
        simp [classifyKeyFl, hgt]
      have hr : (classifyKeyFl st0 ka.1 (find ka)).res = st0.res := by
        simp [classifyKeyFl, hgt]
      rcases ih (classifyKeyFl st0 ka.1 (find ka)) with ⟨h1, h2⟩ | ⟨kb, hkb, h1, h2, h3⟩
      · left
        exact ⟨h1.trans hm, h2.trans hr⟩
      · right
        rw [hm] at h3
        exact ⟨kb, List.mem_cons_of_mem _ hkb, h1, h2, h3⟩

/-- No score compares above the largest score kept by the loop over the prototypes. -/
theorem classifyFl_max (find : TKey × List Fl → Fl × TOffset)
    (protos : List (TKey × List Fl)) (st0 : ClassifiedFl) :
    ∀ kb ∈ protos,
      (find kb).1.gt (protos.foldl (fun st ka => classifyKeyFl st ka.1 (find ka)) st0).maxcc
        = false := by
  induction protos generalizing st0 with
  | nil => intro kb hkb; simp at hkb
  | cons ka rest ih =>
    intro kb hkb
    rw [List.foldl_cons]
    rcases List.mem_cons.1 hkb with rfl | hkb
    · have h0 : (find kb).1.gt (classifyKeyFl st0 kb.1 (find kb)).maxcc = false := by
        by_cases hgt : (find kb).1.gt st0.maxcc = true
        · simp only [classifyKeyFl, hgt, if_true]
          exact TValueCC.gt_irrefl _
        · simp only [classifyKeyFl, hgt]
          simpa using hgt
      rcases classifyFl_winner find rest (classifyKeyFl st0 kb.1 (find kb)) with
        ⟨h1, _⟩ | ⟨kc, _, h1, _, h3⟩
      · rw [h1]
        exact h0
      · rw [h1]
        by_contra hc
        have hc' : (find kb).1.gt (find kc).1 = true := by simpa using hc
        have := Fl_gt_trans hc' h3
        rw [h0] at this
        exact Bool.noConfusion this
    · exact ih _ kb hkb

/-- The map keyConfidence after the loop over keyConfidenceTmp. -/
theorem confidenceLoopFl_get (maxcc : Fl) (tmp : List (TKey × Fl))
    (hs : tmp.Pairwise (fun a b => a.1 < b.1)) (conf : List (TKey × Fl))
    (c : TKey × Fl) (hc : c ∈ tmp) :
    mapGet (confidenceLoopFl maxcc tmp conf) c.1
      = some (Fl.toFloat (Fl.div binary64 c.2 maxcc)) := by
  unfold confidenceLoopFl
  induction tmp using List.reverseRecOn with
  | nil => simp at hc
  | append_singleton l x ih =>
    rw [List.foldl_append, List.foldl_cons, List.foldl_nil]
    rw [List.pairwise_append] at hs
    rcases List.mem_append.1 hc with h | h
    · have hne : c.1 ≠ x.1 := ne_of_lt (hs.2.2 c h x (List.mem_singleton_self x))
      rw [mapGet_mapSet_ne _ _ _ _ hne]
      exact ih hs.1 h
    · rw [List.mem_singleton] at h
      subst h
      exact mapGet_mapSet_self _ _ _

theorem workerPositionFl_emit (nWorkers : Nat) (sched : TKey → List Nat) (k : Int)
    (thresholdCC : Fl) (protos : List (TKey × List Fl)) (ampl : List Fl) (ws : WorkerStateFl)
    (curPos : Int)
    (h1 : (classifyPositionFl nWorkers sched k protos ampl curPos).maxcc.gt thresholdCC = true)
    (h2 : ws.lastkey ≠ (classifyPositionFl nWorkers sched k protos ampl curPos).res ∨
      ws.lastcc.ne (classifyPositionFl nWorkers sched k protos ampl curPos).maxcc = true) :
    (workerPositionFl nWorkers sched k thresholdCC protos ampl ws curPos).keyConfidence =
      confidenceLoopFl (classifyPositionFl nWorkers sched k protos ampl curPos).maxcc
        (classifyPositionFl nWorkers sched k protos ampl curPos).keyConfidenceTmp
        ws.keyConfidence := by
  unfold workerPositionFl workerUpdateFl
  rw [if_pos h1, if_pos h2]

end FloatWorkerLemmas
end Keytap

namespace Keytap
section FloatWorkerClaims

theorem score_range (v : Fl) (m : ℚ)
    (h1 : v = Fl.num (-1) ∨ v.gt (Fl.num (-1)) = true) (h2 : v.gt (Fl.num m) = false) :
    v.isFin = true ∧ -1 ≤ v.val ∧ v.val ≤ m := by
  cases v with
  | num q =>
    simp only [Fl.gt, Fl.toCC, TValueCC.gt, decide_eq_false_iff_not, not_lt] at h2
    refine ⟨rfl, ?_, h2⟩
    rcases h1 with h1 | h1
    · cases h1
      exact le_refl _
    · simp only [Fl.gt, Fl.toCC, TValueCC.gt, decide_eq_true_eq] at h1
      exact le_of_lt h1
  | nzero =>
    simp only [Fl.gt, Fl.toCC, TValueCC.gt, decide_eq_false_iff_not, not_lt] at h2
    exact ⟨rfl, by simp [Fl.val], h2⟩
  | pinf => simp [Fl.gt, Fl.toCC, TValueCC.gt] at h2
  | ninf =>
    rcases h1 with h1 | h1
    · cases h1
    · simp [Fl.gt, Fl.toCC, TValueCC.gt] at h1
  | nan =>
    rcases h1 with h1 | h1
    · cases h1
    · simp [Fl.gt, Fl.toCC, TValueCC.gt] at h1

theorem r32_one : roundMag binary32 |(-1 : ℚ)| < (2 : ℚ) ^ (binary32.emax + 1) := by decide!
theorem s32_neg_one : signedRound binary32 (-1) = -1 := by decide!
theorem r32_low : roundMag binary32 |(-(2 ^ 126) : ℚ)| < (2 : ℚ) ^ (binary32.emax + 1) := by
  decide!
theorem r32_up : roundMag binary32 |(1 + 1 / 2 ^ 24 : ℚ)| < (2 : ℚ) ^ (binary32.emax + 1) := by
  decide!
theorem s32_up : signedRound binary32 (1 + 1 / 2 ^ 24) = 1 := by decide!
theorem r32_dn : roundMag binary32 |(1 - 1 / 2 ^ 24 : ℚ)| < (2 : ℚ) ^ (binary32.emax + 1) := by
  decide!
theorem s32_dn : signedRound binary32 (1 - 1 / 2 ^ 24) = 1 - 1 / 2 ^ 24 := by decide!
theorem r64_low : roundMag binary64 |(-(2 ^ 126) : ℚ)| < (2 : ℚ) ^ (binary64.emax + 1) := by
  decide!
theorem s64_low : signedRound binary64 (-(2 ^ 126)) = -(2 ^ 126) := by decide!
theorem r64_up : roundMag binary64 |(1 + 1 / 2 ^ 24 : ℚ)| < (2 : ℚ) ^ (binary64.emax + 1) := by
  decide!
theorem s64_up : signedRound binary64 (1 + 1 / 2 ^ 24) = 1 + 1 / 2 ^ 24 := by decide!
theorem r64_dn : roundMag binary64 |(1 - 1 / 2 ^ 24 : ℚ)| < (2 : ℚ) ^ (binary64.emax + 1) := by
  decide!
theorem s64_dn : signedRound binary64 (1 - 1 / 2 ^ 24) = 1 - 1 / 2 ^ 24 := by decide!
theorem r32_zero : roundMag binary32 |(0 : ℚ)| < (2 : ℚ) ^ (binary32.emax + 1) := by decide!
theorem r64_zero : roundMag binary64 |(0 : ℚ)| < (2 : ℚ) ^ (binary64.emax + 1) := by decide!

/-- The float to which a double between 2^-126 and 2^127 narrows: within the relative error
2^-24, without overflow. -/
theorem narrow_rel (m : ℚ) (h1 : 1 / 2 ^ 126 ≤ m) (h2 : m ≤ 2 ^ 127) :
    roundMag binary32 |m| < (2 : ℚ) ^ (binary32.emax + 1) ∧
    signedRound binary32 m = roundMag binary32 m ∧
    roundMag binary32 m ≤ m * (1 + 1 / 2 ^ 24) ∧ m * (1 - 1 / 2 ^ 24) ≤ roundMag binary32 m := by
  have hpos : 0 < m := lt_of_lt_of_le (by positivity) h1
  have hmin : (2 : ℚ) ^ binary32.emin ≤ m := by
    have : (2 : ℚ) ^ binary32.emin = 1 / 2 ^ 126 := by
      rw [show binary32.emin = -((126 : ℕ) : Int) from rfl, zpow_neg, zpow_natCast]
      norm_num
    rw [this]
    exact h1
  obtain ⟨r1, r2⟩ := roundMag_rel binary32 m hmin
  have hp : (2 : ℚ) ^ (-(binary32.prec : Int)) = 1 / 2 ^ 24 := by
    rw [show (binary32.prec : Int) = ((24 : ℕ) : Int) from rfl, zpow_neg, zpow_natCast]
    norm_num
  rw [hp] at r1 r2
  refine ⟨?_, ?_, r1, r2⟩
  · rw [abs_of_pos hpos]
    have hmax : (2 : ℚ) ^ (binary32.emax + 1) = 2 ^ 128 := by
      rw [show binary32.emax + 1 = ((128 : ℕ) : Int) from rfl, zpow_natCast]
    rw [hmax]
    have : m * (1 + 1 / 2 ^ 24) ≤ 2 ^ 127 * (1 + 1 / 2 ^ 24) :=
      mul_le_mul_of_nonneg_right h2 (by positivity)
    have h3 : (2 : ℚ) ^ 127 * (1 + 1 / 2 ^ 24) < 2 ^ 128 := by norm_num
    linarith
  · unfold signedRound
    rw [if_neg (not_lt.2 (le_of_lt hpos))]

/-- The stored confidence of a key whose score lies between -1 and the largest score m. -/
theorem confidence_range (v : Fl) (m : ℚ) (h1 : 1 / 2 ^ 126 ≤ m) (h2 : m ≤ 2 ^ 127)
    (hv : v.isFin = true) (hlo : -1 ≤ v.val) (hhi : v.val ≤ m) :
    (Fl.toFloat (Fl.div binary64 (Fl.toFloat v) (Fl.num m))).isFin = true ∧
    (Fl.toFloat (Fl.div binary64 (Fl.toFloat v) (Fl.num m))).val ≤ 1 ∧
    (0 ≤ v.val → 0 ≤ (Fl.toFloat (Fl.div binary64 (Fl.toFloat v) (Fl.num m))).val) := by
  have hpos : 0 < m := lt_of_lt_of_le (by positivity) h1
  obtain ⟨n1, n2, n3, _⟩ := narrow_rel m h1 h2
  -- the score narrowed to float
  obtain ⟨t1, t2, t3⟩ := toFloat_between v hv (-1) m hlo hhi r32_one n1
  rw [s32_neg_one] at t2
  rw [n2] at t3
  have hq1 : -(2 ^ 126 : ℚ) ≤ (Fl.toFloat v).val / m := by
    rw [le_div_iff₀ hpos]
    have : -(2 ^ 126 : ℚ) * m ≤ -1 := by
      have : (2 ^ 126 : ℚ) * (1 / 2 ^ 126) ≤ 2 ^ 126 * m :=
        mul_le_mul_of_nonneg_left h1 (by positivity)
      have e : (2 ^ 126 : ℚ) * (1 / 2 ^ 126) = 1 := by norm_num
      linarith
    linarith
  have hq2 : (Fl.toFloat v).val / m ≤ 1 + 1 / 2 ^ 24 := by
    rw [div_le_iff₀ hpos]
    linarith
  -- the quotient in double
  obtain ⟨d1, d2, d3⟩ := div64_between (Fl.toFloat v) t1 m hpos _ _ hq1 hq2 r64_low r64_up
  rw [s64_low] at d2
  rw [s64_up] at d3
  -- the quotient narrowed to float
  obtain ⟨c1, c2, c3⟩ := toFloat_between _ d1 _ _ d2 d3 r32_low r32_up
  rw [s32_up] at c3
  refine ⟨c1, c3, ?_⟩
  intro h0
  obtain ⟨_, t2', _⟩ := toFloat_between v hv 0 m h0 hhi r32_zero n1
  rw [signedRound_zero] at t2'
  have hq0 : (0 : ℚ) ≤ (Fl.toFloat v).val / m := div_nonneg t2' (le_of_lt hpos)
  obtain ⟨_, d2', _⟩ := div64_between (Fl.toFloat v) t1 m hpos _ _ hq0 hq2 r64_zero r64_up
  rw [signedRound_zero] at d2'
  obtain ⟨_, c2', _⟩ := toFloat_between _ d1 _ _ d2' d3 r32_zero r32_up
  rw [signedRound_zero] at c2'
  exact c2'

/-- The stored confidence of the winning key: 1 when the largest score is a value of float,
and between 1 - 2^-24 and 1 in general. -/
theorem confidence_winner (m : ℚ) (h1 : 1 / 2 ^ 126 ≤ m) (h2 : m ≤ 2 ^ 127) :
    1 - 1 / 2 ^ 24 ≤ (Fl.toFloat (Fl.div binary64 (Fl.toFloat (Fl.num m)) (Fl.num m))).val ∧
    (Fl.toFloat (Fl.div binary64 (Fl.toFloat (Fl.num m)) (Fl.num m))).val ≤ 1 ∧
    (Fl.toFloat (Fl.num m) = Fl.num m →
      Fl.toFloat (Fl.div binary64 (Fl.toFloat (Fl.num m)) (Fl.num m)) = Fl.num 1) := by
  have hpos : 0 < m := lt_of_lt_of_le (by positivity) h1
  obtain ⟨n1, n2, n3, n4⟩ := narrow_rel m h1 h2
  obtain ⟨t1, t2⟩ := roundQ_signedRound binary32 m false n1
  rw [n2] at t2
  have ht : Fl.toFloat (Fl.num m) = roundQ binary32 m false := rfl
  have hq1 : (1 - 1 / 2 ^ 24 : ℚ) ≤ (Fl.toFloat (Fl.num m)).val / m := by
    rw [ht, t2, le_div_iff₀ hpos]
    linarith
  have hq2 : (Fl.toFloat (Fl.num m)).val / m ≤ 1 + 1 / 2 ^ 24 := by
    rw [ht, t2, div_le_iff₀ hpos]
    linarith
  obtain ⟨d1, d2, d3⟩ := div64_between (Fl.toFloat (Fl.num m)) (by rw [ht]; exact t1) m hpos _ _
    hq1 hq2 r64_dn r64_up
  rw [s64_dn] at d2
  rw [s64_up] at d3
  obtain ⟨_, c2, c3⟩ := toFloat_between _ d1 _ _ d2 d3 r32_dn r32_up
  rw [s32_dn] at c2
  rw [s32_up] at c3
  refine ⟨c2, c3, ?_⟩
  intro hm
  rw [hm]
  have e : Fl.div binary64 (Fl.num m) (Fl.num m) = Fl.num 1 := by
    have : Fl.div binary64 (Fl.num m) (Fl.num m)
        = roundQ binary64 (m / m) (decide (m < 0) != decide (m < 0)) := by
      simp [Fl.div, Fl.isNan, Fl.isFin, Fl.val, Fl.sign, ne_of_gt hpos]
    rw [this, div_self (ne_of_gt hpos)]
    have := roundQ_int64 1 (decide (m < 0) != decide (m < 0)) (by norm_num) (by norm_num)
    simpa using this
  rw [e]
  have := roundQ_int32 1 false (by norm_num) (by norm_num)
  simpa [Fl.toFloat] using this

/-- C20 (amended): in the arithmetic of the program, after an emitted prediction whose largest
score maxcc is a finite double between the threshold (at least 2^-126) and 2^127, for each
prototype key k the stored keyConfidence[k] is the score cc_k narrowed to float, divided by
maxcc in double and narrowed to float again; every stored value is finite and at most 1, and
non-negative when the score is; the winning key has a confidence between 1 - 2^-24 and 1,
which is 1 when maxcc is itself a value of float. -/
theorem workerFl_confidence (nWorkers : Nat) (sched : TKey → List Nat) (k : Int) (t m : ℚ)
    (ht : 1 / 2 ^ 126 ≤ t) (hm : m ≤ 2 ^ 127) (protos : List (TKey × List Fl))
    (hsorted : protos.Pairwise (fun a b => a.1 < b.1))
    (ampl : List Fl) (ws : WorkerStateFl) (curPos : Int)
    (hmax : (classifyPositionFl nWorkers sched k protos ampl curPos).maxcc = Fl.num m)
    (h1 : (classifyPositionFl nWorkers sched k protos ampl curPos).maxcc.gt (Fl.num t) = true)
    (h2 : ws.lastkey ≠ (classifyPositionFl nWorkers sched k protos ampl curPos).res ∨
      ws.lastcc.ne (classifyPositionFl nWorkers sched k protos ampl curPos).maxcc = true) :
    (∀ ka ∈ protos,
      mapGet (workerPositionFl nWorkers sched k (Fl.num t) protos ampl ws curPos).keyConfidence
          ka.1 =
        some (Fl.toFloat (Fl.div binary64
          (Fl.toFloat (scoreOfFl nWorkers sched k ampl curPos ka).1) (Fl.num m))) ∧
      (Fl.toFloat (Fl.div binary64
        (Fl.toFloat (scoreOfFl nWorkers sched k ampl curPos ka).1) (Fl.num m))).isFin = true ∧
      (Fl.toFloat (Fl.div binary64
        (Fl.toFloat (scoreOfFl nWorkers sched k ampl curPos ka).1) (Fl.num m))).val ≤ 1 ∧
      (0 ≤ (scoreOfFl nWorkers sched k ampl curPos ka).1.val →
        0 ≤ (Fl.toFloat (Fl.div binary64
          (Fl.toFloat (scoreOfFl nWorkers sched k ampl curPos ka).1) (Fl.num m))).val)) ∧
    (∃ ka ∈ protos,
      (classifyPositionFl nWorkers sched k protos ampl curPos).res = toChar ka.1 ∧
      (scoreOfFl nWorkers sched k ampl curPos ka).1 = Fl.num m ∧
      mapGet (workerPositionFl nWorkers sched k (Fl.num t) protos ampl ws curPos).keyConfidence
          ka.1 =
        some (Fl.toFloat (Fl.div binary64 (Fl.toFloat (Fl.num m)) (Fl.num m))) ∧
      1 - 1 / 2 ^ 24 ≤
        (Fl.toFloat (Fl.div binary64 (Fl.toFloat (Fl.num m)) (Fl.num m))).val ∧
      (Fl.toFloat (Fl.div binary64 (Fl.toFloat (Fl.num m)) (Fl.num m))).val ≤ 1 ∧
      (Fl.toFloat (Fl.num m) = Fl.num m →
        Fl.toFloat (Fl.div binary64 (Fl.toFloat (Fl.num m)) (Fl.num m)) = Fl.num 1)) := by
  have htm : t < m := by
    rw [hmax] at h1
    simpa [Fl.gt, Fl.toCC, TValueCC.gt] using h1
  have hm1 : 1 / 2 ^ 126 ≤ m := le_trans ht (le_of_lt htm)
  have hget : ∀ ka ∈ protos,
      mapGet (workerPositionFl nWorkers sched k (Fl.num t) protos ampl ws curPos).keyConfidence
          ka.1 =
        some (Fl.toFloat (Fl.div binary64
          (Fl.toFloat (scoreOfFl nWorkers sched k ampl curPos ka).1) (Fl.num m))) := by
    intro ka hka
    rw [workerPositionFl_emit nWorkers sched k (Fl.num t) protos ampl ws curPos h1 h2, hmax]
    have htmp : (classifyPositionFl nWorkers sched k protos ampl curPos).keyConfidenceTmp
        = protos.map (fun ka => (ka.1, Fl.toFloat (scoreOfFl nWorkers sched k ampl curPos ka).1)) := by
      unfold classifyPositionFl
      rw [classifyFl_tmp _ _ _ hsorted (by simp)]
      rfl
    rw [htmp]
    have hp : (protos.map (fun ka =>
        (ka.1, Fl.toFloat (scoreOfFl nWorkers sched k ampl curPos ka).1))).Pairwise
        (fun a b => a.1 < b.1) := by
      rw [List.pairwise_map]
      exact hsorted
    exact confidenceLoopFl_get (Fl.num m) _ hp ws.keyConfidence
      (ka.1, Fl.toFloat (scoreOfFl nWorkers sched k ampl curPos ka).1)
      (List.mem_map.2 ⟨ka, hka, rfl⟩)
  have hmaxall := classifyFl_max (scoreOfFl nWorkers sched k ampl curPos) protos
    { res := -1, maxcc := Fl.num (-1), offs := 0, keyConfidenceTmp := [] }
  have hfold : protos.foldl
      (fun st ka => classifyKeyFl st ka.1 (scoreOfFl nWorkers sched k ampl curPos ka))
      { res := -1, maxcc := Fl.num (-1), offs := 0, keyConfidenceTmp := [] }
      = classifyPositionFl nWorkers sched k protos ampl curPos := rfl
  rw [hfold, hmax] at hmaxall
  constructor
  · intro ka hka
    obtain ⟨f1, f2, f3⟩ := score_range (scoreOfFl nWorkers sched k ampl curPos ka).1 m
      (findBestCCFl_inv _ _ _ _ _ _ _) (hmaxall ka hka)
    exact ⟨hget ka hka, confidence_range _ m hm1 hm f1 f2 f3⟩
  · rcases classifyFl_winner (scoreOfFl nWorkers sched k ampl curPos) protos
      { res := -1, maxcc := Fl.num (-1), offs := 0, keyConfidenceTmp := [] } with
      ⟨w1, _⟩ | ⟨ka, hka, w1, w2, _⟩
    · exfalso
      rw [hfold, hmax] at w1
      have : m = -1 := by
        have := congrArg Fl.val w1
        simpa [Fl.val] using this
      have : (0 : ℚ) < 1 / 2 ^ 126 := by positivity
      linarith
    · rw [hfold] at w1 w2
      rw [hmax] at w1
      have hg := hget ka hka
      rw [← w1] at hg
      exact ⟨ka, hka, w2, w1.symm, hg, confidence_winner m hm1 hm⟩

end FloatWorkerClaims
end Keytap

namespace Keytap
section FloatWorkerWitnesses

theorem classifyFl_two_keys :
    (classifyPositionFl 1 (fun _ => [0]) 2 twoKeyProtosFl twoKeyAmplFl 3).maxcc = Fl.num 1 ∧
    (classifyPositionFl 1 (fun _ => [0]) 2 twoKeyProtosFl twoKeyAmplFl 3).res = 1 := by
  decide!

/-- C20, witness: key 1 wins with maxcc = 1 over the threshold 1/2. -/
theorem workerFl_confidence_witness :
    ((1 : ℚ) / 2 ^ 126 ≤ 1 / 2 ∧ (1 : ℚ) ≤ 2 ^ 127 ∧
      twoKeyProtosFl.Pairwise (fun a b => a.1 < b.1) ∧
      (classifyPositionFl 1 (fun _ => [0]) 2 twoKeyProtosFl twoKeyAmplFl 3).maxcc = Fl.num 1 ∧
      (classifyPositionFl 1 (fun _ => [0]) 2 twoKeyProtosFl twoKeyAmplFl 3).maxcc.gt
        (Fl.num (1 / 2)) = true ∧
      (workerInitFl.lastkey ≠
          (classifyPositionFl 1 (fun _ => [0]) 2 twoKeyProtosFl twoKeyAmplFl 3).res ∨
        workerInitFl.lastcc.ne
          (classifyPositionFl 1 (fun _ => [0]) 2 twoKeyProtosFl twoKeyAmplFl 3).maxcc = true)) ∧
    ((∀ ka ∈ twoKeyProtosFl,
      mapGet (workerPositionFl 1 (fun _ => [0]) 2 (Fl.num (1 / 2)) twoKeyProtosFl twoKeyAmplFl
          workerInitFl 3).keyConfidence ka.1 =
        some (Fl.toFloat (Fl.div binary64
          (Fl.toFloat (scoreOfFl 1 (fun _ => [0]) 2 twoKeyAmplFl 3 ka).1) (Fl.num 1))) ∧
      (Fl.toFloat (Fl.div binary64
        (Fl.toFloat (scoreOfFl 1 (fun _ => [0]) 2 twoKeyAmplFl 3 ka).1) (Fl.num 1))).isFin
          = true ∧
      (Fl.toFloat (Fl.div binary64
        (Fl.toFloat (scoreOfFl 1 (fun _ => [0]) 2 twoKeyAmplFl 3 ka).1) (Fl.num 1))).val ≤ 1 ∧
      (0 ≤ (scoreOfFl 1 (fun _ => [0]) 2 twoKeyAmplFl 3 ka).1.val →
        0 ≤ (Fl.toFloat (Fl.div binary64
          (Fl.toFloat (scoreOfFl 1 (fun _ => [0]) 2 twoKeyAmplFl 3 ka).1) (Fl.num 1))).val)) ∧
    (∃ ka ∈ twoKeyProtosFl,
      (classifyPositionFl 1 (fun _ => [0]) 2 twoKeyProtosFl twoKeyAmplFl 3).res = toChar ka.1 ∧
      (scoreOfFl 1 (fun _ => [0]) 2 twoKeyAmplFl 3 ka).1 = Fl.num 1 ∧
      mapGet (workerPositionFl 1 (fun _ => [0]) 2 (Fl.num (1 / 2)) twoKeyProtosFl twoKeyAmplFl
          workerInitFl 3).keyConfidence ka.1 =
        some (Fl.toFloat (Fl.div binary64 (Fl.toFloat (Fl.num 1)) (Fl.num 1))) ∧
      1 - 1 / 2 ^ 24 ≤
        (Fl.toFloat (Fl.div binary64 (Fl.toFloat (Fl.num 1)) (Fl.num 1))).val ∧
      (Fl.toFloat (Fl.div binary64 (Fl.toFloat (Fl.num 1)) (Fl.num 1))).val ≤ 1 ∧
      (Fl.toFloat (Fl.num 1) = Fl.num 1 →
        Fl.toFloat (Fl.div binary64 (Fl.toFloat (Fl.num 1)) (Fl.num 1)) = Fl.num 1))) :=
  ⟨⟨by norm_num, by norm_num, by decide, classifyFl_two_keys.1,
      by rw [classifyFl_two_keys.1]; decide!,
      Or.inl (by rw [classifyFl_two_keys.2]; decide)⟩,
    workerFl_confidence 1 (fun _ => [0]) 2 (1 / 2) 1 (by norm_num) (by norm_num) twoKeyProtosFl
      (by decide) twoKeyAmplFl workerInitFl 3 classifyFl_two_keys.1
      (by rw [classifyFl_two_keys.1]; decide!)
      (Or.inl (by rw [classifyFl_two_keys.2]; decide))⟩

/-- C20, counterexample: with the prototypes (0,1,1,1,0,0) of key 1 and (0,0,0,0,1,0) of key 2
and the recording (2,2,2,2,0,0), the prediction of key 1 is emitted with maxcc = 1 and the
stored confidence of key 2 is -1, outside [0, 1]; with the one prototype (0,1,0,2,0,0) of key 1
and the recording (3,3,3,3,1,0), the prediction of key 1 is emitted with
maxcc = 4703856398973661 / 2^53 and the stored confidence of the winning key is
16777215 / 16777216, not 1, and differs from the quotient maxcc / maxcc = 1. -/
theorem workerFl_confidence_fails :
    ((workerPositionFl 1 (fun _ => [0]) 2 (Fl.num (1 / 2)) twoKeyProtosFl twoKeyAmplFl
        workerInitFl 3).predictions = [(1, Fl.num 1)] ∧
      mapGet (workerPositionFl 1 (fun _ => [0]) 2 (Fl.num (1 / 2)) twoKeyProtosFl twoKeyAmplFl
        workerInitFl 3).keyConfidence 2 = some (Fl.num (-1))) ∧
    ((workerPositionFl 1 (fun _ => [0]) 2 (Fl.num (1 / 2))
        [(1, [Fl.num 0, Fl.num 1, Fl.num 0, Fl.num 2, Fl.num 0, Fl.num 0])]
        [Fl.num 3, Fl.num 3, Fl.num 3, Fl.num 3, Fl.num 1, Fl.num 0]
        workerInitFl 3).predictions = [(1, Fl.num (4703856398973661 / 9007199254740992))] ∧
      mapGet (workerPositionFl 1 (fun _ => [0]) 2 (Fl.num (1 / 2))
        [(1, [Fl.num 0, Fl.num 1, Fl.num 0, Fl.num 2, Fl.num 0, Fl.num 0])]
        [Fl.num 3, Fl.num 3, Fl.num 3, Fl.num 3, Fl.num 1, Fl.num 0]
        workerInitFl 3).keyConfidence 1 = some (Fl.num (16777215 / 16777216))) := by
  refine ⟨⟨by decide!, by decide!⟩, by decide!, by decide!⟩

end FloatWorkerWitnesses
end Keytap

/-! ## The weighted average in the arithmetic of the program: results -/

namespace Keytap
section FloatTrainerLemmas

theorem sampleAtFl_map_range (n : Nat) (f : Nat → Fl) (s : Nat) (hs : s < n) :
    sampleAtFl ((List.range n).map f) (s : Int) = f s := by
  unfold sampleAtFl
  rw [if_pos (by omega), Int.toNat_ofNat, List.getD_eq_getElem?_getD,
    List.getElem?_eq_getElem (by simpa using hs)]
  simp

theorem alignWaveformsFl_length (W : Int) (history : List (List Fl)) (ccs : CCTable Fl)
    (bestw : Int) : (alignWaveformsFl W history ccs bestw).length = history.length := by
  simp [alignWaveformsFl]

theorem alignWaveformsFl_getD (W : Int) (history : List (List Fl)) (ccs : CCTable Fl)
    (bestw : Int) (j : Nat) (hj : j < history.length) :
    (alignWaveformsFl W history ccs bestw).getD j []
      = if (j : Int) = bestw then history.getD j []
        else shiftWaveformFl W (history.getD j []) (ccs (j : Int) bestw).2 := by
  unfold alignWaveformsFl
  rw [List.getD_eq_getElem?_getD, List.getElem?_map, List.getElem?_range hj]
  rfl

theorem centerWaveformsFl_length (W : Int) (history : List (List Fl)) :
    (centerWaveformsFl W history).length = history.length := by
  simp [centerWaveformsFl]

theorem shiftWaveformFl_length (W : Int) (w : List Fl) (off : Int) :
    (shiftWaveformFl W w off).length = W.toNat := by
  simp [shiftWaveformFl]

/-- The samples of a shifted waveform. -/
theorem shiftWaveformFl_sample (W : Int) (w : List Fl) (off : Int) (s : Nat)
    (hs : s < W.toNat) :
    sampleAtFl (shiftWaveformFl W w off) (s : Int)
      = if 0 ≤ (s : Int) + off ∧ (s : Int) + off < W then sampleAtFl w ((s : Int) + off)
        else Fl.num 0 := by
  unfold shiftWaveformFl
  rw [sampleAtFl_map_range _ _ s hs]

theorem anchorStepFl_ccs (find : Nat → Nat → Fl × TOffset) (N : Nat) (st : AnchorState Fl)
    (a : Nat) :
    (anchorStepFl find N st a).ccs =
      pairLoop find N a (ccsSet st.ccs (a : Int) (a : Int) (Fl.num 1, 0)) := by
  unfold anchorStepFl
  split_ifs <;> rfl

theorem anchorLoopFl_aux (find : Nat → Nat → Fl × TOffset) (N m : Nat) (hm : m ≤ N) (i j : Nat)
    (hi : i < N) (hj : j < N) (hij : i < m ∨ j < m) :
    ((List.range m).foldl (anchorStepFl find N)
      { bestw := -1, ntrain := 0, bestccsum := Fl.num (-1),
        ccs := fun _ _ => (Fl.num 0, 0) }).ccs (i : Int) (j : Int) =
      if i = j then (Fl.num 1, 0) else if j < i then find j i
      else ((find i j).1, -(find i j).2) := by
  induction m with
  | zero => omega
  | succ m ih =>
    rw [List.range_succ, List.foldl_append, List.foldl_cons, List.foldl_nil, anchorStepFl_ccs,
      pairLoop_entry find N m (by omega)]
    by_cases c1 : (m : Int) < (i : Int) ∧ (i : Int) < (N : Int) ∧ (j : Int) = (m : Int)
    · have hjm : j = m := by omega
      have hne : ¬ i = j := by omega
      have hlt : j < i := by omega
      rw [if_pos c1, if_neg hne, if_pos hlt, Int.toNat_ofNat, hjm]
    · rw [if_neg c1]
      by_cases c2 : (m : Int) < (j : Int) ∧ (j : Int) < (N : Int) ∧ (i : Int) = (m : Int)
      · have him : i = m := by omega
        have hne : ¬ i = j := by omega
        have hlt : ¬ j < i := by omega
        rw [if_pos c2, if_neg hne, if_neg hlt, Int.toNat_ofNat, him]
      · rw [if_neg c2, ccsSet_apply]
        by_cases c3 : (i : Int) = (m : Int) ∧ (j : Int) = (m : Int)
        · have hij2 : i = j := by omega
          rw [if_pos c3, if_pos hij2]
        · rw [if_neg c3]
          exact ih (by omega) (by omega)

/-- The entry that the anchor search leaves in `ccs[i][j]` for two waveform indices. -/
theorem anchorLoopFl_entry (find : Nat → Nat → Fl × TOffset) (N : Nat) (i j : Nat)
    (hi : i < N) (hj : j < N) :
    (anchorLoopFl find N).ccs (i : Int) (j : Int) =
      if i = j then (Fl.num 1, 0) else if j < i then find j i
      else ((find i j).1, -(find i j).2) :=
  anchorLoopFl_aux find N N le_rfl i j hi hj (Or.inl hi)

theorem atLeast_gt (x : Fl) (r t : ℚ) (h : x.AtLeast r) (hrt : t < r) :
    x.gt (Fl.num t) = true := by
  rcases h with h | ⟨q, h, hq⟩
  · rw [h]
    simp [Fl.gt, Fl.toCC, TValueCC.gt]
  · rw [h]
    simp only [Fl.gt, Fl.toCC, TValueCC.gt, decide_eq_true_eq]
    linarith

/-- A non-negative exact result rounds to a non-negative number or overflows. -/
theorem roundQ_atLeast_zero (x : ℚ) (hx : 0 ≤ x) : (roundQ binary64 x false).AtLeast 0 := by
  unfold roundQ
  have hn : ¬ x < 0 := not_lt.2 hx
  by_cases h0 : x = 0
  · rw [if_pos h0]
    exact Or.inr ⟨0, rfl, le_refl _⟩
  · rw [if_neg h0]
    split_ifs
    · exact Or.inl rfl
    · exact Or.inr ⟨0, rfl, le_refl _⟩
    · exact Or.inr ⟨_, rfl, roundMag_nonneg _ _ (abs_nonneg _)⟩

/-- An exact result that is at least one rounds to a number that is at least one, or
overflows. -/
theorem roundQ_atLeast_one (x : ℚ) (z : Bool) (hx : 1 ≤ x) : (roundQ binary64 x z).AtLeast 1 := by
  unfold roundQ
  have hpos : 0 < x := lt_of_lt_of_le one_pos hx
  have hn : ¬ x < 0 := not_lt.2 (le_of_lt hpos)
  have habs : |x| = x := abs_of_pos hpos
  have h1 : (1 : ℚ) ≤ roundMag binary64 x := by
    have := roundMag_ge_pow binary64 x 0 (by simpa using hx) (by decide) (by decide)
    simpa using this
  rw [if_neg (ne_of_gt hpos), habs]
  split_ifs with ha hb
  · exact Or.inl rfl
  · exfalso
    rw [hb] at h1
    linarith
  · exact Or.inr ⟨_, rfl, h1⟩

/-- The square of a score that is neither `NaN` nor `-infinity`. -/
theorem sq_atLeast_zero (c : Fl) (h1 : c ≠ Fl.nan) (h2 : c ≠ Fl.ninf) :
    (Fl.mul binary64 c c).AtLeast 0 := by
  cases c with
  | num q =>
    rw [Fl_mul_num]
    have : (decide (q < 0) != decide (q < 0)) = false := by simp
    rw [this]
    exact roundQ_atLeast_zero _ (mul_self_nonneg q)
  | nzero => exact Or.inr ⟨0, by decide!, le_refl _⟩
  | pinf => exact Or.inl (by decide!)
  | ninf => exact absurd rfl h2
  | nan => exact absurd rfl h1

theorem add_atLeast_zero (a b : Fl) (ha : a.AtLeast 0) (hb : b.AtLeast 0) :
    (Fl.add binary64 a b).AtLeast 0 := by
  rcases ha with ha | ⟨p, ha, hp⟩ <;> rcases hb with hb | ⟨q, hb, hq⟩
  · rw [ha, hb]; exact Or.inl (by decide!)
  · rw [ha, hb]; exact Or.inl (by simp [Fl.add, Fl.isNan, Fl.isFin])
  · rw [ha, hb]; exact Or.inl (by simp [Fl.add, Fl.isNan, Fl.isFin])
  · rw [ha, hb, Fl_add_num]
    have : (decide (p < 0) && decide (q < 0)) = false := by
      simp [not_lt.2 hp]
    rw [this]
    exact roundQ_atLeast_zero _ (add_nonneg hp hq)

theorem add_atLeast_one (a b : Fl) (ha : a.AtLeast 0) (hb : b.AtLeast 0)
    (h : a.AtLeast 1 ∨ b.AtLeast 1) : (Fl.add binary64 a b).AtLeast 1 := by
  rcases ha with ha | ⟨p, ha, hp⟩ <;> rcases hb with hb | ⟨q, hb, hq⟩
  · rw [ha, hb]; exact Or.inl (by decide!)
  · rw [ha, hb]; exact Or.inl (by simp [Fl.add, Fl.isNan, Fl.isFin])
  · rw [ha, hb]; exact Or.inl (by simp [Fl.add, Fl.isNan, Fl.isFin])
  · have hpq : 1 ≤ p + q := by
      rcases h with h | h
      · rcases h with h | ⟨p1, h, hp1⟩
        · rw [ha] at h; cases h
        · rw [ha] at h
          cases h
          linarith
      · rcases h with h | ⟨q1, h, hq1⟩
        · rw [hb] at h; cases h
        · rw [hb] at h
          cases h
          linarith
    rw [ha, hb, Fl_add_num]
    exact roundQ_atLeast_one _ _ hpq

/-- The sum in `double` of squared scores, none of them `NaN` or `-infinity`, is non-negative;
it is at least one when one of the scores is `1`. -/
theorem sumSq_atLeast (cc : Nat → Fl) (l : List Nat)
    (hg : ∀ j ∈ l, cc j ≠ Fl.nan ∧ cc j ≠ Fl.ninf) (s : Fl) (hs : s.AtLeast 0) :
    (l.foldl (fun (x : Fl) (j : Nat) => Fl.add binary64 x (Fl.mul binary64 (cc j) (cc j)))
      s).AtLeast 0 ∧
    ((s.AtLeast 1 ∨ ∃ b ∈ l, cc b = Fl.num 1) →
      (l.foldl (fun (x : Fl) (j : Nat) => Fl.add binary64 x (Fl.mul binary64 (cc j) (cc j)))
        s).AtLeast 1) := by
  induction l generalizing s with
  | nil =>
    refine ⟨hs, ?_⟩
    rintro (h | ⟨b, hb, _⟩)
    · exact h
    · cases hb
  | cons a l ih =>
    have hga := hg a (List.mem_cons_self _ _)
    have hsq := sq_atLeast_zero (cc a) hga.1 hga.2
    have hs1 := add_atLeast_zero s _ hs hsq
    obtain ⟨i1, i2⟩ := ih (fun j hj => hg j (List.mem_cons_of_mem _ hj))
      (Fl.add binary64 s (Fl.mul binary64 (cc a) (cc a))) hs1
    rw [List.foldl_cons]
    refine ⟨i1, ?_⟩
    rintro (h | ⟨b, hb, hb1⟩)
    · exact i2 (Or.inl (add_atLeast_one s _ hs hsq (Or.inl h)))
    · rcases List.mem_cons.1 hb with hba | hbl
      · subst hba
        apply i2
        left
        apply add_atLeast_one s _ hs hsq
        right
        rw [hb1]
        exact Or.inr ⟨1, by decide!, le_refl _⟩
      · exact i2 (Or.inr ⟨b, hbl, hb1⟩)

end FloatTrainerLemmas
end Keytap

namespace Keytap
section FloatAnchorLemmas

theorem columnSumsFl_atLeast (N : Nat) (ccs : CCTable Fl) (a : Int)
    (hg : ∀ i : Nat, i < N → (ccs (i : Int) a).1 ≠ Fl.nan ∧ (ccs (i : Int) a).1 ≠ Fl.ninf)
    (hone : ∃ b : Nat, b < N ∧ ccs (b : Int) a = (Fl.num 1, 0)) :
    (columnSumsFl N ccs a).2.AtLeast 1 := by
  unfold columnSumsFl
  have h : ∀ (l : List Nat) (st : Int × Fl), (∀ i ∈ l, i < N) → st.2.AtLeast 0 →
      (l.foldl
        (fun (st : Int × Fl) (iwaveform : Nat) =>
          if |(ccs (iwaveform : Int) a).2| > 50 then st
          else (st.1 + 1,
            Fl.add binary64 st.2
              (Fl.mul binary64 (ccs (iwaveform : Int) a).1 (ccs (iwaveform : Int) a).1)))
        st).2.AtLeast 0 ∧
      ((st.2.AtLeast 1 ∨ ∃ b ∈ l, ccs (b : Int) a = (Fl.num 1, 0)) →
      (l.foldl
        (fun (st : Int × Fl) (iwaveform : Nat) =>
          if |(ccs (iwaveform : Int) a).2| > 50 then st
          else (st.1 + 1,
            Fl.add binary64 st.2
              (Fl.mul binary64 (ccs (iwaveform : Int) a).1 (ccs (iwaveform : Int) a).1)))
        st).2.AtLeast 1) := by
    intro l
    induction l with
    | nil =>
      intro st _ h0
      refine ⟨h0, ?_⟩
      rintro (h | ⟨b, hb, _⟩)
      · exact h
      · cases hb
    | cons x l ih =>
      intro st hl h0
      rw [List.foldl_cons]
      have hx := hg x (hl x (List.mem_cons_self _ _))
      have hsq := sq_atLeast_zero _ hx.1 hx.2
      have hl2 : ∀ i ∈ l, i < N := fun i hi => hl i (List.mem_cons_of_mem _ hi)
      by_cases hc : |(ccs (x : Int) a).2| > 50
      · rw [if_pos hc]
        obtain ⟨i1, i2⟩ := ih st hl2 h0
        refine ⟨i1, ?_⟩
        rintro (h | ⟨b, hb, hb1⟩)
        · exact i2 (Or.inl h)
        · rcases List.mem_cons.1 hb with hbx | hbl
          · exfalso
            rw [← hbx, hb1] at hc
            norm_num at hc
          · exact i2 (Or.inr ⟨b, hbl, hb1⟩)
      · rw [if_neg hc]
        obtain ⟨i1, i2⟩ := ih (st.1 + 1,
          Fl.add binary64 st.2 (Fl.mul binary64 (ccs (x : Int) a).1 (ccs (x : Int) a).1)) hl2
          (add_atLeast_zero _ _ h0 hsq)
        refine ⟨i1, ?_⟩
        rintro (h | ⟨b, hb, hb1⟩)
        · exact i2 (Or.inl (add_atLeast_one _ _ h0 hsq (Or.inl h)))
        · rcases List.mem_cons.1 hb with hbx | hbl
          · apply i2
            left
            apply add_atLeast_one _ _ h0 hsq
            right
            rw [← hbx, hb1]
            exact Or.inr ⟨1, by decide!, le_refl _⟩
          · exact i2 (Or.inr ⟨b, hbl, hb1⟩)
  obtain ⟨b, hb, hb1⟩ := hone
  exact (h (List.range N) ((0 : Int), Fl.num 0) (fun i hi => List.mem_range.1 hi)
    (Or.inr ⟨0, rfl, le_refl _⟩)).2 (Or.inr ⟨b, List.mem_range.2 hb, hb1⟩)

theorem anchorStepFl_bestw (find : Nat → Nat → Fl × TOffset) (N : Nat) (st : AnchorState Fl)
    (a : Nat) :
    (anchorStepFl find N st a).bestw = (a : Int) ∨
      ((anchorStepFl find N st a).bestw = st.bestw ∧
        (columnSumsFl N (pairLoop find N a (ccsSet st.ccs (a : Int) (a : Int) (Fl.num 1, 0)))
            (a : Int)).2.gt st.bestccsum = false) := by
  unfold anchorStepFl
  split_ifs with h
  · exact Or.inl rfl
  · exact Or.inr ⟨rfl, by simpa using h⟩

/-- The anchor selected among `N ≥ 1` waveforms is one of them, when no score is `NaN` or
`-infinity`. -/
theorem anchorLoopFl_bestw (find : Nat → Nat → Fl × TOffset) (N : Nat) (hN : 1 ≤ N)
    (hfind : ∀ a i, (find a i).1 ≠ Fl.nan ∧ (find a i).1 ≠ Fl.ninf) :
    0 ≤ (anchorLoopFl find N).bestw ∧ (anchorLoopFl find N).bestw < (N : Int) := by
  have h : ∀ m : Nat, 1 ≤ m →
      (0 ≤ ((List.range m).foldl (anchorStepFl find N)
        { bestw := -1, ntrain := 0, bestccsum := Fl.num (-1),
          ccs := fun _ _ => (Fl.num 0, 0) }).bestw ∧
      ((List.range m).foldl (anchorStepFl find N)
        { bestw := -1, ntrain := 0, bestccsum := Fl.num (-1),
          ccs := fun _ _ => (Fl.num 0, 0) }).bestw < (m : Int)) := by
    intro m hm
    induction m with
    | zero => omega
    | succ m ih =>
      rw [List.range_succ, List.foldl_append, List.foldl_cons, List.foldl_nil]
      rcases anchorStepFl_bestw find N ((List.range m).foldl (anchorStepFl find N)
        { bestw := -1, ntrain := 0, bestccsum := Fl.num (-1),
          ccs := fun _ _ => (Fl.num 0, 0) }) m with h1 | ⟨h1, h2⟩
      · rw [h1]
        push_cast
        omega
      · rcases Nat.eq_zero_or_pos m with h0 | h0
        · subst h0
          exfalso
          simp only [List.range_zero, List.foldl_nil] at h2
          have hcol := columnSumsFl_atLeast N
            (pairLoop find N 0 (ccsSet (fun _ _ => (Fl.num 0, 0)) ((0 : Nat) : Int)
              ((0 : Nat) : Int) (Fl.num 1, 0))) ((0 : Nat) : Int)
            (by
              intro i hi
              rw [pairLoop_entry find N 0 (by omega)]
              by_cases c1 : ((0 : Nat) : Int) < (i : Int) ∧ (i : Int) < (N : Int) ∧
                  ((0 : Nat) : Int) = ((0 : Nat) : Int)
              · rw [if_pos c1]
                exact hfind _ _
              · have hi0 : i = 0 := by omega
                subst hi0
                rw [if_neg c1, if_neg (by omega), ccsSet_apply, if_pos ⟨rfl, rfl⟩]
                exact ⟨by simp, by simp⟩)
            ⟨0, by omega, by
              rw [pairLoop_entry find N 0 (by omega), if_neg (by omega), if_neg (by omega),
                ccsSet_apply, if_pos ⟨rfl, rfl⟩]⟩
          have := atLeast_gt _ 1 (-1) hcol (by norm_num)
          rw [this] at h2
          cases h2
        · have ih1 := ih h0
          rw [h1]
          push_cast
          omega
  exact h N hN

theorem anchorFl_weightSum (find : Nat → Nat → Fl × TOffset) (N : Nat) (hN : 1 ≤ N)
    (hfind : ∀ a i, (find a i).1 ≠ Fl.nan ∧ (find a i).1 ≠ Fl.ninf) :
    (weightSumFl N (anchorLoopFl find N).ccs (anchorLoopFl find N).bestw).AtLeast 1 := by
  obtain ⟨hb0, hb1⟩ := anchorLoopFl_bestw find N hN hfind
  obtain ⟨b, hb⟩ : ∃ b : Nat, (anchorLoopFl find N).bestw = (b : Int) :=
    ⟨(anchorLoopFl find N).bestw.toNat, (Int.toNat_of_nonneg hb0).symm⟩
  rw [hb] at hb1 ⊢
  have hbN : b < N := by omega
  unfold weightSumFl
  refine (sumSq_atLeast (fun j => ((anchorLoopFl find N).ccs (j : Int) (b : Int)).1)
    (List.range N) ?_ (Fl.num 0) (Or.inr ⟨0, rfl, le_refl _⟩)).2 (Or.inr ⟨b, ?_, ?_⟩)
  · intro j hj
    have hjN := List.mem_range.1 hj
    show ((anchorLoopFl find N).ccs (j : Int) (b : Int)).1 ≠ Fl.nan ∧
      ((anchorLoopFl find N).ccs (j : Int) (b : Int)).1 ≠ Fl.ninf
    rw [anchorLoopFl_entry find N j b hjN hbN]
    split_ifs
    · exact ⟨by simp, by simp⟩
    · exact hfind _ _
    · exact hfind _ _
  · exact List.mem_range.2 hbN
  · show ((anchorLoopFl find N).ccs (b : Int) (b : Int)).1 = Fl.num 1
    rw [anchorLoopFl_entry find N b b hbN hbN, if_pos rfl]

theorem trainFindFl_good (nWorkers : Nat) (sched : Nat → Nat → List Nat) (k W : Int)
    (history : List (List Fl)) (a i : Nat) :
    (trainFindFl nWorkers sched k W history a i).1 ≠ Fl.nan ∧
      (trainFindFl nWorkers sched k W history a i).1 ≠ Fl.ninf := by
  unfold trainFindFl
  rcases findBestCCFl_inv nWorkers (sched a i) (history.getD a []) (history.getD i [])
    (W / 2 - k) (W / 2 + k) 64 with h | h
  · rw [h]
    exact ⟨by simp, by simp⟩
  · constructor
    · intro hc
      rw [hc] at h
      simp [Fl.gt, Fl.toCC, TValueCC.gt] at h
    · intro hc
      rw [hc] at h
      simp [Fl.gt, Fl.toCC, TValueCC.gt] at h

end FloatAnchorLemmas
end Keytap

namespace Keytap
section FloatAverageLemmas

theorem isIntSample_zero (M : Int) (hM : 0 ≤ M) : IsIntSample M (Fl.num 0) :=
  ⟨0, by simpa using hM, by simp⟩

theorem sampleAtFl_int (M : Int) (hM : 0 ≤ M) (w : List Fl) (hw : ∀ x ∈ w, IsIntSample M x)
    (i : Int) : IsIntSample M (sampleAtFl w i) := by
  rcases sampleAtFl_mem_or_zero w i with h | h
  · rw [h]
    exact isIntSample_zero M hM
  · exact hw _ h

theorem shiftWaveformFl_int (M : Int) (hM : 0 ≤ M) (W : Int) (w : List Fl)
    (hw : ∀ x ∈ w, IsIntSample M x) (off : Int) :
    ∀ x ∈ shiftWaveformFl W w off, IsIntSample M x := by
  intro x hx
  unfold shiftWaveformFl at hx
  obtain ⟨icur, _, rfl⟩ := List.mem_map.1 hx
  split_ifs
  · exact sampleAtFl_int M hM w hw _
  · exact isIntSample_zero M hM

theorem getD_int (M : Int) (l : List (List Fl)) (hl : ∀ w ∈ l, ∀ x ∈ w, IsIntSample M x)
    (j : Nat) : ∀ x ∈ l.getD j [], IsIntSample M x := by
  intro x hx
  rw [List.getD_eq_getElem?_getD] at hx
  by_cases hj : j < l.length
  · rw [List.getElem?_eq_getElem hj] at hx
    exact hl _ (List.getElem_mem hj) x hx
  · rw [List.getElem?_eq_none (by omega)] at hx
    cases hx

theorem centerWaveformsFl_int (M : Int) (hM : 0 ≤ M) (W : Int) (history : List (List Fl))
    (hh : ∀ w ∈ history, ∀ x ∈ w, IsIntSample M x) :
    ∀ w ∈ centerWaveformsFl W history, ∀ x ∈ w, IsIntSample M x := by
  intro w hw
  unfold centerWaveformsFl at hw
  obtain ⟨w0, hw0, rfl⟩ := List.mem_map.1 hw
  exact shiftWaveformFl_int M hM W w0 (hh w0 hw0) _

theorem alignWaveformsFl_int (M : Int) (hM : 0 ≤ M) (W : Int) (history : List (List Fl))
    (hh : ∀ w ∈ history, ∀ x ∈ w, IsIntSample M x) (ccs : CCTable Fl) (bestw : Int) :
    ∀ w ∈ alignWaveformsFl W history ccs bestw, ∀ x ∈ w, IsIntSample M x := by
  intro w hw
  unfold alignWaveformsFl at hw
  obtain ⟨j, _, rfl⟩ := List.mem_map.1 hw
  split_ifs
  · exact getD_int M history hh j
  · exact shiftWaveformFl_int M hM W _ (getD_int M history hh j) _

/-- The square in `double` of an integer score of absolute value at most one. -/
theorem sq_int (c : Int) (hc : |c| ≤ 1) :
    Fl.mul binary64 (Fl.num (c : ℚ)) (Fl.num (c : ℚ)) = Fl.num ((c * c : Int) : ℚ) := by
  rw [Fl_mul_num]
  have hf : (decide ((c : ℚ) < 0) != decide ((c : ℚ) < 0)) = false := by simp
  rw [hf]
  by_cases h0 : c * c = 0
  · rw [h0]
    have : (c : ℚ) * (c : ℚ) = 0 := by exact_mod_cast h0
    rw [this, roundQ_zero]
    simp
  · have hb : |c * c| < 2 ^ 53 := by
      rw [abs_mul]
      have h1 : |c| * |c| ≤ 1 * 1 := mul_le_mul hc hc (abs_nonneg _) (by norm_num)
      have : (1 : Int) * 1 < 2 ^ 53 := by norm_num
      omega
    have := roundQ_int64 (c * c) false h0 hb
    rw [← this]
    push_cast
    rfl

theorem toFloat_int (n : Int) (hb : |n| < 2 ^ 24) :
    Fl.toFloat (Fl.num (n : ℚ)) = Fl.num (n : ℚ) := by
  show roundQ binary32 (n : ℚ) false = Fl.num (n : ℚ)
  by_cases h0 : n = 0
  · subst h0
    rw [Int.cast_zero, roundQ_zero]
    simp
  · exact roundQ_int32 n false h0 hb

/-- The running sum `avgWaveform[is]` of the averaging loop on integer scores of absolute value
at most one and integer samples is exact. -/
theorem accumulate_int (cc x : Nat → Fl) (M : Int) (hM : 0 ≤ M) (n : Nat)
    (hc : ∀ j < n, IsIntSample 1 (cc j)) (hx : ∀ j < n, IsIntSample M (x j))
    (hb : (n : Int) * M < 2 ^ 24) :
    (List.range n).foldl
      (fun (v : Fl) (j : Nat) =>
        Fl.toFloat (Fl.add binary64 v
          (Fl.mul binary64 (Fl.mul binary64 (cc j) (cc j)) (x j))))
      (Fl.num 0)
      = Fl.num (∑ j in Finset.range n, (cc j).val * (cc j).val * (x j).val) ∧
    |∑ j in Finset.range n, (cc j).val * (cc j).val * (x j).val| < 2 ^ 24 ∧
    ∃ A : Int, ((A : Int) : ℚ) = ∑ j in Finset.range n, (cc j).val * (cc j).val * (x j).val := by
  have h : ∀ m : Nat, m ≤ n → ∃ S : Int, |S| ≤ (m : Int) * M ∧
      (S : ℚ) = ∑ j in Finset.range m, (cc j).val * (cc j).val * (x j).val ∧
      (List.range m).foldl
        (fun (v : Fl) (j : Nat) =>
          Fl.toFloat (Fl.add binary64 v
            (Fl.mul binary64 (Fl.mul binary64 (cc j) (cc j)) (x j))))
        (Fl.num 0) = Fl.num (S : ℚ) := by
    intro m
    induction m with
    | zero =>
      intro _
      exact ⟨0, by simp, by simp, by simp⟩
    | succ m ih =>
      intro hm
      obtain ⟨S, hS, hSq, hfold⟩ := ih (by omega)
      obtain ⟨c, hc1, hcc⟩ := hc m (by omega)
      obtain ⟨z, hz1, hxz⟩ := hx m (by omega)
      have hcz : |c * c * z| ≤ M := by
        rw [abs_mul, abs_mul]
        have h1 : |c| * |c| ≤ 1 * 1 := mul_le_mul hc1 hc1 (abs_nonneg _) (by norm_num)
        have h2 : |c| * |c| * |z| ≤ 1 * M :=
          mul_le_mul (by linarith) hz1 (abs_nonneg _) (by norm_num)
        linarith
      have hnM : ((m + 1 : Nat) : Int) * M ≤ (n : Int) * M :=
        mul_le_mul_of_nonneg_right (by exact_mod_cast hm) hM
      have hnew : |S + c * c * z| ≤ ((m + 1 : Nat) : Int) * M := by
        have := abs_add S (c * c * z)
        push_cast
        linarith
      refine ⟨S + c * c * z, hnew, ?_, ?_⟩
      · rw [Finset.sum_range_succ, ← hSq, hcc, hxz]
        simp only [Fl.val]
        push_cast
        ring
      · rw [List.range_succ, List.foldl_append, List.foldl_cons, List.foldl_nil, hfold, hcc,
          hxz, sq_int c hc1]
        have hp := mul64_int (c * c) z (by
          have : (2 : Int) ^ 24 < 2 ^ 53 := by norm_num
          have := lt_of_le_of_lt hnew (lt_of_le_of_lt hnM hb)
          have h3 : |c * c * z| ≤ (n : Int) * M := by
            have : (0 : Int) ≤ (m : Int) * M := mul_nonneg (by positivity) hM
            have : ((m + 1 : Nat) : Int) * M = (m : Int) * M + M := by push_cast; ring
            linarith
          linarith)
        rw [add64_int S (c * c * z) _ hp (by
          have : (2 : Int) ^ 24 < 2 ^ 53 := by norm_num
          linarith [lt_of_le_of_lt hnew (lt_of_le_of_lt hnM hb)])]
        exact toFloat_int _ (lt_of_le_of_lt hnew (lt_of_le_of_lt hnM hb))
  obtain ⟨S, hS, hSq, hfold⟩ := h n le_rfl
  refine ⟨by rw [hfold, hSq], ?_, S, hSq⟩
  rw [← hSq]
  have : |S| < 2 ^ 24 := lt_of_le_of_lt hS hb
  exact_mod_cast this

/-- The sum `norm` of the squared scores on integer scores of absolute value at most one is
exact. -/
theorem weightSum_int (cc : Nat → Fl) (n : Nat) (hn : (n : Int) < 2 ^ 24)
    (hc : ∀ j < n, IsIntSample 1 (cc j)) :
    (List.range n).foldl
      (fun (s : Fl) (j : Nat) => Fl.add binary64 s (Fl.mul binary64 (cc j) (cc j)))
      (Fl.num 0)
      = Fl.num (∑ j in Finset.range n, (cc j).val * (cc j).val) ∧
    ∃ D : Int, 0 ≤ D ∧ D ≤ (n : Int) ∧
      ((D : Int) : ℚ) = ∑ j in Finset.range n, (cc j).val * (cc j).val := by
  have h : ∀ m : Nat, m ≤ n → ∃ S : Int, 0 ≤ S ∧ S ≤ (m : Int) ∧
      (S : ℚ) = ∑ j in Finset.range m, (cc j).val * (cc j).val ∧
      (List.range m).foldl
        (fun (s : Fl) (j : Nat) => Fl.add binary64 s (Fl.mul binary64 (cc j) (cc j)))
        (Fl.num 0) = Fl.num (S : ℚ) := by
    intro m
    induction m with
    | zero =>
      intro _
      exact ⟨0, by simp, by simp, by simp, by simp⟩
    | succ m ih =>
      intro hm
      obtain ⟨S, hS0, hS, hSq, hfold⟩ := ih (by omega)
      obtain ⟨c, hc1, hcc⟩ := hc m (by omega)
      have hcc0 : 0 ≤ c * c := mul_self_nonneg c
      have hcc1 : c * c ≤ 1 := by
        have h1 : |c| * |c| ≤ 1 * 1 := mul_le_mul hc1 hc1 (abs_nonneg _) (by norm_num)
        rw [← abs_mul, abs_of_nonneg hcc0] at h1
        linarith
      refine ⟨S + c * c, by linarith, by push_cast; linarith, ?_, ?_⟩
      · rw [Finset.sum_range_succ, ← hSq, hcc]
        simp only [Fl.val]
        push_cast
        ring
      · rw [List.range_succ, List.foldl_append, List.foldl_cons, List.foldl_nil, hfold, hcc,
          sq_int c hc1]
        exact add64_int S (c * c) _ ⟨rfl, rfl⟩ (by
          have : (2 : Int) ^ 24 < 2 ^ 53 := by norm_num
          have hmn : (m : Int) < (n : Int) := by exact_mod_cast hm
          rw [abs_of_nonneg (by linarith)]
          linarith)
  obtain ⟨S, hS0, hS, hSq, hfold⟩ := h n le_rfl
  exact ⟨by rw [hfold, hSq], S, hS0, hS, hSq⟩

/-- An integer below `2^24` in absolute value, multiplied in `double` by the reciprocal in
`double` of a power of two and stored as `float`, is the exact quotient. -/
theorem average_pow2 (A : Int) (hA : |A| < 2 ^ 24) (e : Nat) (he : e ≤ 24) :
    Fl.toFloat (Fl.mul binary64 (Fl.num (A : ℚ))
        (Fl.div binary64 (Fl.num 1) (Fl.num ((2 : ℚ) ^ e))))
      = Fl.num ((A : ℚ) / (2 : ℚ) ^ e) := by
  have hpos : (0 : ℚ) < (2 : ℚ) ^ e := by positivity
  have hdiv : Fl.div binary64 (Fl.num 1) (Fl.num ((2 : ℚ) ^ e)) = Fl.num (1 / (2 : ℚ) ^ e) := by
    have : Fl.div binary64 (Fl.num 1) (Fl.num ((2 : ℚ) ^ e))
        = roundQ binary64 (1 / (2 : ℚ) ^ e) false := by
      have h10 : ¬ ((1 : ℚ) < 0) := by norm_num
      simp [Fl.div, Fl.isNan, Fl.isFin, Fl.val, Fl.sign, ne_of_gt hpos,
        not_lt.2 (le_of_lt hpos), h10]
    rw [this]
    apply roundQ_exact binary64 _ false 1 (-(e : Int))
    · rw [abs_of_pos (by positivity), zpow_neg, zpow_natCast]
      simp
    · norm_num
    · norm_num [binary64]
    · simp only [binary64]
      omega
    · rw [abs_of_pos (by positivity)]
      have h1 : (1 : ℚ) / 2 ^ e ≤ 1 := by
        rw [div_le_one hpos]
        exact one_le_pow₀ (by norm_num)
      have h2 : (1 : ℚ) < (2 : ℚ) ^ (binary64.emax + 1) := by
        rw [show binary64.emax + 1 = ((1024 : ℕ) : Int) from rfl, zpow_natCast]
        exact one_lt_pow₀ (by norm_num) (by norm_num)
      linarith
  rw [hdiv]
  by_cases h0 : A = 0
  · subst h0
    have : Fl.mul binary64 (Fl.num ((0 : Int) : ℚ)) (Fl.num (1 / (2 : ℚ) ^ e)) = Fl.num 0 := by
      rw [Fl_mul_num]
      simp [roundQ_zero, not_lt.2 (le_of_lt hpos)]
    rw [this]
    simp [Fl.toFloat, roundQ_zero]
  · have hApos : 0 < A.natAbs := Int.natAbs_pos.2 h0
    have hAabs : ((A.natAbs : Nat) : ℚ) = |(A : ℚ)| := by
      rw [Nat.cast_natAbs]
      push_cast
      rfl
    have hAlt : A.natAbs < 2 ^ 24 := by
      have := abs_lt.1 hA
      omega
    have hval : |(A : ℚ) / (2 : ℚ) ^ e| = ((A.natAbs : Nat) : ℚ) * (2 : ℚ) ^ (-(e : Int)) := by
      rw [abs_div, abs_of_pos hpos, hAabs, zpow_neg, zpow_natCast]
      rfl
    have hne : (A : ℚ) / (2 : ℚ) ^ e ≠ 0 := by
      apply div_ne_zero
      · exact_mod_cast h0
      · exact ne_of_gt hpos
    have hbig : |(A : ℚ) / (2 : ℚ) ^ e| < (2 : ℚ) ^ (24 : ℕ) := by
      rw [abs_div, abs_of_pos hpos]
      have h1 : |(A : ℚ)| < 2 ^ 24 := by exact_mod_cast hA
      have h2 : |(A : ℚ)| / 2 ^ e ≤ |(A : ℚ)| := by
        apply div_le_self (abs_nonneg _)
        exact one_le_pow₀ (by norm_num)
      linarith
    have hmul : Fl.mul binary64 (Fl.num (A : ℚ)) (Fl.num (1 / (2 : ℚ) ^ e))
        = Fl.num ((A : ℚ) / (2 : ℚ) ^ e) := by
      rw [Fl_mul_num]
      have e1 : (A : ℚ) * (1 / (2 : ℚ) ^ e) = (A : ℚ) / (2 : ℚ) ^ e := by ring
      rw [e1]
      apply roundQ_exact binary64 _ _ A.natAbs (-(e : Int)) hval hApos
      · exact lt_trans hAlt (by norm_num [binary64])
      · simp only [binary64]
        omega
      · have h2 : (2 : ℚ) ^ (24 : ℕ) < (2 : ℚ) ^ (binary64.emax + 1) := by
          rw [show binary64.emax + 1 = ((1024 : ℕ) : Int) from rfl, zpow_natCast]
          exact pow_lt_pow_right₀ (by norm_num) (by norm_num)
        linarith
    rw [hmul]
    show roundQ binary32 ((A : ℚ) / (2 : ℚ) ^ e) false = Fl.num ((A : ℚ) / (2 : ℚ) ^ e)
    apply roundQ_exact binary32 _ _ A.natAbs (-(e : Int)) hval hApos
    · exact hAlt
    · simp only [binary32]
      omega
    · have h2 : (2 : ℚ) ^ (24 : ℕ) < (2 : ℚ) ^ (binary32.emax + 1) := by
        rw [show binary32.emax + 1 = ((128 : ℕ) : Int) from rfl, zpow_natCast]
        exact pow_lt_pow_right₀ (by norm_num) (by norm_num)
      linarith

end FloatAverageLemmas
end Keytap

namespace Keytap
section FloatAverageClaim

theorem trainKeyFl_sample (nWorkers : Nat) (sched : Nat → Nat → List Nat) (k W : Int)
    (history : List (List Fl)) (s : Nat) (hs : s < W.toNat) :
    sampleAtFl (trainKeyFl nWorkers sched k W history) (s : Int)
      = Fl.toFloat (Fl.mul binary64
          ((List.range history.length).foldl
            (fun (v : Fl) (j : Nat) =>
              Fl.toFloat (Fl.add binary64 v
                (Fl.mul binary64
                  (Fl.mul binary64
                    ((trainAnchorFl nWorkers sched k W history).ccs (j : Int)
                      (trainAnchorFl nWorkers sched k W history).bestw).1
                    ((trainAnchorFl nWorkers sched k W history).ccs (j : Int)
                      (trainAnchorFl nWorkers sched k W history).bestw).1)
                  (sampleAtFl
                    ((alignWaveformsFl W (centerWaveformsFl W history)
                      (trainAnchorFl nWorkers sched k W history).ccs
                      (trainAnchorFl nWorkers sched k W history).bestw).getD j [])
                    (s : Int)))))
            (Fl.num 0))
          (Fl.div binary64 (Fl.num 1)
            ((List.range history.length).foldl
              (fun (x : Fl) (j : Nat) =>
                Fl.add binary64 x
                  (Fl.mul binary64
                    ((trainAnchorFl nWorkers sched k W history).ccs (j : Int)
                      (trainAnchorFl nWorkers sched k W history).bestw).1
                    ((trainAnchorFl nWorkers sched k W history).ccs (j : Int)
                      (trainAnchorFl nWorkers sched k W history).bestw).1))
              (Fl.num 0)))) := by
  unfold trainKeyFl
  rw [sampleAtFl_map_range _ _ s hs]
  unfold accumulateSampleFl weightSumFl
  rw [alignWaveformsFl_length, centerWaveformsFl_length]

/-- C29 (amended): trainKey, the weighted average, in the arithmetic of the program.  For a key
with `N ≥ 1` waveforms (in particular `N ≥ 3`) the prototype written before the normalization
has `W` samples; the anchor is one of the waveforms and its entry of the table is `(1, 0)`;
the anchor waveform is left untouched and every other waveform `j` is replaced by the waveform
`W'_j` of `W` samples with `W'_j[s] = W_j[s + off_j]` when `0 ≤ s + off_j < W` and `0`
otherwise; `avg[s]` is the running sum over all `N` waveforms, whatever their offset, of the
products `cc_j*cc_j*W'_j[s]` taken in double and stored as float after every addition,
multiplied in double by the reciprocal in double of the sum in double of the `cc_j*cc_j`, and
stored as float; that sum of the `cc_j*cc_j` is at least 1 or `+infinity`; and when every
sample of the recordings is an integer of absolute value at most `M` with `N M < 2^24` and
every `cc_j` is `-1`, `0` or `1`, `avg[s]` is the exact sum `sum_j cc_j^2 W'_j[s]` times the
reciprocal in double of the exact `sum_j cc_j^2`, stored as float, which is the exact quotient
of the two sums when the second is a power of two. -/
theorem prototypeFl_average (nWorkers : Nat) (sched : Nat → Nat → List Nat) (k W : Int)
    (history : List (List Fl)) (hN : 1 ≤ history.length) :
    (trainKeyFl nWorkers sched k W history).length = W.toNat ∧
    (0 ≤ (trainAnchorFl nWorkers sched k W history).bestw ∧
      (trainAnchorFl nWorkers sched k W history).bestw < (history.length : Int) ∧
      (trainAnchorFl nWorkers sched k W history).ccs
        (trainAnchorFl nWorkers sched k W history).bestw
        (trainAnchorFl nWorkers sched k W history).bestw = (Fl.num 1, 0)) ∧
    (∀ j : Nat, j < history.length →
      ((j : Int) = (trainAnchorFl nWorkers sched k W history).bestw →
        (alignWaveformsFl W (centerWaveformsFl W history)
          (trainAnchorFl nWorkers sched k W history).ccs
          (trainAnchorFl nWorkers sched k W history).bestw).getD j []
        = (centerWaveformsFl W history).getD j []) ∧
      ((j : Int) ≠ (trainAnchorFl nWorkers sched k W history).bestw →
        ((alignWaveformsFl W (centerWaveformsFl W history)
          (trainAnchorFl nWorkers sched k W history).ccs
          (trainAnchorFl nWorkers sched k W history).bestw).getD j []).length = W.toNat ∧
        ∀ s : Nat, s < W.toNat →
          sampleAtFl
            ((alignWaveformsFl W (centerWaveformsFl W history)
              (trainAnchorFl nWorkers sched k W history).ccs
              (trainAnchorFl nWorkers sched k W history).bestw).getD j []) (s : Int)
          = if 0 ≤ (s : Int) + ((trainAnchorFl nWorkers sched k W history).ccs (j : Int)
                  (trainAnchorFl nWorkers sched k W history).bestw).2 ∧
                (s : Int) + ((trainAnchorFl nWorkers sched k W history).ccs (j : Int)
                  (trainAnchorFl nWorkers sched k W history).bestw).2 < W then
              sampleAtFl ((centerWaveformsFl W history).getD j [])
                ((s : Int) + ((trainAnchorFl nWorkers sched k W history).ccs (j : Int)
                  (trainAnchorFl nWorkers sched k W history).bestw).2)
            else Fl.num 0)) ∧
    (∀ s : Nat, s < W.toNat →
      sampleAtFl (trainKeyFl nWorkers sched k W history) (s : Int)
        = Fl.toFloat (Fl.mul binary64
            ((List.range history.length).foldl
              (fun (v : Fl) (j : Nat) =>
                Fl.toFloat (Fl.add binary64 v
                  (Fl.mul binary64
                    (Fl.mul binary64
                      ((trainAnchorFl nWorkers sched k W history).ccs (j : Int)
                        (trainAnchorFl nWorkers sched k W history).bestw).1
                      ((trainAnchorFl nWorkers sched k W history).ccs (j : Int)
                        (trainAnchorFl nWorkers sched k W history).bestw).1)
                    (sampleAtFl
                      ((alignWaveformsFl W (centerWaveformsFl W history)
                        (trainAnchorFl nWorkers sched k W history).ccs
                        (trainAnchorFl nWorkers sched k W history).bestw).getD j [])
                      (s : Int)))))
              (Fl.num 0))
            (Fl.div binary64 (Fl.num 1)
              ((List.range history.length).foldl
                (fun (x : Fl) (j : Nat) =>
                  Fl.add binary64 x
                    (Fl.mul binary64
                      ((trainAnchorFl nWorkers sched k W history).ccs (j : Int)
                        (trainAnchorFl nWorkers sched k W history).bestw).1
                      ((trainAnchorFl nWorkers sched k W history).ccs (j : Int)
                        (trainAnchorFl nWorkers sched k W history).bestw).1))
                (Fl.num 0))))) ∧
    ((List.range history.length).foldl
      (fun (x : Fl) (j : Nat) =>
        Fl.add binary64 x
          (Fl.mul binary64
            ((trainAnchorFl nWorkers sched k W history).ccs (j : Int)
              (trainAnchorFl nWorkers sched k W history).bestw).1
            ((trainAnchorFl nWorkers sched k W history).ccs (j : Int)
              (trainAnchorFl nWorkers sched k W history).bestw).1))
      (Fl.num 0)).AtLeast 1 ∧
    (∀ M : Int, 1 ≤ M → (history.length : Int) * M < 2 ^ 24 →
      (∀ w ∈ history, ∀ x ∈ w, IsIntSample M x) →
      (∀ j : Nat, j < history.length →
        IsIntSample 1 ((trainAnchorFl nWorkers sched k W history).ccs (j : Int)
          (trainAnchorFl nWorkers sched k W history).bestw).1) →
      ∀ s : Nat, s < W.toNat →
        sampleAtFl (trainKeyFl nWorkers sched k W history) (s : Int)
          = Fl.toFloat (Fl.mul binary64
              (Fl.num (∑ j in Finset.range history.length,
                ((trainAnchorFl nWorkers sched k W history).ccs (j : Int)
                  (trainAnchorFl nWorkers sched k W history).bestw).1.val *
                ((trainAnchorFl nWorkers sched k W history).ccs (j : Int)
                  (trainAnchorFl nWorkers sched k W history).bestw).1.val *
                (sampleAtFl
                  ((alignWaveformsFl W (centerWaveformsFl W history)
                    (trainAnchorFl nWorkers sched k W history).ccs
                    (trainAnchorFl nWorkers sched k W history).bestw).getD j [])
                  (s : Int)).val))
              (Fl.div binary64 (Fl.num 1)
                (Fl.num (∑ j in Finset.range history.length,
                  ((trainAnchorFl nWorkers sched k W history).ccs (j : Int)
                    (trainAnchorFl nWorkers sched k W history).bestw).1.val *
                  ((trainAnchorFl nWorkers sched k W history).ccs (j : Int)
                    (trainAnchorFl nWorkers sched k W history).bestw).1.val)))) ∧
        (∀ e : Nat,
          (∑ j in Finset.range history.length,
            ((trainAnchorFl nWorkers sched k W history).ccs (j : Int)
              (trainAnchorFl nWorkers sched k W history).bestw).1.val *
            ((trainAnchorFl nWorkers sched k W history).ccs (j : Int)
              (trainAnchorFl nWorkers sched k W history).bestw).1.val) = 2 ^ e →
          sampleAtFl (trainKeyFl nWorkers sched k W history) (s : Int)
            = Fl.num ((∑ j in Finset.range history.length,
                ((trainAnchorFl nWorkers sched k W history).ccs (j : Int)
                  (trainAnchorFl nWorkers sched k W history).bestw).1.val *
                ((trainAnchorFl nWorkers sched k W history).ccs (j : Int)
                  (trainAnchorFl nWorkers sched k W history).bestw).1.val *
                (sampleAtFl
                  ((alignWaveformsFl W (centerWaveformsFl W history)
                    (trainAnchorFl nWorkers sched k W history).ccs
                    (trainAnchorFl nWorkers sched k W history).bestw).getD j [])
                  (s : Int)).val)
              / (∑ j in Finset.range history.length,
                ((trainAnchorFl nWorkers sched k W history).ccs (j : Int)
                  (trainAnchorFl nWorkers sched k W history).bestw).1.val *
                ((trainAnchorFl nWorkers sched k W history).ccs (j : Int)
                  (trainAnchorFl nWorkers sched k W history).bestw).1.val)))) := by
  have hfind := trainFindFl_good nWorkers sched k W (centerWaveformsFl W history)
  obtain ⟨hb0, hb1⟩ := anchorLoopFl_bestw _ history.length hN hfind
  have hw1 := anchorFl_weightSum _ history.length hN hfind
  refine ⟨by simp [trainKeyFl], ⟨hb0, hb1, ?_⟩, ?_, ?_, hw1, ?_⟩
  · obtain ⟨b, hb⟩ : ∃ b : Nat, (trainAnchorFl nWorkers sched k W history).bestw = (b : Int) :=
      ⟨(trainAnchorFl nWorkers sched k W history).bestw.toNat, (Int.toNat_of_nonneg hb0).symm⟩
    have hbN : b < history.length := by
      have : (trainAnchorFl nWorkers sched k W history).bestw < (history.length : Int) := hb1
      omega
    rw [hb]
    unfold trainAnchorFl
    rw [anchorLoopFl_entry _ _ b b hbN hbN, if_pos rfl]
  · intro j hj
    have hg := alignWaveformsFl_getD W (centerWaveformsFl W history)
      (trainAnchorFl nWorkers sched k W history).ccs
      (trainAnchorFl nWorkers sched k W history).bestw j
      (by rw [centerWaveformsFl_length]; exact hj)
    constructor
    · intro hjb
      rw [hg, if_pos hjb]
    · intro hjb
      rw [hg, if_neg hjb]
      exact ⟨shiftWaveformFl_length _ _ _, fun s hs => shiftWaveformFl_sample _ _ _ s hs⟩
  · intro s hs
    exact trainKeyFl_sample nWorkers sched k W history s hs
  · intro M hM hb hint hcc s hs
    have hM0 : 0 ≤ M := by linarith
    have hal : ∀ j : Nat, j < history.length →
        IsIntSample M (sampleAtFl
          ((alignWaveformsFl W (centerWaveformsFl W history)
            (trainAnchorFl nWorkers sched k W history).ccs
            (trainAnchorFl nWorkers sched k W history).bestw).getD j []) (s : Int)) := by
      intro j _
      apply sampleAtFl_int M hM0
      apply getD_int
      apply alignWaveformsFl_int M hM0
      exact centerWaveformsFl_int M hM0 W history hint
    have hNlt : (history.length : Int) < 2 ^ 24 := by
      have h0 : (0 : Int) ≤ (history.length : Int) := by positivity
      have : (history.length : Int) * 1 ≤ (history.length : Int) * M :=
        mul_le_mul_of_nonneg_left hM h0
      linarith
    obtain ⟨a1, a2, A, hA⟩ := accumulate_int
      (fun j => ((trainAnchorFl nWorkers sched k W history).ccs (j : Int)
        (trainAnchorFl nWorkers sched k W history).bestw).1)
      (fun j => sampleAtFl
        ((alignWaveformsFl W (centerWaveformsFl W history)
          (trainAnchorFl nWorkers sched k W history).ccs
          (trainAnchorFl nWorkers sched k W history).bestw).getD j []) (s : Int))
      M hM0 history.length hcc hal hb
    obtain ⟨w1, D, hD0, hDN, hD⟩ := weightSum_int
      (fun j => ((trainAnchorFl nWorkers sched k W history).ccs (j : Int)
        (trainAnchorFl nWorkers sched k W history).bestw).1)
      history.length hNlt hcc
    have hform := trainKeyFl_sample nWorkers sched k W history s hs
    rw [a1, w1] at hform
    refine ⟨hform, ?_⟩
    intro e he
    rw [hform, he, ← hA]
    have he24 : e ≤ 24 := by
      by_contra hc
      have h24 : 24 ≤ e := by omega
      have h1 : (2 : ℚ) ^ 24 ≤ 2 ^ e := pow_le_pow_right₀ (by norm_num) h24
      have h2 : ((D : Int) : ℚ) = 2 ^ e := by rw [hD]; exact he
      have h3 : ((D : Int) : ℚ) < 2 ^ 24 := by
        have : D < 2 ^ 24 := lt_of_le_of_lt hDN hNlt
        exact_mod_cast this
      linarith
    apply average_pow2 A _ e he24
    have : |((A : Int) : ℚ)| < 2 ^ 24 := by rw [hA]; exact a2
    exact_mod_cast this

end FloatAverageClaim
end Keytap

namespace Keytap
section FloatAverageWitness

theorem sampleAtFl_spike (n m : Nat) (x : Fl) (i : Int) (h : i ≠ (n : Int)) :
    sampleAtFl (List.replicate n (Fl.num 0) ++ [x] ++ List.replicate m (Fl.num 0)) i
      = Fl.num 0 := by
  unfold sampleAtFl
  split_ifs with h0
  · have hk : i.toNat ≠ n := by omega
    rw [List.getD_eq_getElem?_getD, List.append_assoc, List.getElem?_append]
    split_ifs with h1
    · rw [List.length_replicate] at h1
      rw [List.getElem?_replicate, if_pos h1]
      rfl
    · rw [List.length_replicate] at h1 ⊢
      obtain ⟨d, hd⟩ : ∃ d, i.toNat - n = d + 1 := ⟨i.toNat - n - 1, by omega⟩
      rw [hd, List.singleton_append, List.getElem?_cons_succ, List.getElem?_replicate]
      split_ifs <;> rfl
  · rfl

/-- The search returns the one offset whose score is above `-1`. -/
theorem findBestCCFl_only (nWorkers : Nat) (order : List Nat) (A B : List Fl)
    (is0 is1 alignWindow : Int) (hn : 1 ≤ nWorkers) (hord : order.Perm (List.range nWorkers))
    (o1 : Int) (h1 : -alignWindow ≤ o1) (h2 : o1 < alignWindow)
    (hgt : (ccAtFl A B is0 is1 o1).gt (Fl.num (-1)) = true)
    (hother : ∀ o, -alignWindow ≤ o → o < alignWindow → o ≠ o1 →
      (ccAtFl A B is0 is1 o).gt (Fl.num (-1)) = false) :
    findBestCCFl nWorkers order A B is0 is1 alignWindow = (ccAtFl A B is0 is1 o1, o1) := by
  obtain ⟨hc, hmax⟩ := findBestCCFl_char nWorkers order A B is0 is1 alignWindow hn hord
  rcases hc with hc | ⟨o, ho1, ho2, hc, hg⟩
  · exfalso
    have := hmax o1 h1 h2
    rw [hc, hgt] at this
    cases this
  · by_cases hoo : o = o1
    · rw [hc, hoo]
    · exfalso
      rw [hother o ho1 ho2 hoo] at hg
      cases hg

/-- The scores against a recording whose one non-zero sample is at index 65, for the window of
the indices 64 and 65: `NaN` at every offset but `0` and `1`. -/
theorem ccAtFl_spike (A : List Fl) (x : Fl) (o : Int) (h0 : o ≠ 0) (h1 : o ≠ 1) :
    ccAtFl A (List.replicate 65 (Fl.num 0) ++ [x] ++ List.replicate 64 (Fl.num 0)) 64 66 o
      = Fl.nan := by
  unfold ccAtFl
  have e : (66 : Int) + o = 64 + o + ((2 : Nat) : Int) := by push_cast; ring
  rw [e]
  apply calcCCFl_silent
  intro j hj
  apply sampleAtFl_spike
  omega

theorem findBestCCFl_spike (A : List Fl) (x : Fl) (o1 o2 : Int)
    (ho : (o1 = 0 ∧ o2 = 1) ∨ (o1 = 1 ∧ o2 = 0))
    (h1 : (ccAtFl A (List.replicate 65 (Fl.num 0) ++ [x] ++ List.replicate 64 (Fl.num 0))
      64 66 o1).gt (Fl.num (-1)) = true)
    (h2 : (ccAtFl A (List.replicate 65 (Fl.num 0) ++ [x] ++ List.replicate 64 (Fl.num 0))
      64 66 o2).gt (Fl.num (-1)) = false) :
    findBestCCFl 1 [0] A (List.replicate 65 (Fl.num 0) ++ [x] ++ List.replicate 64 (Fl.num 0))
      64 66 64
      = (ccAtFl A (List.replicate 65 (Fl.num 0) ++ [x] ++ List.replicate 64 (Fl.num 0))
          64 66 o1, o1) := by
  apply findBestCCFl_only 1 [0] A _ 64 66 64 le_rfl (List.Perm.refl _) o1
    (by rcases ho with ⟨h, _⟩ | ⟨h, _⟩ <;> rw [h] <;> norm_num)
    (by rcases ho with ⟨h, _⟩ | ⟨h, _⟩ <;> rw [h] <;> norm_num) h1
  intro o _ _ hne
  by_cases c : o = o2
  · rw [c]
    exact h2
  · rw [ccAtFl_spike A x o (by rcases ho with ⟨a, b⟩ | ⟨a, b⟩ <;> omega)
      (by rcases ho with ⟨a, b⟩ | ⟨a, b⟩ <;> omega)]
    rfl

theorem find_spike_spike :
    findBestCCFl 1 [0] spikeFl spikeFl 64 66 64 = (Fl.num 1, 0) := by
  have h := findBestCCFl_spike spikeFl (Fl.num 2) 0 1 (Or.inl ⟨rfl, rfl⟩) (by decide!)
    (by decide!)
  have e : ccAtFl spikeFl spikeFl 64 66 0 = Fl.num 1 := by decide!
  exact h.trans (by rw [← e]; rfl)

theorem find_mark_spike :
    findBestCCFl 1 [0] spikeMarkFl spikeFl 64 66 64 = (Fl.num 1, 0) := by
  have h := findBestCCFl_spike spikeMarkFl (Fl.num 2) 0 1 (Or.inl ⟨rfl, rfl⟩) (by decide!)
    (by decide!)
  have e : ccAtFl spikeMarkFl spikeFl 64 66 0 = Fl.num 1 := by decide!
  exact h.trans (by rw [← e]; rfl)

theorem find_spike_neg :
    findBestCCFl 1 [0] spikeFl negSpikeFl 64 66 64 = (Fl.num 1, 1) := by
  have h := findBestCCFl_spike spikeFl (Fl.num (-2)) 1 0 (Or.inr ⟨rfl, rfl⟩) (by decide!)
    (by decide!)
  have e : ccAtFl spikeFl negSpikeFl 64 66 1 = Fl.num 1 := by decide!
  exact h.trans (by rw [← e]; rfl)

theorem find_neg_spike :
    findBestCCFl 1 [0] negSpikeFl spikeFl 64 66 64 = (Fl.num 1, 1) := by
  have h := findBestCCFl_spike negSpikeFl (Fl.num 2) 1 0 (Or.inr ⟨rfl, rfl⟩) (by decide!)
    (by decide!)
  have e : ccAtFl negSpikeFl spikeFl 64 66 1 = Fl.num 1 := by decide!
  exact h.trans (by rw [← e]; rfl)

theorem pairLoop_congr (find find1 : Nat → Nat → Fl × TOffset) (N a : Nat)
    (h : ∀ i, a < i → i < N → find a i = find1 a i) (ccs : CCTable Fl) :
    pairLoop find N a ccs = pairLoop find1 N a ccs := by
  unfold pairLoop
  apply List.foldl_ext
  intro c d hd
  have hd2 := List.mem_range.1 hd
  rw [h (a + 1 + d) (by omega) (by omega)]

theorem anchorLoopFl_congr (find find1 : Nat → Nat → Fl × TOffset) (N : Nat)
    (h : ∀ a i, a < i → i < N → find a i = find1 a i) :
    anchorLoopFl find N = anchorLoopFl find1 N := by
  unfold anchorLoopFl
  apply List.foldl_ext
  intro st a _
  unfold anchorStepFl
  rw [pairLoop_congr find find1 N a (fun i h1 h2 => h a i h1 h2)]

theorem center_spikeHistory : centerWaveformsFl 130 spikeHistoryFl = spikeHistoryFl := by
  decide!

theorem center_markHistory : centerWaveformsFl 130 markHistoryFl = markHistoryFl := by
  decide!

theorem trainAnchorFl_spikeHistory :
    trainAnchorFl 1 (fun _ _ => [0]) 1 130 spikeHistoryFl = anchorLoopFl spikeFindFl 4 := by
  unfold trainAnchorFl
  rw [center_spikeHistory]
  apply anchorLoopFl_congr
  intro a i hai hi
  have hi4 : i < 4 := hi
  unfold trainFindFl
  interval_cases i <;> interval_cases a
  · exact find_spike_spike
  · exact find_spike_neg
  · exact find_spike_neg
  · exact find_spike_spike
  · exact find_spike_spike
  · exact find_neg_spike

theorem trainAnchorFl_markHistory :
    trainAnchorFl 1 (fun _ _ => [0]) 1 130 markHistoryFl
      = anchorLoopFl (fun _ _ => (Fl.num 1, 0)) 3 := by
  unfold trainAnchorFl
  rw [center_markHistory]
  apply anchorLoopFl_congr
  intro a i hai hi
  have hi3 : i < 3 := hi
  unfold trainFindFl
  interval_cases i <;> interval_cases a
  · exact find_mark_spike
  · exact find_mark_spike
  · exact find_spike_spike

theorem anchor_spikeHistory :
    (anchorLoopFl spikeFindFl 4).bestw = 0 ∧
    (anchorLoopFl spikeFindFl 4).ccs 0 0 = (Fl.num 1, 0) ∧
    (anchorLoopFl spikeFindFl 4).ccs 1 0 = (Fl.num 1, 0) ∧
    (anchorLoopFl spikeFindFl 4).ccs 2 0 = (Fl.num 1, 1) ∧
    (anchorLoopFl spikeFindFl 4).ccs 3 0 = (Fl.num 1, 0) := by
  decide!

theorem anchor_markHistory :
    (anchorLoopFl (fun _ _ => (Fl.num 1, 0)) 3).bestw = 0 ∧
    (anchorLoopFl (fun _ _ => (Fl.num 1, 0)) 3).ccs 0 0 = (Fl.num 1, 0) ∧
    (anchorLoopFl (fun _ _ => (Fl.num 1, 0)) 3).ccs 1 0 = (Fl.num 1, 0) ∧
    (anchorLoopFl (fun _ _ => (Fl.num 1, 0)) 3).ccs 2 0 = (Fl.num 1, 0) := by
  decide!

end FloatAverageWitness
end Keytap

namespace Keytap
section FloatAverageWitness2

theorem spikeHistory_int : ∀ w ∈ spikeHistoryFl, ∀ x ∈ w, IsIntSample 2 x := by
  intro w hw x hx
  have hx2 : x = Fl.num 0 ∨ x = Fl.num 2 ∨ x = Fl.num (-2) := by
    simp only [spikeHistoryFl, List.mem_cons, List.mem_singleton, List.not_mem_nil,
      or_false] at hw
    rcases hw with rfl | rfl | rfl | rfl <;>
      simp only [spikeFl, negSpikeFl, List.mem_append, List.mem_replicate, List.mem_singleton]
        at hx <;> tauto
  rcases hx2 with rfl | rfl | rfl
  · exact ⟨0, by norm_num, by norm_num⟩
  · exact ⟨2, by norm_num, by norm_num⟩
  · exact ⟨-2, by norm_num, by norm_num⟩

theorem spikeHistory_column (j : Nat) (hj : j < 4) :
    ((anchorLoopFl spikeFindFl 4).ccs (j : Int) 0).1 = Fl.num 1 := by
  obtain ⟨_, h0, h1, h2, h3⟩ := anchor_spikeHistory
  interval_cases j
  · exact congrArg Prod.fst h0
  · exact congrArg Prod.fst h1
  · exact congrArg Prod.fst h2
  · exact congrArg Prod.fst h3

theorem spikeHistory_aligned :
    (sampleAtFl ((alignWaveformsFl 130 spikeHistoryFl (anchorLoopFl spikeFindFl 4).ccs 0).getD
        0 []) ((64 : Nat) : Int) = Fl.num 0 ∧
      sampleAtFl ((alignWaveformsFl 130 spikeHistoryFl (anchorLoopFl spikeFindFl 4).ccs 0).getD
        1 []) ((64 : Nat) : Int) = Fl.num 0 ∧
      sampleAtFl ((alignWaveformsFl 130 spikeHistoryFl (anchorLoopFl spikeFindFl 4).ccs 0).getD
        2 []) ((64 : Nat) : Int) = Fl.num (-2) ∧
      sampleAtFl ((alignWaveformsFl 130 spikeHistoryFl (anchorLoopFl spikeFindFl 4).ccs 0).getD
        3 []) ((64 : Nat) : Int) = Fl.num 0) ∧
    (sampleAtFl ((alignWaveformsFl 130 spikeHistoryFl (anchorLoopFl spikeFindFl 4).ccs 0).getD
        0 []) ((65 : Nat) : Int) = Fl.num 2 ∧
      sampleAtFl ((alignWaveformsFl 130 spikeHistoryFl (anchorLoopFl spikeFindFl 4).ccs 0).getD
        1 []) ((65 : Nat) : Int) = Fl.num 2 ∧
      sampleAtFl ((alignWaveformsFl 130 spikeHistoryFl (anchorLoopFl spikeFindFl 4).ccs 0).getD
        2 []) ((65 : Nat) : Int) = Fl.num 0 ∧
      sampleAtFl ((alignWaveformsFl 130 spikeHistoryFl (anchorLoopFl spikeFindFl 4).ccs 0).getD
        3 []) ((65 : Nat) : Int) = Fl.num 2) := by
  decide!

/-- C29, witness: four recordings of 130 samples, three with the one sample 2 at index 65 and
the third with the one sample -2 there, frames of one sample, one worker.  The anchor is
waveform 0, waveform 2 is aligned by the offset 1, which moves its sample -2 to index 64, all
four scores are 1, and the prototype has the samples -2/4 at index 64 and (2+2+0+2)/4 at
index 65. -/
theorem prototypeFl_average_witness :
    1 ≤ spikeHistoryFl.length ∧
    (trainAnchorFl 1 (fun _ _ => [0]) 1 130 spikeHistoryFl).bestw = 0 ∧
    (trainAnchorFl 1 (fun _ _ => [0]) 1 130 spikeHistoryFl).ccs 2 0 = (Fl.num 1, 1) ∧
    sampleAtFl ((centerWaveformsFl 130 spikeHistoryFl).getD 2 []) 65 = Fl.num (-2) ∧
    sampleAtFl
      ((alignWaveformsFl 130 (centerWaveformsFl 130 spikeHistoryFl)
        (trainAnchorFl 1 (fun _ _ => [0]) 1 130 spikeHistoryFl).ccs
        (trainAnchorFl 1 (fun _ _ => [0]) 1 130 spikeHistoryFl).bestw).getD 2 [])
      ((64 : Nat) : Int) = Fl.num (-2) ∧
    sampleAtFl
      ((alignWaveformsFl 130 (centerWaveformsFl 130 spikeHistoryFl)
        (trainAnchorFl 1 (fun _ _ => [0]) 1 130 spikeHistoryFl).ccs
        (trainAnchorFl 1 (fun _ _ => [0]) 1 130 spikeHistoryFl).bestw).getD 2 [])
      ((65 : Nat) : Int) = Fl.num 0 ∧
    sampleAtFl (trainKeyFl 1 (fun _ _ => [0]) 1 130 spikeHistoryFl) ((64 : Nat) : Int)
      = Fl.num (-2 / 4) ∧
    sampleAtFl (trainKeyFl 1 (fun _ _ => [0]) 1 130 spikeHistoryFl) ((65 : Nat) : Int)
      = Fl.num (6 / 4) := by
  obtain ⟨_, _, h3, _, _, h6⟩ :=
    prototypeFl_average 1 (fun _ _ => [0]) 1 130 spikeHistoryFl (by decide)
  obtain ⟨hb, _, _, h20, _⟩ := anchor_spikeHistory
  obtain ⟨a64, a65⟩ := spikeHistory_aligned
  have hcen : sampleAtFl ((centerWaveformsFl 130 spikeHistoryFl).getD 2 []) 65 = Fl.num (-2) := by
    rw [center_spikeHistory]
    decide!
  have hcen2 : sampleAtFl ((centerWaveformsFl 130 spikeHistoryFl).getD 2 []) 66 = Fl.num 0 := by
    rw [center_spikeHistory]
    decide!
  have hshift := (h3 2 (by decide)).2
  have hreg := h6 2 (by norm_num) (by decide) spikeHistory_int
  rw [trainAnchorFl_spikeHistory] at hshift hreg ⊢
  rw [hb] at hshift hreg ⊢
  have hoff : ((anchorLoopFl spikeFindFl 4).ccs ((2 : Nat) : Int) 0).2 = 1 :=
    congrArg Prod.snd h20
  have hreg2 := hreg (fun j hj => ⟨1, by norm_num, by
    rw [spikeHistory_column j hj]
    norm_num⟩)
  have hsum : (∑ j in Finset.range spikeHistoryFl.length,
      ((anchorLoopFl spikeFindFl 4).ccs (j : Int) 0).1.val *
        ((anchorLoopFl spikeFindFl 4).ccs (j : Int) 0).1.val) = 2 ^ 2 := by
    rw [Finset.sum_congr rfl (fun j hj => by
      rw [spikeHistory_column j (Finset.mem_range.1 hj)])]
    simp [Fl.val, spikeHistoryFl]
    norm_num
  refine ⟨by decide, rfl, h20, hcen, ?_, ?_, ?_, ?_⟩
  · have := (hshift (by decide)).2 64 (by decide)
    rw [hoff] at this
    rw [this, if_pos (by norm_num)]
    exact hcen
  · have := (hshift (by decide)).2 65 (by decide)
    rw [hoff] at this
    rw [this, if_pos (by norm_num)]
    exact hcen2
  · rw [(hreg2 64 (by decide)).2 2 hsum, hsum]
    apply congrArg Fl.num
    rw [center_spikeHistory]
    have hl : spikeHistoryFl.length = 4 := rfl
    rw [hl, Finset.sum_range_succ, Finset.sum_range_succ, Finset.sum_range_succ,
      Finset.sum_range_one]
    rw [spikeHistory_column 0 (by decide), spikeHistory_column 1 (by decide),
      spikeHistory_column 2 (by decide), spikeHistory_column 3 (by decide)]
    obtain ⟨b0, b1, b2, b3⟩ := a64
    rw [b0, b1, b2, b3]
    norm_num [Fl.val]
  · rw [(hreg2 65 (by decide)).2 2 hsum, hsum]
    apply congrArg Fl.num
    rw [center_spikeHistory]
    have hl : spikeHistoryFl.length = 4 := rfl
    rw [hl, Finset.sum_range_succ, Finset.sum_range_succ, Finset.sum_range_succ,
      Finset.sum_range_one]
    rw [spikeHistory_column 0 (by decide), spikeHistory_column 1 (by decide),
      spikeHistory_column 2 (by decide), spikeHistory_column 3 (by decide)]
    obtain ⟨b0, b1, b2, b3⟩ := a65
    rw [b0, b1, b2, b3]
    norm_num [Fl.val]

end FloatAverageWitness2
end Keytap

namespace Keytap
section FloatAverageCounterexample

theorem markHistory_aligned :
    sampleAtFl ((alignWaveformsFl 130 markHistoryFl
      (anchorLoopFl (fun _ _ => (Fl.num 1, 0)) 3).ccs 0).getD 0 []) ((10 : Nat) : Int)
        = Fl.num 1 ∧
    sampleAtFl ((alignWaveformsFl 130 markHistoryFl
      (anchorLoopFl (fun _ _ => (Fl.num 1, 0)) 3).ccs 0).getD 1 []) ((10 : Nat) : Int)
        = Fl.num 0 ∧
    sampleAtFl ((alignWaveformsFl 130 markHistoryFl
      (anchorLoopFl (fun _ _ => (Fl.num 1, 0)) 3).ccs 0).getD 2 []) ((10 : Nat) : Int)
        = Fl.num 0 := by
  decide!

theorem markHistory_value :
    Fl.toFloat (Fl.mul binary64
      (Fl.toFloat (Fl.add binary64
        (Fl.toFloat (Fl.add binary64
          (Fl.toFloat (Fl.add binary64 (Fl.num 0)
            (Fl.mul binary64 (Fl.mul binary64 (Fl.num 1) (Fl.num 1)) (Fl.num 1))))
          (Fl.mul binary64 (Fl.mul binary64 (Fl.num 1) (Fl.num 1)) (Fl.num 0))))
        (Fl.mul binary64 (Fl.mul binary64 (Fl.num 1) (Fl.num 1)) (Fl.num 0))))
      (Fl.div binary64 (Fl.num 1)
        (Fl.add binary64
          (Fl.add binary64
            (Fl.add binary64 (Fl.num 0) (Fl.mul binary64 (Fl.num 1) (Fl.num 1)))
            (Fl.mul binary64 (Fl.num 1) (Fl.num 1)))
          (Fl.mul binary64 (Fl.num 1) (Fl.num 1)))))
      = Fl.num (11184811 / 33554432) := by
  decide!

/-- C29, counterexample: three recordings of 130 samples with the one sample 2 at index 65,
the first of them with the sample 1 at index 10 as well, frames of one sample, one worker.  The
anchor is waveform 0, the three scores are 1 and the three offsets 0, so that the weighted
average of the claim at index 10 is (1 + 0 + 0) / 3 = 1/3; the prototype written by the
program has the sample 11184811 / 2^25 there. -/
theorem prototypeFl_average_fails :
    (trainAnchorFl 1 (fun _ _ => [0]) 1 130 markHistoryFl).bestw = 0 ∧
    ((trainAnchorFl 1 (fun _ _ => [0]) 1 130 markHistoryFl).ccs 0 0 = (Fl.num 1, 0) ∧
      (trainAnchorFl 1 (fun _ _ => [0]) 1 130 markHistoryFl).ccs 1 0 = (Fl.num 1, 0) ∧
      (trainAnchorFl 1 (fun _ _ => [0]) 1 130 markHistoryFl).ccs 2 0 = (Fl.num 1, 0)) ∧
    (sampleAtFl ((alignWaveformsFl 130 (centerWaveformsFl 130 markHistoryFl)
        (trainAnchorFl 1 (fun _ _ => [0]) 1 130 markHistoryFl).ccs 0).getD 0 [])
        ((10 : Nat) : Int) = Fl.num 1 ∧
      sampleAtFl ((alignWaveformsFl 130 (centerWaveformsFl 130 markHistoryFl)
        (trainAnchorFl 1 (fun _ _ => [0]) 1 130 markHistoryFl).ccs 0).getD 1 [])
        ((10 : Nat) : Int) = Fl.num 0 ∧
      sampleAtFl ((alignWaveformsFl 130 (centerWaveformsFl 130 markHistoryFl)
        (trainAnchorFl 1 (fun _ _ => [0]) 1 130 markHistoryFl).ccs 0).getD 2 [])
        ((10 : Nat) : Int) = Fl.num 0) ∧
    sampleAtFl (trainKeyFl 1 (fun _ _ => [0]) 1 130 markHistoryFl) ((10 : Nat) : Int)
      = Fl.num (11184811 / 33554432) ∧
    (11184811 / 33554432 : ℚ) ≠ (1 * 1 * 1 + 1 * 1 * 0 + 1 * 1 * 0) / (1 * 1 + 1 * 1 + 1 * 1) := by
  obtain ⟨hb, h0, h1, h2⟩ := anchor_markHistory
  obtain ⟨a0, a1, a2⟩ := markHistory_aligned
  refine ⟨?_, ⟨?_, ?_, ?_⟩, ⟨?_, ?_, ?_⟩, ?_, by norm_num⟩
  · rw [trainAnchorFl_markHistory]; exact hb
  · rw [trainAnchorFl_markHistory]; exact h0
  · rw [trainAnchorFl_markHistory]; exact h1
  · rw [trainAnchorFl_markHistory]; exact h2
  · rw [trainAnchorFl_markHistory, center_markHistory]; exact a0
  · rw [trainAnchorFl_markHistory, center_markHistory]; exact a1
  · rw [trainAnchorFl_markHistory, center_markHistory]; exact a2
  · rw [trainKeyFl_sample _ _ _ _ _ 10 (by decide), trainAnchorFl_markHistory,
      center_markHistory, hb]
    have hl : markHistoryFl.length = 3 := rfl
    rw [hl]
    simp only [List.range_succ, List.range_zero, List.nil_append, List.cons_append,
      List.foldl_cons, List.foldl_nil, Nat.cast_zero, Nat.cast_one, Nat.cast_ofNat]
    have c0 : ((anchorLoopFl (fun _ _ => (Fl.num 1, 0)) 3).ccs 0 0).1 = Fl.num 1 :=
      congrArg Prod.fst h0
    have c1 : ((anchorLoopFl (fun _ _ => (Fl.num 1, 0)) 3).ccs 1 0).1 = Fl.num 1 :=
      congrArg Prod.fst h1
    have c2 : ((anchorLoopFl (fun _ _ => (Fl.num 1, 0)) 3).ccs 2 0).1 = Fl.num 1 :=
      congrArg Prod.fst h2
    have b0 : sampleAtFl ((alignWaveformsFl 130 markHistoryFl
      (anchorLoopFl (fun _ _ => (Fl.num 1, 0)) 3).ccs 0).getD 0 []) 10 = Fl.num 1 := a0
    have b1 : sampleAtFl ((alignWaveformsFl 130 markHistoryFl
      (anchorLoopFl (fun _ _ => (Fl.num 1, 0)) 3).ccs 0).getD 1 []) 10 = Fl.num 0 := a1
    have b2 : sampleAtFl ((alignWaveformsFl 130 markHistoryFl
      (anchorLoopFl (fun _ _ => (Fl.num 1, 0)) 3).ccs 0).getD 2 []) 10 = Fl.num 0 := a2
    rw [c0, c1, c2, b0, b1, b2]
    exact markHistory_value

end FloatAverageCounterexample
end Keytap

/-! ## The normalization in the arithmetic of the program: results -/

namespace Keytap
section FloatRepresentable

theorem roundHalfEven_le_int (q : ℚ) (N : Int) (h : q ≤ (N : ℚ)) : roundHalfEven q ≤ N := by
  have := roundHalfEven_mono q (N : ℚ) h
  rwa [roundHalfEven_int] at this

theorem roundHalfEven_nonneg (q : ℚ) (h : 0 ≤ q) : 0 ≤ roundHalfEven q := by
  have := roundHalfEven_mono 0 q h
  have h0 : roundHalfEven (0 : ℚ) = 0 := by
    have := roundHalfEven_int 0
    simpa using this
  rwa [h0] at this

/-- Rounding is idempotent: the rounded magnitude is a value of the format. -/
theorem roundMag_idem (fmt : FloatFormat) (hp : 0 < fmt.prec) (x : ℚ) (hx : 0 < x) :
    roundMag fmt (roundMag fmt x) = roundMag fmt x := by
  obtain ⟨hlo, hhi⟩ := floorLog2_spec x hx
  have hu : 0 < ulpAt fmt x := ulpAt_pos fmt x
  have hn0 : 0 ≤ roundHalfEven (x / ulpAt fmt x) :=
    roundHalfEven_nonneg _ (div_nonneg (le_of_lt hx) (le_of_lt hu))
  have hN : roundHalfEven (x / ulpAt fmt x) ≤ (2 : Int) ^ fmt.prec := by
    apply roundHalfEven_le_int
    rw [div_le_iff₀ hu]
    have e : (((2 : Int) ^ fmt.prec : Int) : ℚ) * ulpAt fmt x
        = (2 : ℚ) ^ (max (floorLog2 x) fmt.emin + 1) := by
      unfold ulpAt
      push_cast
      rw [← zpow_natCast (2 : ℚ) fmt.prec, ← zpow_add₀ (by norm_num : (2 : ℚ) ≠ 0)]
      congr 1
      ring
    rw [e]
    have h1 : (2 : ℚ) ^ (floorLog2 x + 1) ≤ (2 : ℚ) ^ (max (floorLog2 x) fmt.emin + 1) :=
      zpow_le_zpow_right₀ (by norm_num) (by have := le_max_left (floorLog2 x) fmt.emin; omega)
    exact le_trans (le_of_lt hhi) h1
  by_cases hz : roundHalfEven (x / ulpAt fmt x) = 0
  · have : roundMag fmt x = 0 := by
      unfold roundMag
      rw [hz]
      simp
    rw [this, roundMag_zero]
  · have hnpos : 0 < roundHalfEven (x / ulpAt fmt x) := lt_of_le_of_ne hn0 (Ne.symm hz)
    by_cases hfull : roundHalfEven (x / ulpAt fmt x) = (2 : Int) ^ fmt.prec
    · apply roundMag_exact fmt _ 1 (max (floorLog2 x) fmt.emin + 1)
      · unfold roundMag
        rw [hfull]
        unfold ulpAt
        push_cast
        rw [← zpow_natCast (2 : ℚ) fmt.prec, ← zpow_add₀ (by norm_num : (2 : ℚ) ≠ 0), one_mul]
        congr 1
        ring
      · norm_num
      · exact Nat.one_lt_two_pow (by omega)
      · have := le_max_right (floorLog2 x) fmt.emin
        omega
    · apply roundMag_exact fmt _ (roundHalfEven (x / ulpAt fmt x)).toNat
        (max (floorLog2 x) fmt.emin - (fmt.prec : Int) + 1)
      · unfold roundMag
        congr 1
        have : (((roundHalfEven (x / ulpAt fmt x)).toNat : Nat) : Int)
            = roundHalfEven (x / ulpAt fmt x) := Int.toNat_of_nonneg hn0
        exact_mod_cast this.symm
      · omega
      · have hlt : roundHalfEven (x / ulpAt fmt x) < (2 : Int) ^ fmt.prec :=
          lt_of_le_of_ne hN hfull
        have : (((roundHalfEven (x / ulpAt fmt x)).toNat : Nat) : Int) < ((2 ^ fmt.prec : Nat) : Int) := by
          rw [Int.toNat_of_nonneg hn0]
          push_cast
          exact hlt
        exact_mod_cast this
      · have := le_max_right (floorLog2 x) fmt.emin
        omega

/-- A finite non-zero value that a rounding to `float` returns is a value of `float`. -/
theorem roundQ32_isFloat32 (x : ℚ) (z : Bool) (q : ℚ) (h : roundQ binary32 x z = Fl.num q) :
    IsFloat32 q := by
  unfold roundQ at h
  by_cases h0 : x = 0
  · rw [if_pos h0] at h
    split_ifs at h
    cases h
    exact ⟨by simp [roundMag_zero], by simp; positivity⟩
  · rw [if_neg h0] at h
    have habs : 0 < |x| := abs_pos.2 h0
    split_ifs at h with h1 h2 h3 h4 h5 h6
    all_goals first
      | cases h
      | skip
    all_goals first
      | exact ⟨by simp [roundMag_zero], by simp; positivity⟩
      | (constructor
         · rw [abs_neg, abs_of_nonneg (roundMag_nonneg _ _ (abs_nonneg _))]
           exact roundMag_idem binary32 (by decide) _ habs
         · rw [abs_neg, abs_of_nonneg (roundMag_nonneg _ _ (abs_nonneg _))]
           exact not_le.1 h1)
      | (constructor
         · rw [abs_of_nonneg (roundMag_nonneg _ _ (abs_nonneg _))]
           exact roundMag_idem binary32 (by decide) _ habs
         · rw [abs_of_nonneg (roundMag_nonneg _ _ (abs_nonneg _))]
           exact not_le.1 h1)

/-- Rounding to `float` leaves a value of `float` unchanged. -/
theorem roundQ32_of_isFloat32 (q : ℚ) (z : Bool) (h : IsFloat32 q) (h0 : q ≠ 0) :
    roundQ binary32 q z = Fl.num q := by
  obtain ⟨h1, h2⟩ := h
  have habs : 0 < |q| := abs_pos.2 h0
  unfold roundQ
  rw [if_neg h0, h1, if_neg (not_le.2 h2), if_neg (ne_of_gt habs)]
  by_cases hq : q < 0
  · rw [if_pos hq, abs_of_neg hq, neg_neg]
  · rw [if_neg hq, abs_of_nonneg (not_lt.1 hq)]

theorem isFloat32_neg (q : ℚ) (h : IsFloat32 q) : IsFloat32 (-q) := by
  unfold IsFloat32 at *
  rw [abs_neg]
  exact h

theorem isFloat32_zero : IsFloat32 0 := ⟨by simp [roundMag_zero], by simp; positivity⟩

/-- The sign bit of a rounded result. -/
theorem roundQ_sign (fmt : FloatFormat) (x : ℚ) (z : Bool) :
    (roundQ fmt x z).sign = if x = 0 then z else decide (x < 0) := by
  unfold roundQ
  by_cases h0 : x = 0
  · rw [if_pos h0, if_pos h0]
    cases z <;> simp [Fl.sign]
  · rw [if_neg h0, if_neg h0]
    have habs : 0 < |x| := abs_pos.2 h0
    by_cases hx : x < 0
    · simp only [hx, if_true]
      split_ifs with h1 h2
      · rfl
      · rfl
      · have : 0 < roundMag fmt |x| :=
          lt_of_le_of_ne (roundMag_nonneg _ _ (abs_nonneg _)) (Ne.symm h2)
        simp [Fl.sign, this]
    · simp only [hx, if_false]
      split_ifs with h1 h2
      · rfl
      · simp [Fl.sign]
      · have : 0 ≤ roundMag fmt |x| := roundMag_nonneg _ _ (abs_nonneg _)
        simp [Fl.sign, not_lt.2 this]

end FloatRepresentable
end Keytap

namespace Keytap
section FloatAmplitude

theorem Fl_gt_fin (a b : Fl) (ha : a.isFin = true) (hb : b.isFin = true) :
    a.gt b = decide (b.val < a.val) := by
  cases a <;> cases b <;> simp [Fl.isFin] at ha hb <;>
    simp [Fl.gt, Fl.toCC, TValueCC.gt, Fl.val]

theorem Fl_num_val (v : Fl) (h : v.isFin = true) (h0 : v.val ≠ 0) : v = Fl.num v.val := by
  cases v <;> simp [Fl.isFin, Fl.val] at h h0 ⊢

theorem Fl_abs_fin (v : Fl) (h : v.isFin = true) : Fl.abs v = Fl.num |v.val| := by
  cases v <;> simp [Fl.isFin, Fl.val, Fl.abs] at h ⊢

/-- The amplitude bounds after the samples of finite prototypes. -/
theorem trackAmplFl_spec (avg : List Fl) (hfin : ∀ v ∈ avg, v.isFin = true) (a0 b0 : ℚ)
    (ha : 0 ≤ a0) (hb : b0 ≤ 0) :
    ∃ a b : ℚ, trackAmplFl avg (Fl.num a0) (Fl.num b0) = (Fl.num a, Fl.num b) ∧
      a0 ≤ a ∧ b ≤ b0 ∧ (∀ v ∈ avg, b ≤ v.val ∧ v.val ≤ a) ∧
      (a = a0 ∨ Fl.num a ∈ avg) ∧ (b = b0 ∨ Fl.num b ∈ avg) := by
  unfold trackAmplFl
  induction avg generalizing a0 b0 with
  | nil => exact ⟨a0, b0, rfl, le_refl _, le_refl _, by simp, Or.inl rfl, Or.inl rfl⟩
  | cons x rest ih =>
    have hx := hfin x (List.mem_cons_self _ _)
    have hrest : ∀ v ∈ rest, v.isFin = true := fun v hv => hfin v (List.mem_cons_of_mem _ hv)
    rw [List.foldl_cons]
    have e1 : (if x.gt (Fl.num a0) then x else Fl.num a0)
        = Fl.num (if a0 < x.val then x.val else a0) := by
      rw [Fl_gt_fin x (Fl.num a0) hx rfl]
      have hv : (Fl.num a0).val = a0 := rfl
      rw [hv]
      by_cases h : a0 < x.val
      · rw [if_pos (decide_eq_true h), if_pos h]
        exact Fl_num_val x hx (by
          intro h0
          rw [h0] at h
          exact absurd h (not_lt.2 ha))
      · rw [if_neg (by simpa using h), if_neg h]
    have e2 : (if (Fl.num b0).gt x then x else Fl.num b0)
        = Fl.num (if x.val < b0 then x.val else b0) := by
      rw [Fl_gt_fin (Fl.num b0) x rfl hx]
      have hv : (Fl.num b0).val = b0 := rfl
      rw [hv]
      by_cases h : x.val < b0
      · rw [if_pos (decide_eq_true h), if_pos h]
        exact Fl_num_val x hx (by
          intro h0
          rw [h0] at h
          exact absurd h (not_lt.2 hb))
      · rw [if_neg (by simpa using h), if_neg h]
    simp only [e1, e2]
    have hM : a0 ≤ (if a0 < x.val then x.val else a0) ∧
        x.val ≤ (if a0 < x.val then x.val else a0) := by
      split_ifs with h
      · exact ⟨le_of_lt h, le_refl _⟩
      · exact ⟨le_refl _, not_lt.1 h⟩
    have hm : (if x.val < b0 then x.val else b0) ≤ b0 ∧
        (if x.val < b0 then x.val else b0) ≤ x.val := by
      split_ifs with h
      · exact ⟨le_of_lt h, le_refl _⟩
      · exact ⟨le_refl _, not_lt.1 h⟩
    obtain ⟨a, b, h0, h1, h2, h3, h4, h5⟩ := ih hrest _ _ (le_trans ha hM.1) (le_trans hm.1 hb)
    refine ⟨a, b, h0, le_trans hM.1 h1, le_trans h2 hm.1, ?_, ?_, ?_⟩
    · intro v hv
      rcases List.mem_cons.1 hv with h | h
      · subst h
        exact ⟨le_trans h2 hm.2, le_trans hM.2 h1⟩
      · exact h3 v h
    · rcases h4 with h | h
      · rw [h]
        by_cases hc : a0 < x.val
        · right
          rw [if_pos hc]
          have : x = Fl.num x.val := Fl_num_val x hx (by
            intro h0
            rw [h0] at hc
            exact absurd hc (not_lt.2 ha))
          rw [← this]
          exact List.mem_cons_self _ _
        · left
          rw [if_neg hc]
      · exact Or.inr (List.mem_cons_of_mem _ h)
    · rcases h5 with h | h
      · rw [h]
        by_cases hc : x.val < b0
        · right
          rw [if_pos hc]
          have : x = Fl.num x.val := Fl_num_val x hx (by
            intro h0
            rw [h0] at hc
            exact absurd hc (not_lt.2 hb))
          rw [← this]
          exact List.mem_cons_self _ _
        · left
          rw [if_neg hc]
      · exact Or.inr (List.mem_cons_of_mem _ h)

theorem trackAmplFl_append (xs ys : List Fl) (M m : Fl) :
    trackAmplFl (xs ++ ys) M m
      = trackAmplFl ys (trackAmplFl xs M m).1 (trackAmplFl xs M m).2 := by
  unfold trackAmplFl
  rw [List.foldl_append]

/-- The state after the training loop on keys in ascending order: the prototypes of the keys
with more than two recordings, in order, and the amplitude bounds tracked over all their
samples. -/
theorem trainLoopFl_closed (nWorkers : Nat) (sched : TKey → Nat → Nat → List Nat) (k W : Int)
    (l : List (TKey × List (List Fl))) (st : TrainStateFl)
    (hsorted : l.Pairwise (fun a b => a.1 < b.1))
    (hkeys : ∀ kw ∈ st.keySoundAverageAmpl, ∀ kh ∈ l, kw.1 < kh.1) :
    (l.foldl (trainStepFl nWorkers sched k W) st).keySoundAverageAmpl
      = st.keySoundAverageAmpl ++
        (l.filter (fun kh => decide (kh.2.length > 2))).map
          (fun kh => (kh.1, trainKeyFl nWorkers (sched kh.1) k W kh.2)) ∧
    ((l.foldl (trainStepFl nWorkers sched k W) st).amplMax,
      (l.foldl (trainStepFl nWorkers sched k W) st).amplMin)
      = trackAmplFl
          (((l.filter (fun kh => decide (kh.2.length > 2))).map
            (fun kh => (kh.1, trainKeyFl nWorkers (sched kh.1) k W kh.2))).flatMap
              (fun kw => kw.2))
          st.amplMax st.amplMin := by
  induction l generalizing st with
  | nil => simp [trackAmplFl]
  | cons kh rest ih =>
    rw [List.foldl_cons]
    rw [List.pairwise_cons] at hsorted
    by_cases hlen : kh.2.length > 2
    · have hstep : trainStepFl nWorkers sched k W st kh
          = { keySoundAverageAmpl := st.keySoundAverageAmpl ++
                [(kh.1, trainKeyFl nWorkers (sched kh.1) k W kh.2)],
              amplMax := (trackAmplFl (trainKeyFl nWorkers (sched kh.1) k W kh.2)
                st.amplMax st.amplMin).1,
              amplMin := (trackAmplFl (trainKeyFl nWorkers (sched kh.1) k W kh.2)
                st.amplMax st.amplMin).2 } := by
        unfold trainStepFl
        rw [if_pos hlen, mapSet_append _ _ _
          (fun kw hkw => hkeys kw hkw kh (List.mem_cons_self _ _))]
      rw [hstep]
      obtain ⟨i1, i2⟩ := ih
        { keySoundAverageAmpl := st.keySoundAverageAmpl ++
            [(kh.1, trainKeyFl nWorkers (sched kh.1) k W kh.2)],
          amplMax := (trackAmplFl (trainKeyFl nWorkers (sched kh.1) k W kh.2)
            st.amplMax st.amplMin).1,
          amplMin := (trackAmplFl (trainKeyFl nWorkers (sched kh.1) k W kh.2)
            st.amplMax st.amplMin).2 } hsorted.2 (by
        intro kw hkw kh1 hkh1
        rcases List.mem_append.1 hkw with h | h
        · exact hkeys kw h kh1 (List.mem_cons_of_mem _ hkh1)
        · rw [List.mem_singleton] at h
          rw [h]
          exact hsorted.1 kh1 hkh1)
      rw [List.filter_cons, if_pos (by simpa using hlen)]
      constructor
      · rw [i1]
        simp
      · rw [i2, List.map_cons, List.flatMap_cons, trackAmplFl_append]
    · have hstep : trainStepFl nWorkers sched k W st kh = st := by
        unfold trainStepFl
        rw [if_neg hlen]
      rw [hstep]
      obtain ⟨i1, i2⟩ := ih st hsorted.2
        (fun kw hkw kh1 hkh1 => hkeys kw hkw kh1 (List.mem_cons_of_mem _ hkh1))
      rw [List.filter_cons, if_neg (by simpa using hlen)]
      exact ⟨i1, i2⟩

/-- Every finite sample of a prototype written by `trainKey` is a value of `float`. -/
theorem trainKeyFl_isFloat32 (nWorkers : Nat) (sched : Nat → Nat → List Nat) (k W : Int)
    (history : List (List Fl)) (q : ℚ) (h : Fl.num q ∈ trainKeyFl nWorkers sched k W history) :
    IsFloat32 q := by
  unfold trainKeyFl at h
  obtain ⟨s, _, hs⟩ := List.mem_map.1 h
  generalize Fl.mul binary64 _ _ = y at hs
  cases y with
  | num p => exact roundQ32_isFloat32 p false q hs
  | nzero => cases hs
  | pinf => cases hs
  | ninf => cases hs
  | nan => cases hs

/-- The value `curAmplMax` of a finite prototype: the largest `|sample|`. -/
theorem curAmplMaxOfFl_spec (w : List Fl) (hfin : ∀ v ∈ w, v.isFin = true) :
    ∃ c : ℚ, curAmplMaxOfFl w = Fl.num c ∧ 0 ≤ c ∧ (∀ v ∈ w, |v.val| ≤ c) ∧
      (c = 0 ∨ ∃ v ∈ w, |v.val| = c) := by
  unfold curAmplMaxOfFl
  have h : ∀ (l : List Fl) (c0 : ℚ), (∀ v ∈ l, v.isFin = true) → 0 ≤ c0 →
      ∃ c : ℚ, l.foldl (fun (cur : Fl) (v : Fl) => if (Fl.abs v).gt cur then Fl.abs v else cur)
          (Fl.num c0) = Fl.num c ∧ c0 ≤ c ∧ (∀ v ∈ l, |v.val| ≤ c) ∧
        (c = c0 ∨ ∃ v ∈ l, |v.val| = c) := by
    intro l
    induction l with
    | nil => intro c0 _ _; exact ⟨c0, rfl, le_refl _, by simp, Or.inl rfl⟩
    | cons x rest ih =>
      intro c0 hl hc0
      have hx := hl x (List.mem_cons_self _ _)
      rw [List.foldl_cons, Fl_abs_fin x hx, Fl_gt_fin (Fl.num |x.val|) (Fl.num c0) rfl rfl]
      have e : (if decide ((Fl.num c0).val < (Fl.num |x.val|).val) = true then Fl.num |x.val|
          else Fl.num c0) = Fl.num (if c0 < |x.val| then |x.val| else c0) := by
        have hv1 : (Fl.num c0).val = c0 := rfl
        have hv2 : (Fl.num |x.val|).val = |x.val| := rfl
        rw [hv1, hv2]
        by_cases hc : c0 < |x.val|
        · rw [if_pos (decide_eq_true hc), if_pos hc]
        · rw [if_neg (by simpa using hc), if_neg hc]
      rw [e]
      have hM : c0 ≤ (if c0 < |x.val| then |x.val| else c0) ∧
          |x.val| ≤ (if c0 < |x.val| then |x.val| else c0) := by
        split_ifs with hc
        · exact ⟨le_of_lt hc, le_refl _⟩
        · exact ⟨le_refl _, not_lt.1 hc⟩
      obtain ⟨c, h0, h1, h2, h3⟩ := ih _ (fun v hv => hl v (List.mem_cons_of_mem _ hv))
        (le_trans hc0 hM.1)
      refine ⟨c, h0, le_trans hM.1 h1, ?_, ?_⟩
      · intro v hv
        rcases List.mem_cons.1 hv with hvx | hvr
        · rw [hvx]
          exact le_trans hM.2 h1
        · exact h2 v hvr
      · rcases h3 with h3 | ⟨v, hv, h3⟩
        · rw [h3]
          by_cases hc : c0 < |x.val|
          · right
            rw [if_pos hc]
            exact ⟨x, List.mem_cons_self _ _, rfl⟩
          · left
            rw [if_neg hc]
        · exact Or.inr ⟨v, List.mem_cons_of_mem _ hv, h3⟩
  obtain ⟨c, h0, h1, h2, h3⟩ := h w 0 hfin (le_refl _)
  exact ⟨c, h0, h1, h2, h3⟩

end FloatAmplitude
end Keytap

namespace Keytap
section FloatNormalize

theorem Fl_mul_fin (fmt : FloatFormat) (a b : Fl) (ha : a.isFin = true) (hb : b.isFin = true) :
    Fl.mul fmt a b = roundQ fmt (a.val * b.val) (a.sign != b.sign) := by
  cases a <;> cases b <;> simp [Fl.isFin] at ha hb <;> simp [Fl.mul, Fl.isNan, Fl.isFin]

theorem Fl_div_fin (fmt : FloatFormat) (a b : Fl) (ha : a.isFin = true) (hb : b.isFin = true)
    (h0 : b.val ≠ 0) : Fl.div fmt a b = roundQ fmt (a.val / b.val) (a.sign != b.sign) := by
  cases a <;> cases b <;> simp [Fl.isFin] at ha hb <;>
    simp [Fl.div, Fl.isNan, Fl.isFin, h0]

theorem signedRound_isFloat32 (A : ℚ) (h : IsFloat32 A) : signedRound binary32 A = A := by
  unfold signedRound
  by_cases hA : A < 0
  · rw [if_pos hA]
    have h1 := h.1
    rw [abs_of_neg hA] at h1
    rw [h1]
    ring
  · rw [if_neg hA]
    have h1 := h.1
    rwa [abs_of_nonneg (not_lt.1 hA)] at h1

theorem isFloat32_one : IsFloat32 1 := ⟨by decide!, by decide!⟩

/-- The sign bit of a finite value. -/
theorem Fl_sign_fin (v : Fl) (h : v.isFin = true) (h0 : v.val ≠ 0) :
    v.sign = decide (v.val < 0) := by
  cases v <;> simp [Fl.isFin, Fl.val, Fl.sign] at h h0 ⊢

/-- `std::max` of `amplMax` and `-amplMin`. -/
theorem Fl_max_neg (a b : ℚ) (ha : 0 ≤ a) (hb : b ≤ 0) :
    Fl.max (Fl.num a) (Fl.neg (Fl.num b)) = Fl.num (max a (-b)) := by
  unfold Fl.max
  by_cases h0 : b = 0
  · subst h0
    have hn : Fl.neg (Fl.num 0) = Fl.nzero := by simp [Fl.neg]
    have hg : Fl.nzero.gt (Fl.num a) = false := by
      simp [Fl.gt, Fl.toCC, TValueCC.gt, ha]
    rw [hn, hg, neg_zero, max_eq_left ha]
    simp
  · have hn : Fl.neg (Fl.num b) = Fl.num (-b) := by simp [Fl.neg, h0]
    rw [hn, Fl_gt_fin (Fl.num (-b)) (Fl.num a) rfl rfl]
    have hv1 : (Fl.num a).val = a := rfl
    have hv2 : (Fl.num (-b)).val = -b := rfl
    rw [hv1, hv2]
    by_cases hc : a < -b
    · rw [if_pos (decide_eq_true hc), max_eq_right (le_of_lt hc)]
    · rw [if_neg (by simpa using hc), max_eq_left (not_lt.1 hc)]

/-- A non-zero value of `float` is at least `2^-149` in absolute value. -/
theorem isFloat32_min (q : ℚ) (h : IsFloat32 q) (h0 : q ≠ 0) : (2 : ℚ) ^ (-149 : Int) ≤ |q| := by
  have hpos : 0 < |q| := abs_pos.2 h0
  have h1 := h.1
  unfold roundMag at h1
  have hu := ulpAt_pos binary32 |q|
  have hn : (1 : Int) ≤ roundHalfEven (|q| / ulpAt binary32 |q|) := by
    by_contra hlt
    have h2 : roundHalfEven (|q| / ulpAt binary32 |q|) ≤ 0 := by omega
    have h3 : ((roundHalfEven (|q| / ulpAt binary32 |q|) : Int) : ℚ) ≤ 0 := by exact_mod_cast h2
    have h4 : ((roundHalfEven (|q| / ulpAt binary32 |q|) : Int) : ℚ) * ulpAt binary32 |q| ≤ 0 :=
      mul_nonpos_of_nonpos_of_nonneg h3 (le_of_lt hu)
    linarith
  have hule : (2 : ℚ) ^ (-149 : Int) ≤ ulpAt binary32 |q| := by
    unfold ulpAt
    rw [two_zpow_le_iff]
    have h5 : binary32.emin ≤ max (floorLog2 |q|) binary32.emin := le_max_right _ _
    have h6 : binary32.emin = -126 := rfl
    have h7 : ((binary32.prec : Nat) : Int) = 24 := rfl
    rw [h7]
    omega
  have hn1 : (1 : ℚ) ≤ ((roundHalfEven (|q| / ulpAt binary32 |q|) : Int) : ℚ) := by
    exact_mod_cast hn
  calc (2 : ℚ) ^ (-149 : Int) ≤ ulpAt binary32 |q| := hule
    _ = 1 * ulpAt binary32 |q| := (one_mul _).symm
    _ ≤ ((roundHalfEven (|q| / ulpAt binary32 |q|) : Int) : ℚ) * ulpAt binary32 |q| :=
        mul_le_mul_of_nonneg_right hn1 (le_of_lt hu)
    _ = |q| := h1

/-- One sample of the rescaling `v = (v/curAmplMax)*amplMax`, for a finite sample `v` with
`|v| ≤ curAmplMax = c`, `0 < c ≤ amplMax = A` and `A` a value of `float`: the new sample is
finite, at most `A` in absolute value, has the sign bit of `v`, is `A` in absolute value when
`|v| = c`, and is not zero when `v` is a value of `float` with `2^-126 * c ≤ |v|`. -/
theorem rescaleFl_sample (v : Fl) (c A : ℚ) (hv : v.isFin = true) (hc : 0 < c)
    (hvc : |v.val| ≤ c) (hcA : c ≤ A) (hA : IsFloat32 A) :
    (Fl.mul binary32 (Fl.div binary32 v (Fl.num c)) (Fl.num A)).isFin = true ∧
    |(Fl.mul binary32 (Fl.div binary32 v (Fl.num c)) (Fl.num A)).val| ≤ A ∧
    (Fl.mul binary32 (Fl.div binary32 v (Fl.num c)) (Fl.num A)).sign = v.sign ∧
    (|v.val| = c → |(Fl.mul binary32 (Fl.div binary32 v (Fl.num c)) (Fl.num A)).val| = A) ∧
    (IsFloat32 v.val → (2 : ℚ) ^ (-126 : Int) * c ≤ |v.val| →
      (Fl.mul binary32 (Fl.div binary32 v (Fl.num c)) (Fl.num A)).val ≠ 0) := by
  have hApos : 0 < A := lt_of_lt_of_le hc hcA
  have hcs : (Fl.num c).sign = false := by simp [Fl.sign, le_of_lt hc]
  have hAs : (Fl.num A).sign = false := by simp [Fl.sign, le_of_lt hApos]
  have hcv : (Fl.num c).val = c := rfl
  have hAv : (Fl.num A).val = A := rfl
  have hdiv : Fl.div binary32 v (Fl.num c) = roundQ binary32 (v.val / c) v.sign := by
    rw [Fl_div_fin binary32 v (Fl.num c) hv rfl (by rw [hcv]; exact ne_of_gt hc), hcs, hcv]
    simp
  have hx : |v.val / c| ≤ 1 := by
    rw [abs_div, abs_of_pos hc]
    exact (div_le_one hc).2 hvc
  have hr1 : roundMag binary32 |(1 : ℚ)| < (2 : ℚ) ^ (binary32.emax + 1) := by decide!
  have hs1 : signedRound binary32 1 = 1 := by decide!
  obtain ⟨x1, x2, x3⟩ := roundQ_between binary32 (by decide) (v.val / c) (-1) 1 v.sign
    (neg_le_of_abs_le hx) (le_of_abs_le hx) r32_one hr1
  rw [s32_neg_one] at x2
  rw [hs1] at x3
  rw [← hdiv] at x1 x2 x3
  have hxs : (Fl.div binary32 v (Fl.num c)).sign = v.sign := by
    rw [hdiv, roundQ_sign]
    by_cases h0 : v.val = 0
    · rw [if_pos (by rw [h0, zero_div])]
    · rw [if_neg (div_ne_zero h0 (ne_of_gt hc)), Fl_sign_fin v hv h0]
      congr 1
      exact propext ⟨fun h => by
        by_contra h2
        exact absurd h (not_lt.2 (div_nonneg (not_lt.1 h2) (le_of_lt hc))),
        fun h => div_neg_of_neg_of_pos h hc⟩
  have hmul : Fl.mul binary32 (Fl.div binary32 v (Fl.num c)) (Fl.num A)
      = roundQ binary32 ((Fl.div binary32 v (Fl.num c)).val * A)
          (Fl.div binary32 v (Fl.num c)).sign := by
    rw [Fl_mul_fin binary32 _ (Fl.num A) x1 rfl, hAs, hAv]
    simp
  have hAabs : |A| = A := abs_of_pos hApos
  have hrA : roundMag binary32 |A| < (2 : ℚ) ^ (binary32.emax + 1) := by
    rw [hA.1]
    exact hA.2
  have hrA2 : roundMag binary32 |(-A)| < (2 : ℚ) ^ (binary32.emax + 1) := by
    rw [abs_neg]
    exact hrA
  obtain ⟨y1, y2, y3⟩ := roundQ_between binary32 (by decide)
    ((Fl.div binary32 v (Fl.num c)).val * A) (-A) A (Fl.div binary32 v (Fl.num c)).sign
    (by nlinarith) (by nlinarith) hrA2 hrA
  rw [signedRound_isFloat32 _ (isFloat32_neg A hA)] at y2
  rw [signedRound_isFloat32 _ hA] at y3
  rw [← hmul] at y1 y2 y3
  refine ⟨y1, abs_le.2 ⟨y2, y3⟩, ?_, ?_, ?_⟩
  · rw [hmul, roundQ_sign, ← hxs]
    by_cases h0 : (Fl.div binary32 v (Fl.num c)).val = 0
    · rw [if_pos (by rw [h0, zero_mul])]
    · rw [if_neg (mul_ne_zero h0 (ne_of_gt hApos)), Fl_sign_fin _ x1 h0]
      congr 1
      exact propext ⟨fun h => by
        by_contra h2
        exact absurd h (not_lt.2 (mul_nonneg (not_lt.1 h2) (le_of_lt hApos))),
        fun h => mul_neg_of_neg_of_pos h hApos⟩
  · intro hpeak
    have hq : v.val / c = 1 ∨ v.val / c = -1 := by
      rcases abs_cases v.val with ⟨e, _⟩ | ⟨e, _⟩
      · left
        rw [← hpeak, e]
        exact div_self (by rw [← e, hpeak]; exact ne_of_gt hc)
      · right
        rw [← hpeak, e]
        have hne : v.val ≠ 0 := by
          intro h
          rw [h, abs_zero] at hpeak
          exact absurd hpeak.symm (ne_of_gt hc)
        field_simp
    rcases hq with hq | hq
    · have e1 : Fl.div binary32 v (Fl.num c) = Fl.num 1 := by
        rw [hdiv, hq]
        exact roundQ32_of_isFloat32 1 _ isFloat32_one (by norm_num)
      rw [e1, Fl_mul_num]
      have hv1 : (1 : ℚ) * A = A := one_mul A
      rw [hv1, roundQ32_of_isFloat32 A _ hA (ne_of_gt hApos)]
      exact hAabs
    · have e1 : Fl.div binary32 v (Fl.num c) = Fl.num (-1) := by
        rw [hdiv, hq]
        exact roundQ32_of_isFloat32 (-1) _ (isFloat32_neg 1 isFloat32_one) (by norm_num)
      rw [e1, Fl_mul_num]
      have hv1 : (-1 : ℚ) * A = -A := by ring
      rw [hv1, roundQ32_of_isFloat32 (-A) _ (isFloat32_neg A hA)
        (neg_ne_zero.2 (ne_of_gt hApos))]
      have hv2 : (Fl.num (-A)).val = -A := rfl
      rw [hv2, abs_neg]
      exact hAabs
  · intro hvf hbig
    have hvpos : 0 < |v.val| := lt_of_lt_of_le (mul_pos (two_zpow_pos _) hc) hbig
    have hv0 : v.val ≠ 0 := abs_pos.1 hvpos
    have hxeq : |v.val / c| = |v.val| / c := by rw [abs_div, abs_of_pos hc]
    have hxpos : 0 < |v.val / c| := by
      rw [hxeq]
      exact div_pos hvpos hc
    have hxbig : (2 : ℚ) ^ binary32.emin ≤ |v.val / c| := by
      rw [hxeq, le_div_iff₀ hc]
      exact hbig
    have hr1b : roundMag binary32 (1 : ℚ) < (2 : ℚ) ^ (binary32.emax + 1) := by decide!
    have hnox : roundMag binary32 |v.val / c| < (2 : ℚ) ^ (binary32.emax + 1) :=
      lt_of_le_of_lt (roundMag_mono binary32 _ _ hxpos hx (by decide)) hr1b
    obtain ⟨_, fx⟩ := roundQ_signedRound binary32 (v.val / c) v.sign hnox
    rw [← hdiv] at fx
    have hrel := (roundMag_rel binary32 |v.val / c| hxbig).2
    have heps : (2 : ℚ) ^ (-((binary32.prec : Nat) : Int)) = 1 / 2 ^ 24 := by decide!
    rw [heps, hxeq] at hrel
    have hx1abs : |(Fl.div binary32 v (Fl.num c)).val| = roundMag binary32 (|v.val| / c) := by
      rw [fx, signedRound_abs, hxeq]
    have hyabs : |(Fl.div binary32 v (Fl.num c)).val * A|
        = roundMag binary32 (|v.val| / c) * A := by
      rw [abs_mul, hx1abs, hAabs]
    have hvmin := isFloat32_min v.val hvf hv0
    have hrn : 0 ≤ roundMag binary32 (|v.val| / c) :=
      roundMag_nonneg binary32 _ (le_of_lt (div_pos hvpos hc))
    have hm0 : (2 : ℚ) ^ (-149 : Int) * (1 - 1 / 2 ^ 24)
        ≤ |(Fl.div binary32 v (Fl.num c)).val * A| := by
      rw [hyabs]
      calc (2 : ℚ) ^ (-149 : Int) * (1 - 1 / 2 ^ 24)
          ≤ |v.val| * (1 - 1 / 2 ^ 24) := mul_le_mul_of_nonneg_right hvmin (by norm_num)
        _ = |v.val| / c * (1 - 1 / 2 ^ 24) * c := by
            field_simp
            ring
        _ ≤ roundMag binary32 (|v.val| / c) * c := mul_le_mul_of_nonneg_right hrel (le_of_lt hc)
        _ ≤ roundMag binary32 (|v.val| / c) * A := mul_le_mul_of_nonneg_left hcA hrn
    have hm0pos : (0 : ℚ) < (2 : ℚ) ^ (-149 : Int) * (1 - 1 / 2 ^ 24) :=
      mul_pos (two_zpow_pos _) (by norm_num)
    have hypos : 0 < |(Fl.div binary32 v (Fl.num c)).val * A| := lt_of_lt_of_le hm0pos hm0
    have hyle : |(Fl.div binary32 v (Fl.num c)).val * A| ≤ |A| := by
      rw [abs_mul]
      calc |(Fl.div binary32 v (Fl.num c)).val| * |A| ≤ 1 * |A| :=
            mul_le_mul_of_nonneg_right (abs_le.2 ⟨x2, x3⟩) (abs_nonneg A)
        _ = |A| := one_mul _
    have hnoy : roundMag binary32 |(Fl.div binary32 v (Fl.num c)).val * A|
        < (2 : ℚ) ^ (binary32.emax + 1) :=
      lt_of_le_of_lt (roundMag_mono binary32 _ _ hypos hyle (by decide)) hrA
    obtain ⟨_, fy⟩ := roundQ_signedRound binary32 ((Fl.div binary32 v (Fl.num c)).val * A)
      (Fl.div binary32 v (Fl.num c)).sign hnoy
    rw [← hmul] at fy
    have hmin : (2 : ℚ) ^ (-149 : Int)
        ≤ roundMag binary32 ((2 : ℚ) ^ (-149 : Int) * (1 - 1 / 2 ^ 24)) := by decide!
    have hge : (2 : ℚ) ^ (-149 : Int)
        ≤ roundMag binary32 |(Fl.div binary32 v (Fl.num c)).val * A| :=
      le_trans hmin (roundMag_mono binary32 _ _ hm0pos hm0 (by decide))
    intro hzero
    rw [fy] at hzero
    have habs0 := signedRound_abs binary32 ((Fl.div binary32 v (Fl.num c)).val * A)
    rw [hzero, abs_zero] at habs0
    rw [← habs0] at hge
    exact absurd hge (not_le.2 (two_zpow_pos _))

end FloatNormalize
end Keytap

namespace Keytap
section FloatNormalizeSpec

/-- A prototype without a non-zero sample is turned into `NaN` samples. -/
theorem normalizeWaveformFl_zero (A : Fl) (w : List Fl) (hfin : ∀ v ∈ w, v.isFin = true)
    (h : ∀ v ∈ w, v.val = 0) : normalizeWaveformFl A w = w.map (fun _ => Fl.nan) := by
  obtain ⟨c, hc, _, _, hc3⟩ := curAmplMaxOfFl_spec w hfin
  have hc0 : c = 0 := by
    rcases hc3 with h1 | ⟨v, hv, h1⟩
    · exact h1
    · rw [← h1, h v hv, abs_zero]
  unfold normalizeWaveformFl
  apply List.map_congr_left
  intro v hv
  rw [hc, hc0]
  have h1 := hfin v hv
  have h2 := h v hv
  cases v <;> simp [Fl.isFin, Fl.val] at h1 h2 <;>
    simp [Fl.div, Fl.mul, Fl.isNan, Fl.isFin, Fl.val, h2]

/-- C17 (amended), in the arithmetic of the program.  The keys are trained in ascending order
and every sample of every prototype is finite.  After the normalization step `amplMax` is a
finite number `A ≥ 0` that bounds `|sample|` over all prototypes as they were before rescaling
and is `0` or attained by one of these samples.  Every prototype with a non-zero sample is
rescaled to the samples `(v / curAmplMax) * A`, the quotient and the product rounded to `float`;
each of them is finite, is at most `A` in absolute value and has the sign bit of `v`, it is not
zero when `2^-126 * curAmplMax ≤ |v|`, and `A` is attained in absolute value.  A prototype with
no non-zero sample is turned into `NaN` samples. -/
theorem normalizeFl_spec (nWorkers : Nat) (sched : TKey → Nat → Nat → List Nat) (k W : Int)
    (keySoundHistoryAmpl : List (TKey × List (List Fl)))
    (hsorted : keySoundHistoryAmpl.Pairwise (fun a b => a.1 < b.1))
    (hfin : ∀ kw ∈ (trainAllFl nWorkers sched k W keySoundHistoryAmpl).keySoundAverageAmpl,
      ∀ v ∈ kw.2, v.isFin = true) :
    ∃ A : ℚ, 0 ≤ A ∧
      (normalizeFl (trainAllFl nWorkers sched k W keySoundHistoryAmpl)).amplMax = Fl.num A ∧
      (∀ kw ∈ (trainAllFl nWorkers sched k W keySoundHistoryAmpl).keySoundAverageAmpl,
        ∀ v ∈ kw.2, |v.val| ≤ A) ∧
      (A = 0 ∨
        ∃ kw ∈ (trainAllFl nWorkers sched k W keySoundHistoryAmpl).keySoundAverageAmpl,
          ∃ v ∈ kw.2, |v.val| = A) ∧
      (∀ (key : TKey) (w : List Fl),
        mapGet (trainAllFl nWorkers sched k W keySoundHistoryAmpl).keySoundAverageAmpl key
          = some w →
        (∃ v ∈ w, v.val ≠ 0) →
        mapGet (normalizeFl (trainAllFl nWorkers sched k W
            keySoundHistoryAmpl)).keySoundAverageAmpl key =
          some (w.map (fun v =>
            Fl.mul binary32 (Fl.div binary32 v (curAmplMaxOfFl w)) (Fl.num A))) ∧
        (∀ v ∈ w,
          (Fl.mul binary32 (Fl.div binary32 v (curAmplMaxOfFl w)) (Fl.num A)).isFin = true ∧
          |(Fl.mul binary32 (Fl.div binary32 v (curAmplMaxOfFl w)) (Fl.num A)).val| ≤ A ∧
          (Fl.mul binary32 (Fl.div binary32 v (curAmplMaxOfFl w)) (Fl.num A)).sign = v.sign ∧
          ((2 : ℚ) ^ (-126 : Int) * (curAmplMaxOfFl w).val ≤ |v.val| →
            (Fl.mul binary32 (Fl.div binary32 v (curAmplMaxOfFl w)) (Fl.num A)).val ≠ 0)) ∧
        (∃ v ∈ w,
          |(Fl.mul binary32 (Fl.div binary32 v (curAmplMaxOfFl w)) (Fl.num A)).val| = A)) ∧
      (∀ (key : TKey) (w : List Fl),
        mapGet (trainAllFl nWorkers sched k W keySoundHistoryAmpl).keySoundAverageAmpl key
          = some w →
        (∀ v ∈ w, v.val = 0) →
        mapGet (normalizeFl (trainAllFl nWorkers sched k W
            keySoundHistoryAmpl)).keySoundAverageAmpl key =
          some (w.map (fun _ => Fl.nan))) := by
  obtain ⟨hp, ht⟩ := trainLoopFl_closed nWorkers sched k W keySoundHistoryAmpl
    { keySoundAverageAmpl := [], amplMax := Fl.num 0, amplMin := Fl.num 0 } hsorted
    (by
      intro kw hkw
      cases hkw)
  change (trainAllFl nWorkers sched k W keySoundHistoryAmpl).keySoundAverageAmpl = _ at hp
  change ((trainAllFl nWorkers sched k W keySoundHistoryAmpl).amplMax,
    (trainAllFl nWorkers sched k W keySoundHistoryAmpl).amplMin) = _ at ht
  rw [List.nil_append] at hp
  rw [← hp] at ht
  have hfl : ∀ kw ∈ (trainAllFl nWorkers sched k W keySoundHistoryAmpl).keySoundAverageAmpl,
      ∀ q : ℚ, Fl.num q ∈ kw.2 → IsFloat32 q := by
    intro kw hkw q hq
    rw [hp] at hkw
    obtain ⟨kh, _, rfl⟩ := List.mem_map.1 hkw
    exact trainKeyFl_isFloat32 nWorkers (sched kh.1) k W kh.2 q hq
  generalize trainAllFl nWorkers sched k W keySoundHistoryAmpl = st at *
  clear hp
  have hflat : ∀ v ∈ st.keySoundAverageAmpl.flatMap (fun kw => kw.2), v.isFin = true := by
    intro v hv
    obtain ⟨kw, hkw, hvk⟩ := List.mem_flatMap.1 hv
    exact hfin kw hkw v hvk
  obtain ⟨a, b, hab, ha, hb, hbound, hamax, hbmin⟩ :=
    trackAmplFl_spec _ hflat 0 0 (le_refl _) (le_refl _)
  rw [hab] at ht
  have hsa : st.amplMax = Fl.num a := congrArg Prod.fst ht
  have hsb : st.amplMin = Fl.num b := congrArg Prod.snd ht
  have hA : (normalizeFl st).amplMax = Fl.num (max a (-b)) := by
    show Fl.max st.amplMax (Fl.neg st.amplMin) = _
    rw [hsa, hsb]
    exact Fl_max_neg a b ha hb
  have hA0 : 0 ≤ max a (-b) := le_trans ha (le_max_left _ _)
  have hall : ∀ kw ∈ st.keySoundAverageAmpl, ∀ v ∈ kw.2, |v.val| ≤ max a (-b) := by
    intro kw hkw v hv
    obtain ⟨h1, h2⟩ := hbound v (List.mem_flatMap.2 ⟨kw, hkw, hv⟩)
    exact abs_le.2 ⟨by
      have := le_max_right a (-b)
      linarith, le_trans h2 (le_max_left _ _)⟩
  have hAf : IsFloat32 (max a (-b)) := by
    have hfa : IsFloat32 a := by
      rcases hamax with h | h
      · rw [h]
        exact isFloat32_zero
      · obtain ⟨kw, hkw, hvk⟩ := List.mem_flatMap.1 h
        exact hfl kw hkw a hvk
    have hfb : IsFloat32 (-b) := by
      rcases hbmin with h | h
      · rw [h, neg_zero]
        exact isFloat32_zero
      · obtain ⟨kw, hkw, hvk⟩ := List.mem_flatMap.1 h
        exact isFloat32_neg b (hfl kw hkw b hvk)
    rcases max_cases a (-b) with ⟨e, _⟩ | ⟨e, _⟩ <;> rw [e]
    · exact hfa
    · exact hfb
  have hmap : (normalizeFl st).keySoundAverageAmpl
      = st.keySoundAverageAmpl.map
          (fun kh => (kh.1, normalizeWaveformFl (Fl.num (max a (-b))) kh.2)) := by
    show st.keySoundAverageAmpl.map
        (fun kh => (kh.1, normalizeWaveformFl (Fl.max st.amplMax (Fl.neg st.amplMin)) kh.2)) = _
    rw [hsa, hsb, Fl_max_neg a b ha hb]
  refine ⟨max a (-b), hA0, hA, hall, ?_, ?_, ?_⟩
  · rcases max_cases a (-b) with ⟨e, _⟩ | ⟨e, _⟩ <;> rw [e]
    · rcases hamax with h | h
      · exact Or.inl h
      · obtain ⟨kw, hkw, hvk⟩ := List.mem_flatMap.1 h
        exact Or.inr ⟨kw, hkw, Fl.num a, hvk, abs_of_nonneg ha⟩
    · rcases hbmin with h | h
      · left
        rw [h, neg_zero]
      · obtain ⟨kw, hkw, hvk⟩ := List.mem_flatMap.1 h
        exact Or.inr ⟨kw, hkw, Fl.num b, hvk, abs_of_nonpos hb⟩
  · intro key w hw hnz
    have hmem := mapGet_mem _ key w hw
    have hwfin : ∀ v ∈ w, v.isFin = true := hfin (key, w) hmem
    obtain ⟨c, hc, hc1, hc2, hc3⟩ := curAmplMaxOfFl_spec w hwfin
    have hcpos : 0 < c := by
      obtain ⟨v, hv, hv0⟩ := hnz
      exact lt_of_lt_of_le (abs_pos.2 hv0) (hc2 v hv)
    have hcA : c ≤ max a (-b) := by
      rcases hc3 with h | ⟨v, hv, h⟩
      · rw [h]
        exact hA0
      · rw [← h]
        exact hall (key, w) hmem v hv
    rw [hc]
    refine ⟨?_, ?_, ?_⟩
    · rw [hmap, mapGet_map, hw]
      show some (normalizeWaveformFl (Fl.num (max a (-b))) w) = _
      unfold normalizeWaveformFl
      rw [hc]
    · intro v hv
      obtain ⟨r1, r2, r3, _, r5⟩ :=
        rescaleFl_sample v c (max a (-b)) (hwfin v hv) hcpos (hc2 v hv) hcA hAf
      refine ⟨r1, r2, r3, ?_⟩
      intro hbig
      by_cases h0 : v.val = 0
      · exfalso
        rw [h0, abs_zero] at hbig
        have hcv : (Fl.num c).val = c := rfl
        rw [hcv] at hbig
        exact absurd hbig (not_le.2 (mul_pos (two_zpow_pos _) hcpos))
      · have hvn := Fl_num_val v (hwfin v hv) h0
        have hvf : IsFloat32 v.val := hfl (key, w) hmem v.val (by
          rw [← hvn]
          exact hv)
        exact r5 hvf hbig
    · rcases hc3 with h | ⟨v, hv, h⟩
      · exact absurd h (ne_of_gt hcpos)
      · exact ⟨v, hv, (rescaleFl_sample v c (max a (-b)) (hwfin v hv) hcpos (hc2 v hv) hcA
          hAf).2.2.2.1 h⟩
  · intro key w hw hz
    have hmem := mapGet_mem _ key w hw
    rw [hmap, mapGet_map, hw]
    show some (normalizeWaveformFl (Fl.num (max a (-b))) w) = _
    rw [normalizeWaveformFl_zero _ w (hfin (key, w) hmem) hz]

end FloatNormalizeSpec
end Keytap

namespace Keytap
section FloatNormalizeWitness

theorem sampleAtFl_silent (n : Nat) (i : Int) :
    sampleAtFl (List.replicate n (Fl.num 0)) i = Fl.num 0 := by
  rcases sampleAtFl_mem_or_zero (List.replicate n (Fl.num 0)) i with h | h
  · exact h
  · exact (List.mem_replicate.1 h).2

theorem find_silent : findBestCCFl 1 [0] silentFl silentFl 64 66 64 = (Fl.num (-1), -1) := by
  obtain ⟨hc, _⟩ := findBestCCFl_char 1 [0] silentFl silentFl 64 66 64 le_rfl (List.Perm.refl _)
  rcases hc with h | ⟨o, _, _, _, hg⟩
  · exact h
  · exfalso
    have e : ccAtFl silentFl silentFl 64 66 o = Fl.nan := by
      unfold ccAtFl
      have e2 : (66 : Int) + o = 64 + o + ((2 : Nat) : Int) := by push_cast; ring
      rw [e2]
      apply calcCCFl_silent
      intro j _
      exact sampleAtFl_silent 130 _
    rw [e] at hg
    cases hg

theorem center_silentHistory : centerWaveformsFl 130 silentHistoryFl = silentHistoryFl := by
  decide!

theorem trainAnchorFl_silentHistory :
    trainAnchorFl 1 (fun _ _ => [0]) 1 130 silentHistoryFl
      = anchorLoopFl (fun _ _ => (Fl.num (-1), -1)) 3 := by
  unfold trainAnchorFl
  rw [center_silentHistory]
  apply anchorLoopFl_congr
  intro a i hai hi
  have hi3 : i < 3 := hi
  unfold trainFindFl
  interval_cases i <;> interval_cases a
  · exact find_silent
  · exact find_silent
  · exact find_silent

/-- The prototype of `spikeHistoryFl`. -/
theorem trainKeyFl_spikeHistory :
    trainKeyFl 1 (fun _ _ => [0]) 1 130 spikeHistoryFl
      = List.replicate 64 (Fl.num 0) ++ [Fl.num (-1 / 2), Fl.num (3 / 2)] ++
          List.replicate 64 (Fl.num 0) := by
  unfold trainKeyFl
  rw [trainAnchorFl_spikeHistory, center_spikeHistory]
  decide!

/-- The prototype of `markHistoryFl`. -/
theorem trainKeyFl_markHistory :
    trainKeyFl 1 (fun _ _ => [0]) 1 130 markHistoryFl
      = List.replicate 10 (Fl.num 0) ++ [Fl.num (11184811 / 33554432)] ++
          List.replicate 54 (Fl.num 0) ++ [Fl.num 2] ++ List.replicate 64 (Fl.num 0) := by
  unfold trainKeyFl
  rw [trainAnchorFl_markHistory, center_markHistory]
  decide!

/-- The prototype of three silent recordings. -/
theorem trainKeyFl_silentHistory :
    trainKeyFl 1 (fun _ _ => [0]) 1 130 silentHistoryFl = List.replicate 130 (Fl.num 0) := by
  unfold trainKeyFl
  rw [trainAnchorFl_silentHistory, center_silentHistory]
  decide!

theorem normalizeFl_amplMax (st : TrainStateFl) :
    (normalizeFl st).amplMax = Fl.max st.amplMax (Fl.neg st.amplMin) := rfl

theorem normalizeFl_map (st : TrainStateFl) :
    (normalizeFl st).keySoundAverageAmpl
      = st.keySoundAverageAmpl.map
          (fun kh => (kh.1, normalizeWaveformFl (Fl.max st.amplMax (Fl.neg st.amplMin)) kh.2)) :=
  rfl

theorem trainStepFl_long (nWorkers : Nat) (sched : TKey → Nat → Nat → List Nat) (k W : Int)
    (st : TrainStateFl) (key : TKey) (history : List (List Fl)) (h : history.length > 2) :
    trainStepFl nWorkers sched k W st (key, history)
      = { keySoundAverageAmpl := mapSet st.keySoundAverageAmpl key
            (trainKeyFl nWorkers (sched key) k W history),
          amplMax := (trackAmplFl (trainKeyFl nWorkers (sched key) k W history)
            st.amplMax st.amplMin).1,
          amplMin := (trackAmplFl (trainKeyFl nWorkers (sched key) k W history)
            st.amplMax st.amplMin).2 } := by
  unfold trainStepFl
  rw [if_pos h]

/-- The state after the training loop on `spikeTrainingFl`. -/
theorem trainAllFl_spikeTraining :
    (trainAllFl 1 (fun _ _ _ => [0]) 1 130 spikeTrainingFl).keySoundAverageAmpl
      = [(97, List.replicate 64 (Fl.num 0) ++ [Fl.num (-1 / 2), Fl.num (3 / 2)] ++
            List.replicate 64 (Fl.num 0)),
         (98, List.replicate 10 (Fl.num 0) ++ [Fl.num (11184811 / 33554432)] ++
            List.replicate 54 (Fl.num 0) ++ [Fl.num 2] ++ List.replicate 64 (Fl.num 0)),
         (99, List.replicate 130 (Fl.num 0))] ∧
    (trainAllFl 1 (fun _ _ _ => [0]) 1 130 spikeTrainingFl).amplMax = Fl.num 2 ∧
    (trainAllFl 1 (fun _ _ _ => [0]) 1 130 spikeTrainingFl).amplMin = Fl.num (-1 / 2) := by
  have e : trainAllFl 1 (fun _ _ _ => [0]) 1 130 spikeTrainingFl
      = trainStepFl 1 (fun _ _ _ => [0]) 1 130
          (trainStepFl 1 (fun _ _ _ => [0]) 1 130
            (trainStepFl 1 (fun _ _ _ => [0]) 1 130
              { keySoundAverageAmpl := [], amplMax := Fl.num 0, amplMin := Fl.num 0 }
              (97, spikeHistoryFl))
            (98, markHistoryFl))
          (99, silentHistoryFl) := rfl
  rw [e, trainStepFl_long _ _ _ _ _ 99 _ (by decide), trainStepFl_long _ _ _ _ _ 98 _ (by decide),
    trainStepFl_long _ _ _ _ _ 97 _ (by decide), trainKeyFl_spikeHistory, trainKeyFl_markHistory,
    trainKeyFl_silentHistory]
  refine ⟨by decide!, by decide!, by decide!⟩

end FloatNormalizeWitness
end Keytap

namespace Keytap
section FloatNormalizeClaim

/-- C17, witness: the keys 97, 98 and 99 are trained from `spikeTrainingFl`, frames of one
sample, one worker.  The prototype of the key 97 has the samples `-1/2` at index 64 and `3/2`
at index 65, so `curAmplMax = 3/2`; that of the key 98 has the samples `11184811/33554432` at
index 10 and `2` at index 65; `amplMax` is `2`.  The normalization turns the prototype of the
key 97 into the samples `-11184811/16777216` (the product of `2` and the `float` nearest to
`-1/3`) and `2`, and leaves the prototype of the key 98, whose peak is `amplMax`, as it is. -/
theorem normalizeFl_spec_witness :
    spikeTrainingFl.Pairwise (fun a b => a.1 < b.1) ∧
    (∀ kw ∈ (trainAllFl 1 (fun _ _ _ => [0]) 1 130 spikeTrainingFl).keySoundAverageAmpl,
      ∀ v ∈ kw.2, v.isFin = true) ∧
    (normalizeFl (trainAllFl 1 (fun _ _ _ => [0]) 1 130 spikeTrainingFl)).amplMax
      = Fl.num 2 ∧
    mapGet (trainAllFl 1 (fun _ _ _ => [0]) 1 130 spikeTrainingFl).keySoundAverageAmpl 97
      = some (List.replicate 64 (Fl.num 0) ++ [Fl.num (-1 / 2), Fl.num (3 / 2)] ++
          List.replicate 64 (Fl.num 0)) ∧
    curAmplMaxOfFl (List.replicate 64 (Fl.num 0) ++ [Fl.num (-1 / 2), Fl.num (3 / 2)] ++
      List.replicate 64 (Fl.num 0)) = Fl.num (3 / 2) ∧
    mapGet (normalizeFl (trainAllFl 1 (fun _ _ _ => [0]) 1 130
        spikeTrainingFl)).keySoundAverageAmpl 97
      = some (List.replicate 64 (Fl.num 0) ++ [Fl.num (-11184811 / 16777216), Fl.num 2] ++
          List.replicate 64 (Fl.num 0)) ∧
    mapGet (trainAllFl 1 (fun _ _ _ => [0]) 1 130 spikeTrainingFl).keySoundAverageAmpl 98
      = some (List.replicate 10 (Fl.num 0) ++ [Fl.num (11184811 / 33554432)] ++
          List.replicate 54 (Fl.num 0) ++ [Fl.num 2] ++ List.replicate 64 (Fl.num 0)) ∧
    mapGet (normalizeFl (trainAllFl 1 (fun _ _ _ => [0]) 1 130
        spikeTrainingFl)).keySoundAverageAmpl 98
      = some (List.replicate 10 (Fl.num 0) ++ [Fl.num (11184811 / 33554432)] ++
          List.replicate 54 (Fl.num 0) ++ [Fl.num 2] ++ List.replicate 64 (Fl.num 0)) := by
  obtain ⟨h1, h2, h3⟩ := trainAllFl_spikeTraining
  have hs : spikeTrainingFl.Pairwise (fun a b => a.1 < b.1) := by
    unfold spikeTrainingFl
    decide
  have hf : ∀ kw ∈ (trainAllFl 1 (fun _ _ _ => [0]) 1 130 spikeTrainingFl).keySoundAverageAmpl,
      ∀ v ∈ kw.2, v.isFin = true := by
    rw [h1]
    decide!
  obtain ⟨A, _, hA, _, _, hres, _⟩ :=
    normalizeFl_spec 1 (fun _ _ _ => [0]) 1 130 spikeTrainingFl hs hf
  have hmax : (normalizeFl (trainAllFl 1 (fun _ _ _ => [0]) 1 130 spikeTrainingFl)).amplMax
      = Fl.num 2 := by
    rw [normalizeFl_amplMax, h2, h3]
    decide!
  have hA2 : A = 2 := by
    rw [hmax] at hA
    exact (Fl.num.inj hA).symm
  subst hA2
  have g97 :
      mapGet (trainAllFl 1 (fun _ _ _ => [0]) 1 130 spikeTrainingFl).keySoundAverageAmpl 97
        = some (List.replicate 64 (Fl.num 0) ++ [Fl.num (-1 / 2), Fl.num (3 / 2)] ++
            List.replicate 64 (Fl.num 0)) := by
    rw [h1]
    decide!
  have g98 :
      mapGet (trainAllFl 1 (fun _ _ _ => [0]) 1 130 spikeTrainingFl).keySoundAverageAmpl 98
        = some (List.replicate 10 (Fl.num 0) ++ [Fl.num (11184811 / 33554432)] ++
            List.replicate 54 (Fl.num 0) ++ [Fl.num 2] ++ List.replicate 64 (Fl.num 0)) := by
    rw [h1]
    decide!
  have r97 := (hres 97 _ g97 ⟨Fl.num (3 / 2), by decide!, by decide!⟩).1
  have r98 := (hres 98 _ g98 ⟨Fl.num 2, by decide!, by decide!⟩).1
  refine ⟨hs, hf, hmax, g97, by decide!, ?_, g98, ?_⟩
  · rw [r97]
    decide!
  · rw [r98]
    decide!

/-- C17, counterexample: the key 99 of `spikeTrainingFl` is trained from three silent
recordings, frames of one sample, one worker.  Its prototype has only samples `0`,
`curAmplMax = 0`, and `v = (v/curAmplMax)*amplMax` turns every sample into `NaN` (`0/0`), while
`amplMax` is `2`: no sample of that prototype has the absolute value `amplMax`. -/
theorem normalizeFl_silent_nan :
    mapGet (trainAllFl 1 (fun _ _ _ => [0]) 1 130 spikeTrainingFl).keySoundAverageAmpl 99
      = some (List.replicate 130 (Fl.num 0)) ∧
    (normalizeFl (trainAllFl 1 (fun _ _ _ => [0]) 1 130 spikeTrainingFl)).amplMax
      = Fl.num 2 ∧
    mapGet (normalizeFl (trainAllFl 1 (fun _ _ _ => [0]) 1 130
        spikeTrainingFl)).keySoundAverageAmpl 99
      = some (List.replicate 130 Fl.nan) := by
  obtain ⟨h1, h2, h3⟩ := trainAllFl_spikeTraining
  refine ⟨?_, ?_, ?_⟩
  · rw [h1]
    decide!
  · rw [normalizeFl_amplMax, h2, h3]
    decide!
  · rw [normalizeFl_map, h1, h2, h3]
    decide!

end FloatNormalizeClaim
end Keytap
